import Mathlib

/-!
# foo_openlyrics: the LRC parser and formatter (`src/parsers/lrc.cpp`)

A shallow embedding of the timestamp codec, the tag recogniser, the parse
pipeline and the expand pipeline, followed by theorems about them.

Conventions of the embedding

* Text (`std::string`, `std::string_view`, `std::tstring`) is a list of code
  units, `Str := List Char`; one `Char` stands for one code unit.
* `size_t` values are natural numbers; a subtraction of the source that can
  wrap is written with `usub` (subtraction modulo `2^64`).  A search result is
  an `Option`: `none` stands for `npos`.
* A finite `double` `x` is the integer `x * 2^1074` (every finite binary64
  value is an integer multiple of `2^-1074`).  Arithmetic rounds to the
  nearest binary64 value, ties to even, as IEEE 754 prescribes.
* An `assert` that fails is the result `none`.
-/

set_option exponentiation.threshold 10000

namespace OpenLyrics

/-- Text as a sequence of code units. -/
abbrev Str := List Char

/-- A finite binary64 value `x`, stored as the integer `x * 2^1074`. -/
abbrev Double := Int

/-! ## binary64 arithmetic -/

namespace F64

/-- The representation of `1.0`: values are counted in units of `2^-1074`. -/
def scale : Nat := 2 ^ 1074

/-- The constant `DBL_MAX = (2^53 - 1) * 2^971`, the marker of an untimed line. -/
def DBL_MAX : Double := Int.ofNat ((2 ^ 53 - 1) * 2 ^ 2045)

/-- The result of an overflowing operation (`+inf`, beyond every finite value). -/
def INF : Double := Int.ofNat (2 ^ 2098)

/-- Binary search for `floor (log2 n)`: `lo` is raised by `2^k` while `2^(lo + 2^k) ≤ n`. -/
def log2Search (n : Nat) : Nat → Nat → Nat
  | 0, lo => lo
  | k + 1, lo => if 2 ^ (lo + 2 ^ k) ≤ n then log2Search n k (lo + 2 ^ k) else log2Search n k lo

/-- Number of binary digits of `n` (exact below `2^8192`, clamped to 8192 above). -/
def bitlen (n : Nat) : Nat := if n = 0 then 0 else log2Search n 13 0 + 1

/-- The integer nearest to `n / d`, a tie going to the even neighbour. -/
def roundHalfEven (n d : Nat) : Nat :=
  if 2 * (n % d) < d then n / d
  else if d < 2 * (n % d) then n / d + 1
  else if n / d % 2 = 0 then n / d else n / d + 1

/-- The binary64 value nearest to `n / d` units: at most 53 significant bits are kept. -/
def roundNat (n d : Nat) : Nat :=
  roundHalfEven n (d * 2 ^ (bitlen (n / d) - 53)) * 2 ^ (bitlen (n / d) - 53)

/-- Rounding of the exact quotient `n / d` (in units) to binary64, with overflow to infinity. -/
def round (n : Int) (d : Nat) : Double :=
  if n < 0 then
    (if DBL_MAX < Int.ofNat (roundNat n.natAbs d) then -INF else -Int.ofNat (roundNat n.natAbs d))
  else
    (if DBL_MAX < Int.ofNat (roundNat n.natAbs d) then INF else Int.ofNat (roundNat n.natAbs d))

/-- Conversion of an integer to `double` (`double(n)`, or an integral literal such as `60.0`). -/
def ofInt (n : Int) : Double := round (n * Int.ofNat scale) 1

/-- The decimal literal `n / d` as a `double` (`0.1` is `lit 1 10`). -/
def lit (n : Int) (d : Nat) : Double := round (n * Int.ofNat scale) d

/-- Addition in binary64. -/
def add (a b : Double) : Double := round (a + b) 1

/-- Subtraction in binary64. -/
def sub (a b : Double) : Double := round (a - b) 1

/-- Multiplication in binary64. -/
def mul (a b : Double) : Double := round (a * b) scale

/-- Division in binary64 (by a non-zero divisor). -/
def div (a b : Double) : Double :=
  if b < 0 then round (-(a * Int.ofNat scale)) b.natAbs else round (a * Int.ofNat scale) b.natAbs

/-- The function `std::floor`. -/
def floor (a : Double) : Double := a / Int.ofNat scale * Int.ofNat scale

/-- The function `std::round`: nearest integer, halfway cases away from zero. -/
def roundAway (a : Double) : Double :=
  if a < 0 then -((2 * (-a) + Int.ofNat scale) / (2 * Int.ofNat scale) * Int.ofNat scale)
  else (2 * a + Int.ofNat scale) / (2 * Int.ofNat scale) * Int.ofNat scale

/-- The conversion `static_cast<int>(double)`: truncation toward zero.  Outside the range of
`int` the conversion is undefined in C++; the value the x86-64 conversion instruction
delivers there (`INT_MIN`) is used. -/
def toInt32 (a : Double) : Int :=
  if Int.tdiv a (Int.ofNat scale) < -(2 ^ 31) ∨ 2 ^ 31 ≤ Int.tdiv a (Int.ofNat scale) then -(2 ^ 31)
  else Int.tdiv a (Int.ofNat scale)

end F64

/-! ## `std::string_view` operations -/

/-- Subtraction of `size_t` values (modulo `2^64`). -/
def usub (a b : Nat) : Nat := (a + 2 ^ 64 - b % 2 ^ 64) % 2 ^ 64

/-- The call `s.substr(pos, count)` for `pos ≤ s.size()`. -/
def substr (s : Str) (pos count : Nat) : Str := (s.drop pos).take count

/-- The call `s.find(c, pos)`: index of the first `c` at or after `pos`; `none` is `npos`. -/
def find (s : Str) (c : Char) (pos : Nat) : Option Nat :=
  if (s.drop pos).indexOf c < (s.drop pos).length then some (pos + (s.drop pos).indexOf c)
  else none

/-- The call `s.rfind(c)`: index of the last `c`; `none` is `npos`. -/
def rfind (s : Str) (c : Char) : Option Nat :=
  if s.reverse.indexOf c < s.length then some (s.length - 1 - s.reverse.indexOf c) else none

/-- The call `s.rfind(c, pos)`: index of the last `c` at or before `pos`; `none` is `npos`. -/
def rfind_from (s : Str) (c : Char) (pos : Nat) : Option Nat := rfind (s.take (pos + 1)) c

/-- The value of a run of decimal digits, most significant first. -/
def digits_value (ds : Str) : Nat := ds.foldl (fun acc c => acc * 10 + (c.toNat - 48)) 0

/-- The function `strtoint<uint64_t>`: `std::from_chars` reads the longest run of leading
decimal digits (no sign, no blanks) and reports success when there is at least one digit and
the value fits 64 bits; what follows the digits is not looked at. -/
def strtoint_u64 (str : Str) : Option Nat :=
  if str.takeWhile Char.isDigit = [] then none
  else if digits_value (str.takeWhile Char.isDigit) < 2 ^ 64
  then some (digits_value (str.takeWhile Char.isDigit)) else none

/-- The function `strtoint<int64_t>`: as `strtoint_u64`, with an optional leading minus sign
and the range of a signed 64-bit integer. -/
def strtoint_i64 (str : Str) : Option Int :=
  match str with
  | '-' :: rest =>
    if rest.takeWhile Char.isDigit = [] then none
    else if digits_value (rest.takeWhile Char.isDigit) ≤ 2 ^ 63
    then some (-(Int.ofNat (digits_value (rest.takeWhile Char.isDigit)))) else none
  | _ =>
    if str.takeWhile Char.isDigit = [] then none
    else if digits_value (str.takeWhile Char.isDigit) < 2 ^ 63
    then some (Int.ofNat (digits_value (str.takeWhile Char.isDigit))) else none

/-- Modelled from the spec: `equals_ignore_case` hands both strings to
`pfc::stringCompareCaseInsensitiveEx`, a library routine that is not under `src/`; the spec
(§4.2) asks for a case-insensitive match of the key, taken here as equality up to the case of
the ASCII letters. -/
def equals_ignore_case (lhs rhs : Str) : Bool :=
  lhs.map Char.toLower == rhs.map Char.toLower

/-- Modelled from the spec: `trim_surrounding_whitespace` is declared outside `src/`; it
removes the blanks (space, tab, carriage return, line feed) at both ends of a string. -/
def trim_surrounding_whitespace (s : Str) : Str :=
  ((s.dropWhile Char.isWhitespace).reverse.dropWhile Char.isWhitespace).reverse

/-! ## Tag lines -/

/-- The keys of the recognised tag lines, in the order in which `is_tag_line` tries them. -/
def tag_keys : List Str :=
  ["ar".toList, "al".toList, "ti".toList, "by".toList, "id".toList, "offset".toList,
   "length".toList, "t_time".toList, "encoding".toList]

/-- The function `parsers::lrc::is_tag_line`. -/
def is_tag_line (line : Str) : Bool :=
  if line.length ≤ 0 then false
  else if line.getD 0 ' ' ≠ '[' then false
  else if line.getD (line.length - 1) ' ' ≠ ']' then false
  else
    match find line ':' 0 with
    | none => false
    | some colon_index =>
      if colon_index - 1 = 0 then false
      else tag_keys.any (fun key => equals_ignore_case (substr line 1 (colon_index - 1)) key)

/-- The function `try_parse_offset_tag`. -/
def try_parse_offset_tag (line : Str) : Option Double :=
  if line.length ≤ 0 then none
  else if line.getD 0 ' ' ≠ '[' then none
  else if line.getD (line.length - 1) ' ' ≠ ']' then none
  else
    match find line ':' 0 with
    | none => none
    | some colon_index =>
      if substr line 1 (colon_index - 1) ≠ "offset".toList then none
      else
        match strtoint_i64 (trim_surrounding_whitespace
            (substr line (colon_index + 1) (line.length - 1 - (colon_index + 1)))) with
        | some offset_ms => some (F64.div (F64.ofInt offset_ms) (F64.ofInt 1000))
        | none => none

/-! ## The timestamp codec -/

/-- Decimal digits of `n`, most significant first (`fuel` bounds the number of digits). -/
def decimalAux : Nat → Nat → Str → Str
  | 0, _, acc => acc
  | fuel + 1, n, acc =>
    if n < 10 then Nat.digitChar n :: acc
    else decimalAux fuel (n / 10) (Nat.digitChar (n % 10) :: acc)

/-- The decimal numeral of a natural number. -/
def decimal (n : Nat) : Str := decimalAux (n + 1) n []

/-- The call `std::to_string(int)`: the decimal numeral, with a minus sign for a negative
number. -/
def int_to_string (n : Int) : Str :=
  if n < 0 then '-' :: decimal n.natAbs else decimal n.natAbs

/-- The conversion `%02d` of `snprintf`: decimal, padded with zeros to two characters, the
minus sign of a negative number counting as one of them. -/
def fmt_02d (n : Int) : Str :=
  if n < 0 then
    '-' :: (List.replicate (1 - (decimal n.natAbs).length) '0' ++ decimal n.natAbs)
  else List.replicate (2 - (decimal n.natAbs).length) '0' ++ decimal n.natAbs

/-- The text that `print_timestamp` formats once its assertion has passed.  The fields are the
`int` variables of the source after the carry of a centisecond count of 100; the text is far
shorter than the 32-byte buffer of the source. -/
def print_timestamp_fields (time_hours time_minutes time_seconds time_centisec : Int) : Str :=
  if time_hours = 0 then
    '[' :: (fmt_02d time_minutes ++ ':' :: (fmt_02d time_seconds
      ++ '.' :: (fmt_02d time_centisec ++ [']'])))
  else
    '[' :: (fmt_02d time_hours ++ ':' :: (fmt_02d time_minutes ++ ':' :: (fmt_02d time_seconds
      ++ '.' :: (fmt_02d time_centisec ++ [']']))))

/-- The body of `print_timestamp` after the assertion. -/
def print_timestamp_body (timestamp : Double) : Str :=
  let total_seconds_flt := F64.floor timestamp
  let total_seconds := F64.toInt32 total_seconds_flt
  let time_hours := Int.tdiv total_seconds 3600
  let time_minutes := Int.tdiv (total_seconds - 3600 * time_hours) 60
  let time_seconds := total_seconds - time_hours * 3600 - time_minutes * 60
  let time_centisec :=
    F64.toInt32 (F64.roundAway (F64.mul (F64.sub timestamp total_seconds_flt) (F64.ofInt 100)))
  if time_centisec = 100 then
    if time_seconds + 1 = 60 then
      if time_minutes + 1 = 60 then print_timestamp_fields (time_hours + 1) 0 0 0
      else print_timestamp_fields time_hours (time_minutes + 1) 0 0
    else print_timestamp_fields time_hours time_minutes (time_seconds + 1) 0
  else print_timestamp_fields time_hours time_minutes time_seconds time_centisec

/-- The function `parsers::lrc::print_timestamp`; `none` is the failing
`assert(timestamp != DBL_MAX)`. -/
def print_timestamp (timestamp : Double) : Option Str :=
  if timestamp = F64.DBL_MAX then none else some (print_timestamp_body timestamp)

/-- The loop `for(i < subsec_str.length()) subsec_coefficient *= 0.1`. -/
def subsec_coefficient : Nat → Double → Double
  | 0, c => c
  | n + 1, c => subsec_coefficient n (F64.mul c (F64.lit 1 10))

/-- The sum that `try_parse_timestamp` accumulates in `timestamp`, one `+=` after the other;
`subsec_length` is `subsec_str.length()` and `maybe_hour` the optional hour field. -/
def timestamp_value (subsec_length subsec sec min : Nat) (maybe_hour : Option Nat) : Double :=
  match maybe_hour with
  | some hour =>
    F64.add
      (F64.add
        (F64.add
          (F64.add 0 (F64.mul (F64.ofInt (Int.ofNat subsec))
            (subsec_coefficient subsec_length (F64.ofInt 1))))
          (F64.ofInt (Int.ofNat sec)))
        (F64.mul (F64.ofInt (Int.ofNat min)) (F64.ofInt 60)))
      (F64.mul (F64.ofInt (Int.ofNat hour)) (F64.ofInt 3600))
  | none =>
    F64.add
      (F64.add
        (F64.add 0 (F64.mul (F64.ofInt (Int.ofNat subsec))
          (subsec_coefficient subsec_length (F64.ofInt 1))))
        (F64.ofInt (Int.ofNat sec)))
      (F64.mul (F64.ofInt (Int.ofNat min)) (F64.ofInt 60))

/-- The field strings that `try_parse_timestamp` cuts out of a tag whose separators were
found: `(subsec_str, sec_str, min_str, hour_str)`.  The length of `sec_str` is computed in
`size_t` and wraps when the last `.` stands before the last `:`. -/
def timestamp_fields (tag : Str) (second_separator minsec_separator : Nat) :
    Str × Str × Str × Str :=
  (substr tag (second_separator + 1) (tag.length - second_separator - 2),
   substr tag (minsec_separator + 1) (usub (usub second_separator minsec_separator) 1),
   (match rfind_from tag ':' (usub minsec_separator 1) with
    | none => substr tag 1 (minsec_separator - 1)
    | some hourmin_separator =>
      substr tag (hourmin_separator + 1) (minsec_separator - hourmin_separator - 1)),
   (match rfind_from tag ':' (usub minsec_separator 1) with
    | none => []
    | some hourmin_separator => substr tag 1 (hourmin_separator - 1)))

/-- The function `parsers::lrc::try_parse_timestamp` on a non-empty `tag`; `some t` is the
result `true` with `out_timestamp = t`, `none` is the result `false`. -/
def try_parse_timestamp (tag : Str) : Option Double :=
  if tag.getD 0 ' ' ≠ '[' ∨ tag.getD (tag.length - 1) ' ' ≠ ']' then none
  else
    match rfind tag '.', rfind tag ':' with
    | some second_separator, some minsec_separator =>
      match strtoint_u64 (timestamp_fields tag second_separator minsec_separator).1,
          strtoint_u64 (timestamp_fields tag second_separator minsec_separator).2.1,
          strtoint_u64 (timestamp_fields tag second_separator minsec_separator).2.2.1 with
      | some subsec, some sec, some min =>
        some (timestamp_value
          (timestamp_fields tag second_separator minsec_separator).1.length subsec sec min
          (strtoint_u64 (timestamp_fields tag second_separator minsec_separator).2.2.2))
      | _, _, _ => none
    | _, _ => none

/-! ## Documents -/

/-- The struct `LyricDataCommon` (`lyric_data.h`); the `GUID` is kept as a number. -/
structure LyricDataCommon where
  source_id : Nat
  source_path : Str
  artist : Str
  album : Str
  title : Str
  duration_sec : Option Int
  deriving DecidableEq

/-- The struct `LyricDataLine`: a line of text and its timestamp (`DBL_MAX` when untimed). -/
structure LyricDataLine where
  text : Str
  timestamp : Double
  deriving DecidableEq

/-- The struct `LyricData`; `common` is the base class `LyricDataCommon`. -/
structure LyricData where
  common : LyricDataCommon
  save_source : Option Nat
  save_path : Str
  tags : List Str
  lines : List LyricDataLine
  timestamp_offset : Double
  deriving DecidableEq

/-- Modelled from the spec: `LyricData::IsTimestamped` is declared in `lyric_data.h` and
defined outside `src/`; by §4.5 the untimed rendering applies when "the document has no timed
lines at all", so a document is timestamped when some line is timed. -/
def LyricData.IsTimestamped (data : LyricData) : Bool :=
  data.lines.any (fun line => line.timestamp != F64.DBL_MAX)

/-! ## The offset tag of a document -/

/-- The string `new_tag` of `set_offset_tag`:
`"[offset:" + std::to_string(static_cast<int>(offset_seconds*1000.0)) + "]"`. -/
def offset_tag (offset_seconds : Double) : Str :=
  "[offset:".toList ++
    int_to_string (F64.toInt32 (F64.mul offset_seconds (F64.ofInt 1000))) ++ "]".toList

/-- The loop of `set_offset_tag` over `lyrics.tags`: the first entry that
`try_parse_offset_tag` recognises is overwritten by `new_tag` and the function returns; when
the loop ends without a match, `new_tag` is pushed at the back. -/
def set_offset_tag_loop (new_tag : Str) : List Str → List Str
  | [] => [new_tag]
  | tag :: rest =>
    if (try_parse_offset_tag tag).isSome then new_tag :: rest
    else tag :: set_offset_tag_loop new_tag rest

/-- The function `parsers::lrc::set_offset_tag`. -/
def set_offset_tag (lyrics : LyricData) (offset_seconds : Double) : LyricData :=
  { lyrics with tags := set_offset_tag_loop (offset_tag offset_seconds) lyrics.tags }

/-- The loop of `remove_offset_tag`: an entry that `try_parse_offset_tag` recognises is
erased, the others are stepped over. -/
def remove_offset_tag_loop : List Str → List Str
  | [] => []
  | tag :: rest =>
    if (try_parse_offset_tag tag).isSome then remove_offset_tag_loop rest
    else tag :: remove_offset_tag_loop rest

/-- The function `parsers::lrc::remove_offset_tag`. -/
def remove_offset_tag (lyrics : LyricData) : LyricData :=
  { lyrics with tags := remove_offset_tag_loop lyrics.tags }

/-! ## The parse pipeline -/

/-- The struct `ParsedLineContents`. -/
structure ParsedLineContents where
  timestamps : List Double
  line : Str
  deriving DecidableEq

/-- The struct `LineTimeParseResult`. -/
structure LineTimeParseResult where
  success : Bool
  timestamp : Double
  charsConsumed : Nat
  deriving DecidableEq

/-- The value `std::min(line_length, line.find(']', 0))` of `parse_time_from_line`. -/
def close_index (line : Str) : Nat :=
  match find line ']' 0 with
  | some index => min line.length index
  | none => line.length

/-- The function `parse_time_from_line`.  Every path through the body of its `while` loop
leaves the loop, so `index` is `0` throughout and the tag is
`line.substr(0, close_index + 1)`. -/
def parse_time_from_line (line : Str) : LineTimeParseResult :=
  if 0 < line.length then
    if line.getD 0 ' ' ≠ '[' then ⟨false, 0, 0⟩
    else
      match try_parse_timestamp (substr line 0 (close_index line + 1)) with
      | some timestamp => ⟨true, timestamp, close_index line + 1⟩
      | none => ⟨false, 0, 0⟩
  else ⟨false, 0, 0⟩

/-- The loop of `parse_line_times`; `rest` is `line.substr(index)` and `fuel` bounds the
number of iterations. -/
def parse_line_times_loop : Nat → Str → List Double → ParsedLineContents
  | 0, rest, result => ⟨result, rest⟩
  | fuel + 1, rest, result =>
    if (parse_time_from_line rest).success then
      parse_line_times_loop fuel (rest.drop (parse_time_from_line rest).charsConsumed)
        (result ++ [(parse_time_from_line rest).timestamp])
    else ⟨result, rest.drop (parse_time_from_line rest).charsConsumed⟩

/-- The function `parse_line_times`: the leading timestamps of a line and the text after
them.  Every successful step consumes at least one character, so `line.length + 1` steps are
enough. -/
def parse_line_times (line : Str) : ParsedLineContents :=
  parse_line_times_loop (line.length + 1) line []

/-- Modelled from the spec: `alg::collapse` lives in `openlyrics_algorithms.h`, outside
`src/`.  By §4.4 adjacent entries are merged left to right: `current` is the entry being
built; the reducer either merges the next entry into it or closes it and starts anew. -/
def collapse_from {α : Type} (reducer : α → α → α × Option α) : α → List α → List α
  | current, [] => [current]
  | current, next :: rest =>
    match reducer current next with
    | (first, some second) => first :: collapse_from reducer second rest
    | (first, none) => collapse_from reducer first rest

/-- Modelled from the spec: `alg::collapse` on a whole vector (see `collapse_from`). -/
def collapse {α : Type} (input : List α) (reducer : α → α → α × Option α) : List α :=
  match input with
  | [] => []
  | first :: rest => collapse_from reducer first rest

/-- The reducer of `collapse_concurrent_lines`. -/
def concurrent_reducer (lhs rhs : LyricDataLine) : LyricDataLine × Option LyricDataLine :=
  if lhs.timestamp = F64.DBL_MAX ∨ lhs.timestamp ≠ rhs.timestamp then (lhs, some rhs)
  else (⟨lhs.text ++ '\n' :: rhs.text, lhs.timestamp⟩, none)

/-- The function `collapse_concurrent_lines`. -/
def collapse_concurrent_lines (input : List LyricDataLine) : List LyricDataLine :=
  collapse input concurrent_reducer

/-- The characters that end a physical line in `parse`: NUL, line feed, carriage return. -/
def is_line_end (c : Char) : Bool := c == Char.ofNat 0 || c == '\n' || c == '\r'

/-- The step from `line_end_index` to the next `line_start_index`: a carriage return directly
followed by a line feed is skipped as one terminator, otherwise one character is skipped. -/
def skip_line_end : Str → Str
  | '\r' :: '\n' :: rest => rest
  | rest => rest.drop 1

/-- The line scan of `parse`: the text from `line_start_index` on is cut at the first line
end, and the scan goes on behind the terminator.  The result lists the physical lines (before
the byte-order mark is dropped); `fuel` bounds the number of lines. -/
def physical_lines_loop : Nat → Str → List Str
  | 0, _ => []
  | fuel + 1, text =>
    if text.length ≤ 0 then []
    else
      text.takeWhile (fun c => !is_line_end c) ::
        physical_lines_loop fuel (skip_line_end (text.dropWhile (fun c => !is_line_end c)))

/-- The physical lines of a text (every step consumes a character). -/
def physical_lines (text : Str) : List Str := physical_lines_loop text.length text

/-- The byte-order-mark check of `parse`: a line of at least three bytes that starts with
`EF BB BF` loses these three bytes. -/
def strip_bom (line : Str) : Str :=
  match line with
  | c0 :: c1 :: c2 :: rest =>
    if c0 = Char.ofNat 0xEF ∧ c1 = Char.ofNat 0xBB ∧ c2 = Char.ofNat 0xBF then rest else line
  | _ => line

/-- The local variables of `parse` that live across the lines of the text. -/
structure ParseState where
  lines : List LyricDataLine
  tags : List Str
  tag_section_passed : Bool
  timestamp_offset : Double
  deriving DecidableEq

/-- The body of the line loop of `parse` for one `line_view`. -/
def parse_line (st : ParseState) (line_view : Str) : ParseState :=
  if 0 < (parse_line_times line_view).timestamps.length then
    { st with
      tag_section_passed := true
      lines := st.lines ++ (parse_line_times line_view).timestamps.map
        (fun timestamp => ⟨(parse_line_times line_view).line, timestamp⟩) }
  else if !st.tag_section_passed && is_tag_line line_view then
    { st with
      tags := st.tags ++ [line_view]
      timestamp_offset :=
        match try_parse_offset_tag line_view with
        | some offset => offset
        | none => st.timestamp_offset }
  else
    { st with
      tag_section_passed := st.tag_section_passed || decide (0 < line_view.length)
      lines := st.lines ++ [⟨line_view, F64.DBL_MAX⟩] }

/-- The state of `parse` before the first line. -/
def ParseState.init : ParseState := ⟨[], [], false, 0⟩

/-- The state of `parse` after the line loop. -/
def parse_state (text : Str) : ParseState :=
  ((physical_lines text).map strip_bom).foldl parse_line ParseState.init

/-- The comparison of the `std::stable_sort` in `parse`, as a non-strict order: a stable sort
by `a.timestamp < b.timestamp` leaves the lines in non-decreasing order of the timestamp. -/
def timestamp_le (a b : LyricDataLine) : Prop := a.timestamp ≤ b.timestamp

instance timestamp_le_decidable : DecidableRel timestamp_le :=
  fun a b => Int.decLe a.timestamp b.timestamp

instance timestamp_le_total : IsTotal LyricDataLine timestamp_le :=
  ⟨fun a b => le_total a.timestamp b.timestamp⟩

instance timestamp_le_trans : IsTrans LyricDataLine timestamp_le :=
  ⟨fun _ _ _ h1 h2 => le_trans h1 h2⟩

/-- The function `parsers::lrc::parse`.  `std::stable_sort` is the insertion sort (the stable
sorted arrangement is unique); the constructor `LyricData(metadata)`, defined outside `src/`,
leaves the save location empty. -/
def parse (metadata : LyricDataCommon) (text : Str) : LyricData :=
  { common := metadata
    save_source := none
    save_path := []
    tags := (parse_state text).tags
    lines := collapse_concurrent_lines ((parse_state text).lines.insertionSort timestamp_le)
    timestamp_offset := (parse_state text).timestamp_offset }

/-! ## The expand pipeline -/

/-- The value `std::min(in_line.text.length(), in_line.text.find('\n', start_index))`. -/
def row_end_index (text : Str) (start_index : Nat) : Nat :=
  match find text '\n' start_index with
  | some index => min text.length index
  | none => text.length

/-- The inner `while` loop of `expand_text`: from `start_index` on, the text up to the next
line feed (or to the end of the text) is one row of the timestamp of the line, and the loop
goes on behind the line feed while `start_index <= in_line.text.length()`; `fuel` bounds the
number of rows. -/
def split_rows_loop (in_line : LyricDataLine) : Nat → Nat → List LyricDataLine
  | 0, _ => []
  | fuel + 1, start_index =>
    if start_index ≤ in_line.text.length then
      ⟨substr in_line.text start_index (row_end_index in_line.text start_index - start_index),
        in_line.timestamp⟩ ::
        split_rows_loop in_line fuel (row_end_index in_line.text start_index + 1)
    else []

/-- The rows of one line (every row consumes a character or ends the loop, so the length of
the text plus one bounds their number). -/
def split_rows (in_line : LyricDataLine) : List LyricDataLine :=
  split_rows_loop in_line (in_line.text.length + 1) 0

/-- The comparison `lexicographic_sort` of `expand_text`, as a non-strict order. -/
def text_le (lhs rhs : Nat × LyricDataLine) : Prop := lhs.2.text ≤ rhs.2.text

instance text_le_decidable : DecidableRel text_le :=
  fun lhs rhs => inferInstanceAs (Decidable (lhs.2.text ≤ rhs.2.text))

/-- The comparison `index_sort` of `expand_text`, as a non-strict order. -/
def index_le (lhs rhs : Nat × LyricDataLine) : Prop := lhs.1 ≤ rhs.1

instance index_le_decidable : DecidableRel index_le :=
  fun lhs rhs => Nat.decLe lhs.1 rhs.1

/-- The `for` loop that walks a run backwards from `equal_end - 1` and puts each printed
timestamp in front of the text of `equal_begin`: the timestamps end up in run order. -/
def prepend_timestamps (run : List (Nat × LyricDataLine)) (text : Str) : Option Str :=
  run.foldr
    (fun entry acc =>
      match print_timestamp entry.2.timestamp, acc with
      | some stamp, some rest => some (stamp ++ rest)
      | _, _ => none)
    (some text)

/-- The `while` loop over the sorted rows: `equal_begin` is the first row of the current run
and `run` the rows after it already found equal (`equal_begin + 1` up to `equal_end`).  A row
joins the run when its text equals that of `equal_begin` and it is timed; otherwise the run is
closed (the timestamps of `run` go in front of the text of `equal_begin`, the rows of `run`
are erased) and the row starts the next run. -/
def merge_runs (equal_begin : Nat × LyricDataLine) (run : List (Nat × LyricDataLine)) :
    List (Nat × LyricDataLine) → Option (List (Nat × LyricDataLine))
  | [] =>
    match prepend_timestamps run equal_begin.2.text with
    | some text => some [(equal_begin.1, ⟨text, equal_begin.2.timestamp⟩)]
    | none => none
  | equal_end :: rest =>
    if equal_begin.2.text = equal_end.2.text ∧ equal_end.2.timestamp ≠ F64.DBL_MAX then
      merge_runs equal_begin (run ++ [equal_end]) rest
    else
      match prepend_timestamps run equal_begin.2.text, merge_runs equal_end [] rest with
      | some text, some tail => some ((equal_begin.1, ⟨text, equal_begin.2.timestamp⟩) :: tail)
      | _, _ => none

/-- The merge pass of `expand_text` (`merge_equivalent_lrc_lines`): number the rows
(`alg::enumerate`), sort them stably by text, fold every run of equal rows into its first row,
sort by the row number again (the numbers are distinct, so `std::sort` has one possible
result) and drop the numbers (`alg::denumerate`). -/
def merge_equivalent_lines (out_lines : List LyricDataLine) : Option (List LyricDataLine) :=
  match out_lines.enum.insertionSort text_le with
  | [] => some []
  | equal_begin :: rest =>
    match merge_runs equal_begin [] rest with
    | some merged => some ((merged.insertionSort index_le).map Prod.snd)
    | none => none

/-- The printing of one row of a timestamped document. -/
def render_row (line : LyricDataLine) : Option Str :=
  if line.timestamp ≠ F64.DBL_MAX then
    match print_timestamp line.timestamp with
    | some stamp => some (stamp ++ line.text ++ ['\r', '\n'])
    | none => none
  else some (line.text ++ ['\r', '\n'])

/-- The printing of the rows of a timestamped document, one after the other. -/
def render_rows : List LyricDataLine → Option Str
  | [] => some []
  | line :: rest =>
    match render_row line, render_rows rest with
    | some row, some tail => some (row ++ tail)
    | _, _ => none

/-- The printing of one line of a document without timestamps; `none` is the failing
`assert(line.timestamp == DBL_MAX)`. -/
def render_untimed_line (line : LyricDataLine) : Option Str :=
  if line.timestamp = F64.DBL_MAX then
    (if line.text.isEmpty then some (' ' :: ['\r', '\n']) else some (line.text ++ ['\r', '\n']))
  else none

/-- The printing of the lines of a document without timestamps. -/
def render_untimed : List LyricDataLine → Option Str
  | [] => some []
  | line :: rest =>
    match render_untimed_line line, render_untimed rest with
    | some row, some tail => some (row ++ tail)
    | _, _ => none

/-- The tag lines at the head of the expanded text, and the empty row after them. -/
def expand_tags (tags : List Str) : Str :=
  if ((tags.map (fun tag => tag ++ ['\r', '\n'])).flatten).isEmpty
  then (tags.map (fun tag => tag ++ ['\r', '\n'])).flatten
  else (tags.map (fun tag => tag ++ ['\r', '\n'])).flatten ++ ['\r', '\n']

/-- The rows of a timestamped document that `expand_text` prints. -/
def expand_rows (data : LyricData) (merge_equivalent_lrc_lines : Bool) :
    Option (List LyricDataLine) :=
  if merge_equivalent_lrc_lines then merge_equivalent_lines (data.lines.flatMap split_rows)
  else some (data.lines.flatMap split_rows)

/-- The function `parsers::lrc::expand_text`; `none` is a failing assertion. -/
def expand_text (data : LyricData) (merge_equivalent_lrc_lines : Bool) : Option Str :=
  if data.IsTimestamped then
    match expand_rows data merge_equivalent_lrc_lines with
    | some out_lines =>
      match render_rows out_lines with
      | some body => some (expand_tags data.tags ++ body)
      | none => none
    | none => none
  else
    match render_untimed data.lines with
    | some body => some (expand_tags data.tags ++ body)
    | none => none

/-! ## Automatic edits (`src/lyric_auto_edit.cpp`) -/

/-- The test `text.find_first_not_of(' ') == npos`: the text is empty or holds spaces only. -/
def is_blank_text (text : Str) : Bool := text.all (fun c => c == ' ')

/-- The erase loop of `auto_edit::RemoveRepeatedBlankLines` from the line at `iter` on, with
the current value of `previous_blank`: the lines that stay, and the number added to
`lines_removed`. -/
def remove_repeated_blank_loop (previous_blank : Bool) :
    List LyricDataLine → List LyricDataLine × Nat
  | [] => ([], 0)
  | line :: rest =>
    if is_blank_text line.text && previous_blank then
      ((remove_repeated_blank_loop (is_blank_text line.text) rest).1,
        (remove_repeated_blank_loop (is_blank_text line.text) rest).2 + 1)
    else
      (line :: (remove_repeated_blank_loop (is_blank_text line.text) rest).1,
        (remove_repeated_blank_loop (is_blank_text line.text) rest).2)

/-- The function `auto_edit::RemoveRepeatedBlankLines`: `some new_lyrics` is the edit that the
update handle reports, `none` is the empty result of the `else` branch.  The track handle and
the text that `shrink_text` derives from the new lines are left out. -/
def RemoveRepeatedBlankLines (lyrics : LyricData) : Option LyricData :=
  if 0 < (remove_repeated_blank_loop true lyrics.lines).2 then
    some { lyrics with lines := (remove_repeated_blank_loop true lyrics.lines).1 }
  else none

/-! ## Vocabulary of the statements -/

/-- A well-formed timestamp tag of value `t`: a bracketed chunk `[body]`, with no `]` inside
`body`, that `try_parse_timestamp` accepts with the value `t`. -/
def well_formed_tag (tag : Str) (t : Double) : Prop :=
  ∃ body, tag = '[' :: (body ++ [']']) ∧ ']' ∉ body ∧ try_parse_timestamp tag = some t

/-- The text `s` starts with a well-formed timestamp tag. -/
def starts_with_tag (s : Str) : Prop :=
  ∃ tag t rest, s = tag ++ rest ∧ well_formed_tag tag t

/-- The lines that `parse` emits for one line view that carries timestamps: one line per
leading timestamp, in written order, each with the remainder of the line as its text. -/
def timed_entries_of_line (line_view : Str) : List LyricDataLine :=
  (parse_line_times line_view).timestamps.map
    (fun timestamp => ⟨(parse_line_times line_view).line, timestamp⟩)

/-- The timed lines that `parse` emits for a text before it sorts them, in input order. -/
def timed_entries (text : Str) : List LyricDataLine :=
  ((physical_lines text).map strip_bom).flatMap timed_entries_of_line

/-- A non-empty string of decimal digits. -/
def is_digit_string (ds : Str) : Prop := ds ≠ [] ∧ ∀ c ∈ ds, c.isDigit = true

/-- The binary64 value (in units of `2^-1074`) that `try_parse_timestamp` holds for the two
fraction digits `25 * j` (`j < 4`): `j / 4` plus a rounding error, which is `2^-54` for
`j = 1` and `2^-53` for `j = 2` and `j = 3`. -/
def quarter_fraction (j : Nat) : Nat :=
  if j = 0 then 0 else if j = 1 then 2 ^ 1072 + 2 ^ 1020 else j * 2 ^ 1072 + 2 ^ 1021

/-- The value that `try_parse_timestamp` holds after it has added `K` whole seconds to the
parsed fraction `25 * j`: the first non-zero addend absorbs the rounding error. -/
def quarter_sum (j K : Nat) : Nat :=
  if K = 0 then quarter_fraction j else K * F64.scale + j * 2 ^ 1072

/-- The printed timestamps of the rows of a run, one after the other. -/
def run_stamps (run : List (Nat × LyricDataLine)) : Str :=
  (run.map (fun entry => print_timestamp_body entry.2.timestamp)).flatten

/-- The first row of a run after the timestamps of the other rows of the run went in front of
its text. -/
def close_run (equal_begin : Nat × LyricDataLine) (run : List (Nat × LyricDataLine)) :
    Nat × LyricDataLine :=
  (equal_begin.1, ⟨run_stamps run ++ equal_begin.2.text, equal_begin.2.timestamp⟩)

/-- The rows that `merge_runs` leaves when no assertion fails. -/
def merged_runs (equal_begin : Nat × LyricDataLine) (run : List (Nat × LyricDataLine)) :
    List (Nat × LyricDataLine) → List (Nat × LyricDataLine)
  | [] => [close_run equal_begin run]
  | equal_end :: rest =>
    if equal_begin.2.text = equal_end.2.text ∧ equal_end.2.timestamp ≠ F64.DBL_MAX then
      merged_runs equal_begin (run ++ [equal_end]) rest
    else close_run equal_begin run :: merged_runs equal_end [] rest

/-- The line views that `parse` processes: the physical lines of the text, each without its
byte-order mark. -/
def line_views (text : Str) : List Str := (physical_lines text).map strip_bom

/-- The line view carries at least one leading timestamp
(`parse_output.timestamps.size() > 0`). -/
def carries_timestamp (line_view : Str) : Bool :=
  decide (0 < (parse_line_times line_view).timestamps.length)

/-- The line view ends the tag section: it carries a timestamp, or it is not empty and not a
tag line (the two places where `parse` sets `tag_section_passed`). -/
def ends_tag_section (line_view : Str) : Bool :=
  carries_timestamp line_view || (decide (0 < line_view.length) && !is_tag_line line_view)

/-- The line views before the end of the tag section. -/
def tag_section (views : List Str) : List Str :=
  views.takeWhile (fun line_view => !ends_tag_section line_view)

/-- The line views from the one that ends the tag section on. -/
def content_section (views : List Str) : List Str :=
  views.dropWhile (fun line_view => !ends_tag_section line_view)

/-- The untimed line that `parse` emits for a line view: the whole view with the sentinel. -/
def untimed_line (line_view : Str) : LyricDataLine := ⟨line_view, F64.DBL_MAX⟩

/-- The lines that `parse` emits for a line view that is not recorded as a tag. -/
def entries_of_view (line_view : Str) : List LyricDataLine :=
  if carries_timestamp line_view then timed_entries_of_line line_view
  else [untimed_line line_view]

/-- The binary64 product `(timestamp - floor(timestamp)) * 100.0` of `print_timestamp`. -/
def centisecond_product (t : Double) : Double :=
  F64.mul (F64.sub t (F64.floor t)) (F64.ofInt 100)

/-- The product `centisecond_product t` rounded half up to a whole number of centiseconds. -/
def rounded_centiseconds (t : Double) : Int :=
  (2 * centisecond_product t + Int.ofNat F64.scale) / (2 * Int.ofNat F64.scale)

/-- The text for a count `N` of centiseconds: `cc = N mod 100`, `ss = (N div 100) mod 60`,
`mm = (N div 6000) mod 60`, `hh = N div 360000`, without the hours when they are zero. -/
def centisecond_fields (N : Int) : Str :=
  print_timestamp_fields (N / 360000) (N / 6000 % 60) (N / 100 % 60) (N % 100)

instance text_le_total : IsTotal (Nat × LyricDataLine) text_le :=
  ⟨fun a b => le_total a.2.text b.2.text⟩

instance text_le_trans : IsTrans (Nat × LyricDataLine) text_le :=
  ⟨fun _ _ _ h1 h2 => le_trans h1 h2⟩

instance index_le_total : IsTotal (Nat × LyricDataLine) index_le :=
  ⟨fun a b => Nat.le_total a.1 b.1⟩

instance index_le_trans : IsTrans (Nat × LyricDataLine) index_le :=
  ⟨fun _ _ _ h1 h2 => Nat.le_trans h1 h2⟩

/-- The strict order of the row numbers. -/
def index_lt (lhs rhs : Nat × LyricDataLine) : Prop := lhs.1 < rhs.1

instance index_lt_antisymm : IsAntisymm (Nat × LyricDataLine) index_lt :=
  ⟨fun _ _ h1 h2 => absurd h1 (Nat.lt_asymm h2)⟩

/-- The timed rows of text `X` among numbered rows, in their order. -/
def timed_block (rows : List (Nat × LyricDataLine)) (X : Str) : List (Nat × LyricDataLine) :=
  rows.filter (fun e => decide (e.2.text = X ∧ e.2.timestamp ≠ F64.DBL_MAX))

/-- The one row that stands for the timed rows of text `X`: the first of them, with the
timestamps of the others in front of its text. -/
def block_result (rows : List (Nat × LyricDataLine)) (X : Str) : Option (Nat × LyricDataLine) :=
  match timed_block rows X with
  | [] => none
  | first :: others => some (close_run first others)

/-- The merged rows in the order of the row numbers: an untimed row stays as it is; a timed
row whose text was seen in an earlier timed row is dropped; the first timed row of a text
gets the timestamps of the later timed rows of that text in front of its text. -/
def merged_spec (seen : List Str) : List (Nat × LyricDataLine) → List (Nat × LyricDataLine)
  | [] => []
  | row :: rest =>
    if row.2.timestamp = F64.DBL_MAX then row :: merged_spec seen rest
    else if row.2.text ∈ seen then merged_spec seen rest
    else close_run row (timed_block rest row.2.text) :: merged_spec (row.2.text :: seen) rest

/-- The printed timestamps of the timed rows of text `X` among `rows`, one after the other. -/
def text_stamps (rows : List LyricDataLine) (X : Str) : Str :=
  ((rows.filter (fun e => decide (e.text = X ∧ e.timestamp ≠ F64.DBL_MAX))).map
    (fun e => print_timestamp_body e.timestamp)).flatten

/-- The rows after the merge, without row numbers (see `merged_spec`). -/
def merged_rows (seen : List Str) : List LyricDataLine → List LyricDataLine
  | [] => []
  | row :: rest =>
    if row.timestamp = F64.DBL_MAX then row :: merged_rows seen rest
    else if row.text ∈ seen then merged_rows seen rest
    else ⟨text_stamps rest row.text ++ row.text, row.timestamp⟩ ::
      merged_rows (row.text :: seen) rest

/-- Timed rows stand before untimed rows. -/
def timed_first (rows : List LyricDataLine) : Prop :=
  rows.Pairwise (fun a b => a.timestamp = F64.DBL_MAX → b.timestamp = F64.DBL_MAX)

/-- The order of the rows after the stable sort by text when timed rows stand first: the
texts do not decrease, and among rows of one text an untimed row is followed by untimed rows
only. -/
def run_order (a c : Nat × LyricDataLine) : Prop :=
  a.2.text ≤ c.2.text ∧
    (a.2.text = c.2.text → a.2.timestamp = F64.DBL_MAX → c.2.timestamp = F64.DBL_MAX)

/-- No untimed row is followed by a timed row of the same text (so no timed row joins the run
of an untimed row in the merge loop). -/
def mergeable (rows : List LyricDataLine) : Prop :=
  rows.Pairwise (fun a b => a.text = b.text → a.timestamp = F64.DBL_MAX →
    b.timestamp = F64.DBL_MAX)

/-- The rows that survive the merge, as a subsequence of the rows: every untimed row, and
every timed row whose text did not occur in an earlier timed row. -/
def kept_rows (seen : List Str) : List LyricDataLine → List LyricDataLine
  | [] => []
  | row :: rest =>
    if row.timestamp = F64.DBL_MAX then row :: kept_rows seen rest
    else if row.text ∈ seen then kept_rows seen rest
    else row :: kept_rows (row.text :: seen) rest

/-- The text of one printed row: the printed timestamp for a timed row, the text, CRLF. -/
def row_text (line : LyricDataLine) : Str :=
  (if line.timestamp ≠ F64.DBL_MAX then print_timestamp_body line.timestamp else [])
    ++ line.text ++ ['\r', '\n']

/-- The text of the merged row that stands for a kept row: for a timed row of text `T` the
printed timestamps of all timed rows of text `T` in row order, then `T` and CRLF; an untimed
row as it is. -/
def merged_row_text (rows : List LyricDataLine) (row : LyricDataLine) : Str :=
  if row.timestamp = F64.DBL_MAX then row.text ++ ['\r', '\n']
  else text_stamps rows row.text ++ row.text ++ ['\r', '\n']

/-- The timed rows of text `X` among `rows`, in their order. -/
def text_block (rows : List LyricDataLine) (X : Str) : List LyricDataLine :=
  rows.filter (fun e => decide (e.text = X ∧ e.timestamp ≠ F64.DBL_MAX))

/-- The strict order of the timestamps. -/
def timestamp_lt (a b : LyricDataLine) : Prop := a.timestamp < b.timestamp

instance timestamp_lt_antisymm : IsAntisymm LyricDataLine timestamp_lt :=
  ⟨fun _ _ h1 h2 => absurd h1 (not_lt_of_gt h2)⟩

instance timestamp_lt_decidable : DecidableRel timestamp_lt :=
  fun a b => Int.decLt a.timestamp b.timestamp

/-- The text of one printed row without its CRLF. -/
def row_content (line : LyricDataLine) : Str :=
  (if line.timestamp ≠ F64.DBL_MAX then print_timestamp_body line.timestamp else [])
    ++ line.text

/-- The line with an empty text replaced by a single space (what `expand_text` prints for a
line of a document without timestamps). -/
def padded_line (line : LyricDataLine) : LyricDataLine :=
  ⟨if line.text = [] then [' '] else line.text, line.timestamp⟩

/-- The offset that a list of recorded tags stands for: the value of the last entry that
`try_parse_offset_tag` recognises, and 0 when there is none. -/
def offset_of_tags (tags : List Str) : Double :=
  ((tags.filterMap try_parse_offset_tag).getLast?).getD 0

/-- The text made of lines that are each followed by a terminator, and of a last line without
terminator. -/
def mixed_join : List (Str × Str) → Str → Str
  | [], last => last
  | (l, t) :: rest, last => l ++ t ++ mixed_join rest last

/-- Each terminator is LF, CRLF or a bare CR, and a bare CR does not stand in front of an
empty line that is terminated by LF. -/
def valid_mixture : List (Str × Str) → Prop
  | [] => True
  | (_, t) :: rest =>
    (t = ['\n'] ∨ t = ['\r', '\n'] ∨ (t = ['\r'] ∧ rest.head? ≠ some ([], ['\n']))) ∧
      valid_mixture rest

/-- The three bytes `EF BB BF`. -/
def byte_order_mark : Str := [Char.ofNat 0xEF, Char.ofNat 0xBB, Char.ofNat 0xBF]

/-- The text with `ins` put in at the start of physical line number `k` (from 0): the line
scan of `parse` is followed over `k` lines and their terminators, which are kept as they are. -/
def insert_at_line (ins : Str) : Nat → Str → Str
  | 0, text => ins ++ text
  | k + 1, text =>
    text.take (text.length -
        (skip_line_end (text.dropWhile (fun c => !is_line_end c))).length) ++
      insert_at_line ins k (skip_line_end (text.dropWhile (fun c => !is_line_end c)))

/-- The lines without the blank lines that are the first line or directly follow a blank line
of the list: every line is paired with the blankness of the line in front of it (`true` for
the first line), and the blank lines with a blank line in front are dropped. -/
def without_repeated_blank (lines : List LyricDataLine) : List LyricDataLine :=
  ((lines.zip (true :: lines.map (fun line => is_blank_text line.text))).filter
    (fun p => !(is_blank_text p.1.text && p.2))).map Prod.fst

/-- The place at which a text first occurs among the texts of the rows (the number of rows
when it does not occur). -/
def first_place : List LyricDataLine → Str → Nat
  | [], _ => 0
  | row :: rest, T => if row.text = T then 0 else first_place rest T + 1

/-! # Theorems -/

/-! ## Searching in text -/

theorem indexOf_split (c : Char) (s : Str) (h : c ∈ s) :
    ∃ pre post, s = pre ++ c :: post ∧ c ∉ pre ∧ s.indexOf c = pre.length := by
  induction s with
  | nil => simp at h
  | cons a t ih =>
    by_cases hac : a = c
    · subst hac
      exact ⟨[], t, by simp, by simp, by simp⟩
    · have hct : c ∈ t := by
        rcases List.mem_cons.mp h with h1 | h1
        · exact absurd h1.symm hac
        · exact h1
      obtain ⟨pre, post, hs, hn, hi⟩ := ih hct
      refine ⟨a :: pre, post, by simp [hs], ?_, ?_⟩
      · simp only [List.mem_cons, not_or]
        exact ⟨fun h2 => hac h2.symm, hn⟩
      · rw [List.indexOf_cons_ne _ hac, hi]
        simp

theorem indexOf_append_cons (c : Char) (pre post : Str) (h : c ∉ pre) :
    (pre ++ c :: post).indexOf c = pre.length := by
  rw [List.indexOf_append_of_not_mem h]
  simp

theorem find_zero_none (s : Str) (c : Char) : find s c 0 = none ↔ c ∉ s := by
  unfold find
  simp only [List.drop_zero, Nat.zero_add]
  rw [← List.indexOf_lt_length]
  by_cases h : List.indexOf c s < s.length <;> simp [h]

theorem find_zero_some (s : Str) (c : Char) (i : Nat) :
    find s c 0 = some i ↔ ∃ pre post, s = pre ++ c :: post ∧ c ∉ pre ∧ i = pre.length := by
  unfold find
  simp only [List.drop_zero, Nat.zero_add]
  constructor
  · intro h
    by_cases hlt : List.indexOf c s < s.length
    · rw [if_pos hlt] at h
      obtain ⟨pre, post, hs, hn, hi⟩ := indexOf_split c s (List.indexOf_lt_length.mp hlt)
      refine ⟨pre, post, hs, hn, ?_⟩
      rw [← hi]
      exact (Option.some.inj h).symm
    · rw [if_neg hlt] at h
      exact absurd h (by simp)
  · rintro ⟨pre, post, hs, hn, hi⟩
    subst hs
    rw [indexOf_append_cons c pre post hn, if_pos (by simp), hi]

namespace F64

/-! ## binary64 rounding -/

theorem log2Search_le (n : Nat) : ∀ (k lo : Nat), 2 ^ lo ≤ n → 2 ^ log2Search n k lo ≤ n := by
  intro k
  induction k with
  | zero => intro lo h; simpa [log2Search] using h
  | succ k ih =>
    intro lo h
    unfold log2Search
    split
    · rename_i h2; exact ih _ h2
    · exact ih _ h

theorem log2Search_lt (n : Nat) :
    ∀ (k lo : Nat), n < 2 ^ (lo + 2 ^ k) → n < 2 ^ (log2Search n k lo + 1) := by
  intro k
  induction k with
  | zero => intro lo h; simpa [log2Search] using h
  | succ k ih =>
    intro lo h
    unfold log2Search
    split
    · apply ih
      have : lo + 2 ^ k + 2 ^ k = lo + 2 ^ (k + 1) := by rw [pow_succ]; omega
      rw [this]; exact h
    · rename_i h2
      exact ih _ (Nat.lt_of_not_le h2)

theorem bitlen_le (n : Nat) (h : n ≠ 0) : 2 ^ (bitlen n - 1) ≤ n := by
  unfold bitlen
  rw [if_neg h]
  simp only [Nat.add_sub_cancel]
  exact log2Search_le n 13 0 (by simpa using Nat.pos_of_ne_zero h)

theorem lt_bitlen (n : Nat) (h : n < 2 ^ 8192) : n < 2 ^ bitlen n := by
  unfold bitlen
  split
  · rename_i h0; subst h0; simp
  · exact log2Search_lt n 13 0 (by simpa using h)

theorem bitlen_le_of_lt (n k : Nat) (h : n < 2 ^ k) : bitlen n ≤ k := by
  by_cases h0 : n = 0
  · subst h0; simp [bitlen]
  · have h1 := bitlen_le n h0
    have h2 : 2 ^ (bitlen n - 1) < 2 ^ k := Nat.lt_of_le_of_lt h1 h
    have h3 := (Nat.pow_lt_pow_iff_right (by norm_num : 1 < 2)).mp h2
    omega

theorem roundHalfEven_le (n d : Nat) : roundHalfEven n d ≤ n / d + 1 := by
  unfold roundHalfEven
  split
  · omega
  · split
    · omega
    · split <;> omega

theorem le_roundHalfEven (n d : Nat) : n / d ≤ roundHalfEven n d := by
  unfold roundHalfEven
  split
  · omega
  · split
    · omega
    · split <;> omega

theorem roundHalfEven_of_dvd (m d : Nat) (hd : 0 < d) : roundHalfEven (m * d) d = m := by
  unfold roundHalfEven
  rw [Nat.mul_mod_left, if_pos (by omega), Nat.mul_div_cancel _ hd]

/-- A value of at most `2^k` units (`k ≥ 53`) rounds to at most `2^k` units. -/
theorem roundNat_le_pow (n d k : Nat) (hd : 0 < d) (hk : 53 ≤ k) (hk2 : k < 8192)
    (h : n ≤ 2 ^ k * d) : roundNat n d ≤ 2 ^ k := by
  have hq : n / d ≤ 2 ^ k := by
    calc n / d ≤ 2 ^ k * d / d := Nat.div_le_div_right h
      _ = 2 ^ k := Nat.mul_div_cancel _ hd
  unfold roundNat
  rcases Nat.lt_or_ge (n / d) (2 ^ k) with hlt | hge
  · -- the quotient is below `2^k`
    have hb : bitlen (n / d) ≤ k := bitlen_le_of_lt _ _ hlt
    have h8 : n / d < 2 ^ 8192 :=
      Nat.lt_of_lt_of_le hlt (Nat.pow_le_pow_right (by norm_num) (by omega))
    have hlb := lt_bitlen (n / d) h8
    set b := bitlen (n / d) with hbdef
    have hnlt : n < 2 ^ b * d := (Nat.div_lt_iff_lt_mul hd).mp hlb
    by_cases hb53 : b ≤ 53
    · have hs : b - 53 = 0 := by omega
      rw [hs]
      simp only [pow_zero, Nat.mul_one]
      have h1 := roundHalfEven_le n d
      have h2 : n / d + 1 ≤ 2 ^ b := hlb
      have h3 : 2 ^ b ≤ 2 ^ k := Nat.pow_le_pow_right (by norm_num) hb
      omega
    · have hs : b = (b - 53) + 53 := by omega
      set s := b - 53 with hsdef
      have hpos : 0 < d * 2 ^ s := Nat.mul_pos hd (by positivity)
      have h1 : n / (d * 2 ^ s) < 2 ^ 53 := by
        rw [Nat.div_lt_iff_lt_mul hpos]
        calc n < 2 ^ b * d := hnlt
          _ = 2 ^ 53 * (d * 2 ^ s) := by rw [hs, pow_add]; ring
      have h2 := roundHalfEven_le n (d * 2 ^ s)
      have h3 : roundHalfEven n (d * 2 ^ s) ≤ 2 ^ 53 := by omega
      calc roundHalfEven n (d * 2 ^ s) * 2 ^ s ≤ 2 ^ 53 * 2 ^ s := Nat.mul_le_mul_right _ h3
        _ = 2 ^ b := by rw [hs, pow_add]; ring_nf
        _ ≤ 2 ^ k := Nat.pow_le_pow_right (by norm_num) hb
  · -- the quotient is exactly `2^k`
    have hqe : n / d = 2 ^ k := Nat.le_antisymm hq hge
    have hne : n = 2 ^ k * d := by
      apply Nat.le_antisymm h
      have := Nat.div_mul_le_self n d
      rw [hqe] at this
      exact this
    have hbl : bitlen (2 ^ k) = k + 1 := by
      have h1 := bitlen_le (2 ^ k) (by positivity)
      have h2 := lt_bitlen (2 ^ k) (Nat.pow_lt_pow_right (by norm_num) hk2)
      have h3 := (Nat.pow_lt_pow_iff_right (by norm_num : 1 < 2)).mp h2
      have h4 := (Nat.pow_le_pow_iff_right (by norm_num : 1 < 2)).mp h1
      omega
    rw [hqe, hbl]
    have hs : k = (k + 1 - 53) + 52 := by omega
    set s := k + 1 - 53 with hsdef
    have hn2 : n = 2 ^ 52 * (d * 2 ^ s) := by
      rw [hne]
      conv_lhs => rw [hs, pow_add]
      ring
    rw [hn2, roundHalfEven_of_dvd _ _ (Nat.mul_pos hd (by positivity))]
    conv_rhs => rw [hs, pow_add]
    ring_nf
    exact le_refl _

theorem pow_le_DBL_MAX (k : Nat) (hk : k ≤ 2097) : ((2 ^ k : Nat) : Int) ≤ DBL_MAX := by
  have h1 : 2 ^ k ≤ 2 ^ 2097 := Nat.pow_le_pow_right (by norm_num) hk
  have h2 : (2 : Nat) ^ 2097 ≤ (2 ^ 53 - 1) * 2 ^ 2045 := by
    have : (2 : Nat) ^ 2097 = 2 ^ 52 * 2 ^ 2045 := by rw [← pow_add]
    rw [this]
    exact Nat.mul_le_mul_right _ (by norm_num)
  unfold DBL_MAX
  exact Int.ofNat_le.mpr (le_trans h1 h2)

/-- Rounding a non-negative quotient of at most `2^k` units gives a value between `0` and
`2^k` units; in particular no overflow happens. -/
theorem round_bounds (n : Int) (d k : Nat) (hn : 0 ≤ n) (hd : 0 < d) (hk : 53 ≤ k)
    (hk2 : k ≤ 2097) (h : n ≤ ((2 ^ k * d : Nat) : Int)) :
    0 ≤ round n d ∧ round n d ≤ ((2 ^ k : Nat) : Int) := by
  have hna : (n.natAbs : Int) = n := Int.natAbs_of_nonneg hn
  have h1 : n.natAbs ≤ 2 ^ k * d := by
    have : (n.natAbs : Int) ≤ ((2 ^ k * d : Nat) : Int) := by rw [hna]; exact h
    exact Int.ofNat_le.mp this
  have h2 := roundNat_le_pow n.natAbs d k hd hk (by omega) h1
  have h3 : ((roundNat n.natAbs d : Nat) : Int) ≤ ((2 ^ k : Nat) : Int) := Int.ofNat_le.mpr h2
  have h4 := pow_le_DBL_MAX k hk2
  unfold round
  simp only [Int.ofNat_eq_coe]
  rw [if_neg (not_lt.mpr hn), if_neg (not_lt.mpr (le_trans h3 h4))]
  exact ⟨Int.ofNat_nonneg _, h3⟩

theorem ofInt_bounds (n k : Nat) (h : n ≤ 2 ^ k) (hk : k ≤ 1023) :
    0 ≤ ofInt (Int.ofNat n) ∧ ofInt (Int.ofNat n) ≤ ((2 ^ (k + 1074) : Nat) : Int) := by
  unfold ofInt
  apply round_bounds _ _ _ (Int.mul_nonneg (Int.ofNat_nonneg _) (Int.ofNat_nonneg _))
    (by norm_num) (by omega) (by omega)
  simp only [Int.ofNat_eq_coe, scale]
  rw [← Nat.cast_mul]
  apply Int.ofNat_le.mpr
  rw [Nat.mul_one, pow_add]
  exact Nat.mul_le_mul_right _ h

theorem lit_bounds (n d k : Nat) (hd : 0 < d) (h : n ≤ 2 ^ k * d) (hk : k ≤ 1023) :
    0 ≤ lit (Int.ofNat n) d ∧ lit (Int.ofNat n) d ≤ ((2 ^ (k + 1074) : Nat) : Int) := by
  unfold lit
  apply round_bounds _ _ _ (Int.mul_nonneg (Int.ofNat_nonneg _) (Int.ofNat_nonneg _))
    hd (by omega) (by omega)
  simp only [Int.ofNat_eq_coe, scale]
  rw [← Nat.cast_mul]
  apply Int.ofNat_le.mpr
  calc n * 2 ^ 1074 ≤ 2 ^ k * d * 2 ^ 1074 := Nat.mul_le_mul_right _ h
    _ = 2 ^ (k + 1074) * d := by rw [pow_add]; ring

theorem add_bounds (a b : Double) (k : Nat) (ha : 0 ≤ a ∧ a ≤ ((2 ^ k : Nat) : Int))
    (hb : 0 ≤ b ∧ b ≤ ((2 ^ k : Nat) : Int)) (hk : 53 ≤ k) (hk2 : k ≤ 2096) :
    0 ≤ add a b ∧ add a b ≤ ((2 ^ (k + 1) : Nat) : Int) := by
  obtain ⟨ha1, ha2⟩ := ha
  obtain ⟨hb1, hb2⟩ := hb
  unfold add
  apply round_bounds _ _ _ (add_nonneg ha1 hb1) (by norm_num) (by omega) (by omega)
  have : ((2 ^ (k + 1) * 1 : Nat) : Int) = ((2 ^ k : Nat) : Int) + ((2 ^ k : Nat) : Int) := by
    rw [Nat.mul_one, pow_succ, Nat.mul_two, Nat.cast_add]
  rw [this]
  exact add_le_add ha2 hb2

theorem mul_bounds (a b : Double) (i j : Nat) (ha : 0 ≤ a ∧ a ≤ ((2 ^ i : Nat) : Int))
    (hb : 0 ≤ b ∧ b ≤ ((2 ^ j : Nat) : Int)) (hk : 1127 ≤ i + j) (hk2 : i + j ≤ 3171) :
    0 ≤ mul a b ∧ mul a b ≤ ((2 ^ (i + j - 1074) : Nat) : Int) := by
  unfold mul
  apply round_bounds _ _ _ (mul_nonneg ha.1 hb.1) (by unfold scale; positivity)
    (by omega) (by omega)
  have h1 : a * b ≤ ((2 ^ i : Nat) : Int) * ((2 ^ j : Nat) : Int) :=
    mul_le_mul ha.2 hb.2 hb.1 (by positivity)
  have h2 : ((2 ^ (i + j - 1074) * scale : Nat) : Int)
      = ((2 ^ i : Nat) : Int) * ((2 ^ j : Nat) : Int) := by
    rw [← Nat.cast_mul]
    have h3 : i + j - 1074 + 1074 = i + j := by omega
    unfold scale
    rw [← pow_add, ← pow_add, h3]
  rw [h2]
  exact h1

theorem bounds_mono (a : Double) (i j : Nat) (ha : 0 ≤ a ∧ a ≤ ((2 ^ i : Nat) : Int))
    (hij : i ≤ j) : 0 ≤ a ∧ a ≤ ((2 ^ j : Nat) : Int) :=
  ⟨ha.1, le_trans ha.2 (Int.ofNat_le.mpr (Nat.pow_le_pow_right (by norm_num) hij))⟩

theorem bitlen_eq (n b : Nat) (hb : 0 < b) (h1 : 2 ^ (b - 1) ≤ n) (h2 : n < 2 ^ b)
    (h3 : b ≤ 8192) : bitlen n = b := by
  have hn0 : n ≠ 0 := by
    have : 0 < 2 ^ (b - 1) := by positivity
    omega
  have hl := bitlen_le n hn0
  have hu := lt_bitlen n (lt_of_lt_of_le h2 (Nat.pow_le_pow_right (by norm_num) h3))
  have e1 : 2 ^ (bitlen n - 1) < 2 ^ b := lt_of_le_of_lt hl h2
  have e2 : 2 ^ (b - 1) < 2 ^ bitlen n := lt_of_le_of_lt h1 hu
  have e3 := (Nat.pow_lt_pow_iff_right (by norm_num : 1 < 2)).mp e1
  have e4 := (Nat.pow_lt_pow_iff_right (by norm_num : 1 < 2)).mp e2
  omega

/-- A value `M * 2^s + δ` whose bit length is `s + 53` and whose tail `δ` is less than half
of `2^s` rounds down to `M * 2^s`. -/
theorem roundNat_split (n M s δ : Nat) (hn : n = M * 2 ^ s + δ) (hs : bitlen n - 53 = s)
    (hδ : 2 * δ < 2 ^ s) : roundNat n 1 = M * 2 ^ s := by
  have hpos : 0 < 2 ^ s := by positivity
  have hδ2 : δ < 2 ^ s := by omega
  have hdiv : n / 2 ^ s = M := by
    rw [hn, Nat.add_comm, Nat.add_mul_div_right _ _ hpos, Nat.div_eq_of_lt hδ2, Nat.zero_add]
  have hmod : n % 2 ^ s = δ := by
    rw [hn, Nat.add_comm, Nat.add_mul_mod_self_right, Nat.mod_eq_of_lt hδ2]
  unfold roundNat
  rw [Nat.div_one, hs, Nat.one_mul]
  unfold roundHalfEven
  rw [hmod, if_pos hδ, hdiv]

/-- A value with at most 53 significant bits is a binary64 value: rounding leaves it. -/
theorem roundNat_exact (m e : Nat) (hm : m < 2 ^ 53) :
    roundNat (m * 2 ^ e) 1 = m * 2 ^ e := by
  have hlt : m * 2 ^ e < 2 ^ (53 + e) := by
    rw [pow_add]
    exact Nat.mul_lt_mul_of_pos_right hm (by positivity)
  have hb := bitlen_le_of_lt _ _ hlt
  obtain ⟨k, hk⟩ : ∃ k, e = (bitlen (m * 2 ^ e) - 53) + k :=
    ⟨e - (bitlen (m * 2 ^ e) - 53), by omega⟩
  have h := roundNat_split (m * 2 ^ e) (m * 2 ^ k) (bitlen (m * 2 ^ e) - 53) 0
    (by
      conv_lhs => rw [hk]
      rw [pow_add]
      ring) rfl (by positivity)
  rw [h]
  conv_rhs => rw [hk]
  rw [pow_add]
  ring

theorem roundHalfEven_mul_left (x c d : Nat) (hd : 0 < d) :
    roundHalfEven (x * d) (d * c) = roundHalfEven x c := by
  unfold roundHalfEven
  have h1 : x * d / (d * c) = x / c := by
    rw [Nat.mul_comm x d]
    exact Nat.mul_div_mul_left x c hd
  have h2 : x * d % (d * c) = d * (x % c) := by
    rw [Nat.mul_comm x d]
    exact Nat.mul_mod_mul_left d x c
  rw [h1, h2]
  have e1 : (2 * (d * (x % c)) < d * c) ↔ (2 * (x % c) < c) := by
    rw [show 2 * (d * (x % c)) = d * (2 * (x % c)) by ring]
    exact Nat.mul_lt_mul_left hd
  have e2 : (d * c < 2 * (d * (x % c))) ↔ (c < 2 * (x % c)) := by
    rw [show 2 * (d * (x % c)) = d * (2 * (x % c)) by ring]
    exact Nat.mul_lt_mul_left hd
  simp only [e1, e2]

/-- Rounding the exact quotient `(x * d) / d` is rounding `x`. -/
theorem roundNat_mul_self (x d : Nat) (hd : 0 < d) : roundNat (x * d) d = roundNat x 1 := by
  unfold roundNat
  rw [Nat.mul_div_cancel _ hd, Nat.div_one, roundHalfEven_mul_left _ _ _ hd, Nat.one_mul]

theorem round_natCast (x d : Nat) (h : roundNat x d ≤ 2 ^ 2097) :
    round (x : Int) d = ((roundNat x d : Nat) : Int) := by
  have h4 := pow_le_DBL_MAX 2097 (le_refl _)
  have h3 : ((roundNat x d : Nat) : Int) ≤ ((2 ^ 2097 : Nat) : Int) := Int.ofNat_le.mpr h
  unfold round
  simp only [Int.ofNat_eq_coe, Int.natAbs_ofNat]
  rw [if_neg (not_lt.mpr (Int.ofNat_nonneg _)), if_neg (not_lt.mpr (le_trans h3 h4))]

/-- A natural number of units with at most 53 significant bits, below `2^2097`, is left
unchanged by rounding. -/
theorem round_exact (m e : Nat) (hm : m < 2 ^ 53) (he : e ≤ 2044) :
    round ((m * 2 ^ e : Nat) : Int) 1 = ((m * 2 ^ e : Nat) : Int) := by
  have hle : m * 2 ^ e ≤ 2 ^ 2097 := by
    calc m * 2 ^ e ≤ 2 ^ 53 * 2 ^ e := Nat.mul_le_mul_right _ (le_of_lt hm)
      _ = 2 ^ (53 + e) := by rw [pow_add]
      _ ≤ 2 ^ 2097 := Nat.pow_le_pow_right (by norm_num) (by omega)
  rw [round_natCast _ _ (by rw [roundNat_exact m e hm]; exact hle), roundNat_exact m e hm]

/-- The conversion to `double` of an integer below `2^53` is exact. -/
theorem ofInt_natCast (n : Nat) (hn : n < 2 ^ 53) :
    ofInt (Int.ofNat n) = ((n * scale : Nat) : Int) := by
  unfold ofInt scale
  simp only [Int.ofNat_eq_coe]
  rw [← Nat.cast_mul]
  exact round_exact n 1074 hn (by norm_num)

/-- The product of two whole numbers of seconds is exact when it is below `2^53`. -/
theorem mul_whole (a b : Nat) (h : a * b < 2 ^ 53) :
    mul ((a * scale : Nat) : Int) ((b * scale : Nat) : Int) = ((a * b * scale : Nat) : Int) := by
  unfold mul
  rw [← Nat.cast_mul]
  have e : a * scale * (b * scale) = (a * b * scale) * scale := by ring
  have hs : 0 < scale := by unfold scale; positivity
  have e2 : roundNat (a * b * scale * scale) scale = a * b * scale := by
    rw [roundNat_mul_self _ _ hs]
    unfold scale
    exact roundNat_exact (a * b) 1074 h
  rw [e, round_natCast _ _ (by
    rw [e2]
    unfold scale
    calc a * b * 2 ^ 1074 ≤ 2 ^ 53 * 2 ^ 1074 := Nat.mul_le_mul_right _ (le_of_lt h)
      _ = 2 ^ (53 + 1074) := by rw [pow_add]
      _ ≤ 2 ^ 2097 := Nat.pow_le_pow_right (by norm_num) (by norm_num)), e2]

end F64

/-! ## Tag lines -/

theorem tag_keys_lower : tag_keys.map (fun key => key.map Char.toLower) = tag_keys := by decide

theorem any_tag_key (key : Str) :
    tag_keys.any (fun k => equals_ignore_case key k) = true ↔ key.map Char.toLower ∈ tag_keys := by
  rw [List.any_eq_true]
  constructor
  · rintro ⟨k, hk, he⟩
    have hk2 : k.map Char.toLower ∈ tag_keys.map (fun key => key.map Char.toLower) :=
      List.mem_map_of_mem _ hk
    rw [tag_keys_lower] at hk2
    unfold equals_ignore_case at he
    rw [beq_iff_eq] at he
    rw [he]
    exact hk2
  · intro h
    refine ⟨key.map Char.toLower, h, ?_⟩
    unfold equals_ignore_case
    rw [beq_iff_eq]
    have h2 : ∀ k ∈ tag_keys, k.map Char.toLower = k := by decide
    exact (h2 _ h).symm

theorem getD_last_append (a : Str) (c d : Char) : (a ++ [c]).getD ((a ++ [c]).length - 1) d = c := by
  simp [List.getD_eq_getElem?_getD]

/-! ## The timestamp codec -/

theorem subsec_coefficient_bounds (n : Nat) :
    ∀ c : Double, (0 ≤ c ∧ c ≤ ((2 ^ 1074 : Nat) : Int)) →
      0 ≤ subsec_coefficient n c ∧ subsec_coefficient n c ≤ ((2 ^ 1074 : Nat) : Int) := by
  induction n with
  | zero => intro c hc; simpa [subsec_coefficient] using hc
  | succ n ih =>
    intro c hc
    unfold subsec_coefficient
    apply ih
    have hl := F64.lit_bounds 1 10 0 (by norm_num) (by norm_num) (by norm_num)
    exact F64.mul_bounds c _ 1074 1074 hc (by simpa using hl) (by norm_num) (by norm_num)

/-- Every value that `try_parse_timestamp` can accumulate lies between `0` and `2^77`
seconds, far below `DBL_MAX`. -/
theorem timestamp_value_bounds (len subsec sec min : Nat) (hour : Option Nat)
    (h1 : subsec < 2 ^ 64) (h2 : sec < 2 ^ 64) (h3 : min < 2 ^ 64)
    (h4 : ∀ h, hour = some h → h < 2 ^ 64) :
    0 ≤ timestamp_value len subsec sec min hour ∧
      timestamp_value len subsec sec min hour ≤ ((2 ^ 1151 : Nat) : Int) := by
  have hz : (0 : Double) ≤ 0 ∧ (0 : Double) ≤ ((2 ^ 1138 : Nat) : Int) := ⟨le_refl _, by positivity⟩
  have hone := F64.ofInt_bounds 1 0 (by norm_num) (by norm_num)
  have hcoef := subsec_coefficient_bounds len (F64.ofInt (Int.ofNat 1)) (by simpa using hone)
  have hsub := F64.ofInt_bounds subsec 64 (le_of_lt h1) (by norm_num)
  have hsec := F64.ofInt_bounds sec 64 (le_of_lt h2) (by norm_num)
  have hmin := F64.ofInt_bounds min 64 (le_of_lt h3) (by norm_num)
  have h60 := F64.ofInt_bounds 60 6 (by norm_num) (by norm_num)
  have h3600 := F64.ofInt_bounds 3600 12 (by norm_num) (by norm_num)
  have hA := F64.mul_bounds _ _ _ _ hsub hcoef (by norm_num) (by norm_num)
  have hB := F64.add_bounds 0 _ 1138 hz (by simpa using hA) (by norm_num) (by norm_num)
  have hC := F64.add_bounds _ _ 1139 (by simpa using hB)
    (F64.bounds_mono _ _ _ hsec (by norm_num)) (by norm_num) (by norm_num)
  have hD := F64.mul_bounds _ _ _ _ hmin h60 (by norm_num) (by norm_num)
  have hE := F64.add_bounds _ _ 1144 (F64.bounds_mono _ _ _ hC (by norm_num))
    (by simpa using hD) (by norm_num) (by norm_num)
  cases hour with
  | none =>
    unfold timestamp_value
    exact F64.bounds_mono _ _ _ hE (by norm_num)
  | some hr =>
    have hhr := F64.ofInt_bounds hr 64 (le_of_lt (h4 hr rfl)) (by norm_num)
    have hF := F64.mul_bounds _ _ _ _ hhr h3600 (by norm_num) (by norm_num)
    have hG := F64.add_bounds _ _ 1150 (F64.bounds_mono _ _ _ hE (by norm_num))
      (by simpa using hF) (by norm_num) (by norm_num)
    unfold timestamp_value
    simpa using hG

theorem strtoint_u64_lt (s : Str) (n : Nat) (h : strtoint_u64 s = some n) : n < 2 ^ 64 := by
  unfold strtoint_u64 at h
  split at h
  · simp at h
  · split at h
    · rename_i hlt
      have := Option.some.inj h
      omega
    · simp at h

/-- A parsed timestamp is non-negative and below the untimed marker `DBL_MAX`. -/
theorem try_parse_timestamp_bounds (tag : Str) (t : Double) (h : try_parse_timestamp tag = some t) :
    0 ≤ t ∧ t < F64.DBL_MAX := by
  unfold try_parse_timestamp at h
  split at h
  · simp at h
  · split at h
    · rename_i ss ms hss hms
      split at h
      · rename_i subsec sec min e1 e2 e3
        have hb := timestamp_value_bounds
          (timestamp_fields tag ss ms).1.length subsec sec min
          (strtoint_u64 (timestamp_fields tag ss ms).2.2.2)
          (strtoint_u64_lt _ _ e1) (strtoint_u64_lt _ _ e2) (strtoint_u64_lt _ _ e3)
          (fun hh hhe => strtoint_u64_lt _ _ hhe)
        rw [← Option.some.inj h]
        refine ⟨hb.1, lt_of_le_of_lt hb.2 ?_⟩
        unfold F64.DBL_MAX
        apply Int.ofNat_lt.mpr
        norm_num
      · simp at h
    · simp at h

/-! ## Fields of a timestamp tag -/

theorem rfind_append (pre post : Str) (c : Char) (h : c ∉ post) :
    rfind (pre ++ c :: post) c = some pre.length := by
  unfold rfind
  have hrev : (pre ++ c :: post).reverse = post.reverse ++ c :: pre.reverse := by simp
  have hidx : (pre ++ c :: post).reverse.indexOf c = post.length := by
    rw [hrev, indexOf_append_cons c post.reverse pre.reverse (by simpa using h)]
    simp
  rw [hidx, if_pos (by simp; omega)]
  congr 1
  simp

theorem rfind_none (s : Str) (c : Char) (h : c ∉ s) : rfind s c = none := by
  unfold rfind
  have : ¬ (s.reverse.indexOf c < s.length) := by
    rw [← List.length_reverse s, List.indexOf_lt_length]
    simpa using h
  rw [if_neg this]

theorem usub_eq (a b : Nat) (h1 : b ≤ a) (h2 : a < 2 ^ 64) : usub a b = a - b := by
  unfold usub
  have hb : b % 2 ^ 64 = b := Nat.mod_eq_of_lt (by omega)
  rw [hb]
  have : a + 2 ^ 64 - b = (a - b) + 2 ^ 64 := by omega
  rw [this, Nat.add_mod_right]
  exact Nat.mod_eq_of_lt (by omega)

theorem substr_mid (pre mid post : Str) :
    substr (pre ++ (mid ++ post)) pre.length mid.length = mid := by
  simp [substr]

theorem digit_not_sep (ds : Str) (h : ∀ c ∈ ds, c.isDigit = true) (sep : Char)
    (hsep : sep.isDigit = false) : sep ∉ ds := by
  intro hmem
  have := h sep hmem
  rw [hsep] at this
  exact absurd this (by simp)

theorem strtoint_u64_digits (ds : Str) (h : is_digit_string ds) (hv : digits_value ds < 2 ^ 64) :
    strtoint_u64 ds = some (digits_value ds) := by
  unfold strtoint_u64
  have ht : ds.takeWhile Char.isDigit = ds := List.takeWhile_eq_self_iff.mpr h.2
  rw [ht, if_neg h.1, if_pos hv]

/-- The fields that `try_parse_timestamp` reads from a tag `[A:B.C]` with three digit
strings. -/
theorem try_parse_timestamp_three (A B C : Str) (hA : is_digit_string A)
    (hB : is_digit_string B) (hC : is_digit_string C)
    (ha : digits_value A < 2 ^ 64) (hb : digits_value B < 2 ^ 64) (hc : digits_value C < 2 ^ 64)
    (hlen : A.length + B.length + C.length < 2 ^ 63) :
    try_parse_timestamp ('[' :: (A ++ ':' :: (B ++ '.' :: (C ++ [']'])))) =
      some (timestamp_value C.length (digits_value C) (digits_value B) (digits_value A) none) := by
  have hcolon : ∀ ds : Str, (∀ c ∈ ds, c.isDigit = true) → ':' ∉ ds :=
    fun ds h => digit_not_sep ds h ':' (by decide)
  have hdot : ∀ ds : Str, (∀ c ∈ ds, c.isDigit = true) → '.' ∉ ds :=
    fun ds h => digit_not_sep ds h '.' (by decide)
  set tag := '[' :: (A ++ ':' :: (B ++ '.' :: (C ++ [']']))) with htag
  have hsec : rfind tag '.' = some (A.length + B.length + 2) := by
    have e : tag = ('[' :: (A ++ ':' :: B)) ++ '.' :: (C ++ [']']) := by simp [htag]
    rw [e, rfind_append _ _ _ (by
      simp only [List.mem_append, List.mem_singleton, not_or]
      exact ⟨hdot C hC.2, by decide⟩)]
    simp
    omega
  have hmin : rfind tag ':' = some (A.length + 1) := by
    have e : tag = ('[' :: A) ++ ':' :: (B ++ '.' :: (C ++ [']'])) := by simp [htag]
    rw [e, rfind_append _ _ _ (by
      simp only [List.mem_append, List.mem_cons, List.mem_singleton, not_or,
        List.not_mem_nil, or_false]
      exact ⟨hcolon B hB.2, by decide, hcolon C hC.2, by decide⟩)]
    simp
  have hhour : rfind_from tag ':' (usub (A.length + 1) 1) = none := by
    rw [usub_eq _ _ (by omega) (by omega)]
    unfold rfind_from
    have e : tag.take (A.length + 1 - 1 + 1) = '[' :: A := by
      simp [htag]
    rw [e]
    apply rfind_none
    simp only [List.mem_cons, not_or]
    exact ⟨by decide, hcolon A hA.2⟩
  have hlenT : tag.length = A.length + B.length + C.length + 4 := by
    simp [htag]
    omega
  have hfields : timestamp_fields tag (A.length + B.length + 2) (A.length + 1) = (C, B, A, []) := by
    unfold timestamp_fields
    rw [hhour]
    simp only
    have e1 : substr tag (A.length + B.length + 2 + 1)
        (tag.length - (A.length + B.length + 2) - 2) = C := by
      have e : tag = ('[' :: (A ++ ':' :: (B ++ ['.']))) ++ (C ++ [']']) := by simp [htag]
      have l1 : A.length + B.length + 2 + 1 = ('[' :: (A ++ ':' :: (B ++ ['.']))).length := by
        simp
        omega
      have l2 : tag.length - (A.length + B.length + 2) - 2 = C.length := by omega
      rw [l2, l1]
      conv_lhs => rw [e]
      exact substr_mid _ _ _
    have e2 : substr tag (A.length + 1 + 1)
        (usub (usub (A.length + B.length + 2) (A.length + 1)) 1) = B := by
      rw [usub_eq (A.length + B.length + 2) (A.length + 1) (by omega) (by omega),
        usub_eq _ 1 (by omega) (by omega)]
      have e : tag = ('[' :: (A ++ [':'])) ++ (B ++ ('.' :: (C ++ [']']))) := by simp [htag]
      have l1 : A.length + 1 + 1 = ('[' :: (A ++ [':'])).length := by simp
      have l2 : A.length + B.length + 2 - (A.length + 1) - 1 = B.length := by omega
      rw [l2, l1]
      conv_lhs => rw [e]
      exact substr_mid _ _ _
    have e3 : substr tag 1 (A.length + 1 - 1) = A := by
      have e : tag = ['['] ++ (A ++ (':' :: (B ++ '.' :: (C ++ [']'])))) := by simp [htag]
      have l2 : A.length + 1 - 1 = A.length := by omega
      rw [l2]
      conv_lhs => rw [e]
      exact substr_mid ['['] _ _
    rw [e1, e2, e3]
  unfold try_parse_timestamp
  rw [if_neg (by
    push_neg
    refine ⟨by simp [htag], ?_⟩
    have e : tag = ('[' :: (A ++ ':' :: (B ++ '.' :: C))) ++ [']'] := by simp [htag]
    rw [e]
    exact getD_last_append _ _ _)]
  simp only [hsec, hmin, hfields]
  rw [strtoint_u64_digits C hC hc, strtoint_u64_digits B hB hb, strtoint_u64_digits A hA ha]
  simp [strtoint_u64]

/-- The fields that `try_parse_timestamp` reads from a tag `[H:A:B.C]` with four digit
strings. -/
theorem try_parse_timestamp_four (H A B C : Str) (hH : is_digit_string H)
    (hA : is_digit_string A) (hB : is_digit_string B) (hC : is_digit_string C)
    (hh : digits_value H < 2 ^ 64) (ha : digits_value A < 2 ^ 64) (hb : digits_value B < 2 ^ 64)
    (hc : digits_value C < 2 ^ 64)
    (hlen : H.length + A.length + B.length + C.length < 2 ^ 63) :
    try_parse_timestamp ('[' :: (H ++ ':' :: (A ++ ':' :: (B ++ '.' :: (C ++ [']']))))) =
      some (timestamp_value C.length (digits_value C) (digits_value B) (digits_value A)
        (some (digits_value H))) := by
  have hcolon : ∀ ds : Str, (∀ c ∈ ds, c.isDigit = true) → ':' ∉ ds :=
    fun ds h => digit_not_sep ds h ':' (by decide)
  have hdot : ∀ ds : Str, (∀ c ∈ ds, c.isDigit = true) → '.' ∉ ds :=
    fun ds h => digit_not_sep ds h '.' (by decide)
  set tag := '[' :: (H ++ ':' :: (A ++ ':' :: (B ++ '.' :: (C ++ [']'])))) with htag
  have hsec : rfind tag '.' = some (H.length + A.length + B.length + 3) := by
    have e : tag = ('[' :: (H ++ ':' :: (A ++ ':' :: B))) ++ '.' :: (C ++ [']']) := by
      simp [htag]
    rw [e, rfind_append _ _ _ (by
      simp only [List.mem_append, List.mem_singleton, not_or]
      exact ⟨hdot C hC.2, by decide⟩)]
    simp
    omega
  have hmin : rfind tag ':' = some (H.length + A.length + 2) := by
    have e : tag = ('[' :: (H ++ ':' :: A)) ++ ':' :: (B ++ '.' :: (C ++ [']'])) := by
      simp [htag]
    rw [e, rfind_append _ _ _ (by
      simp only [List.mem_append, List.mem_cons, List.mem_singleton, not_or,
        List.not_mem_nil, or_false]
      exact ⟨hcolon B hB.2, by decide, hcolon C hC.2, by decide⟩)]
    simp
    omega
  have hhour : rfind_from tag ':' (usub (H.length + A.length + 2) 1) = some (H.length + 1) := by
    rw [usub_eq _ _ (by omega) (by omega)]
    unfold rfind_from
    have e : tag.take (H.length + A.length + 2 - 1 + 1) = ('[' :: H) ++ ':' :: A := by
      have e0 : tag = (('[' :: H) ++ ':' :: A) ++ (':' :: (B ++ '.' :: (C ++ [']']))) := by
        simp [htag]
      have l : H.length + A.length + 2 - 1 + 1 = (('[' :: H) ++ ':' :: A).length := by
        simp
        omega
      rw [l, e0, List.take_left']
      rfl
    rw [e, rfind_append _ _ _ (hcolon A hA.2)]
    simp
  have hlenT : tag.length = H.length + A.length + B.length + C.length + 5 := by
    simp [htag]
    omega
  have hfields : timestamp_fields tag (H.length + A.length + B.length + 3)
      (H.length + A.length + 2) = (C, B, A, H) := by
    unfold timestamp_fields
    rw [hhour]
    simp only
    have e1 : substr tag (H.length + A.length + B.length + 3 + 1)
        (tag.length - (H.length + A.length + B.length + 3) - 2) = C := by
      have e : tag = ('[' :: (H ++ ':' :: (A ++ ':' :: (B ++ ['.'])))) ++ (C ++ [']']) := by
        simp [htag]
      have l1 : H.length + A.length + B.length + 3 + 1
          = ('[' :: (H ++ ':' :: (A ++ ':' :: (B ++ ['.'])))).length := by
        simp
        omega
      have l2 : tag.length - (H.length + A.length + B.length + 3) - 2 = C.length := by omega
      rw [l2, l1]
      conv_lhs => rw [e]
      exact substr_mid _ _ _
    have e2 : substr tag (H.length + A.length + 2 + 1)
        (usub (usub (H.length + A.length + B.length + 3) (H.length + A.length + 2)) 1) = B := by
      rw [usub_eq (H.length + A.length + B.length + 3) (H.length + A.length + 2)
        (by omega) (by omega), usub_eq _ 1 (by omega) (by omega)]
      have e : tag = ('[' :: (H ++ ':' :: (A ++ [':']))) ++ (B ++ ('.' :: (C ++ [']']))) := by
        simp [htag]
      have l1 : H.length + A.length + 2 + 1 = ('[' :: (H ++ ':' :: (A ++ [':']))).length := by
        simp
        omega
      have l2 : H.length + A.length + B.length + 3 - (H.length + A.length + 2) - 1
          = B.length := by omega
      rw [l2, l1]
      conv_lhs => rw [e]
      exact substr_mid _ _ _
    have e3 : substr tag (H.length + 1 + 1) (H.length + A.length + 2 - (H.length + 1) - 1)
        = A := by
      have e : tag = ('[' :: (H ++ [':'])) ++ (A ++ (':' :: (B ++ '.' :: (C ++ [']'])))) := by
        simp [htag]
      have l1 : H.length + 1 + 1 = ('[' :: (H ++ [':'])).length := by simp
      have l2 : H.length + A.length + 2 - (H.length + 1) - 1 = A.length := by omega
      rw [l2, l1]
      conv_lhs => rw [e]
      exact substr_mid _ _ _
    have e4 : substr tag 1 (H.length + 1 - 1) = H := by
      have e : tag = ['['] ++ (H ++ (':' :: (A ++ ':' :: (B ++ '.' :: (C ++ [']']))))) := by
        simp [htag]
      have l2 : H.length + 1 - 1 = H.length := by omega
      rw [l2]
      conv_lhs => rw [e]
      exact substr_mid ['['] _ _
    rw [e1, e2, e3, e4]
  unfold try_parse_timestamp
  rw [if_neg (by
    push_neg
    refine ⟨by simp [htag], ?_⟩
    have e : tag = ('[' :: (H ++ ':' :: (A ++ ':' :: (B ++ '.' :: C)))) ++ [']'] := by
      simp [htag]
    rw [e]
    exact getD_last_append _ _ _)]
  simp only [hsec, hmin, hfields]
  rw [strtoint_u64_digits C hC hc, strtoint_u64_digits B hB hb, strtoint_u64_digits A hA ha,
    strtoint_u64_digits H hH hh]

/-! ## Decimal numerals -/

theorem digitChar_isDigit (d : Nat) (h : d < 10) : (Nat.digitChar d).isDigit = true := by
  interval_cases d <;> decide

theorem digitChar_value (d : Nat) (h : d < 10) : (Nat.digitChar d).toNat - 48 = d := by
  interval_cases d <;> decide

theorem digits_value_append (xs : Str) (c : Char) :
    digits_value (xs ++ [c]) = digits_value xs * 10 + (c.toNat - 48) := by
  simp [digits_value, List.foldl_append]

theorem decimalAux_spec (fuel : Nat) :
    ∀ (n : Nat) (acc : Str), n < fuel →
      ∃ ds, decimalAux fuel n acc = ds ++ acc ∧ is_digit_string ds ∧ digits_value ds = n ∧
        ds.length ≤ fuel := by
  induction fuel with
  | zero => intro n acc h; omega
  | succ f ih =>
    intro n acc h
    unfold decimalAux
    by_cases h10 : n < 10
    · rw [if_pos h10]
      refine ⟨[Nat.digitChar n], by simp, ⟨by simp, ?_⟩, ?_, by simp⟩
      · intro c hc
        rw [List.mem_singleton.mp hc]
        exact digitChar_isDigit n h10
      · simp [digits_value, digitChar_value n h10]
    · rw [if_neg h10]
      obtain ⟨ds, hds, hdig, hval, hlen⟩ := ih (n / 10) (Nat.digitChar (n % 10) :: acc) (by omega)
      refine ⟨ds ++ [Nat.digitChar (n % 10)], by rw [hds]; simp, ⟨by simp, ?_⟩, ?_, ?_⟩
      · intro c hc
        rcases List.mem_append.mp hc with h1 | h1
        · exact hdig.2 c h1
        · rw [List.mem_singleton.mp h1]
          exact digitChar_isDigit _ (Nat.mod_lt _ (by norm_num))
      · rw [digits_value_append, hval, digitChar_value _ (Nat.mod_lt _ (by norm_num))]
        omega
      · simp
        omega

theorem decimal_spec (n : Nat) :
    is_digit_string (decimal n) ∧ digits_value (decimal n) = n ∧ (decimal n).length ≤ n + 1 := by
  obtain ⟨ds, hds, hdig, hval, hlen⟩ := decimalAux_spec (n + 1) n [] (by omega)
  unfold decimal
  rw [hds, List.append_nil]
  exact ⟨hdig, hval, hlen⟩

theorem digits_value_zeros (k : Nat) (ds : Str) :
    digits_value (List.replicate k '0' ++ ds) = digits_value ds := by
  induction k with
  | zero => simp
  | succ k ih =>
    have : List.replicate (k + 1) '0' ++ ds = List.replicate k '0' ++ ('0' :: ds) := by
      rw [List.replicate_succ']
      simp
    rw [this]
    unfold digits_value at ih ⊢
    rw [List.foldl_append] at ih ⊢
    have h0 : ∀ m, List.foldl (fun acc c => acc * 10 + (c.toNat - 48)) 0 (List.replicate m '0')
        = 0 := by
      intro m
      induction m with
      | zero => rfl
      | succ m ihm =>
        rw [List.replicate_succ', List.foldl_append, ihm]
        rfl
    rw [h0]
    simp only [List.foldl_cons]
    rfl

/-- The `%02d` rendering of a natural number: a non-empty string of digits with the value of
the number. -/
theorem fmt_02d_spec (n : Nat) :
    is_digit_string (fmt_02d (Int.ofNat n)) ∧ digits_value (fmt_02d (Int.ofNat n)) = n ∧
      (fmt_02d (Int.ofNat n)).length ≤ n + 2 := by
  obtain ⟨hdig, hval, hlen⟩ := decimal_spec n
  have hf : fmt_02d (Int.ofNat n) = List.replicate (2 - (decimal n).length) '0' ++ decimal n := by
    unfold fmt_02d
    rw [if_neg (by simp)]
    simp
  rw [hf]
  refine ⟨⟨by simp [hdig.1], ?_⟩, ?_, ?_⟩
  · intro c hc
    rcases List.mem_append.mp hc with h1 | h1
    · rw [(List.mem_replicate.mp h1).2]
      decide
    · exact hdig.2 c h1
  · rw [digits_value_zeros, hval]
  · simp
    omega

/-! ## Printing a whole number of quarter seconds -/

theorem tdiv_natCast (a b : Nat) : Int.tdiv (a : Int) (b : Int) = ((a / b : Nat) : Int) :=
  (Int.ofNat_tdiv a b).symm

theorem toInt32_whole (n : Nat) (hn : n < 2 ^ 31) :
    F64.toInt32 ((n * F64.scale : Nat) : Int) = (n : Int) := by
  have hs : 0 < F64.scale := by unfold F64.scale; positivity
  unfold F64.toInt32
  simp only [Int.ofNat_eq_coe]
  rw [tdiv_natCast, Nat.mul_div_cancel _ hs]
  have h2 : (n : Int) < 2 ^ 31 := by exact_mod_cast hn
  rw [if_neg (by omega)]

theorem floor_quarters (n j : Nat) (hj : j < 4) :
    F64.floor (((4 * n + j) * 2 ^ 1072 : Nat) : Int) = ((n * F64.scale : Nat) : Int) := by
  unfold F64.floor
  simp only [Int.ofNat_eq_coe]
  rw [← Int.natCast_div, ← Nat.cast_mul]
  congr 2
  have e : F64.scale = 4 * 2 ^ 1072 := by
    unfold F64.scale
    rw [show (1074 : Nat) = 2 + 1072 by norm_num, pow_add]
    norm_num
  rw [e, Nat.mul_div_mul_right _ _ (by positivity)]
  omega

theorem sub_quarters (n j : Nat) (hj : j < 4) :
    F64.sub (((4 * n + j) * 2 ^ 1072 : Nat) : Int) ((n * F64.scale : Nat) : Int)
      = ((j * 2 ^ 1072 : Nat) : Int) := by
  have e : (((4 * n + j) * 2 ^ 1072 : Nat) : Int) - ((n * F64.scale : Nat) : Int)
      = ((j * 2 ^ 1072 : Nat) : Int) := by
    have e2 : F64.scale = 4 * 2 ^ 1072 := by
      unfold F64.scale
      rw [show (1074 : Nat) = 2 + 1072 by norm_num, pow_add]
      norm_num
    rw [e2]
    push_cast
    ring
  unfold F64.sub
  rw [e]
  exact F64.round_exact j 1072 (by omega) (by norm_num)

theorem centisec_quarters (j : Nat) (hj : j < 4) :
    F64.toInt32 (F64.roundAway (F64.mul ((j * 2 ^ 1072 : Nat) : Int) (F64.ofInt 100)))
      = ((25 * j : Nat) : Int) := by
  interval_cases j <;> decide

/-- The fields that `print_timestamp` prints for `n + j/4` seconds. -/
theorem print_timestamp_body_quarters (n j : Nat) (hn : n < 2 ^ 31) (hj : j < 4) :
    print_timestamp_body (((4 * n + j) * 2 ^ 1072 : Nat) : Int) =
      print_timestamp_fields ((n / 3600 : Nat) : Int) ((n % 3600 / 60 : Nat) : Int)
        ((n % 60 : Nat) : Int) ((25 * j : Nat) : Int) := by
  unfold print_timestamp_body
  simp only [floor_quarters n j hj, sub_quarters n j hj, centisec_quarters j hj,
    toInt32_whole n hn]
  have hh : Int.tdiv (n : Int) 3600 = ((n / 3600 : Nat) : Int) := tdiv_natCast n 3600
  have hm : Int.tdiv ((n : Int) - 3600 * ((n / 3600 : Nat) : Int)) 60
      = ((n % 3600 / 60 : Nat) : Int) := by
    have : (n : Int) - 3600 * ((n / 3600 : Nat) : Int) = ((n % 3600 : Nat) : Int) := by
      omega
    rw [this]
    exact tdiv_natCast _ 60
  have hsec : (n : Int) - ((n / 3600 : Nat) : Int) * 3600 - ((n % 3600 / 60 : Nat) : Int) * 60
      = ((n % 60 : Nat) : Int) := by
    omega
  rw [hh, hm, hsec]
  have hc : ¬ (((25 * j : Nat) : Int) = 100) := by omega
  rw [if_neg hc]

theorem quarter_subsec (j : Nat) (hj : j < 4) :
    F64.add 0 (F64.mul (F64.ofInt (Int.ofNat (25 * j))) (subsec_coefficient 2 (F64.ofInt 1)))
      = ((quarter_fraction j : Nat) : Int) := by
  interval_cases j <;> decide

theorem quarter_fraction_round (j : Nat) (hj : j < 4) :
    F64.round ((quarter_fraction j : Nat) : Int) 1 = ((quarter_fraction j : Nat) : Int) := by
  interval_cases j <;> decide

theorem quarter_fraction_one (j : Nat) (hj : j < 4) :
    F64.round ((quarter_fraction j + 1 * F64.scale : Nat) : Int) 1
      = ((1 * F64.scale + j * 2 ^ 1072 : Nat) : Int) := by
  interval_cases j <;> decide

theorem quarter_fraction_split (j : Nat) (hj : j < 4) :
    ∃ δ, quarter_fraction j = j * 2 ^ 1072 + δ ∧ 2 * δ ≤ 2 ^ 1022 := by
  interval_cases j
  · exact ⟨0, by decide, by decide⟩
  · exact ⟨2 ^ 1020, by decide, by decide⟩
  · exact ⟨2 ^ 1021, by decide, by decide⟩
  · exact ⟨2 ^ 1021, by decide, by decide⟩

/-- Two or more whole seconds absorb the rounding error of the parsed fraction. -/
theorem roundNat_absorb (K j δ : Nat) (hK2 : 2 ≤ K) (hK : K < 2 ^ 31) (hj : j < 4)
    (hδ : 2 * δ ≤ 2 ^ 1022) :
    F64.roundNat (K * 2 ^ 1074 + j * 2 ^ 1072 + δ) 1 = K * 2 ^ 1074 + j * 2 ^ 1072 := by
  have hK0 : K ≠ 0 := by omega
  have hl := F64.bitlen_le K hK0
  have hu := F64.lt_bitlen K (lt_trans hK (by norm_num))
  have hb31 := F64.bitlen_le_of_lt K 31 hK
  have hb2 : 2 ≤ F64.bitlen K := by
    by_contra hcon
    have : F64.bitlen K ≤ 1 := by omega
    have h2 : 2 ^ F64.bitlen K ≤ 2 ^ 1 := Nat.pow_le_pow_right (by norm_num) this
    omega
  set β := F64.bitlen K with hβ
  have hsmall : j * 2 ^ 1072 + δ < 2 ^ 1074 := by
    have e1 : (2 : Nat) ^ 1074 = 4 * 2 ^ 1072 := by
      rw [show (1074 : Nat) = 2 + 1072 by norm_num, pow_add]
      norm_num
    have e2 : (2 : Nat) ^ 1072 = 2 ^ 50 * 2 ^ 1022 := by rw [← pow_add]
    have : j * 2 ^ 1072 ≤ 3 * 2 ^ 1072 := Nat.mul_le_mul_right _ (by omega)
    have h3 : (2 : Nat) ^ 1022 ≤ 2 ^ 1072 := Nat.pow_le_pow_right (by norm_num) (by norm_num)
    omega
  have hbit : F64.bitlen (K * 2 ^ 1074 + j * 2 ^ 1072 + δ) = β + 1074 := by
    apply F64.bitlen_eq _ _ (by omega) _ _ (by omega)
    · have e : β + 1074 - 1 = (β - 1) + 1074 := by omega
      rw [e, pow_add]
      have := Nat.mul_le_mul_right (2 ^ 1074) hl
      omega
    · rw [pow_add]
      have h1 : (K + 1) * 2 ^ 1074 ≤ 2 ^ β * 2 ^ 1074 := Nat.mul_le_mul_right _ hu
      have h2 : (K + 1) * 2 ^ 1074 = K * 2 ^ 1074 + 2 ^ 1074 := by ring
      omega
  have hs : F64.bitlen (K * 2 ^ 1074 + j * 2 ^ 1072 + δ) - 53 = β + 1021 := by
    rw [hbit]
    omega
  have hM : (K * 2 ^ (53 - β) + j * 2 ^ (51 - β)) * 2 ^ (β + 1021)
      = K * 2 ^ 1074 + j * 2 ^ 1072 := by
    rw [Nat.add_mul, Nat.mul_assoc, Nat.mul_assoc, ← pow_add, ← pow_add]
    have e1 : 53 - β + (β + 1021) = 1074 := by omega
    have e2 : 51 - β + (β + 1021) = 1072 := by omega
    rw [e1, e2]
  have h := F64.roundNat_split (K * 2 ^ 1074 + j * 2 ^ 1072 + δ)
    (K * 2 ^ (53 - β) + j * 2 ^ (51 - β)) (β + 1021) δ (by rw [hM]) hs (by
      have hβe : β + 1021 = (β - 2) + 1023 := by omega
      have e : (2 : Nat) ^ (β + 1021) = 2 ^ (β - 2) * 2 ^ 1023 := by
        rw [hβe, pow_add]
      have e2 : (2 : Nat) ^ 1023 = 2 * 2 ^ 1022 := by
        rw [show (1023 : Nat) = 1 + 1022 by norm_num, pow_add]
        norm_num
      have e3 : 1 ≤ 2 ^ (β - 2) := Nat.one_le_two_pow
      have e4 : 1 * 2 ^ 1023 ≤ 2 ^ (β - 2) * 2 ^ 1023 := Nat.mul_le_mul_right _ e3
      have hp : 0 < (2 : Nat) ^ 1022 := by positivity
      omega)
  rw [h, hM]

theorem quarter_bound (K j : Nat) (hK : K < 2 ^ 31) (hj : j < 4) :
    K * F64.scale + j * 2 ^ 1072 ≤ 2 ^ 2097 := by
  have e1 : F64.scale = 4 * 2 ^ 1072 := by
    unfold F64.scale
    rw [show (1074 : Nat) = 2 + 1072 by norm_num, pow_add]
    norm_num
  have e2 : (2 : Nat) ^ 2097 = 2 ^ 1025 * 2 ^ 1072 := by rw [← pow_add]
  rw [e1, e2]
  have : K * (4 * 2 ^ 1072) + j * 2 ^ 1072 = (4 * K + j) * 2 ^ 1072 := by ring
  rw [this]
  apply Nat.mul_le_mul_right
  have : (2 : Nat) ^ 33 ≤ 2 ^ 1025 := Nat.pow_le_pow_right (by norm_num) (by norm_num)
  omega

/-- Adding `A` whole seconds to the running sum of `try_parse_timestamp`. -/
theorem add_quarter_sum (j K A : Nat) (hj : j < 4) (hKA : K + A < 2 ^ 31) :
    F64.add ((quarter_sum j K : Nat) : Int) ((A * F64.scale : Nat) : Int)
      = ((quarter_sum j (K + A) : Nat) : Int) := by
  have e1 : F64.scale = 4 * 2 ^ 1072 := by
    unfold F64.scale
    rw [show (1074 : Nat) = 2 + 1072 by norm_num, pow_add]
    norm_num
  unfold F64.add
  rw [← Nat.cast_add]
  by_cases hK : K = 0
  · subst hK
    by_cases hA : A = 0
    · subst hA
      simp only [quarter_sum, Nat.zero_mul, Nat.add_zero, if_true]
      exact quarter_fraction_round j hj
    · by_cases hA1 : A = 1
      · subst hA1
        simp only [quarter_sum, Nat.zero_add, if_true]
        rw [if_neg (by norm_num)]
        exact quarter_fraction_one j hj
      · obtain ⟨δ, hδ, hδ2⟩ := quarter_fraction_split j hj
        have hr := roundNat_absorb A j δ (by omega) (by omega) hj hδ2
        have hsum : quarter_sum j 0 + A * F64.scale = A * 2 ^ 1074 + j * 2 ^ 1072 + δ := by
          simp only [quarter_sum, if_true, hδ]
          unfold F64.scale
          ring
        have hres : quarter_sum j (0 + A) = A * 2 ^ 1074 + j * 2 ^ 1072 := by
          simp only [quarter_sum, Nat.zero_add, if_neg hA]
          rfl
        rw [hsum, hres, F64.round_natCast _ _ (by
          rw [hr]
          have := quarter_bound A j (by omega) hj
          unfold F64.scale at this
          exact this), hr]
  · have hsum : quarter_sum j K + A * F64.scale = (4 * (K + A) + j) * 2 ^ 1072 := by
      simp only [quarter_sum, if_neg hK]
      rw [e1]
      ring
    have hres : quarter_sum j (K + A) = (4 * (K + A) + j) * 2 ^ 1072 := by
      simp only [quarter_sum, if_neg (by omega : ¬ (K + A = 0))]
      rw [e1]
      ring
    rw [hsum, hres]
    exact F64.round_exact _ 1072 (by
      have : (2 : Nat) ^ 33 < 2 ^ 53 := Nat.pow_lt_pow_right (by norm_num) (by norm_num)
      omega) (by norm_num)

theorem fmt_02d_quarter_length (j : Nat) (hj : j < 4) :
    (fmt_02d ((25 * j : Nat) : Int)).length = 2 := by
  interval_cases j <;> decide

/-- The sum that `try_parse_timestamp` forms from the printed fields of `n + j/4` seconds. -/
theorem timestamp_value_quarters (j ss mm : Nat) (hour : Option Nat) (hj : j < 4)
    (hsum : ss + mm * 60 + hour.getD 0 * 3600 < 2 ^ 31) :
    timestamp_value 2 (25 * j) ss mm hour
      = ((quarter_sum j (ss + mm * 60 + hour.getD 0 * 3600) : Nat) : Int) := by
  have h53 : (2 : Nat) ^ 31 < 2 ^ 53 := Nat.pow_lt_pow_right (by norm_num) (by norm_num)
  have hss : F64.ofInt (Int.ofNat ss) = ((ss * F64.scale : Nat) : Int) :=
    F64.ofInt_natCast ss (by omega)
  have hmm : F64.mul (F64.ofInt (Int.ofNat mm)) (F64.ofInt 60)
      = ((mm * 60 * F64.scale : Nat) : Int) := by
    have h60 : F64.ofInt 60 = ((60 * F64.scale : Nat) : Int) :=
      F64.ofInt_natCast 60 (by norm_num)
    rw [F64.ofInt_natCast mm (by omega), h60]
    exact F64.mul_whole mm 60 (by omega)
  have hX1 := add_quarter_sum j 0 ss hj (by omega)
  have hX2 := add_quarter_sum j (0 + ss) (mm * 60) hj (by omega)
  have hq0 : ((quarter_fraction j : Nat) : Int) = ((quarter_sum j 0 : Nat) : Int) := by
    simp [quarter_sum]
  cases hour with
  | none =>
    unfold timestamp_value
    simp only [Option.getD_none, Nat.zero_mul, Nat.add_zero]
    rw [quarter_subsec j hj, hss, hmm, hq0, hX1, hX2, Nat.zero_add]
  | some hh =>
    have hhh : F64.mul (F64.ofInt (Int.ofNat hh)) (F64.ofInt 3600)
        = ((hh * 3600 * F64.scale : Nat) : Int) := by
      have h3600 : F64.ofInt 3600 = ((3600 * F64.scale : Nat) : Int) :=
        F64.ofInt_natCast 3600 (by norm_num)
      simp only [Option.getD_some] at hsum
      rw [F64.ofInt_natCast hh (by omega), h3600]
      exact F64.mul_whole hh 3600 (by omega)
    simp only [Option.getD_some] at hsum ⊢
    have hX3 := add_quarter_sum j (0 + ss + mm * 60) (hh * 3600) hj (by omega)
    unfold timestamp_value
    simp only []
    rw [quarter_subsec j hj, hss, hmm, hhh, hq0, hX1, hX2, hX3, Nat.zero_add]

theorem scale_eq : F64.scale = 4 * 2 ^ 1072 := by
  unfold F64.scale
  rw [show (1074 : Nat) = 2 + 1072 by norm_num, pow_add]
  norm_num

/-- A natural number of units `T` with `100 * T` a multiple of `4 * P`, `P` coprime to 25,
is a multiple of `P`. -/
theorem multiple_of_quarter (T P : Nat) (hcop : Nat.Coprime P 25) (hdvd : 4 * P ∣ 100 * T) :
    ∃ m, T = P * m := by
  have h1 : 4 * P ∣ 4 * (25 * T) := by
    have e : 4 * (25 * T) = 100 * T := by ring
    rw [e]
    exact hdvd
  have h2 : P ∣ 25 * T := (Nat.mul_dvd_mul_iff_left (by norm_num)).mp h1
  exact hcop.dvd_of_dvd_mul_left h2

/-- A non-negative exact multiple of 0.01 below `2^31` seconds has the form `n + j/4`. -/
theorem multiple_of_centisecond (t : Double) (h0 : 0 ≤ t)
    (hmult : (Int.ofNat F64.scale) ∣ 100 * t) (hint : t < 2 ^ 31 * Int.ofNat F64.scale) :
    ∃ n j : Nat, n < 2 ^ 31 ∧ j < 4 ∧ t = (((4 * n + j) * 2 ^ 1072 : Nat) : Int) := by
  obtain ⟨T, hT⟩ := Int.eq_ofNat_of_zero_le h0
  subst hT
  have hcop : Nat.Coprime (2 ^ 1072) 25 := Nat.Coprime.pow_left _ (by decide)
  have hdvd : F64.scale ∣ 100 * T := by
    have h1 : ((F64.scale : Nat) : Int) ∣ ((100 * T : Nat) : Int) := by
      rw [Nat.cast_mul]
      exact hmult
    exact Int.natCast_dvd_natCast.mp h1
  rw [scale_eq] at hdvd
  obtain ⟨m, hm⟩ := multiple_of_quarter T (2 ^ 1072) hcop hdvd
  have hT2 : T < 2 ^ 31 * F64.scale := by
    have h1 : ((T : Nat) : Int) < ((2 ^ 31 * F64.scale : Nat) : Int) := by
      rw [Nat.cast_mul]
      exact hint
    exact Int.ofNat_lt.mp h1
  have hmlt : m < 2 ^ 33 := by
    rw [hm, scale_eq] at hT2
    have e : 2 ^ 31 * (4 * 2 ^ 1072) = 2 ^ 1072 * 2 ^ 33 := by
      rw [show (2 : Nat) ^ 33 = 2 ^ 31 * 4 by norm_num]
      rw [Nat.mul_comm (2 ^ 1072) (2 ^ 31 * 4), Nat.mul_assoc]
    rw [e] at hT2
    exact Nat.lt_of_mul_lt_mul_left hT2
  have hn : m / 4 < 2 ^ 31 := by
    clear hdvd hT2 hm hint hmult h0 hcop
    omega
  refine ⟨m / 4, m % 4, hn, Nat.mod_lt _ (by norm_num), ?_⟩
  rw [hm, Nat.div_add_mod m 4, Nat.mul_comm]


/-! ## The fields of `print_timestamp` -/

theorem roundHalfEven_le_of_le (n D M : Nat) (hD : 0 < D) (h : n ≤ M * D) :
    F64.roundHalfEven n D ≤ M := by
  rcases Nat.eq_or_lt_of_le h with he | hlt
  · rw [he, F64.roundHalfEven_of_dvd M D hD]
  · have h1 : n / D < M := Nat.div_lt_of_lt_mul (by rw [Nat.mul_comm]; exact hlt)
    have h2 := F64.roundHalfEven_le n D
    omega

/-- Rounding to binary64 does not go past a binary64 value above. -/
theorem roundNat_le (n d m e : Nat) (hd : 0 < d) (hm : m < 2 ^ 53) (h : n ≤ m * 2 ^ e * d) :
    F64.roundNat n d ≤ m * 2 ^ e := by
  have hq : n / d ≤ m * 2 ^ e := by
    calc n / d ≤ m * 2 ^ e * d / d := Nat.div_le_div_right h
      _ = m * 2 ^ e := Nat.mul_div_cancel _ hd
  have hlt : n / d < 2 ^ (53 + e) := by
    rw [pow_add]
    exact lt_of_le_of_lt hq (Nat.mul_lt_mul_of_pos_right hm (by positivity))
  have hb := F64.bitlen_le_of_lt _ _ hlt
  obtain ⟨k, hk⟩ : ∃ k, e = (F64.bitlen (n / d) - 53) + k := ⟨e - (F64.bitlen (n / d) - 53), by omega⟩
  unfold F64.roundNat
  generalize F64.bitlen (n / d) - 53 = s at hk
  subst hk
  have hn : n ≤ (m * 2 ^ k) * (d * 2 ^ s) := by
    calc n ≤ m * 2 ^ (s + k) * d := h
      _ = (m * 2 ^ k) * (d * 2 ^ s) := by rw [pow_add]; ring
  have h1 := roundHalfEven_le_of_le n (d * 2 ^ s) (m * 2 ^ k) (by positivity) hn
  calc F64.roundHalfEven n (d * 2 ^ s) * 2 ^ s ≤ (m * 2 ^ k) * 2 ^ s := Nat.mul_le_mul_right _ h1
    _ = m * 2 ^ (s + k) := by rw [pow_add]; ring


theorem scale_pos : 0 < F64.scale := by unfold F64.scale; positivity

theorem floor_natCast (T : Nat) :
    F64.floor (T : Int) = ((T / F64.scale * F64.scale : Nat) : Int) := by
  unfold F64.floor
  simp only [Int.ofNat_eq_coe]
  rw [← Int.natCast_div, ← Nat.cast_mul]

theorem sub_floor (T : Nat) :
    F64.sub (T : Int) (F64.floor (T : Int)) = ((F64.roundNat (T % F64.scale) 1 : Nat) : Int) ∧
      F64.roundNat (T % F64.scale) 1 ≤ F64.scale := by
  have hle : F64.roundNat (T % F64.scale) 1 ≤ 2 ^ 1074 := by
    apply F64.roundNat_le_pow _ _ _ (by norm_num) (by norm_num) (by norm_num)
    rw [Nat.mul_one]
    exact le_of_lt (Nat.mod_lt _ scale_pos)
  refine ⟨?_, hle⟩
  rw [floor_natCast]
  unfold F64.sub
  have e : (T : Int) - ((T / F64.scale * F64.scale : Nat) : Int) = ((T % F64.scale : Nat) : Int) := by
    have := Nat.div_add_mod' T F64.scale
    omega
  rw [e]
  exact F64.round_natCast _ _ (le_trans hle (Nat.pow_le_pow_right (by norm_num) (by norm_num)))

theorem centisecond_product_natCast (T : Nat) :
    ∃ p : Nat, centisecond_product (T : Int) = (p : Int) ∧ p ≤ 100 * F64.scale := by
  obtain ⟨hx, hxle⟩ := sub_floor T
  have e100 : 25 * 2 ^ 1076 = 100 * F64.scale := by
    unfold F64.scale
    rw [show (1076 : Nat) = 2 + 1074 by norm_num, pow_add]
    norm_num
  have hp : F64.roundNat (F64.roundNat (T % F64.scale) 1 * 100) 1 ≤ 100 * F64.scale := by
    rw [← e100]
    apply roundNat_le _ _ _ _ (by norm_num) (by norm_num)
    rw [Nat.mul_one, e100]
    calc F64.roundNat (T % F64.scale) 1 * 100 ≤ F64.scale * 100 := Nat.mul_le_mul_right _ hxle
      _ = 100 * F64.scale := Nat.mul_comm _ _
  refine ⟨F64.roundNat (F64.roundNat (T % F64.scale) 1 * 100) 1, ?_, hp⟩
  unfold centisecond_product
  rw [hx]
  have h100 : F64.ofInt 100 = ((100 * F64.scale : Nat) : Int) := F64.ofInt_natCast 100 (by norm_num)
  rw [h100]
  unfold F64.mul
  rw [← Nat.cast_mul]
  have e : F64.roundNat (T % F64.scale) 1 * (100 * F64.scale) =
      (F64.roundNat (T % F64.scale) 1 * 100) * F64.scale := by ring
  rw [e]
  have hr := F64.roundNat_mul_self (F64.roundNat (T % F64.scale) 1 * 100) F64.scale scale_pos
  have hbig : 100 * F64.scale ≤ 2 ^ 2097 := by
    rw [← e100]
    calc 25 * 2 ^ 1076 ≤ 2 ^ 5 * 2 ^ 1076 := Nat.mul_le_mul_right _ (by norm_num)
      _ = 2 ^ 1081 := by rw [← pow_add]
      _ ≤ 2 ^ 2097 := Nat.pow_le_pow_right (by norm_num) (by norm_num)
  rw [F64.round_natCast _ _ (by rw [hr]; exact le_trans hp hbig), hr]

theorem rounded_centiseconds_natCast (T : Nat) :
    ∃ k : Nat, k ≤ 100 ∧ rounded_centiseconds (T : Int) = (k : Int) ∧
      F64.toInt32 (F64.roundAway (centisecond_product (T : Int))) = (k : Int) := by
  obtain ⟨p, hp, hple⟩ := centisecond_product_natCast T
  have hS := scale_pos
  have hk : (2 * p + F64.scale) / (2 * F64.scale) ≤ 100 := by
    apply Nat.le_of_lt_succ
    rw [Nat.div_lt_iff_lt_mul (by omega)]
    omega
  have hcast : (2 * (p : Int) + (F64.scale : Int)) / (2 * (F64.scale : Int)) =
      (((2 * p + F64.scale) / (2 * F64.scale) : Nat) : Int) := by
    push_cast
    rfl
  refine ⟨(2 * p + F64.scale) / (2 * F64.scale), hk, ?_, ?_⟩
  · unfold rounded_centiseconds
    rw [hp]
    simp only [Int.ofNat_eq_coe]
    exact hcast
  · rw [hp]
    unfold F64.roundAway
    rw [if_neg (by simp)]
    simp only [Int.ofNat_eq_coe]
    rw [hcast, ← Nat.cast_mul]
    exact toInt32_whole _ (by omega)


theorem print_timestamp_fields_congr (a b c d a2 b2 c2 d2 : Int) (h1 : a = a2) (h2 : b = b2)
    (h3 : c = c2) (h4 : d = d2) :
    print_timestamp_fields a b c d = print_timestamp_fields a2 b2 c2 d2 := by
  rw [h1, h2, h3, h4]

/-- The text of `print_timestamp` for a non-negative value of whole seconds below `2^31`. -/
theorem print_timestamp_body_fields (T : Nat) (hint : T < 2 ^ 31 * F64.scale) :
    print_timestamp_body (T : Int) =
      centisecond_fields (((T / F64.scale : Nat) : Int) * 100 + rounded_centiseconds (T : Int)) := by
  obtain ⟨k, hk, hk2, hk3⟩ := rounded_centiseconds_natCast T
  have hn : T / F64.scale < 2 ^ 31 := Nat.div_lt_of_lt_mul (by rw [Nat.mul_comm]; exact hint)
  have hc : F64.toInt32 (F64.roundAway (F64.mul (F64.sub (T : Int) (F64.floor (T : Int)))
      (F64.ofInt 100))) = (k : Int) := hk3
  have hfl : F64.toInt32 (F64.floor (T : Int)) = ((T / F64.scale : Nat) : Int) := by
    rw [floor_natCast]
    exact toInt32_whole _ hn
  unfold print_timestamp_body
  simp only []
  rw [hc, hfl, hk2]
  unfold centisecond_fields
  generalize T / F64.scale = n at hn
  have hh : Int.tdiv (n : Int) 3600 = ((n / 3600 : Nat) : Int) := tdiv_natCast n 3600
  have hm : Int.tdiv ((n : Int) - 3600 * ((n / 3600 : Nat) : Int)) 60
      = ((n % 3600 / 60 : Nat) : Int) := by
    have : (n : Int) - 3600 * ((n / 3600 : Nat) : Int) = ((n % 3600 : Nat) : Int) := by
      omega
    rw [this]
    exact tdiv_natCast _ 60
  have hsec : (n : Int) - ((n / 3600 : Nat) : Int) * 3600 - ((n % 3600 / 60 : Nat) : Int) * 60
      = ((n % 60 : Nat) : Int) := by
    omega
  rw [hh, hm, hsec]
  by_cases h100 : (k : Int) = 100
  · rw [if_pos h100]
    by_cases hs : ((n % 60 : Nat) : Int) + 1 = 60
    · rw [if_pos hs]
      by_cases hmin : ((n % 3600 / 60 : Nat) : Int) + 1 = 60
      · rw [if_pos hmin]
        apply print_timestamp_fields_congr <;> omega
      · rw [if_neg hmin]
        apply print_timestamp_fields_congr <;> omega
    · rw [if_neg hs]
      apply print_timestamp_fields_congr <;> omega
  · rw [if_neg h100]
    apply print_timestamp_fields_congr <;> omega


/-! ## Timestamps at the head of a line -/

theorem try_parse_timestamp_brackets (tag : Str) (t : Double)
    (h : try_parse_timestamp tag = some t) :
    tag.getD 0 ' ' = '[' ∧ tag.getD (tag.length - 1) ' ' = ']' := by
  unfold try_parse_timestamp at h
  split at h
  · simp at h
  · rename_i hb
    push_neg at hb
    exact hb

theorem try_parse_timestamp_last (tag : Str) (t : Double)
    (h : try_parse_timestamp tag = some t) : ∃ front, tag = front ++ [']'] := by
  have hb := (try_parse_timestamp_brackets tag t h).2
  rcases List.eq_nil_or_concat tag with h0 | ⟨front, z, hz⟩
  · subst h0
    simp at hb
  · rw [List.concat_eq_append] at hz
    subst hz
    rw [getD_last_append] at hb
    exact ⟨front, by rw [hb]⟩

/-- What `parse_time_from_line` returns on a line that begins with a bracketed chunk
`[body]` (`body` free of `]`): the outcome of `try_parse_timestamp` on that chunk. -/
theorem parse_time_from_line_chunk (body rest : Str) (hb : ']' ∉ body) :
    parse_time_from_line ('[' :: (body ++ ']' :: rest)) =
      match try_parse_timestamp ('[' :: (body ++ [']'])) with
      | some timestamp => ⟨true, timestamp, body.length + 2⟩
      | none => ⟨false, 0, 0⟩ := by
  have hfind : find ('[' :: (body ++ ']' :: rest)) ']' 0 = some (body.length + 1) := by
    rw [find_zero_some]
    refine ⟨'[' :: body, rest, by simp, ?_, by simp⟩
    simp only [List.mem_cons, not_or]
    exact ⟨by decide, hb⟩
  have hclose : close_index ('[' :: (body ++ ']' :: rest)) = body.length + 1 := by
    unfold close_index
    rw [hfind]
    simp
  have hsub : substr ('[' :: (body ++ ']' :: rest)) 0 (body.length + 1 + 1)
      = '[' :: (body ++ [']']) := by
    simp [substr, List.take_append_eq_append_take]
  unfold parse_time_from_line
  rw [if_pos (by simp), if_neg (by simp), hclose, hsub]

/-- A line that does not begin with an accepted timestamp chunk: `parse_time_from_line`
fails on it and consumes nothing. -/
theorem parse_time_from_line_failure (line : Str) :
    (parse_time_from_line line).success = false →
      parse_time_from_line line = ⟨false, 0, 0⟩ := by
  intro h
  unfold parse_time_from_line at h ⊢
  by_cases hl : 0 < line.length
  · rw [if_pos hl] at h ⊢
    by_cases hf : line.getD 0 ' ' ≠ '['
    · rw [if_pos hf]
    · rw [if_neg hf] at h ⊢
      cases ht : try_parse_timestamp (substr line 0 (close_index line + 1)) with
      | none => rfl
      | some t =>
        rw [ht] at h
        simp at h
  · rw [if_neg hl]

theorem parse_time_from_line_success (line : Str)
    (h : (parse_time_from_line line).success = true) :
    ∃ body rest t, line = '[' :: (body ++ ']' :: rest) ∧ ']' ∉ body ∧
      try_parse_timestamp ('[' :: (body ++ [']'])) = some t := by
  unfold parse_time_from_line at h
  split at h
  · split at h
    · simp at h
    · rename_i hlen hfirst
      split at h
      · rename_i t ht
        -- the chunk ends with the closing bracket, so one was found
        obtain ⟨front, hfront⟩ := try_parse_timestamp_last _ t ht
        have hmem : ']' ∈ line := by
          have : ']' ∈ substr line 0 (close_index line + 1) := by rw [hfront]; simp
          unfold substr at this
          exact List.mem_of_mem_drop (List.mem_of_mem_take this)
        obtain ⟨pre, post, hs, hn, hi⟩ := indexOf_split ']' line hmem
        cases pre with
        | nil =>
          subst hs
          simp at hfirst
        | cons a body =>
          have ha : a = '[' := by
            subst hs
            simpa using hfirst
          subst ha
          refine ⟨body, post, t, by simpa using hs,
            fun hh => hn (List.mem_cons_of_mem _ hh), ?_⟩
          have hs2 : line = '[' :: (body ++ ']' :: post) := by simpa using hs
          have hfind : find line ']' 0 = some (body.length + 1) := by
            rw [find_zero_some]
            exact ⟨'[' :: body, post, hs, hn, by simp⟩
          have hclose : close_index line = body.length + 1 := by
            unfold close_index
            rw [hfind, hs2]
            simp
          have hsub : substr line 0 (body.length + 1 + 1) = '[' :: (body ++ [']']) := by
            rw [hs2]
            simp [substr, List.take_append_eq_append_take]
          rw [hclose, hsub] at ht
          exact ht
      · simp at h
  · simp at h

theorem starts_with_tag_iff (s : Str) :
    starts_with_tag s ↔ (parse_time_from_line s).success = true := by
  constructor
  · rintro ⟨tag, t, rest, hs, body, htag, hb, ht⟩
    subst hs
    subst htag
    have h := parse_time_from_line_chunk body rest hb
    simp only [List.cons_append, List.append_assoc, List.singleton_append, List.nil_append]
    rw [h, ht]
  · intro h
    obtain ⟨body, rest, t, hs, hb, ht⟩ := parse_time_from_line_success s h
    exact ⟨'[' :: (body ++ [']']), t, rest, by simp [hs], body, rfl, hb, ht⟩

theorem parse_time_from_line_tag (tag rest : Str) (t : Double) (h : well_formed_tag tag t) :
    parse_time_from_line (tag ++ rest) = ⟨true, t, tag.length⟩ := by
  obtain ⟨body, htag, hb, ht⟩ := h
  have h2 := parse_time_from_line_chunk body rest hb
  subst htag
  simp only [List.cons_append, List.append_assoc, List.singleton_append, List.nil_append]
  rw [h2, ht]
  simp

/-- The loop of `parse_line_times` on a run of well-formed tags followed by a remainder that
starts with no tag: the values of the tags in written order, and the remainder. -/
theorem parse_line_times_loop_tags (r : Str) (hr : ¬ starts_with_tag r) :
    ∀ (tags : List (Str × Double)) (fuel : Nat) (acc : List Double),
      (∀ p ∈ tags, well_formed_tag p.1 p.2) → tags.length < fuel →
      parse_line_times_loop fuel ((tags.map Prod.fst).flatten ++ r) acc
        = ⟨acc ++ tags.map Prod.snd, r⟩ := by
  have hfail : parse_time_from_line r = ⟨false, 0, 0⟩ := by
    apply parse_time_from_line_failure
    rw [starts_with_tag_iff] at hr
    simpa using hr
  intro tags
  induction tags with
  | nil =>
    intro fuel acc _ hf
    cases fuel with
    | zero => omega
    | succ f =>
      simp only [List.map_nil, List.flatten_nil, List.nil_append, List.append_nil]
      unfold parse_line_times_loop
      rw [hfail]
      simp
  | cons p tags ih =>
    intro fuel acc hwf hf
    cases fuel with
    | zero => omega
    | succ f =>
      have hp := parse_time_from_line_tag p.1 ((tags.map Prod.fst).flatten ++ r) p.2
        (hwf p (List.mem_cons_self _ _))
      simp only [List.map_cons, List.flatten_cons, List.append_assoc]
      unfold parse_line_times_loop
      rw [hp]
      simp only [if_true, List.drop_left]
      rw [ih f _ (fun q hq => hwf q (List.mem_cons_of_mem _ hq)) (by simpa using hf)]
      simp

theorem well_formed_tag_length (tag : Str) (t : Double) (h : well_formed_tag tag t) :
    1 ≤ tag.length := by
  obtain ⟨body, htag, _, _⟩ := h
  subst htag
  simp

theorem tags_length_le (tags : List (Str × Double))
    (hwf : ∀ p ∈ tags, well_formed_tag p.1 p.2) :
    tags.length ≤ ((tags.map Prod.fst).flatten).length := by
  induction tags with
  | nil => simp
  | cons p tags ih =>
    have h1 := well_formed_tag_length p.1 p.2 (hwf p (List.mem_cons_self _ _))
    have h2 := ih (fun q hq => hwf q (List.mem_cons_of_mem _ hq))
    simp only [List.map_cons, List.flatten_cons, List.length_append, List.length_cons]
    omega

theorem parse_line_times_tags (tags : List (Str × Double)) (r : Str)
    (hwf : ∀ p ∈ tags, well_formed_tag p.1 p.2) (hr : ¬ starts_with_tag r) :
    parse_line_times ((tags.map Prod.fst).flatten ++ r) = ⟨tags.map Prod.snd, r⟩ := by
  unfold parse_line_times
  have h := parse_line_times_loop_tags r hr tags
    (((tags.map Prod.fst).flatten ++ r).length + 1) [] hwf
    (by have := tags_length_le tags hwf; simp only [List.length_append]; omega)
  simpa using h

/-! ## Physical lines -/

theorem skip_line_end_length (s : Str) : (skip_line_end s).length ≤ s.length - 1 := by
  unfold skip_line_end
  split
  · simp
  · simp

theorem next_line_start_length (text : Str) (h : text ≠ []) :
    (skip_line_end (text.dropWhile (fun c => !is_line_end c))).length < text.length := by
  have h1 := skip_line_end_length (text.dropWhile (fun c => !is_line_end c))
  have h2 := (List.dropWhile_suffix (l := text) (fun c => !is_line_end c)).length_le
  have h3 : 0 < text.length := List.length_pos.mpr h
  omega

theorem physical_lines_loop_fuel :
    ∀ (fuel1 fuel2 : Nat) (text : Str), text.length ≤ fuel1 → text.length ≤ fuel2 →
      physical_lines_loop fuel1 text = physical_lines_loop fuel2 text := by
  intro fuel1
  induction fuel1 with
  | zero =>
    intro fuel2 text h1 _
    have h0 : text = [] := List.length_eq_zero.mp (by omega)
    subst h0
    cases fuel2 <;> simp [physical_lines_loop]
  | succ f ih =>
    intro fuel2 text h1 h2
    by_cases h0 : text = []
    · subst h0
      cases fuel2 <;> simp [physical_lines_loop]
    · have hpos : 0 < text.length := List.length_pos.mpr h0
      cases fuel2 with
      | zero => omega
      | succ g =>
        have hn := next_line_start_length text h0
        unfold physical_lines_loop
        rw [if_neg (by omega), if_neg (by omega)]
        rw [ih g _ (by omega) (by omega)]

theorem physical_lines_nil : physical_lines [] = [] := by
  simp [physical_lines, physical_lines_loop]

theorem physical_lines_unfold (text : Str) (h : text ≠ []) :
    physical_lines text = text.takeWhile (fun c => !is_line_end c) ::
      physical_lines (skip_line_end (text.dropWhile (fun c => !is_line_end c))) := by
  have hpos : 0 < text.length := List.length_pos.mpr h
  have hn := next_line_start_length text h
  unfold physical_lines
  obtain ⟨f, hf⟩ : ∃ f, text.length = f + 1 := ⟨text.length - 1, by omega⟩
  rw [hf]
  conv_lhs => unfold physical_lines_loop
  rw [if_neg (by omega)]
  rw [physical_lines_loop_fuel f _ _ (by omega) (le_refl _)]

/-- A physical line followed by its terminator: the scan yields the line and goes on behind
the terminator. -/
theorem physical_lines_append (l rest : Str) (c : Char) (hl : ∀ x ∈ l, is_line_end x = false)
    (hc : is_line_end c = true) :
    physical_lines (l ++ c :: rest) = l :: physical_lines (skip_line_end (c :: rest)) := by
  rw [physical_lines_unfold _ (by simp)]
  have hp : ∀ x ∈ l, (fun c => !is_line_end c) x = true := by
    intro x hx
    simp [hl x hx]
  rw [List.takeWhile_append_of_pos hp, List.dropWhile_append_of_pos hp,
    List.takeWhile_cons_of_neg (by simp [hc]), List.dropWhile_cons_of_neg (by simp [hc])]
  simp

/-- A non-empty text without a line end is one physical line. -/
theorem physical_lines_single (l : Str) (h : l ≠ []) (hl : ∀ x ∈ l, is_line_end x = false) :
    physical_lines l = [l] := by
  rw [physical_lines_unfold _ h]
  have hp : ∀ x ∈ l, (fun c => !is_line_end c) x = true := by
    intro x hx
    simp [hl x hx]
  rw [List.takeWhile_eq_self_iff.mpr hp, List.dropWhile_eq_nil_iff.mpr hp]
  simp [skip_line_end, physical_lines_nil]

/-! ## Collapsing concurrent lines -/

theorem collapse_from_nil (cur : LyricDataLine) :
    collapse_from concurrent_reducer cur [] = [cur] := rfl

theorem collapse_from_keep (cur x : LyricDataLine) (rest : List LyricDataLine)
    (h : cur.timestamp = F64.DBL_MAX ∨ cur.timestamp ≠ x.timestamp) :
    collapse_from concurrent_reducer cur (x :: rest)
      = cur :: collapse_from concurrent_reducer x rest := by
  simp only [collapse_from, concurrent_reducer, if_pos h]

theorem collapse_from_merge (cur x : LyricDataLine) (rest : List LyricDataLine)
    (h1 : cur.timestamp ≠ F64.DBL_MAX) (h2 : cur.timestamp = x.timestamp) :
    collapse_from concurrent_reducer cur (x :: rest)
      = collapse_from concurrent_reducer ⟨cur.text ++ '\n' :: x.text, cur.timestamp⟩ rest := by
  have h : ¬ (cur.timestamp = F64.DBL_MAX ∨ cur.timestamp ≠ x.timestamp) := by
    push_neg
    exact ⟨h1, h2⟩
  simp only [collapse_from, concurrent_reducer, if_neg h]

/-- Collapsing invents no timestamp. -/
theorem collapse_from_timestamp_mem (rest : List LyricDataLine) :
    ∀ (cur y : LyricDataLine), y ∈ collapse_from concurrent_reducer cur rest →
      ∃ x ∈ cur :: rest, y.timestamp = x.timestamp := by
  induction rest with
  | nil =>
    intro cur y hy
    rw [collapse_from_nil] at hy
    exact ⟨cur, by simp, by simp [List.mem_singleton.mp hy]⟩
  | cons x rest ih =>
    intro cur y hy
    by_cases h : cur.timestamp = F64.DBL_MAX ∨ cur.timestamp ≠ x.timestamp
    · rw [collapse_from_keep cur x rest h] at hy
      rcases List.mem_cons.mp hy with h1 | h1
      · exact ⟨cur, by simp, by rw [h1]⟩
      · obtain ⟨z, hz, hzt⟩ := ih x y h1
        exact ⟨z, List.mem_cons_of_mem _ hz, hzt⟩
    · push_neg at h
      rw [collapse_from_merge cur x rest h.1 h.2] at hy
      obtain ⟨z, hz, hzt⟩ := ih _ y hy
      rcases List.mem_cons.mp hz with h1 | h1
      · exact ⟨cur, by simp, by rw [hzt, h1]⟩
      · exact ⟨z, by simp [h1], hzt⟩

/-- An untimed line goes through the collapse unchanged. -/
theorem collapse_from_untimed_mem (rest : List LyricDataLine) :
    ∀ (cur y : LyricDataLine), y ∈ cur :: rest → y.timestamp = F64.DBL_MAX →
      y ∈ collapse_from concurrent_reducer cur rest := by
  induction rest with
  | nil =>
    intro cur y hy _
    rw [collapse_from_nil]
    exact hy
  | cons x rest ih =>
    intro cur y hy hmax
    by_cases h : cur.timestamp = F64.DBL_MAX ∨ cur.timestamp ≠ x.timestamp
    · rw [collapse_from_keep cur x rest h]
      rcases List.mem_cons.mp hy with h1 | h1
      · simp [h1]
      · exact List.mem_cons_of_mem _ (ih x y h1 hmax)
    · push_neg at h
      rw [collapse_from_merge cur x rest h.1 h.2]
      apply ih _ y _ hmax
      rcases List.mem_cons.mp hy with h1 | h1
      · exact absurd (h1 ▸ hmax) h.1
      · rcases List.mem_cons.mp h1 with h2 | h2
        · exact absurd (h.2.trans (h2 ▸ hmax)) h.1
        · exact List.mem_cons_of_mem _ h2

/-- Lines whose neighbours never share a timed timestamp are left as they are. -/
theorem collapse_from_distinct (rest : List LyricDataLine) :
    ∀ cur : LyricDataLine,
      List.Chain (fun a b => a.timestamp = F64.DBL_MAX ∨ a.timestamp ≠ b.timestamp) cur rest →
      collapse_from concurrent_reducer cur rest = cur :: rest := by
  induction rest with
  | nil => intro cur _; rfl
  | cons x rest ih =>
    intro cur hc
    rw [List.chain_cons] at hc
    rw [collapse_from_keep cur x rest hc.1, ih x hc.2]

theorem intercalate_merge (a b : Str) (ys : List Str) :
    ['\n'].intercalate ((a ++ '\n' :: b) :: ys) = ['\n'].intercalate (a :: b :: ys) := by
  cases ys <;> simp [List.intercalate, List.intersperse]

/-- In a list sorted by timestamp, the lines of one timed timestamp `t` collapse into one
line: their texts joined by line feeds, in the order of the list. -/
theorem collapse_from_filter (t : Double) (ht : t ≠ F64.DBL_MAX) (rest : List LyricDataLine) :
    ∀ cur : LyricDataLine, List.Sorted timestamp_le (cur :: rest) →
      (collapse_from concurrent_reducer cur rest).filter (fun l => decide (l.timestamp = t)) =
        if cur.timestamp = t then
          [⟨['\n'].intercalate
            (cur.text :: (rest.filter (fun l => decide (l.timestamp = t))).map (·.text)), t⟩]
        else if rest.filter (fun l => decide (l.timestamp = t)) = [] then []
        else
          [⟨['\n'].intercalate ((rest.filter (fun l => decide (l.timestamp = t))).map (·.text)),
            t⟩] := by
  induction rest with
  | nil =>
    intro cur _
    rw [collapse_from_nil]
    by_cases hc : cur.timestamp = t
    · subst hc
      simp [List.intercalate]
    · simp [hc]
  | cons x rest ih =>
    intro cur hs
    have hs2 : List.Sorted timestamp_le (x :: rest) := (List.sorted_cons.mp hs).2
    have hcx : cur.timestamp ≤ x.timestamp := (List.sorted_cons.mp hs).1 x (by simp)
    by_cases h : cur.timestamp = F64.DBL_MAX ∨ cur.timestamp ≠ x.timestamp
    · rw [collapse_from_keep cur x rest h, List.filter_cons, ih x hs2]
      by_cases hc : cur.timestamp = t
      · -- every later line is later than `t`
        have hne : cur.timestamp ≠ x.timestamp := by
          rcases h with h | h
          · exact absurd (hc ▸ h) ht
          · exact h
        have hlt : t < x.timestamp := by
          rw [← hc]
          exact lt_of_le_of_ne hcx hne
        have hxt : x.timestamp ≠ t := ne_of_gt hlt
        have hrest : rest.filter (fun l => decide (l.timestamp = t)) = [] := by
          rw [List.filter_eq_nil_iff]
          intro y hy
          have : x.timestamp ≤ y.timestamp := (List.sorted_cons.mp hs2).1 y hy
          simp only [decide_eq_true_eq]
          exact ne_of_gt (lt_of_lt_of_le hlt this)
        simp [hc, hxt, hrest, List.intercalate]
        rw [← hc]
      · by_cases hx : x.timestamp = t
        · simp [hc, hx]
        · simp [hc, hx]
    · push_neg at h
      have hs3 : List.Sorted timestamp_le
          ((⟨cur.text ++ '\n' :: x.text, cur.timestamp⟩ : LyricDataLine) :: rest) := by
        rw [List.sorted_cons]
        refine ⟨?_, (List.sorted_cons.mp hs2).2⟩
        intro y hy
        exact (List.sorted_cons.mp hs).1 y (List.mem_cons_of_mem _ hy)
      rw [collapse_from_merge cur x rest h.1 h.2, ih _ hs3]
      by_cases hc : cur.timestamp = t
      · have hx : x.timestamp = t := h.2 ▸ hc
        simp only [hc, if_true, List.filter_cons, hx, decide_True, List.map_cons]
        rw [intercalate_merge]
      · have hx : x.timestamp ≠ t := fun hh => hc (h.2.trans hh)
        simp [hc, hx]

/-- After the collapse of a list sorted by timestamp (all values at most `DBL_MAX`), a timed
line is preceded only by timed lines of strictly smaller timestamps. -/
theorem collapse_from_sorted (rest : List LyricDataLine) :
    ∀ cur : LyricDataLine, List.Sorted timestamp_le (cur :: rest) →
      (∀ x ∈ cur :: rest, x.timestamp ≤ F64.DBL_MAX) →
      (collapse_from concurrent_reducer cur rest).Pairwise
          (fun a b => b.timestamp ≠ F64.DBL_MAX →
            a.timestamp ≠ F64.DBL_MAX ∧ a.timestamp < b.timestamp) ∧
        ∀ y ∈ collapse_from concurrent_reducer cur rest,
          cur.timestamp ≤ y.timestamp ∧ y.timestamp ≤ F64.DBL_MAX := by
  induction rest with
  | nil =>
    intro cur _ hmax
    rw [collapse_from_nil]
    refine ⟨List.pairwise_singleton _ _, ?_⟩
    intro y hy
    rw [List.mem_singleton.mp hy]
    exact ⟨le_refl _, hmax cur (by simp)⟩
  | cons x rest ih =>
    intro cur hs hmax
    have hs2 : List.Sorted timestamp_le (x :: rest) := (List.sorted_cons.mp hs).2
    have hcx : cur.timestamp ≤ x.timestamp := (List.sorted_cons.mp hs).1 x (by simp)
    by_cases h : cur.timestamp = F64.DBL_MAX ∨ cur.timestamp ≠ x.timestamp
    · rw [collapse_from_keep cur x rest h]
      obtain ⟨ih1, ih2⟩ := ih x hs2 (fun y hy => hmax y (List.mem_cons_of_mem _ hy))
      refine ⟨List.Pairwise.cons ?_ ih1, ?_⟩
      · intro y hy hyt
        have hy2 := ih2 y hy
        rcases h with h | h
        · exfalso
          apply hyt
          have : F64.DBL_MAX ≤ y.timestamp := by rw [← h]; exact le_trans hcx hy2.1
          exact le_antisymm hy2.2 this
        · have hlt : cur.timestamp < y.timestamp :=
            lt_of_lt_of_le (lt_of_le_of_ne hcx h) hy2.1
          exact ⟨ne_of_lt (lt_of_lt_of_le hlt hy2.2), hlt⟩
      · intro y hy
        rcases List.mem_cons.mp hy with h1 | h1
        · rw [h1]
          exact ⟨le_refl _, hmax cur (by simp)⟩
        · exact ⟨le_trans hcx (ih2 y h1).1, (ih2 y h1).2⟩
    · push_neg at h
      have hs3 : List.Sorted timestamp_le
          ((⟨cur.text ++ '\n' :: x.text, cur.timestamp⟩ : LyricDataLine) :: rest) := by
        rw [List.sorted_cons]
        refine ⟨?_, (List.sorted_cons.mp hs2).2⟩
        intro y hy
        exact (List.sorted_cons.mp hs).1 y (List.mem_cons_of_mem _ hy)
      rw [collapse_from_merge cur x rest h.1 h.2]
      apply ih _ hs3
      intro y hy
      rcases List.mem_cons.mp hy with h1 | h1
      · rw [h1]
        exact hmax cur (by simp)
      · exact hmax y (by simp [h1])

/-! ## The line loop of `parse` -/

theorem parse_time_from_line_value (line : Str)
    (h : (parse_time_from_line line).success = true) :
    ∃ tag, try_parse_timestamp tag = some (parse_time_from_line line).timestamp := by
  unfold parse_time_from_line at h ⊢
  by_cases hl : 0 < line.length
  · rw [if_pos hl] at h ⊢
    by_cases hf : line.getD 0 ' ' ≠ '['
    · rw [if_pos hf] at h
      simp at h
    · rw [if_neg hf] at h ⊢
      cases ht : try_parse_timestamp (substr line 0 (close_index line + 1)) with
      | none =>
        rw [ht] at h
        simp at h
      | some t => exact ⟨_, ht⟩
  · rw [if_neg hl] at h
    simp at h

theorem parse_line_times_loop_timestamps (P : Double → Prop)
    (hP : ∀ tag t, try_parse_timestamp tag = some t → P t) :
    ∀ (fuel : Nat) (rest : Str) (acc : List Double), (∀ t ∈ acc, P t) →
      ∀ t ∈ (parse_line_times_loop fuel rest acc).timestamps, P t := by
  intro fuel
  induction fuel with
  | zero =>
    intro rest acc hacc t ht
    exact hacc t (by simpa [parse_line_times_loop] using ht)
  | succ f ih =>
    intro rest acc hacc t ht
    unfold parse_line_times_loop at ht
    by_cases hs : (parse_time_from_line rest).success = true
    · rw [if_pos hs] at ht
      apply ih _ _ _ t ht
      intro u hu
      rcases List.mem_append.mp hu with h1 | h1
      · exact hacc u h1
      · obtain ⟨tag, htag⟩ := parse_time_from_line_value rest hs
        rw [List.mem_singleton.mp h1]
        exact hP tag _ htag
    · rw [if_neg hs] at ht
      exact hacc t ht

/-- Every timestamp found at the head of a line is non-negative and below `DBL_MAX`. -/
theorem parse_line_times_bounds (line : Str) :
    ∀ t ∈ (parse_line_times line).timestamps, 0 ≤ t ∧ t < F64.DBL_MAX := by
  unfold parse_line_times
  exact parse_line_times_loop_timestamps _ try_parse_timestamp_bounds _ _ _ (by simp)

theorem timed_entries_of_line_bounds (line : Str) :
    ∀ l ∈ timed_entries_of_line line, 0 ≤ l.timestamp ∧ l.timestamp < F64.DBL_MAX := by
  intro l hl
  unfold timed_entries_of_line at hl
  obtain ⟨t, ht, rfl⟩ := List.mem_map.mp hl
  exact parse_line_times_bounds line t ht

theorem parse_line_timed (st : ParseState) (line_view : Str)
    (h : 0 < (parse_line_times line_view).timestamps.length) :
    parse_line st line_view =
      { st with
        tag_section_passed := true
        lines := st.lines ++ timed_entries_of_line line_view } := by
  unfold parse_line timed_entries_of_line
  rw [if_pos h]

theorem parse_line_tag (st : ParseState) (line_view : Str)
    (h : (parse_line_times line_view).timestamps = [])
    (hp : st.tag_section_passed = false) (ht : is_tag_line line_view = true) :
    parse_line st line_view =
      { st with
        tags := st.tags ++ [line_view]
        timestamp_offset :=
          match try_parse_offset_tag line_view with
          | some offset => offset
          | none => st.timestamp_offset } := by
  unfold parse_line
  rw [if_neg (by simp [h]), if_pos (by simp [hp, ht])]

theorem parse_line_untimed (st : ParseState) (line_view : Str)
    (h : (parse_line_times line_view).timestamps = [])
    (hp : st.tag_section_passed = true ∨ is_tag_line line_view = false) :
    parse_line st line_view =
      { st with
        tag_section_passed := st.tag_section_passed || decide (0 < line_view.length)
        lines := st.lines ++ [⟨line_view, F64.DBL_MAX⟩] } := by
  unfold parse_line
  rw [if_neg (by simp [h]), if_neg (by rcases hp with hp | hp <;> simp [hp])]

/-- The three ways in which one line changes the state of `parse`. -/
theorem parse_line_cases (st : ParseState) (line_view : Str) :
    (0 < (parse_line_times line_view).timestamps.length ∧
      parse_line st line_view =
        { st with
          tag_section_passed := true
          lines := st.lines ++ timed_entries_of_line line_view }) ∨
    ((parse_line_times line_view).timestamps = [] ∧ st.tag_section_passed = false ∧
      is_tag_line line_view = true ∧
      parse_line st line_view =
        { st with
          tags := st.tags ++ [line_view]
          timestamp_offset :=
            match try_parse_offset_tag line_view with
            | some offset => offset
            | none => st.timestamp_offset }) ∨
    ((parse_line_times line_view).timestamps = [] ∧
      (st.tag_section_passed = true ∨ is_tag_line line_view = false) ∧
      parse_line st line_view =
        { st with
          tag_section_passed := st.tag_section_passed || decide (0 < line_view.length)
          lines := st.lines ++ [⟨line_view, F64.DBL_MAX⟩] }) := by
  by_cases h : 0 < (parse_line_times line_view).timestamps.length
  · exact Or.inl ⟨h, parse_line_timed st line_view h⟩
  · have h0 : (parse_line_times line_view).timestamps = [] :=
      List.length_eq_zero.mp (by omega)
    by_cases hp : st.tag_section_passed = false ∧ is_tag_line line_view = true
    · exact Or.inr (Or.inl ⟨h0, hp.1, hp.2, parse_line_tag st line_view h0 hp.1 hp.2⟩)
    · have hp2 : st.tag_section_passed = true ∨ is_tag_line line_view = false := by
        by_cases h1 : st.tag_section_passed = true
        · exact Or.inl h1
        · right
          by_cases h2 : is_tag_line line_view = true
          · exact absurd ⟨by simpa using h1, h2⟩ hp
          · simpa using h2
      exact Or.inr (Or.inr ⟨h0, hp2, parse_line_untimed st line_view h0 hp2⟩)

/-- The lines of the state after a run of line views: those of the state before, then the
lines of the views; the timed ones among them are the timed entries of the views. -/
theorem foldl_parse_line_filter (t : Double) (ht : t ≠ F64.DBL_MAX) (views : List Str) :
    ∀ st : ParseState,
      ((views.foldl parse_line st).lines).filter (fun l => decide (l.timestamp = t)) =
        st.lines.filter (fun l => decide (l.timestamp = t)) ++
          (views.flatMap timed_entries_of_line).filter (fun l => decide (l.timestamp = t)) := by
  induction views with
  | nil => intro st; simp
  | cons v views ih =>
    intro st
    rw [List.foldl_cons, ih, List.flatMap_cons, List.filter_append]
    rcases parse_line_cases st v with ⟨_, h⟩ | ⟨h0, _, _, h⟩ | ⟨h0, _, h⟩
    · rw [h]
      simp [List.filter_append]
    · rw [h]
      simp [timed_entries_of_line, h0]
    · rw [h]
      have : ¬ (F64.DBL_MAX = t) := fun hh => ht hh.symm
      simp [timed_entries_of_line, h0, List.filter_append, this]

theorem foldl_parse_line_le_max (views : List Str) :
    ∀ st : ParseState, (∀ l ∈ st.lines, l.timestamp ≤ F64.DBL_MAX) →
      ∀ l ∈ (views.foldl parse_line st).lines, l.timestamp ≤ F64.DBL_MAX := by
  induction views with
  | nil => intro st h; simpa using h
  | cons v views ih =>
    intro st hst
    rw [List.foldl_cons]
    apply ih
    rcases parse_line_cases st v with ⟨_, h⟩ | ⟨_, _, _, h⟩ | ⟨_, _, h⟩
    · rw [h]
      intro l hl
      rcases List.mem_append.mp hl with h1 | h1
      · exact hst l h1
      · exact le_of_lt (timed_entries_of_line_bounds v l h1).2
    · rw [h]
      exact hst
    · rw [h]
      intro l hl
      rcases List.mem_append.mp hl with h1 | h1
      · exact hst l h1
      · rw [List.mem_singleton.mp h1]

/-- Once the tag section has been passed, further lines add no tag, and every line view
without a timestamp is kept as an untimed line with its full text. -/
theorem foldl_parse_line_passed (views : List Str) :
    ∀ st : ParseState, st.tag_section_passed = true →
      (views.foldl parse_line st).tags = st.tags ∧
      (∀ x ∈ st.lines, x ∈ (views.foldl parse_line st).lines) ∧
      ∀ v ∈ views, (parse_line_times v).timestamps = [] →
        (⟨v, F64.DBL_MAX⟩ : LyricDataLine) ∈ (views.foldl parse_line st).lines := by
  induction views with
  | nil => intro st _; simp
  | cons v views ih =>
    intro st hst
    rw [List.foldl_cons]
    rcases parse_line_cases st v with ⟨hlen, h⟩ | ⟨_, hp, _, _⟩ | ⟨h0, _, h⟩
    · have hp : (parse_line st v).tag_section_passed = true := by rw [h]
      obtain ⟨i1, i2, i3⟩ := ih _ hp
      refine ⟨by rw [i1, h], ?_, ?_⟩
      · intro x hx
        apply i2
        rw [h]
        exact List.mem_append_left _ hx
      · intro w hw hw0
        rcases List.mem_cons.mp hw with h1 | h1
        · subst h1
          rw [hw0] at hlen
          simp at hlen
        · exact i3 w h1 hw0
    · rw [hst] at hp
      exact absurd hp (by simp)
    · have hp : (parse_line st v).tag_section_passed = true := by rw [h]; simp [hst]
      obtain ⟨i1, i2, i3⟩ := ih _ hp
      refine ⟨by rw [i1, h], ?_, ?_⟩
      · intro x hx
        apply i2
        rw [h]
        exact List.mem_append_left _ hx
      · intro w hw hw0
        rcases List.mem_cons.mp hw with h1 | h1
        · subst h1
          apply i2
          rw [h]
          simp
        · exact i3 w h1 hw0

theorem collapse_untimed_mem (lines : List LyricDataLine) (y : LyricDataLine)
    (hy : y ∈ lines) (hmax : y.timestamp = F64.DBL_MAX) : y ∈ collapse_concurrent_lines lines := by
  unfold collapse_concurrent_lines collapse
  cases lines with
  | nil => simp at hy
  | cons a rest => exact collapse_from_untimed_mem rest a y hy hmax

/-- The stable sort keeps the lines of one timestamp in their order. -/
theorem insertionSort_filter_timestamp (t : Double) (lines : List LyricDataLine) :
    (lines.insertionSort timestamp_le).filter (fun l => decide (l.timestamp = t)) =
      lines.filter (fun l => decide (l.timestamp = t)) := by
  have hpw : (lines.filter (fun l => decide (l.timestamp = t))).Pairwise timestamp_le := by
    rw [List.pairwise_iff_forall_sublist]
    intro a b hab
    have ha : a ∈ lines.filter (fun l => decide (l.timestamp = t)) := hab.subset (by simp)
    have hb : b ∈ lines.filter (fun l => decide (l.timestamp = t)) := hab.subset (by simp)
    have ha2 : a.timestamp = t := by simpa using (List.mem_filter.mp ha).2
    have hb2 : b.timestamp = t := by simpa using (List.mem_filter.mp hb).2
    unfold timestamp_le
    rw [ha2, hb2]
  have hsub := List.sublist_insertionSort (r := timestamp_le) hpw (List.filter_sublist lines)
  have hsub2 := hsub.filter (fun l => decide (l.timestamp = t))
  rw [List.filter_filter] at hsub2
  simp only [Bool.and_self] at hsub2
  have hperm := (List.perm_insertionSort timestamp_le lines).filter
    (fun l => decide (l.timestamp = t))
  exact (hsub2.eq_of_length hperm.length_eq.symm).symm

/-! ## Splitting lines into rows -/

theorem find_append_none (pre rest : Str) (c : Char) (h : c ∉ rest) :
    find (pre ++ rest) c pre.length = none := by
  unfold find
  rw [List.drop_left]
  rw [if_neg]
  rw [List.indexOf_lt_length]
  exact h

theorem find_append_some (pre seg rest : Str) (c : Char) (h : c ∉ seg) :
    find (pre ++ (seg ++ c :: rest)) c pre.length = some (pre.length + seg.length) := by
  unfold find
  rw [List.drop_left, indexOf_append_cons c seg rest h, if_pos (by simp)]

theorem split_rows_loop_eq (timestamp : Double) (fuel : Nat) :
    ∀ pre rest : Str, rest.length < fuel →
      split_rows_loop ⟨pre ++ rest, timestamp⟩ fuel pre.length =
        (rest.splitOn '\n').map (fun out_text => ⟨out_text, timestamp⟩) := by
  induction fuel with
  | zero => intro pre rest h; omega
  | succ fuel ih =>
    intro pre rest hlen
    unfold split_rows_loop
    simp only []
    rw [if_pos (by simp)]
    by_cases hmem : '\n' ∈ rest
    · obtain ⟨seg, post, hs, hn, -⟩ := indexOf_split '\n' rest hmem
      subst hs
      have hend : row_end_index (pre ++ (seg ++ '\n' :: post)) pre.length =
          pre.length + seg.length := by
        unfold row_end_index
        rw [find_append_some pre seg post '\n' hn]
        simp only [List.length_append, List.length_cons]
        omega
      rw [hend]
      have hsub : substr (pre ++ (seg ++ '\n' :: post)) pre.length
          (pre.length + seg.length - pre.length) = seg := by
        unfold substr
        rw [List.drop_left, Nat.add_sub_cancel_left, List.take_left]
      rw [hsub]
      have hnext : pre.length + seg.length + 1 = (pre ++ seg ++ ['\n']).length := by
        simp only [List.length_append, List.length_cons, List.length_nil]
      have htext : pre ++ (seg ++ '\n' :: post) = (pre ++ seg ++ ['\n']) ++ post := by simp
      rw [hnext, htext, ih (pre ++ seg ++ ['\n']) post (by simp at hlen; omega)]
      have hsplit : (seg ++ '\n' :: post).splitOn '\n' = seg :: post.splitOn '\n' := by
        unfold List.splitOn
        exact List.splitOnP_first (· == '\n') seg (fun x hx => by
          simp only [beq_iff_eq]
          intro hxe
          exact hn (hxe ▸ hx)) '\n' (by simp) post
      rw [hsplit]
      rfl
    · have hend : row_end_index (pre ++ rest) pre.length = (pre ++ rest).length := by
        unfold row_end_index
        rw [find_append_none pre rest '\n' hmem]
      rw [hend]
      have hsub : substr (pre ++ rest) pre.length ((pre ++ rest).length - pre.length) = rest := by
        unfold substr
        rw [List.drop_left]
        simp
      rw [hsub]
      have hsplit : rest.splitOn '\n' = [rest] := by
        unfold List.splitOn
        exact List.splitOnP_eq_single (· == '\n') rest (fun x hx => by
          simp only [beq_iff_eq]
          intro hxe
          exact hmem (hxe ▸ hx))
      rw [hsplit]
      have hlast : split_rows_loop ⟨pre ++ rest, timestamp⟩ fuel ((pre ++ rest).length + 1) = [] := by
        cases fuel with
        | zero => rfl
        | succ k =>
          unfold split_rows_loop
          simp
      rw [hlast]
      rfl

theorem split_rows_eq (in_line : LyricDataLine) :
    split_rows in_line =
      (in_line.text.splitOn '\n').map (fun out_text => ⟨out_text, in_line.timestamp⟩) := by
  unfold split_rows
  have := split_rows_loop_eq in_line.timestamp (in_line.text.length + 1) [] in_line.text
    (Nat.lt_succ_self _)
  simpa using this



/-! ## Rendering rows -/

theorem print_timestamp_timed (t : Double) (h : t ≠ F64.DBL_MAX) :
    print_timestamp t = some (print_timestamp_body t) := by
  unfold print_timestamp
  rw [if_neg h]

theorem render_row_eq (line : LyricDataLine) :
    render_row line = some
      ((if line.timestamp ≠ F64.DBL_MAX then print_timestamp_body line.timestamp else [])
        ++ line.text ++ ['\r', '\n']) := by
  unfold render_row
  by_cases h : line.timestamp ≠ F64.DBL_MAX
  · rw [if_pos h, if_pos h, print_timestamp_timed _ h]
  · rw [if_neg h, if_neg h]
    simp

theorem render_rows_eq (rows : List LyricDataLine) :
    render_rows rows = some
      ((rows.map (fun line =>
        (if line.timestamp ≠ F64.DBL_MAX then print_timestamp_body line.timestamp else [])
          ++ line.text ++ ['\r', '\n'])).flatten) := by
  induction rows with
  | nil => rfl
  | cons line rest ih =>
    unfold render_rows
    rw [render_row_eq, ih]
    simp

theorem render_untimed_eq (lines : List LyricDataLine)
    (h : ∀ l ∈ lines, l.timestamp = F64.DBL_MAX) :
    render_untimed lines = some
      ((lines.map (fun line =>
        (if line.text = [] then [' '] else line.text) ++ ['\r', '\n'])).flatten) := by
  induction lines with
  | nil => rfl
  | cons line rest ih =>
    unfold render_untimed
    rw [ih (fun l hl => h l (List.mem_cons_of_mem _ hl))]
    unfold render_untimed_line
    rw [if_pos (h line (List.mem_cons_self _ _))]
    by_cases he : line.text = []
    · simp [he]
    · have : line.text.isEmpty = false := by
        cases hlt : line.text with
        | nil => exact absurd hlt he
        | cons a b => rfl
      simp [he, this]

theorem not_timestamped_iff (data : LyricData) :
    data.IsTimestamped = false ↔ ∀ l ∈ data.lines, l.timestamp = F64.DBL_MAX := by
  unfold LyricData.IsTimestamped
  rw [List.any_eq_false]
  constructor
  · intro h l hl
    have := h l hl
    simpa using this
  · intro h l hl
    simp [h l hl]


/-! ## The merge loop never fails -/

theorem prepend_timestamps_eq (run : List (Nat × LyricDataLine)) (text : Str)
    (h : ∀ e ∈ run, e.2.timestamp ≠ F64.DBL_MAX) :
    prepend_timestamps run text = some (run_stamps run ++ text) := by
  induction run with
  | nil => rfl
  | cons e rest ih =>
    have ih2 := ih (fun x hx => h x (List.mem_cons_of_mem _ hx))
    unfold prepend_timestamps at ih2 ⊢
    rw [List.foldr_cons, ih2, print_timestamp_timed _ (h e (List.mem_cons_self _ _))]
    simp [run_stamps]

theorem merge_runs_eq (rest : List (Nat × LyricDataLine)) :
    ∀ (equal_begin : Nat × LyricDataLine) (run : List (Nat × LyricDataLine)),
      (∀ e ∈ run, e.2.timestamp ≠ F64.DBL_MAX) →
      merge_runs equal_begin run rest = some (merged_runs equal_begin run rest) := by
  induction rest with
  | nil =>
    intro b run h
    unfold merge_runs merged_runs
    rw [prepend_timestamps_eq run _ h]
    rfl
  | cons e rest ih =>
    intro b run h
    unfold merge_runs merged_runs
    by_cases hj : b.2.text = e.2.text ∧ e.2.timestamp ≠ F64.DBL_MAX
    · rw [if_pos hj, if_pos hj]
      apply ih
      intro x hx
      rcases List.mem_append.mp hx with h1 | h1
      · exact h x h1
      · rw [List.mem_singleton.mp h1]
        exact hj.2
    · rw [if_neg hj, if_neg hj, prepend_timestamps_eq run _ h, ih e [] (by simp)]
      rfl

theorem merge_equivalent_lines_eq (rows : List LyricDataLine) :
    merge_equivalent_lines rows = some
      (match rows.enum.insertionSort text_le with
        | [] => []
        | equal_begin :: rest =>
          ((merged_runs equal_begin [] rest).insertionSort index_le).map Prod.snd) := by
  unfold merge_equivalent_lines
  cases h : rows.enum.insertionSort text_le with
  | nil => rfl
  | cons b rest =>
    simp only []
    rw [merge_runs_eq rest b [] (by simp)]

theorem expand_rows_isSome (data : LyricData) (flag : Bool) :
    ∃ rows, expand_rows data flag = some rows := by
  unfold expand_rows
  cases flag with
  | false => exact ⟨_, rfl⟩
  | true =>
    rw [if_pos rfl, merge_equivalent_lines_eq]
    exact ⟨_, rfl⟩


theorem splitOnP_not_mem (p : Char → Bool) (xs : Str) :
    ∀ seg ∈ xs.splitOnP p, ∀ x ∈ seg, ¬ p x = true := by
  induction xs with
  | nil =>
    intro seg hseg x hx
    simp at hseg
    subst hseg
    simp at hx
  | cons a tl ih =>
    intro seg hseg x hx
    rw [List.splitOnP_cons] at hseg
    by_cases hp : p a = true
    · rw [if_pos hp] at hseg
      rcases List.mem_cons.mp hseg with h | h
      · subst h
        simp at hx
      · exact ih seg h x hx
    · rw [if_neg hp] at hseg
      cases hs : tl.splitOnP p with
      | nil => exact absurd hs (List.splitOnP_ne_nil p tl)
      | cons hd rest =>
        rw [hs] at hseg ih
        simp only [List.modifyHead_cons, List.mem_cons] at hseg
        rcases hseg with h | h
        · subst h
          rcases List.mem_cons.mp hx with h2 | h2
          · rw [h2]
            exact hp
          · exact ih hd (List.mem_cons_self _ _) x h2
        · exact ih seg (List.mem_cons_of_mem _ h) x hx

theorem splitOn_not_mem (c : Char) (xs : Str) : ∀ seg ∈ xs.splitOn c, c ∉ seg := by
  intro seg hseg hc
  have := splitOnP_not_mem (· == c) xs seg hseg c hc
  simp at this


/-! ## The loops of `parse` end by themselves -/

theorem parse_time_from_line_consumed (line : Str)
    (h : (parse_time_from_line line).success = true) :
    1 ≤ (parse_time_from_line line).charsConsumed ∧
      (parse_time_from_line line).charsConsumed ≤ line.length := by
  obtain ⟨body, rest, t, hl, hb, ht⟩ := parse_time_from_line_success line h
  have hc := parse_time_from_line_chunk body rest hb
  rw [ht] at hc
  subst hl
  rw [hc]
  simp only [List.length_cons, List.length_append]
  omega

theorem parse_line_times_loop_fuel :
    ∀ (fuel extra : Nat) (rest : Str) (result : List Double), rest.length + 1 ≤ fuel →
      parse_line_times_loop (fuel + extra) rest result =
        parse_line_times_loop fuel rest result := by
  intro fuel
  induction fuel with
  | zero => intro extra rest result h; omega
  | succ fuel ih =>
    intro extra rest result h
    rw [show fuel + 1 + extra = (fuel + extra) + 1 by omega]
    unfold parse_line_times_loop
    by_cases hs : (parse_time_from_line rest).success = true
    · rw [if_pos hs, if_pos hs]
      apply ih
      have hc := parse_time_from_line_consumed rest hs
      rw [List.length_drop]
      omega
    · rw [if_neg hs, if_neg hs]

theorem tag_nonempty (line : Str) (h : 0 < line.length) :
    0 < (substr line 0 (close_index line + 1)).length := by
  unfold substr
  rw [List.drop_zero, List.length_take]
  omega

theorem rfind_lt (s : Str) (c : Char) (i : Nat) (h : rfind s c = some i) : i < s.length := by
  unfold rfind at h
  by_cases hlt : s.reverse.indexOf c < s.length
  · rw [if_pos hlt] at h
    have := Option.some.inj h
    omega
  · rw [if_neg hlt] at h
    exact absurd h (by simp)

theorem rfind_from_lt (s : Str) (c : Char) (pos i : Nat) (h : rfind_from s c pos = some i) :
    i < s.length := by
  unfold rfind_from at h
  have := rfind_lt _ _ _ h
  rw [List.length_take] at this
  omega

theorem parse_empty (metadata : LyricDataCommon) :
    parse metadata [] = ⟨metadata, none, [], [], [], 0⟩ := by
  rfl



/-! ## The tag section and the content section -/

theorem parse_line_times_loop_acc :
    ∀ (fuel : Nat) (rest : Str) (acc : List Double),
      ∃ more, (parse_line_times_loop fuel rest acc).timestamps = acc ++ more := by
  intro fuel
  induction fuel with
  | zero => intro rest acc; exact ⟨[], by simp [parse_line_times_loop]⟩
  | succ fuel ih =>
    intro rest acc
    unfold parse_line_times_loop
    by_cases hs : (parse_time_from_line rest).success = true
    · rw [if_pos hs]
      obtain ⟨more, hm⟩ := ih (rest.drop (parse_time_from_line rest).charsConsumed)
        (acc ++ [(parse_time_from_line rest).timestamp])
      exact ⟨(parse_time_from_line rest).timestamp :: more, by rw [hm]; simp⟩
    · rw [if_neg hs]
      exact ⟨[], by simp⟩

theorem carries_timestamp_iff (line_view : Str) :
    carries_timestamp line_view = true ↔ starts_with_tag line_view := by
  rw [starts_with_tag_iff]
  unfold carries_timestamp parse_line_times parse_line_times_loop
  by_cases hs : (parse_time_from_line line_view).success = true
  · rw [if_pos hs]
    obtain ⟨more, hm⟩ := parse_line_times_loop_acc line_view.length
      (line_view.drop (parse_time_from_line line_view).charsConsumed)
      ([] ++ [(parse_time_from_line line_view).timestamp])
    rw [hm]
    simp [hs]
  · rw [if_neg hs]
    simp [hs]

theorem carries_timestamp_false (line_view : Str) (h : carries_timestamp line_view = false) :
    (parse_line_times line_view).timestamps = [] := by
  unfold carries_timestamp at h
  simpa using h

theorem carries_timestamp_true (line_view : Str) (h : carries_timestamp line_view = true) :
    0 < (parse_line_times line_view).timestamps.length := by
  unfold carries_timestamp at h
  simpa using h

theorem parse_line_entries (st : ParseState) (line_view : Str)
    (hp : st.tag_section_passed = true) :
    parse_line st line_view =
      { st with lines := st.lines ++ entries_of_view line_view } := by
  unfold entries_of_view
  cases hc : carries_timestamp line_view with
  | true =>
    rw [parse_line_timed st _ (carries_timestamp_true _ hc), hp]
    simp
  | false =>
    rw [parse_line_untimed st _ (carries_timestamp_false _ hc) (Or.inl hp), hp]
    simp [untimed_line]

theorem foldl_parse_line_content (views : List Str) :
    ∀ st : ParseState, st.tag_section_passed = true →
      views.foldl parse_line st =
        { st with lines := st.lines ++ views.flatMap entries_of_view } := by
  induction views with
  | nil => intro st _; simp
  | cons v views ih =>
    intro st hp
    rw [List.foldl_cons, parse_line_entries st v hp, ih _ (by simpa using hp)]
    simp [List.flatMap_cons]

theorem foldl_parse_line_sections (views : List Str) :
    ∀ st : ParseState, st.tag_section_passed = false →
      (views.foldl parse_line st).tags =
        st.tags ++ (tag_section views).filter is_tag_line ∧
      (views.foldl parse_line st).lines =
        st.lines ++ ((tag_section views).filter (fun v => !is_tag_line v)).map untimed_line ++
          (content_section views).flatMap entries_of_view := by
  induction views with
  | nil => intro st _; simp [tag_section, content_section]
  | cons v views ih =>
    intro st hp
    rw [List.foldl_cons]
    unfold tag_section content_section
    cases he : ends_tag_section v with
    | true =>
      rw [List.takeWhile_cons_of_neg (by simp [he]), List.dropWhile_cons_of_neg (by simp [he])]
      have hpassed : (parse_line st v).tag_section_passed = true ∧
          (parse_line st v).tags = st.tags ∧
          (parse_line st v).lines = st.lines ++ entries_of_view v := by
        unfold ends_tag_section at he
        unfold entries_of_view
        cases hc : carries_timestamp v with
        | true =>
          rw [parse_line_timed st _ (carries_timestamp_true _ hc)]
          simp
        | false =>
          rw [hc] at he
          simp only [Bool.false_or, Bool.and_eq_true, decide_eq_true_eq,
            Bool.not_eq_true'] at he
          rw [parse_line_untimed st _ (carries_timestamp_false _ hc) (Or.inr he.2)]
          simp [he.1, untimed_line]
      rw [foldl_parse_line_content views _ hpassed.1]
      simp [hpassed.2.1, hpassed.2.2, List.flatMap_cons]
    | false =>
      rw [List.takeWhile_cons_of_pos (by simp [he]), List.dropWhile_cons_of_pos (by simp [he])]
      unfold ends_tag_section at he
      simp only [Bool.or_eq_false_iff, Bool.and_eq_false_imp, decide_eq_true_eq,
        Bool.not_eq_false'] at he
      obtain ⟨hc, hlen⟩ := he
      cases ht : is_tag_line v with
      | true =>
        have hstep := parse_line_tag st v (carries_timestamp_false _ hc) hp ht
        have h1 : (parse_line st v).tag_section_passed = false := by rw [hstep]; exact hp
        obtain ⟨ih1, ih2⟩ := ih (parse_line st v) h1
        unfold tag_section at ih1 ih2
        unfold content_section at ih2
        rw [ih1, ih2, hstep]
        simp [ht]
      | false =>
        have hempty : ¬ 0 < v.length := by
          intro hpos
          have := hlen hpos
          rw [ht] at this
          simp at this
        have hstep := parse_line_untimed st v (carries_timestamp_false _ hc) (Or.inr ht)
        have h1 : (parse_line st v).tag_section_passed = false := by
          rw [hstep]
          simp [hp, hempty]
        obtain ⟨ih1, ih2⟩ := ih (parse_line st v) h1
        unfold tag_section at ih1 ih2
        unfold content_section at ih2
        rw [ih1, ih2, hstep]
        simp [ht, untimed_line]


theorem tag_section_no_timestamp (views : List Str) :
    ∀ v ∈ tag_section views, carries_timestamp v = false := by
  intro v hv
  have h := List.mem_takeWhile_imp hv
  unfold ends_tag_section at h
  simp only [Bool.not_eq_true', Bool.or_eq_false_iff] at h
  exact h.1

theorem parse_state_sections (text : Str) :
    (parse_state text).tags = (tag_section (line_views text)).filter is_tag_line ∧
    (parse_state text).lines =
      ((tag_section (line_views text)).filter (fun v => !is_tag_line v)).map untimed_line ++
        (content_section (line_views text)).flatMap entries_of_view := by
  have h := foldl_parse_line_sections (line_views text) ParseState.init rfl
  unfold parse_state
  unfold line_views at h ⊢
  constructor
  · rw [h.1]
    rfl
  · rw [h.2]
    rfl



theorem getD_last_eq (line : Str) :
    line.getD (line.length - 1) ' ' = line.getLast?.getD ' ' := by
  rw [List.getD_eq_getElem?_getD, List.getLast?_eq_getElem?]

theorem getLast?_key (key rest : Str) :
    ('[' :: (key ++ ':' :: rest)).getLast? = (':' :: rest).getLast? := by
  have h : '[' :: (key ++ ':' :: rest) = ('[' :: key) ++ (':' :: rest) := by simp
  rw [h, List.getLast?_append_of_ne_nil _ (by simp)]

theorem is_tag_line_key (key rest : Str) (hn : ':' ∉ key) :
    is_tag_line ('[' :: (key ++ ':' :: rest)) =
      (decide ((':' :: rest).getLast?.getD ' ' = ']') && decide (key ≠ []) &&
        tag_keys.any (fun k => equals_ignore_case key k)) := by
  have hfind : find ('[' :: (key ++ ':' :: rest)) ':' 0 = some (key.length + 1) := by
    rw [find_zero_some]
    refine ⟨'[' :: key, rest, by simp, ?_, by simp⟩
    simp only [List.mem_cons, not_or]
    exact ⟨by decide, hn⟩
  have hsub : substr ('[' :: (key ++ ':' :: rest)) 1 (key.length + 1 - 1) = key := by
    simp [substr]
  unfold is_tag_line
  rw [if_neg (by simp), if_neg (by simp), getD_last_eq, getLast?_key]
  simp only [hfind, hsub]
  by_cases hlast : (':' :: rest).getLast?.getD ' ' = ']'
  · rw [if_neg (by simp [hlast])]
    by_cases hk : key = []
    · subst hk
      simp
    · have : key.length ≠ 0 := fun h0 => hk (List.length_eq_zero.mp h0)
      rw [if_neg (by simpa using this)]
      simp [hlast, hk]
  · rw [if_pos (by simpa using hlast)]
    simp [hlast]

theorem is_tag_line_case (key other rest : Str) (hn : ':' ∉ key) (ho : ':' ∉ other)
    (hcase : key.map Char.toLower = other.map Char.toLower) :
    is_tag_line ('[' :: (key ++ ':' :: rest)) = is_tag_line ('[' :: (other ++ ':' :: rest)) := by
  rw [is_tag_line_key key rest hn, is_tag_line_key other rest ho]
  have hnil : decide (key ≠ []) = decide (other ≠ []) := by
    have hl : key.length = other.length := by
      have := congrArg List.length hcase
      simpa using this
    cases key with
    | nil =>
      cases other with
      | nil => rfl
      | cons a b => simp at hl
    | cons a b =>
      cases other with
      | nil => simp at hl
      | cons c d => simp
  have hany : tag_keys.any (fun k => equals_ignore_case key k) =
      tag_keys.any (fun k => equals_ignore_case other k) := by
    unfold equals_ignore_case
    rw [hcase]
  rw [hnil, hany]



/-! ## The merge of equal rows -/

theorem timed_block_cons_untimed (row : Nat × LyricDataLine) (rest : List (Nat × LyricDataLine))
    (X : Str) (h : row.2.timestamp = F64.DBL_MAX) :
    timed_block (row :: rest) X = timed_block rest X := by
  unfold timed_block
  rw [List.filter_cons_of_neg (by simp [h])]

theorem timed_block_cons_ne (row : Nat × LyricDataLine) (rest : List (Nat × LyricDataLine))
    (X : Str) (h : row.2.text ≠ X) :
    timed_block (row :: rest) X = timed_block rest X := by
  unfold timed_block
  rw [List.filter_cons_of_neg (by simp [h])]

theorem timed_block_cons_self (row : Nat × LyricDataLine) (rest : List (Nat × LyricDataLine))
    (h : row.2.timestamp ≠ F64.DBL_MAX) :
    timed_block (row :: rest) row.2.text = row :: timed_block rest row.2.text := by
  unfold timed_block
  rw [List.filter_cons_of_pos (by simp [h])]

theorem block_result_cons_untimed (row : Nat × LyricDataLine)
    (rest : List (Nat × LyricDataLine)) (X : Str) (h : row.2.timestamp = F64.DBL_MAX) :
    block_result (row :: rest) X = block_result rest X := by
  unfold block_result
  rw [timed_block_cons_untimed row rest X h]

theorem block_result_cons_ne (row : Nat × LyricDataLine) (rest : List (Nat × LyricDataLine))
    (X : Str) (h : row.2.text ≠ X) :
    block_result (row :: rest) X = block_result rest X := by
  unfold block_result
  rw [timed_block_cons_ne row rest X h]

theorem block_result_cons_self (row : Nat × LyricDataLine) (rest : List (Nat × LyricDataLine))
    (h : row.2.timestamp ≠ F64.DBL_MAX) :
    block_result (row :: rest) row.2.text = some (close_run row (timed_block rest row.2.text)) := by
  unfold block_result
  rw [timed_block_cons_self row rest h]

/-- A block result comes from a timed row of that text. -/
theorem block_result_some (rows : List (Nat × LyricDataLine)) (X : Str) (x : Nat × LyricDataLine)
    (h : block_result rows X = some x) :
    ∃ c ∈ rows, c.2.text = X ∧ c.2.timestamp ≠ F64.DBL_MAX := by
  unfold block_result at h
  cases hb : timed_block rows X with
  | nil => rw [hb] at h; simp at h
  | cons first others =>
    have hmem : first ∈ timed_block rows X := by rw [hb]; exact List.mem_cons_self _ _
    unfold timed_block at hmem
    obtain ⟨h1, h2⟩ := List.mem_filter.mp hmem
    exact ⟨first, h1, by simpa using h2⟩

theorem mem_merged_spec (rows : List (Nat × LyricDataLine)) :
    ∀ (seen : List Str) (x : Nat × LyricDataLine),
      x ∈ merged_spec seen rows ↔
        (x ∈ rows ∧ x.2.timestamp = F64.DBL_MAX) ∨
          ∃ X, X ∉ seen ∧ block_result rows X = some x := by
  induction rows with
  | nil =>
    intro seen x
    simp [merged_spec, block_result, timed_block]
  | cons row rest ih =>
    intro seen x
    unfold merged_spec
    by_cases hu : row.2.timestamp = F64.DBL_MAX
    · rw [if_pos hu, List.mem_cons, ih seen x]
      constructor
      · rintro (h | h | ⟨X, hX, hb⟩)
        · left
          rw [h]
          exact ⟨List.mem_cons_self _ _, hu⟩
        · exact Or.inl ⟨List.mem_cons_of_mem _ h.1, h.2⟩
        · exact Or.inr ⟨X, hX, by rw [block_result_cons_untimed row rest X hu]; exact hb⟩
      · rintro (⟨h1, h2⟩ | ⟨X, hX, hb⟩)
        · rcases List.mem_cons.mp h1 with h | h
          · exact Or.inl h
          · exact Or.inr (Or.inl ⟨h, h2⟩)
        · rw [block_result_cons_untimed row rest X hu] at hb
          exact Or.inr (Or.inr ⟨X, hX, hb⟩)
    · rw [if_neg hu]
      by_cases hs : row.2.text ∈ seen
      · rw [if_pos hs, ih seen x]
        constructor
        · rintro (h | ⟨X, hX, hb⟩)
          · exact Or.inl ⟨List.mem_cons_of_mem _ h.1, h.2⟩
          · refine Or.inr ⟨X, hX, ?_⟩
            rw [block_result_cons_ne row rest X (fun he => hX (he ▸ hs))]
            exact hb
        · rintro (⟨h1, h2⟩ | ⟨X, hX, hb⟩)
          · rcases List.mem_cons.mp h1 with h | h
            · rw [h] at h2
              exact absurd h2 hu
            · exact Or.inl ⟨h, h2⟩
          · rw [block_result_cons_ne row rest X (fun he => hX (he ▸ hs))] at hb
            exact Or.inr ⟨X, hX, hb⟩
      · rw [if_neg hs, List.mem_cons, ih (row.2.text :: seen) x]
        constructor
        · rintro (h | h | ⟨X, hX, hb⟩)
          · refine Or.inr ⟨row.2.text, hs, ?_⟩
            rw [block_result_cons_self row rest hu, h]
          · exact Or.inl ⟨List.mem_cons_of_mem _ h.1, h.2⟩
          · have hX2 : row.2.text ≠ X := fun he => hX (he ▸ List.mem_cons_self _ _)
            refine Or.inr ⟨X, fun hm => hX (List.mem_cons_of_mem _ hm), ?_⟩
            rw [block_result_cons_ne row rest X hX2]
            exact hb
        · rintro (⟨h1, h2⟩ | ⟨X, hX, hb⟩)
          · rcases List.mem_cons.mp h1 with h | h
            · rw [h] at h2
              exact absurd h2 hu
            · exact Or.inr (Or.inl ⟨h, h2⟩)
          · by_cases hX2 : row.2.text = X
            · left
              rw [← hX2, block_result_cons_self row rest hu] at hb
              exact (Option.some.inj hb).symm
            · rw [block_result_cons_ne row rest X hX2] at hb
              refine Or.inr (Or.inr ⟨X, ?_, hb⟩)
              intro hm
              rcases List.mem_cons.mp hm with h | h
              · exact hX2 h.symm
              · exact hX h


theorem close_run_nil (e : Nat × LyricDataLine) : close_run e [] = e := by
  simp [close_run, run_stamps]

theorem run_order_text (b e c : Nat × LyricDataLine) (h1 : run_order b e) (h2 : run_order e c)
    (h : c.2.text = b.2.text) : e.2.text = b.2.text := by
  have a1 : b.2.text ≤ e.2.text := h1.1
  have a2 : e.2.text ≤ c.2.text := h2.1
  rw [h] at a2
  exact le_antisymm a2 a1

theorem timed_block_untimed_head (e : Nat × LyricDataLine) (rest : List (Nat × LyricDataLine))
    (hpw : ∀ c ∈ rest, run_order e c) (hu : e.2.timestamp = F64.DBL_MAX) :
    timed_block rest e.2.text = [] := by
  unfold timed_block
  rw [List.filter_eq_nil_iff]
  intro c hc
  simp only [decide_eq_true_eq, not_and, not_not]
  intro ht
  exact (hpw c hc).2 ht.symm hu

theorem mem_merged_runs (rest : List (Nat × LyricDataLine)) :
    ∀ (b : Nat × LyricDataLine) (run : List (Nat × LyricDataLine)) (x : Nat × LyricDataLine),
      (b :: rest).Pairwise run_order →
      (x ∈ merged_runs b run rest ↔
        x = close_run b (run ++ timed_block rest b.2.text) ∨
          (x ∈ rest ∧ x.2.timestamp = F64.DBL_MAX) ∨
          ∃ X, X ≠ b.2.text ∧ block_result rest X = some x) := by
  induction rest with
  | nil =>
    intro b run x _
    simp [merged_runs, block_result, timed_block]
  | cons e rest ih =>
    intro b run x hpw
    have hbe : run_order b e := (List.pairwise_cons.mp hpw).1 e (List.mem_cons_self _ _)
    have hpw2 : (e :: rest).Pairwise run_order := (List.pairwise_cons.mp hpw).2
    have heL : ∀ c ∈ rest, run_order e c := (List.pairwise_cons.mp hpw2).1
    have hpwb : (b :: rest).Pairwise run_order := by
      rw [List.pairwise_cons]
      exact ⟨fun c hc => (List.pairwise_cons.mp hpw).1 c (List.mem_cons_of_mem _ hc),
        (List.pairwise_cons.mp hpw2).2⟩
    unfold merged_runs
    by_cases hj : b.2.text = e.2.text ∧ e.2.timestamp ≠ F64.DBL_MAX
    · rw [if_pos hj, ih b (run ++ [e]) x hpwb]
      have htb : timed_block (e :: rest) b.2.text = e :: timed_block rest b.2.text := by
        have := timed_block_cons_self e rest hj.2
        rw [← hj.1] at this
        exact this
      rw [htb]
      have happ : run ++ [e] ++ timed_block rest b.2.text =
          run ++ e :: timed_block rest b.2.text := by simp
      rw [happ]
      constructor
      · rintro (h | ⟨h1, h2⟩ | ⟨X, hX, hb⟩)
        · exact Or.inl h
        · exact Or.inr (Or.inl ⟨List.mem_cons_of_mem _ h1, h2⟩)
        · refine Or.inr (Or.inr ⟨X, hX, ?_⟩)
          rw [block_result_cons_ne e rest X (fun he => hX (by rw [← he, hj.1]))]
          exact hb
      · rintro (h | ⟨h1, h2⟩ | ⟨X, hX, hb⟩)
        · exact Or.inl h
        · rcases List.mem_cons.mp h1 with h | h
          · rw [h] at h2
            exact absurd h2 hj.2
          · exact Or.inr (Or.inl ⟨h, h2⟩)
        · rw [block_result_cons_ne e rest X (fun he => hX (by rw [← he, hj.1]))] at hb
          exact Or.inr (Or.inr ⟨X, hX, hb⟩)
    · rw [if_neg hj, List.mem_cons, ih e [] x hpw2]
      -- no later row joins the run of `b`
      have hnone : timed_block (e :: rest) b.2.text = [] := by
        unfold timed_block
        rw [List.filter_eq_nil_iff]
        intro c hc
        simp only [decide_eq_true_eq, not_and, not_not]
        intro ht
        rcases List.mem_cons.mp hc with h | h
        · subst h
          by_contra hne
          exact hj ⟨ht.symm, hne⟩
        · have he : e.2.text = b.2.text := run_order_text b e c hbe (heL c h) ht
          have hu : e.2.timestamp = F64.DBL_MAX := by
            by_contra hne
            exact hj ⟨he.symm, hne⟩
          exact (heL c h).2 (by rw [he, ht]) hu
      rw [hnone, List.append_nil, List.nil_append]
      -- a timed block behind `e` has a text other than that of `b`
      have hother : ∀ X, (∃ c ∈ rest, c.2.text = X ∧ c.2.timestamp ≠ F64.DBL_MAX) →
          e.2.text ≠ X → X ≠ b.2.text := by
        rintro X ⟨c, hc, hcX, hct⟩ heX hXb
        have he : e.2.text = b.2.text := run_order_text b e c hbe (heL c hc) (by rw [hcX, hXb])
        exact heX (by rw [he, hXb])
      by_cases hu : e.2.timestamp = F64.DBL_MAX
      · have htbe := timed_block_untimed_head e rest heL hu
        rw [htbe, close_run_nil]
        have hne : ∀ X, (∃ c ∈ rest, c.2.text = X ∧ c.2.timestamp ≠ F64.DBL_MAX) →
            e.2.text ≠ X := by
          rintro X ⟨c, hc, hcX, hct⟩ heX
          exact hct ((heL c hc).2 (by rw [heX, hcX]) hu)
        constructor
        · rintro (h | h | ⟨h1, h2⟩ | ⟨X, hX, hb⟩)
          · exact Or.inl h
          · right; left
            rw [h]
            exact ⟨List.mem_cons_self _ _, hu⟩
          · exact Or.inr (Or.inl ⟨List.mem_cons_of_mem _ h1, h2⟩)
          · have hex := block_result_some rest X x hb
            refine Or.inr (Or.inr ⟨X, hother X hex (hne X hex), ?_⟩)
            rw [block_result_cons_untimed e rest X hu]
            exact hb
        · rintro (h | ⟨h1, h2⟩ | ⟨X, hX, hb⟩)
          · exact Or.inl h
          · rcases List.mem_cons.mp h1 with h | h
            · exact Or.inr (Or.inl h)
            · exact Or.inr (Or.inr (Or.inl ⟨h, h2⟩))
          · rw [block_result_cons_untimed e rest X hu] at hb
            have hex := block_result_some rest X x hb
            exact Or.inr (Or.inr (Or.inr ⟨X, fun h => hne X hex h.symm, hb⟩))
      · have hbne : b.2.text ≠ e.2.text := fun h => hj ⟨h, hu⟩
        constructor
        · rintro (h | h | ⟨h1, h2⟩ | ⟨X, hX, hb⟩)
          · exact Or.inl h
          · refine Or.inr (Or.inr ⟨e.2.text, fun h2 => hbne h2.symm, ?_⟩)
            rw [block_result_cons_self e rest hu, h]
          · exact Or.inr (Or.inl ⟨List.mem_cons_of_mem _ h1, h2⟩)
          · have hex := block_result_some rest X x hb
            refine Or.inr (Or.inr ⟨X, hother X hex (fun h => hX h.symm), ?_⟩)
            rw [block_result_cons_ne e rest X (fun h => hX h.symm)]
            exact hb
        · rintro (h | ⟨h1, h2⟩ | ⟨X, hX, hb⟩)
          · exact Or.inl h
          · rcases List.mem_cons.mp h1 with h | h
            · rw [h] at h2
              exact absurd h2 hu
            · exact Or.inr (Or.inr (Or.inl ⟨h, h2⟩))
          · by_cases heX : e.2.text = X
            · right; left
              rw [← heX, block_result_cons_self e rest hu] at hb
              exact (Option.some.inj hb).symm
            · rw [block_result_cons_ne e rest X heX] at hb
              exact Or.inr (Or.inr (Or.inr ⟨X, fun h => heX h.symm, hb⟩))


theorem mem_merged_runs_top (b : Nat × LyricDataLine) (rest : List (Nat × LyricDataLine))
    (x : Nat × LyricDataLine) (hpw : (b :: rest).Pairwise run_order) :
    x ∈ merged_runs b [] rest ↔
      (x ∈ b :: rest ∧ x.2.timestamp = F64.DBL_MAX) ∨
        ∃ X, block_result (b :: rest) X = some x := by
  rw [mem_merged_runs rest b [] x hpw, List.nil_append]
  have hbL : ∀ c ∈ rest, run_order b c := (List.pairwise_cons.mp hpw).1
  by_cases hu : b.2.timestamp = F64.DBL_MAX
  · rw [timed_block_untimed_head b rest hbL hu, close_run_nil]
    constructor
    · rintro (h | ⟨h1, h2⟩ | ⟨X, hX, hb⟩)
      · left
        rw [h]
        exact ⟨List.mem_cons_self _ _, hu⟩
      · exact Or.inl ⟨List.mem_cons_of_mem _ h1, h2⟩
      · exact Or.inr ⟨X, by rw [block_result_cons_untimed b rest X hu]; exact hb⟩
    · rintro (⟨h1, h2⟩ | ⟨X, hb⟩)
      · rcases List.mem_cons.mp h1 with h | h
        · exact Or.inl h
        · exact Or.inr (Or.inl ⟨h, h2⟩)
      · rw [block_result_cons_untimed b rest X hu] at hb
        obtain ⟨c, hc, hcX, hct⟩ := block_result_some rest X x hb
        refine Or.inr (Or.inr ⟨X, ?_, hb⟩)
        intro hXb
        exact hct ((hbL c hc).2 (by rw [hcX, hXb]) hu)
  · constructor
    · rintro (h | ⟨h1, h2⟩ | ⟨X, hX, hb⟩)
      · exact Or.inr ⟨b.2.text, by rw [block_result_cons_self b rest hu, h]⟩
      · exact Or.inl ⟨List.mem_cons_of_mem _ h1, h2⟩
      · exact Or.inr ⟨X, by rw [block_result_cons_ne b rest X (fun h => hX h.symm)]; exact hb⟩
    · rintro (⟨h1, h2⟩ | ⟨X, hb⟩)
      · rcases List.mem_cons.mp h1 with h | h
        · rw [h] at h2
          exact absurd h2 hu
        · exact Or.inr (Or.inl ⟨h, h2⟩)
      · by_cases hbX : b.2.text = X
        · left
          rw [← hbX, block_result_cons_self b rest hu] at hb
          exact (Option.some.inj hb).symm
        · rw [block_result_cons_ne b rest X hbX] at hb
          exact Or.inr (Or.inr ⟨X, fun h => hbX h.symm, hb⟩)

/-- A stable sort keeps the order of the elements that satisfy `p`, when these are already
in order. -/
theorem insertionSort_filter {α : Type} (r : α → α → Prop) [DecidableRel r] [IsTotal α r]
    [IsTrans α r] (p : α → Bool) (l : List α) (hpw : (l.filter p).Pairwise r) :
    (l.insertionSort r).filter p = l.filter p := by
  have hsub := List.sublist_insertionSort (r := r) hpw (List.filter_sublist l)
  have hsub2 := hsub.filter p
  rw [List.filter_filter] at hsub2
  simp only [Bool.and_self] at hsub2
  have hperm := (List.perm_insertionSort r l).filter p
  exact (hsub2.eq_of_length hperm.length_eq.symm).symm

theorem insertionSort_filter_text (X : Str) (q : Nat × LyricDataLine → Bool)
    (rows : List (Nat × LyricDataLine)) :
    (rows.insertionSort text_le).filter (fun e => decide (e.2.text = X) && q e) =
      rows.filter (fun e => decide (e.2.text = X) && q e) := by
  apply insertionSort_filter
  rw [List.pairwise_iff_forall_sublist]
  intro a c hac
  have ha : a ∈ rows.filter (fun e => decide (e.2.text = X) && q e) := hac.subset (by simp)
  have hc : c ∈ rows.filter (fun e => decide (e.2.text = X) && q e) := hac.subset (by simp)
  have ha2 : a.2.text = X := by
    have := (List.mem_filter.mp ha).2
    simp only [Bool.and_eq_true, decide_eq_true_eq] at this
    exact this.1
  have hc2 : c.2.text = X := by
    have := (List.mem_filter.mp hc).2
    simp only [Bool.and_eq_true, decide_eq_true_eq] at this
    exact this.1
  unfold text_le
  rw [ha2, hc2]

theorem timed_block_insertionSort (X : Str) (rows : List (Nat × LyricDataLine)) :
    timed_block (rows.insertionSort text_le) X = timed_block rows X := by
  unfold timed_block
  have h := insertionSort_filter_text X (fun e => decide (e.2.timestamp ≠ F64.DBL_MAX)) rows
  have e : (fun e : Nat × LyricDataLine =>
      decide (e.2.text = X ∧ e.2.timestamp ≠ F64.DBL_MAX)) =
      (fun e => decide (e.2.text = X) && decide (e.2.timestamp ≠ F64.DBL_MAX)) := by
    funext e
    simp [Bool.decide_and]
  rw [e]
  exact h

theorem block_result_insertionSort (X : Str) (rows : List (Nat × LyricDataLine)) :
    block_result (rows.insertionSort text_le) X = block_result rows X := by
  unfold block_result
  rw [timed_block_insertionSort]

/-- After the stable sort by text, rows of one text are in their old order: when timed rows
stood first, they still do within each text. -/
theorem insertionSort_run_order (rows : List (Nat × LyricDataLine))
    (h : rows.Pairwise (fun a c => a.2.text = c.2.text → a.2.timestamp = F64.DBL_MAX →
      c.2.timestamp = F64.DBL_MAX)) :
    (rows.insertionSort text_le).Pairwise run_order := by
  rw [List.pairwise_iff_forall_sublist]
  intro a c hac
  have hsorted : (rows.insertionSort text_le).Pairwise text_le :=
    List.sorted_insertionSort text_le rows
  have hle : text_le a c := (List.pairwise_iff_forall_sublist.mp hsorted) hac
  refine ⟨hle, ?_⟩
  intro htext hu
  have hf := hac.filter (fun e => decide (e.2.text = a.2.text) && true)
  rw [insertionSort_filter_text a.2.text (fun _ => true) rows] at hf
  have hpair : [a, c].filter (fun e => decide (e.2.text = a.2.text) && true) = [a, c] := by
    simp [htext]
  rw [hpair] at hf
  have hsub : List.Sublist [a, c] rows := hf.trans (List.filter_sublist rows)
  exact (List.pairwise_iff_forall_sublist.mp h) hsub htext hu


theorem merged_spec_indices (rows : List (Nat × LyricDataLine)) :
    ∀ seen : List Str,
      List.Sublist ((merged_spec seen rows).map Prod.fst) (rows.map Prod.fst) := by
  induction rows with
  | nil => intro seen; simp [merged_spec]
  | cons row rest ih =>
    intro seen
    unfold merged_spec
    by_cases hu : row.2.timestamp = F64.DBL_MAX
    · rw [if_pos hu]
      simp only [List.map_cons]
      exact (ih seen).cons₂ _
    · rw [if_neg hu]
      by_cases hs : row.2.text ∈ seen
      · rw [if_pos hs]
        simp only [List.map_cons]
        exact (ih seen).cons _
      · rw [if_neg hs]
        simp only [List.map_cons]
        exact (ih _).cons₂ _

theorem merged_runs_indices (rest : List (Nat × LyricDataLine)) :
    ∀ (b : Nat × LyricDataLine) (run : List (Nat × LyricDataLine)),
      List.Sublist ((merged_runs b run rest).map Prod.fst) ((b :: rest).map Prod.fst) := by
  induction rest with
  | nil =>
    intro b run
    simp [merged_runs, close_run]
  | cons e rest ih =>
    intro b run
    unfold merged_runs
    by_cases hj : b.2.text = e.2.text ∧ e.2.timestamp ≠ F64.DBL_MAX
    · rw [if_pos hj]
      have h := ih b (run ++ [e])
      simp only [List.map_cons] at h ⊢
      exact h.trans ((List.sublist_cons_self _ _).cons₂ _)
    · rw [if_neg hj]
      have h := ih e []
      simp only [List.map_cons] at h ⊢
      exact h.cons₂ _

theorem enum_indices_sorted (rows : List LyricDataLine) :
    (rows.enum.map Prod.fst).Pairwise (· < ·) := by
  rw [List.enum_map_fst]
  exact List.pairwise_lt_range _

/-- The merge pass when no untimed row is followed by a timed row of its text: the rows of
`merged_spec`. -/
theorem merge_equivalent_lines_spec (rows : List LyricDataLine) (h : mergeable rows) :
    merge_equivalent_lines rows = some ((merged_spec [] rows.enum).map Prod.snd) := by
  rw [merge_equivalent_lines_eq]
  congr 1
  have hperm := List.perm_insertionSort text_le rows.enum
  have hE : rows.enum.Pairwise
      (fun a c => a.2.text = c.2.text → a.2.timestamp = F64.DBL_MAX →
        c.2.timestamp = F64.DBL_MAX) := by
    have h2 : (rows.enum.map Prod.snd).Pairwise
        (fun a b => a.text = b.text → a.timestamp = F64.DBL_MAX →
          b.timestamp = F64.DBL_MAX) := by
      rw [List.enum_map_snd]
      exact h
    exact List.pairwise_map.mp h2
  have hrun := insertionSort_run_order rows.enum hE
  have hidx := enum_indices_sorted rows
  have hspec_sub := merged_spec_indices rows.enum []
  have hspec_idx : ((merged_spec [] rows.enum).map Prod.fst).Pairwise (· < ·) :=
    hidx.sublist hspec_sub
  have hspec_lt : (merged_spec [] rows.enum).Pairwise index_lt := by
    rw [List.pairwise_map] at hspec_idx
    exact hspec_idx
  cases hS : rows.enum.insertionSort text_le with
  | nil =>
    rw [hS] at hperm
    have hnil : rows.enum = [] := List.Perm.eq_nil hperm.symm
    simp only []
    rw [hnil]
    rfl
  | cons b rest =>
    simp only []
    rw [hS] at hperm hrun
    congr 1
    have hmem : ∀ x, x ∈ merged_runs b [] rest ↔ x ∈ merged_spec [] rows.enum := by
      intro x
      rw [mem_merged_runs_top b rest x hrun, mem_merged_spec rows.enum [] x]
      have e1 : x ∈ b :: rest ↔ x ∈ rows.enum := hperm.mem_iff
      have e2 : ∀ X, block_result (b :: rest) X = block_result rows.enum X := by
        intro X
        rw [← hS]
        exact block_result_insertionSort X rows.enum
      simp only [e1, e2, List.not_mem_nil, not_false_eq_true, true_and]
    have hnd_idx : ((b :: rest).map Prod.fst).Nodup :=
      (hperm.map Prod.fst).nodup_iff.mpr (hidx.imp (fun hlt => Nat.ne_of_lt hlt))
    have hruns_nd_idx : ((merged_runs b [] rest).map Prod.fst).Nodup :=
      hnd_idx.sublist (merged_runs_indices rest b [])
    have hruns_nd : (merged_runs b [] rest).Nodup := List.Nodup.of_map _ hruns_nd_idx
    have hspec_nd : (merged_spec [] rows.enum).Nodup :=
      hspec_lt.imp (fun hlt heq => by
        unfold index_lt at hlt
        rw [heq] at hlt
        exact Nat.lt_irrefl _ hlt)
    have hp : (merged_runs b [] rest).Perm (merged_spec [] rows.enum) :=
      (List.perm_ext_iff_of_nodup hruns_nd hspec_nd).mpr hmem
    have hp2 := (List.perm_insertionSort index_le (merged_runs b [] rest)).trans hp
    have hsorted_le : ((merged_runs b [] rest).insertionSort index_le).Pairwise index_le :=
      List.sorted_insertionSort index_le _
    have hsorted_nd : (((merged_runs b [] rest).insertionSort index_le).map Prod.fst).Nodup :=
      ((List.perm_insertionSort index_le (merged_runs b [] rest)).map Prod.fst).nodup_iff.mpr
        hruns_nd_idx
    have hsorted_ne : ((merged_runs b [] rest).insertionSort index_le).Pairwise
        (fun a c => a.1 ≠ c.1) := by
      unfold List.Nodup at hsorted_nd
      rw [List.pairwise_map] at hsorted_nd
      exact hsorted_nd
    have hsorted_lt : ((merged_runs b [] rest).insertionSort index_le).Pairwise index_lt :=
      (hsorted_le.and hsorted_ne).imp (fun hab => Nat.lt_of_le_of_ne hab.1 hab.2)
    exact List.eq_of_perm_of_sorted hp2 hsorted_lt hspec_lt


theorem timed_first_mergeable (rows : List LyricDataLine) (h : timed_first rows) :
    mergeable rows := by
  unfold mergeable
  unfold timed_first at h
  refine List.Pairwise.imp ?_ h
  intro a b hab _
  exact hab

theorem run_stamps_timed_block (n : Nat) (rows : List LyricDataLine) (X : Str) :
    run_stamps (timed_block (rows.enumFrom n) X) = text_stamps rows X := by
  unfold run_stamps timed_block text_stamps
  congr 1
  induction rows generalizing n with
  | nil => rfl
  | cons row rest ih =>
    rw [List.enumFrom_cons]
    by_cases hp : row.text = X ∧ row.timestamp ≠ F64.DBL_MAX
    · rw [List.filter_cons_of_pos (by simpa using hp), List.filter_cons_of_pos (by simpa using hp),
        List.map_cons, List.map_cons, ih]
    · rw [List.filter_cons_of_neg (by simpa using hp), List.filter_cons_of_neg (by simpa using hp),
        ih]

theorem merged_spec_rows (rows : List LyricDataLine) :
    ∀ (n : Nat) (seen : List Str),
      (merged_spec seen (rows.enumFrom n)).map Prod.snd = merged_rows seen rows := by
  induction rows with
  | nil => intro n seen; rfl
  | cons row rest ih =>
    intro n seen
    rw [List.enumFrom_cons]
    unfold merged_spec merged_rows
    simp only []
    by_cases hu : row.timestamp = F64.DBL_MAX
    · rw [if_pos hu, if_pos hu, List.map_cons, ih]
    · rw [if_neg hu, if_neg hu]
      by_cases hs : row.text ∈ seen
      · rw [if_pos hs, if_pos hs, ih]
      · rw [if_neg hs, if_neg hs, List.map_cons, ih]
        congr 1
        unfold close_run
        simp only []
        rw [run_stamps_timed_block]

/-- The merge pass, without row numbers. -/
theorem merge_equivalent_lines_rows (rows : List LyricDataLine) (h : mergeable rows) :
    merge_equivalent_lines rows = some (merged_rows [] rows) := by
  rw [merge_equivalent_lines_spec rows h]
  unfold List.enum
  rw [merged_spec_rows]

theorem split_rows_timestamp (line : LyricDataLine) :
    ∀ row ∈ split_rows line, row.timestamp = line.timestamp := by
  intro row hrow
  rw [split_rows_eq] at hrow
  obtain ⟨seg, _, rfl⟩ := List.mem_map.mp hrow
  rfl

theorem rows_timestamped (lines : List LyricDataLine) :
    (lines.flatMap split_rows).any (fun row => row.timestamp != F64.DBL_MAX) =
      lines.any (fun line => line.timestamp != F64.DBL_MAX) := by
  induction lines with
  | nil => rfl
  | cons line rest ih =>
    rw [List.flatMap_cons, List.any_append, ih, List.any_cons]
    congr 1
    have hne : split_rows line ≠ [] := by
      rw [split_rows_eq]
      simp [List.splitOn, List.splitOnP_ne_nil]
    have hall := split_rows_timestamp line
    cases hs : split_rows line with
    | nil => exact absurd hs hne
    | cons r rs =>
      rw [hs] at hall
      by_cases hm : line.timestamp = F64.DBL_MAX
      · rw [List.any_eq_false.mpr]
        · simp [hm]
        · intro x hx
          simp [hall x hx, hm]
      · rw [List.any_cons, hall r (List.mem_cons_self _ _)]
        simp [hm]

/-- The text of `expand_text` with the merge flag on, for a document with a timed line whose
rows are mergeable. -/
theorem expand_text_merged (d : LyricData) (htimed : d.IsTimestamped = true)
    (h : mergeable (d.lines.flatMap split_rows)) :
    expand_text d true = some (expand_tags d.tags ++
      ((merged_rows [] (d.lines.flatMap split_rows)).map (fun line =>
        (if line.timestamp ≠ F64.DBL_MAX then print_timestamp_body line.timestamp else [])
          ++ line.text ++ ['\r', '\n'])).flatten) := by
  unfold expand_text
  rw [if_pos htimed]
  unfold expand_rows
  rw [if_pos rfl, merge_equivalent_lines_rows _ h]
  simp only []
  rw [render_rows_eq]


theorem text_stamps_append (pre rest : List LyricDataLine) (X : Str) :
    text_stamps (pre ++ rest) X = text_stamps pre X ++ text_stamps rest X := by
  unfold text_stamps
  rw [List.filter_append, List.map_append, List.flatten_append]

theorem text_stamps_unseen (pre : List LyricDataLine) (seen : List Str) (X : Str)
    (hpre : ∀ c ∈ pre, c.timestamp ≠ F64.DBL_MAX → c.text ∈ seen) (hX : X ∉ seen) :
    text_stamps pre X = [] := by
  unfold text_stamps
  have : pre.filter (fun e => decide (e.text = X ∧ e.timestamp ≠ F64.DBL_MAX)) = [] := by
    rw [List.filter_eq_nil_iff]
    intro c hc
    simp only [decide_eq_true_eq, not_and, not_not]
    intro ht
    by_contra hne
    exact hX (ht ▸ hpre c hc hne)
  rw [this]
  rfl

theorem text_stamps_cons_self (row : LyricDataLine) (rest : List LyricDataLine)
    (h : row.timestamp ≠ F64.DBL_MAX) :
    text_stamps (row :: rest) row.text =
      print_timestamp_body row.timestamp ++ text_stamps rest row.text := by
  unfold text_stamps
  rw [List.filter_cons_of_pos (by simp [h])]
  rfl

/-- The printed merged rows are the kept rows, each with the timestamps of all timed rows of
its text. -/
theorem merged_rows_text (rest : List LyricDataLine) :
    ∀ (pre : List LyricDataLine) (seen : List Str),
      (∀ c ∈ pre, c.timestamp ≠ F64.DBL_MAX → c.text ∈ seen) →
      (merged_rows seen rest).map row_text =
        (kept_rows seen rest).map (merged_row_text (pre ++ rest)) := by
  induction rest with
  | nil => intro pre seen _; rfl
  | cons row rest ih =>
    intro pre seen hpre
    have happ : pre ++ row :: rest = (pre ++ [row]) ++ rest := by simp
    unfold merged_rows kept_rows
    by_cases hu : row.timestamp = F64.DBL_MAX
    · rw [if_pos hu, if_pos hu, List.map_cons, List.map_cons, happ,
        ih (pre ++ [row]) seen (by
          intro c hc hct
          rcases List.mem_append.mp hc with h | h
          · exact hpre c h hct
          · rw [List.mem_singleton.mp h] at hct
            exact absurd hu hct)]
      congr 1
      unfold row_text merged_row_text
      rw [if_neg (by simp [hu]), if_pos hu]
      rfl
    · rw [if_neg hu, if_neg hu]
      by_cases hs : row.text ∈ seen
      · rw [if_pos hs, if_pos hs, happ,
          ih (pre ++ [row]) seen (by
            intro c hc hct
            rcases List.mem_append.mp hc with h | h
            · exact hpre c h hct
            · rw [List.mem_singleton.mp h]
              exact hs)]
      · rw [if_neg hs, if_neg hs, List.map_cons, List.map_cons,
          ih (pre ++ [row]) (row.text :: seen) (by
            intro c hc hct
            rcases List.mem_append.mp hc with h | h
            · exact List.mem_cons_of_mem _ (hpre c h hct)
            · rw [List.mem_singleton.mp h]
              exact List.mem_cons_self _ _)]
        rw [← happ]
        congr 1
        unfold row_text merged_row_text
        simp only []
        rw [if_pos hu, if_neg hu, text_stamps_append, text_stamps_unseen pre seen _ hpre hs,
          text_stamps_cons_self row rest hu]
        simp

theorem kept_rows_sublist (rows : List LyricDataLine) :
    ∀ seen : List Str, List.Sublist (kept_rows seen rows) rows := by
  induction rows with
  | nil => intro seen; exact List.Sublist.slnil
  | cons row rest ih =>
    intro seen
    unfold kept_rows
    by_cases hu : row.timestamp = F64.DBL_MAX
    · rw [if_pos hu]
      exact (ih seen).cons₂ _
    · rw [if_neg hu]
      by_cases hs : row.text ∈ seen
      · rw [if_pos hs]
        exact (ih seen).cons _
      · rw [if_neg hs]
        exact (ih _).cons₂ _

/-- Among the kept rows there is one timed row for every text of a timed row that was not
seen before, and none for a text seen before. -/
theorem kept_rows_count (rows : List LyricDataLine) (X : Str) :
    ∀ seen : List Str,
      ((kept_rows seen rows).filter
          (fun r => decide (r.timestamp ≠ F64.DBL_MAX ∧ r.text = X))).length =
        if X ∉ seen ∧ ∃ r ∈ rows, r.timestamp ≠ F64.DBL_MAX ∧ r.text = X then 1 else 0 := by
  induction rows with
  | nil => intro seen; simp [kept_rows]
  | cons row rest ih =>
    intro seen
    unfold kept_rows
    by_cases hu : row.timestamp = F64.DBL_MAX
    · rw [if_pos hu, List.filter_cons_of_neg (by simp [hu]), ih seen]
      simp [hu]
    · rw [if_neg hu]
      by_cases hs : row.text ∈ seen
      · rw [if_pos hs, ih seen]
        by_cases hX : X ∈ seen
        · simp [hX]
        · have hne : row.text ≠ X := fun h => hX (h ▸ hs)
          simp [hX, hne]
      · rw [if_neg hs]
        by_cases hX : row.text = X
        · rw [List.filter_cons_of_pos (by simp [hu, hX]), List.length_cons,
            ih (row.text :: seen)]
          subst hX
          simp [hs, hu]
        · rw [List.filter_cons_of_neg (by simp [hX]), ih (row.text :: seen)]
          have hX2 : ¬ X = row.text := fun h => hX h.symm
          simp [hX, hX2]


theorem timed_first_rows (lines : List LyricDataLine) (h : timed_first lines) :
    timed_first (lines.flatMap split_rows) := by
  unfold timed_first at h ⊢
  rw [List.pairwise_flatMap]
  constructor
  · intro line _
    rw [List.pairwise_iff_forall_sublist]
    intro a b hab ha
    have h1 := split_rows_timestamp line a (hab.subset (by simp))
    have h2 := split_rows_timestamp line b (hab.subset (by simp))
    rw [h2, ← h1]
    exact ha
  · refine List.Pairwise.imp ?_ h
    intro l1 l2 h12 a ha b hb hu
    rw [split_rows_timestamp l1 a ha] at hu
    rw [split_rows_timestamp l2 b hb]
    exact h12 hu

theorem nodup_mergeable (rows : List LyricDataLine) (h : (rows.map (·.text)).Nodup) :
    mergeable rows := by
  unfold mergeable
  unfold List.Nodup at h
  rw [List.pairwise_map] at h
  refine List.Pairwise.imp ?_ h
  intro a b hne heq
  exact absurd heq hne

theorem merged_rows_nodup (rows : List LyricDataLine) :
    ∀ seen : List Str, (rows.map (·.text)).Nodup → (∀ r ∈ rows, r.text ∉ seen) →
      merged_rows seen rows = rows := by
  induction rows with
  | nil => intro seen _ _; rfl
  | cons row rest ih =>
    intro seen hnd hseen
    rw [List.map_cons, List.nodup_cons] at hnd
    have hrest : ∀ r ∈ rest, r.text ≠ row.text := by
      intro r hr heq
      exact hnd.1 (heq ▸ List.mem_map_of_mem _ hr)
    unfold merged_rows
    by_cases hu : row.timestamp = F64.DBL_MAX
    · rw [if_pos hu, ih seen hnd.2 (fun r hr => hseen r (List.mem_cons_of_mem _ hr))]
    · rw [if_neg hu, if_neg (hseen row (List.mem_cons_self _ _)),
        ih (row.text :: seen) hnd.2 (by
          intro r hr hm
          rcases List.mem_cons.mp hm with h | h
          · exact hrest r hr h
          · exact hseen r (List.mem_cons_of_mem _ hr) h)]
      have hst : text_stamps rest row.text = [] := by
        unfold text_stamps
        have : rest.filter (fun e => decide (e.text = row.text ∧ e.timestamp ≠ F64.DBL_MAX))
            = [] := by
          rw [List.filter_eq_nil_iff]
          intro c hc
          simp only [decide_eq_true_eq, not_and, not_not]
          intro ht
          exact absurd ht (hrest c hc)
        rw [this]
        rfl
      rw [hst]
      rfl

/-- Every merged row is a kept row with timestamps in front of its text. -/
theorem merged_rows_kept (rows : List LyricDataLine) :
    ∀ seen : List Str,
      List.Forall₂ (fun out kept => out.timestamp = kept.timestamp ∧
          ∃ stamps, out.text = stamps ++ kept.text)
        (merged_rows seen rows) (kept_rows seen rows) := by
  induction rows with
  | nil => intro seen; exact List.Forall₂.nil
  | cons row rest ih =>
    intro seen
    unfold merged_rows kept_rows
    by_cases hu : row.timestamp = F64.DBL_MAX
    · rw [if_pos hu, if_pos hu]
      exact List.Forall₂.cons ⟨rfl, [], rfl⟩ (ih seen)
    · rw [if_neg hu, if_neg hu]
      by_cases hs : row.text ∈ seen
      · rw [if_pos hs, if_pos hs]
        exact ih seen
      · rw [if_neg hs, if_neg hs]
        exact List.Forall₂.cons ⟨rfl, _, rfl⟩ (ih _)



/-! ## The shape of a printed timestamp -/

theorem fmt_02d_chars (n : Int) : ∀ c ∈ fmt_02d n, c = '-' ∨ c.isDigit = true := by
  have hdec : ∀ c ∈ decimal n.natAbs, c.isDigit = true := (decimal_spec n.natAbs).1.2
  intro c hc
  unfold fmt_02d at hc
  split at hc
  · rcases List.mem_cons.mp hc with h | h
    · exact Or.inl h
    · rcases List.mem_append.mp h with h1 | h1
      · rw [(List.mem_replicate.mp h1).2]
        exact Or.inr (by decide)
      · exact Or.inr (hdec c h1)
  · rcases List.mem_append.mp hc with h1 | h1
    · rw [(List.mem_replicate.mp h1).2]
      exact Or.inr (by decide)
    · exact Or.inr (hdec c h1)

theorem fmt_02d_plain (n : Int) : ∀ c ∈ fmt_02d n, c ≠ ']' ∧ is_line_end c = false := by
  intro c hc
  rcases fmt_02d_chars n c hc with h | h
  · subst h
    exact ⟨by decide, by decide⟩
  · constructor
    · rintro rfl
      exact absurd h (by decide)
    · unfold is_line_end
      simp only [Bool.or_eq_false_iff, beq_eq_false_iff_ne]
      refine ⟨⟨?_, ?_⟩, ?_⟩ <;>
      · rintro rfl
        exact absurd h (by decide)

theorem print_timestamp_fields_shape (h m s c : Int) :
    ∃ body, print_timestamp_fields h m s c = '[' :: (body ++ [']']) ∧
      ∀ x ∈ body, x ≠ ']' ∧ is_line_end x = false := by
  have hcolon : (':' : Char) ≠ ']' ∧ is_line_end ':' = false := ⟨by decide, by decide⟩
  have hdot : ('.' : Char) ≠ ']' ∧ is_line_end '.' = false := ⟨by decide, by decide⟩
  unfold print_timestamp_fields
  split
  · refine ⟨fmt_02d m ++ ':' :: (fmt_02d s ++ '.' :: fmt_02d c), by simp, ?_⟩
    intro x hx
    simp only [List.mem_append, List.mem_cons] at hx
    rcases hx with hx | hx | hx | hx | hx
    · exact fmt_02d_plain m x hx
    · rw [hx]; exact hcolon
    · exact fmt_02d_plain s x hx
    · rw [hx]; exact hdot
    · exact fmt_02d_plain c x hx
  · refine ⟨fmt_02d h ++ ':' :: (fmt_02d m ++ ':' :: (fmt_02d s ++ '.' :: fmt_02d c)),
      by simp, ?_⟩
    intro x hx
    simp only [List.mem_append, List.mem_cons] at hx
    rcases hx with hx | hx | hx | hx | hx | hx | hx
    · exact fmt_02d_plain h x hx
    · rw [hx]; exact hcolon
    · exact fmt_02d_plain m x hx
    · rw [hx]; exact hcolon
    · exact fmt_02d_plain s x hx
    · rw [hx]; exact hdot
    · exact fmt_02d_plain c x hx

theorem print_timestamp_body_shape (t : Double) :
    ∃ body, print_timestamp_body t = '[' :: (body ++ [']']) ∧
      ∀ x ∈ body, x ≠ ']' ∧ is_line_end x = false := by
  unfold print_timestamp_body
  simp only []
  split
  · split
    · split
      · exact print_timestamp_fields_shape _ _ _ _
      · exact print_timestamp_fields_shape _ _ _ _
    · exact print_timestamp_fields_shape _ _ _ _
  · exact print_timestamp_fields_shape _ _ _ _

/-- A printed timestamp that reads back as `t` is a well-formed tag of value `t`. -/
theorem print_timestamp_body_tag (t : Double)
    (h : try_parse_timestamp (print_timestamp_body t) = some t) :
    well_formed_tag (print_timestamp_body t) t := by
  obtain ⟨body, hb, hx⟩ := print_timestamp_body_shape t
  exact ⟨body, hb, fun hmem => (hx _ hmem).1 rfl, h⟩

theorem print_timestamp_body_plain (t : Double) :
    ∀ x ∈ print_timestamp_body t, is_line_end x = false := by
  obtain ⟨body, hb, hx⟩ := print_timestamp_body_shape t
  rw [hb]
  intro x hmem
  simp only [List.mem_cons, List.mem_append, List.mem_singleton, List.not_mem_nil,
    or_false] at hmem
  rcases hmem with h | h | h
  · rw [h]; decide
  · exact (hx x h).2
  · rw [h]; decide


/-! ## Reading printed rows back -/

theorem split_rows_single (line : LyricDataLine) (h : '\n' ∉ line.text) :
    split_rows line = [line] := by
  rw [split_rows_eq]
  have hs : line.text.splitOn '\n' = [line.text] := by
    unfold List.splitOn
    exact List.splitOnP_eq_single (· == '\n') line.text (fun x hx => by
      simp only [beq_iff_eq]
      intro hxe
      exact h (hxe ▸ hx))
  rw [hs]
  rfl

theorem flatMap_split_rows_single (lines : List LyricDataLine)
    (h : ∀ l ∈ lines, '\n' ∉ l.text) : lines.flatMap split_rows = lines := by
  induction lines with
  | nil => rfl
  | cons l rest ih =>
    rw [List.flatMap_cons, split_rows_single l (h l (List.mem_cons_self _ _)),
      ih (fun x hx => h x (List.mem_cons_of_mem _ hx))]
    rfl

/-- The physical lines of a text made of rows that each end in CRLF. -/
theorem physical_lines_crlf (contents : List Str)
    (h : ∀ l ∈ contents, ∀ x ∈ l, is_line_end x = false) :
    physical_lines ((contents.map (fun l => l ++ ['\r', '\n'])).flatten) = contents := by
  induction contents with
  | nil => exact physical_lines_nil
  | cons l rest ih =>
    rw [List.map_cons, List.flatten_cons, List.append_assoc]
    have e : ['\r', '\n'] ++ (rest.map (fun l => l ++ ['\r', '\n'])).flatten =
        '\r' :: ('\n' :: (rest.map (fun l => l ++ ['\r', '\n'])).flatten) := rfl
    rw [e, physical_lines_append l _ '\r' (h l (List.mem_cons_self _ _)) (by decide)]
    have hskip : skip_line_end ('\r' :: ('\n' :: (rest.map (fun l => l ++ ['\r', '\n'])).flatten))
        = (rest.map (fun l => l ++ ['\r', '\n'])).flatten := rfl
    rw [hskip, ih (fun x hx => h x (List.mem_cons_of_mem _ hx))]

theorem strip_bom_bracket (rest : Str) : strip_bom ('[' :: rest) = '[' :: rest := by
  unfold strip_bom
  split
  · rename_i c0 c1 c2 r heq
    rw [if_neg]
    rintro ⟨h0, -, -⟩
    have : c0 = '[' := by
      have := (List.cons.inj heq).1
      exact this.symm
    rw [this] at h0
    exact absurd h0 (by decide)
  · rfl

/-- A line made of printed timestamps that read back unchanged and of a text that does not
start with a timestamp tag gives these timestamps and this text. -/
theorem parse_line_times_stamps (ts : List Double) (text : Str)
    (hrt : ∀ t ∈ ts, try_parse_timestamp (print_timestamp_body t) = some t)
    (htext : ¬ starts_with_tag text) :
    parse_line_times ((ts.map print_timestamp_body).flatten ++ text) = ⟨ts, text⟩ := by
  have h := parse_line_times_tags (ts.map (fun t => (print_timestamp_body t, t))) text
    (by
      intro p hp
      obtain ⟨t, ht, rfl⟩ := List.mem_map.mp hp
      exact print_timestamp_body_tag t (hrt t ht))
    htext
  simp only [List.map_map] at h
  have e1 : (Prod.fst ∘ fun t => (print_timestamp_body t, t)) = print_timestamp_body := rfl
  have e2 : (Prod.snd ∘ fun t : Double => (print_timestamp_body t, t)) = id := rfl
  rw [e1, e2, List.map_id] at h
  exact h

theorem foldl_parse_line_all_timed (views : List Str)
    (h : ∀ v ∈ views, 0 < (parse_line_times v).timestamps.length) :
    ∀ st : ParseState,
      (views.foldl parse_line st).lines = st.lines ++ views.flatMap timed_entries_of_line ∧
        (views.foldl parse_line st).tags = st.tags := by
  induction views with
  | nil => intro st; simp
  | cons v views ih =>
    intro st
    rw [List.foldl_cons]
    obtain ⟨h1, h2⟩ := ih (fun x hx => h x (List.mem_cons_of_mem _ hx)) (parse_line st v)
    rw [h1, h2, parse_line_timed st v (h v (List.mem_cons_self _ _))]
    simp [List.flatMap_cons]


theorem kept_rows_unseen (rows : List LyricDataLine) :
    ∀ seen : List Str, ∀ k ∈ kept_rows seen rows, k.timestamp ≠ F64.DBL_MAX →
      k.text ∉ seen := by
  induction rows with
  | nil => intro seen k hk; simp [kept_rows] at hk
  | cons row rest ih =>
    intro seen k hk hkt
    unfold kept_rows at hk
    by_cases hu : row.timestamp = F64.DBL_MAX
    · rw [if_pos hu] at hk
      rcases List.mem_cons.mp hk with h | h
      · rw [h] at hkt
        exact absurd hu hkt
      · exact ih seen k h hkt
    · rw [if_neg hu] at hk
      by_cases hs : row.text ∈ seen
      · rw [if_pos hs] at hk
        exact ih seen k hk hkt
      · rw [if_neg hs] at hk
        rcases List.mem_cons.mp hk with h | h
        · rw [h]
          exact hs
        · exact fun hm => ih _ k h hkt (List.mem_cons_of_mem _ hm)

theorem text_block_cons_ne (row : LyricDataLine) (rest : List LyricDataLine) (X : Str)
    (h : row.text ≠ X) : text_block (row :: rest) X = text_block rest X := by
  unfold text_block
  rw [List.filter_cons_of_neg (by simp [h])]

theorem text_block_cons_self (row : LyricDataLine) (rest : List LyricDataLine)
    (h : row.timestamp ≠ F64.DBL_MAX) :
    text_block (row :: rest) row.text = row :: text_block rest row.text := by
  unfold text_block
  rw [List.filter_cons_of_pos (by simp [h])]

/-- The blocks of the kept rows, one after the other, hold every row once. -/
theorem kept_blocks_perm (rows : List LyricDataLine) :
    ∀ seen : List Str, (∀ r ∈ rows, r.timestamp ≠ F64.DBL_MAX) →
      ((kept_rows seen rows).flatMap (fun k => text_block rows k.text)).Perm
        (rows.filter (fun x => decide (x.text ∉ seen))) := by
  induction rows with
  | nil => intro seen _; simp [kept_rows]
  | cons row rest ih =>
    intro seen hall
    have hu : row.timestamp ≠ F64.DBL_MAX := hall row (List.mem_cons_self _ _)
    have hrest : ∀ r ∈ rest, r.timestamp ≠ F64.DBL_MAX :=
      fun r hr => hall r (List.mem_cons_of_mem _ hr)
    unfold kept_rows
    rw [if_neg hu]
    by_cases hs : row.text ∈ seen
    · rw [if_pos hs, List.filter_cons_of_neg (by simpa using hs)]
      have hcongr : (kept_rows seen rest).flatMap (fun k => text_block (row :: rest) k.text) =
          (kept_rows seen rest).flatMap (fun k => text_block rest k.text) := by
        apply List.flatMap_congr
        intro k hk
        have hkt : k.timestamp ≠ F64.DBL_MAX :=
          hrest k ((kept_rows_sublist rest seen).subset hk)
        have := kept_rows_unseen rest seen k hk hkt
        exact text_block_cons_ne row rest k.text (fun he => this (he ▸ hs))
      rw [hcongr]
      exact ih seen hrest
    · rw [if_neg hs, List.filter_cons_of_pos (by simpa using hs), List.flatMap_cons,
        text_block_cons_self row rest hu, List.cons_append]
      apply List.Perm.cons
      have hcongr : (kept_rows (row.text :: seen) rest).flatMap
            (fun k => text_block (row :: rest) k.text) =
          (kept_rows (row.text :: seen) rest).flatMap (fun k => text_block rest k.text) := by
        apply List.flatMap_congr
        intro k hk
        have hkt : k.timestamp ≠ F64.DBL_MAX :=
          hrest k ((kept_rows_sublist rest _).subset hk)
        have := kept_rows_unseen rest _ k hk hkt
        exact text_block_cons_ne row rest k.text
          (fun he => this (he ▸ List.mem_cons_self _ _))
      rw [hcongr]
      have h1 := ih (row.text :: seen) hrest
      have h2 : text_block rest row.text =
          (rest.filter (fun x => decide (x.text ∉ seen))).filter
            (fun x => decide (x.text = row.text)) := by
        unfold text_block
        rw [List.filter_filter]
        apply List.filter_congr
        intro x hx
        by_cases hxe : x.text = row.text
        · simp [hxe, hs, hrest x hx]
        · simp [hxe]
      have h3 : rest.filter (fun x => decide (x.text ∉ row.text :: seen)) =
          (rest.filter (fun x => decide (x.text ∉ seen))).filter
            (fun x => !decide (x.text = row.text)) := by
        rw [List.filter_filter]
        apply List.filter_congr
        intro x _
        by_cases hxe : x.text = row.text
        · simp [hxe]
        · simp [hxe]
      rw [h2]
      refine (List.Perm.append_left _ (h1.trans (List.Perm.of_eq h3))).trans ?_
      exact List.filter_append_perm _ _


theorem text_stamps_eq (rows : List LyricDataLine) (X : Str) :
    text_stamps rows X =
      (((text_block rows X).map (·.timestamp)).map print_timestamp_body).flatten := by
  unfold text_stamps text_block
  rw [List.map_map]
  rfl

theorem text_block_mem (rows : List LyricDataLine) (X : Str) (e : LyricDataLine)
    (h : e ∈ text_block rows X) : e ∈ rows ∧ e.text = X ∧ e.timestamp ≠ F64.DBL_MAX := by
  unfold text_block at h
  obtain ⟨h1, h2⟩ := List.mem_filter.mp h
  simp only [decide_eq_true_eq] at h2
  exact ⟨h1, h2.1, h2.2⟩

theorem text_block_self (rows : List LyricDataLine) (k : LyricDataLine) (hk : k ∈ rows)
    (hkt : k.timestamp ≠ F64.DBL_MAX) : k ∈ text_block rows k.text := by
  unfold text_block
  exact List.mem_filter.mpr ⟨hk, by simp [hkt]⟩

theorem text_stamps_plain (rows : List LyricDataLine) (X : Str) :
    ∀ x ∈ text_stamps rows X, is_line_end x = false := by
  intro x hx
  unfold text_stamps at hx
  obtain ⟨s, hs, hxs⟩ := List.mem_flatten.mp hx
  obtain ⟨e, _, rfl⟩ := List.mem_map.mp hs
  exact print_timestamp_body_plain _ x hxs

theorem text_stamps_bracket (rows : List LyricDataLine) (k : LyricDataLine) (hk : k ∈ rows)
    (hkt : k.timestamp ≠ F64.DBL_MAX) : ∃ rest, text_stamps rows k.text = '[' :: rest := by
  have hmem := text_block_self rows k hk hkt
  unfold text_stamps
  unfold text_block at hmem
  cases hb : rows.filter (fun e => decide (e.text = k.text ∧ e.timestamp ≠ F64.DBL_MAX)) with
  | nil => rw [hb] at hmem; simp at hmem
  | cons e others =>
    obtain ⟨body, hbody, _⟩ := print_timestamp_body_shape e.timestamp
    rw [List.map_cons, List.flatten_cons, hbody]
    exact ⟨_, rfl⟩

/-- The lines that `parse` collects (before it sorts them) from the merged text of timed rows:
the blocks of the kept rows, one after the other. -/
theorem parse_state_merged (rows : List LyricDataLine)
    (hall : ∀ r ∈ rows, r.timestamp ≠ F64.DBL_MAX)
    (hplain : ∀ r ∈ rows, ∀ x ∈ r.text, is_line_end x = false)
    (htag : ∀ r ∈ rows, ¬ starts_with_tag r.text)
    (hrt : ∀ r ∈ rows,
      try_parse_timestamp (print_timestamp_body r.timestamp) = some r.timestamp) :
    (parse_state (((kept_rows [] rows).map (merged_row_text rows)).flatten)).lines =
        (kept_rows [] rows).flatMap (fun k => text_block rows k.text) ∧
      (parse_state (((kept_rows [] rows).map (merged_row_text rows)).flatten)).tags = [] := by
  have hsub : ∀ k ∈ kept_rows [] rows, k ∈ rows :=
    fun k hk => (kept_rows_sublist rows []).subset hk
  have htext : ((kept_rows [] rows).map (merged_row_text rows)).flatten =
      (((kept_rows [] rows).map (fun k => text_stamps rows k.text ++ k.text)).map
        (fun l => l ++ ['\r', '\n'])).flatten := by
    rw [List.map_map]
    congr 1
    apply List.map_congr_left
    intro k hk
    unfold merged_row_text
    rw [if_neg (hall k (hsub k hk))]
    rfl
  have hviews : line_views (((kept_rows [] rows).map (merged_row_text rows)).flatten) =
      (kept_rows [] rows).map (fun k => text_stamps rows k.text ++ k.text) := by
    unfold line_views
    rw [htext, physical_lines_crlf]
    · rw [List.map_map]
      apply List.map_congr_left
      intro k hk
      obtain ⟨rest, hrest⟩ := text_stamps_bracket rows k (hsub k hk) (hall k (hsub k hk))
      simp only [Function.comp, hrest, List.cons_append]
      exact strip_bom_bracket _
    · intro l hl x hx
      obtain ⟨k, hk, rfl⟩ := List.mem_map.mp hl
      rcases List.mem_append.mp hx with h | h
      · exact text_stamps_plain rows k.text x h
      · exact hplain k (hsub k hk) x h
  have hparse : ∀ k ∈ kept_rows [] rows,
      parse_line_times (text_stamps rows k.text ++ k.text) =
        ⟨(text_block rows k.text).map (·.timestamp), k.text⟩ := by
    intro k hk
    rw [text_stamps_eq]
    apply parse_line_times_stamps _ _ _ (htag k (hsub k hk))
    intro t ht
    obtain ⟨e, he, rfl⟩ := List.mem_map.mp ht
    exact hrt e (text_block_mem rows k.text e he).1
  have hentries : ∀ k ∈ kept_rows [] rows,
      timed_entries_of_line (text_stamps rows k.text ++ k.text) = text_block rows k.text := by
    intro k hk
    unfold timed_entries_of_line
    rw [hparse k hk]
    simp only [List.map_map]
    conv_rhs => rw [← List.map_id (text_block rows k.text)]
    apply List.map_congr_left
    intro e he
    have := (text_block_mem rows k.text e he).2.1
    simp only [Function.comp, id]
    rw [← this]
  have hcarry : ∀ v ∈ (kept_rows [] rows).map (fun k => text_stamps rows k.text ++ k.text),
      0 < (parse_line_times v).timestamps.length := by
    intro v hv
    obtain ⟨k, hk, rfl⟩ := List.mem_map.mp hv
    rw [hparse k hk]
    simp only [List.length_map]
    exact List.length_pos_of_mem (text_block_self rows k (hsub k hk) (hall k (hsub k hk)))
  have hfold := foldl_parse_line_all_timed _ hcarry ParseState.init
  unfold parse_state
  unfold line_views at hviews
  rw [hviews, hfold.1, hfold.2]
  refine ⟨?_, rfl⟩
  show [] ++ _ = _
  rw [List.nil_append, List.flatMap_map]
  apply List.flatMap_congr
  intro k hk
  exact hentries k hk


/-- Sorting and collapsing a permutation of lines with strictly increasing timestamps gives
these lines. -/
theorem sort_collapse_strict (entries lines : List LyricDataLine) (hperm : entries.Perm lines)
    (hsorted : lines.Pairwise timestamp_lt) :
    collapse_concurrent_lines (entries.insertionSort timestamp_le) = lines := by
  have hp := (List.perm_insertionSort timestamp_le entries).trans hperm
  have hle : (entries.insertionSort timestamp_le).Pairwise timestamp_le :=
    List.sorted_insertionSort timestamp_le entries
  have hne : lines.Pairwise (fun a b => a.timestamp ≠ b.timestamp) :=
    hsorted.imp (fun h => ne_of_lt h)
  have hne2 : (entries.insertionSort timestamp_le).Pairwise
      (fun a b => a.timestamp ≠ b.timestamp) :=
    (hp.pairwise_iff (fun h => h.symm)).mpr hne
  have hlt : (entries.insertionSort timestamp_le).Pairwise timestamp_lt :=
    (hle.and hne2).imp (fun h => lt_of_le_of_ne h.1 h.2)
  have heq : entries.insertionSort timestamp_le = lines :=
    List.eq_of_perm_of_sorted hp hlt hsorted
  rw [heq]
  unfold collapse_concurrent_lines collapse
  cases lines with
  | nil => rfl
  | cons a rest =>
    apply collapse_from_distinct
    have hchain : List.Chain timestamp_lt a rest := List.Pairwise.chain hsorted
    exact hchain.imp (fun _ _ h => Or.inr (ne_of_lt h))

theorem expand_text_empty (d : LyricData) (hl : d.lines = []) (flag : Bool) :
    expand_text d flag = some (expand_tags d.tags) := by
  unfold expand_text LyricData.IsTimestamped
  rw [hl]
  simp [render_untimed]

/-- Reading back the merged text of timed single-row lines. -/
theorem parse_expand_merged (metadata : LyricDataCommon) (d : LyricData) (htags : d.tags = [])
    (hall : ∀ l ∈ d.lines, l.timestamp ≠ F64.DBL_MAX)
    (hsorted : d.lines.Pairwise timestamp_lt)
    (hrt : ∀ l ∈ d.lines,
      try_parse_timestamp (print_timestamp_body l.timestamp) = some l.timestamp)
    (hplain : ∀ l ∈ d.lines, ∀ x ∈ l.text, is_line_end x = false)
    (htag : ∀ l ∈ d.lines, ¬ starts_with_tag l.text) :
    ∃ s, expand_text d true = some s ∧ (parse metadata s).lines = d.lines ∧
      (parse metadata s).tags = [] := by
  have hrows : d.lines.flatMap split_rows = d.lines := by
    apply flatMap_split_rows_single
    intro l hl hmem
    have := hplain l hl '\n' hmem
    exact absurd this (by decide)
  cases hlines : d.lines with
  | nil =>
    refine ⟨expand_tags d.tags, expand_text_empty d hlines true, ?_, ?_⟩
    · rw [htags]
      rfl
    · rw [htags]
      rfl
  | cons first rest =>
    have htimed : d.IsTimestamped = true := by
      unfold LyricData.IsTimestamped
      rw [List.any_eq_true]
      refine ⟨first, by rw [hlines]; exact List.mem_cons_self _ _, ?_⟩
      have := hall first (by rw [hlines]; exact List.mem_cons_self _ _)
      simpa using this
    have hm : mergeable (d.lines.flatMap split_rows) := by
      rw [hrows]
      unfold mergeable
      rw [List.pairwise_iff_forall_sublist]
      intro a b hab _ hu
      exact absurd hu (hall a (hab.subset (by simp)))
    have htextm := merged_rows_text d.lines [] [] (by simp)
    rw [List.nil_append] at htextm
    have hexp : expand_text d true =
        some (((kept_rows [] d.lines).map (merged_row_text d.lines)).flatten) := by
      rw [expand_text_merged d htimed hm, hrows, htags]
      have htag0 : expand_tags [] = [] := rfl
      rw [htag0, List.nil_append, ← htextm]
      rfl
    obtain ⟨hst1, hst2⟩ := parse_state_merged d.lines hall hplain htag hrt
    have hperm := kept_blocks_perm d.lines [] hall
    have hfilter : d.lines.filter (fun x => decide (x.text ∉ ([] : List Str))) = d.lines := by
      rw [List.filter_eq_self]
      intro x _
      simp
    rw [hfilter] at hperm
    rw [← hlines]
    refine ⟨_, hexp, ?_, ?_⟩
    · show collapse_concurrent_lines ((parse_state _).lines.insertionSort timestamp_le) = _
      rw [hst1]
      exact sort_collapse_strict _ _ hperm hsorted
    · show (parse_state _).tags = _
      exact hst2



/-! ## What `parse` collects from a text -/

theorem physical_lines_loop_plain (fuel : Nat) :
    ∀ text : Str, ∀ v ∈ physical_lines_loop fuel text, ∀ x ∈ v, is_line_end x = false := by
  induction fuel with
  | zero => intro text v hv; simp [physical_lines_loop] at hv
  | succ fuel ih =>
    intro text v hv x hx
    unfold physical_lines_loop at hv
    split at hv
    · simp at hv
    · rcases List.mem_cons.mp hv with h | h
      · rw [h] at hx
        have := List.mem_takeWhile_imp hx
        simpa using this
      · exact ih _ v h x hx

theorem strip_bom_suffix (line : Str) : strip_bom line <:+ line := by
  unfold strip_bom
  split
  · split
    · exact ⟨[_, _, _], rfl⟩
    · exact List.suffix_refl _
  · exact List.suffix_refl _

theorem line_views_plain (text : Str) :
    ∀ v ∈ line_views text, ∀ x ∈ v, is_line_end x = false := by
  intro v hv x hx
  unfold line_views at hv
  obtain ⟨w, hw, rfl⟩ := List.mem_map.mp hv
  exact physical_lines_loop_plain _ text w hw x ((strip_bom_suffix w).subset hx)

theorem parse_line_times_loop_remainder (fuel : Nat) :
    ∀ (rest : Str) (acc : List Double), rest.length < fuel →
      (parse_time_from_line (parse_line_times_loop fuel rest acc).line).success = false ∧
        (parse_line_times_loop fuel rest acc).line <:+ rest := by
  induction fuel with
  | zero => intro rest acc h; omega
  | succ fuel ih =>
    intro rest acc hlen
    unfold parse_line_times_loop
    by_cases hs : (parse_time_from_line rest).success = true
    · rw [if_pos hs]
      have hc := parse_time_from_line_consumed rest hs
      obtain ⟨h1, h2⟩ := ih (rest.drop (parse_time_from_line rest).charsConsumed)
        (acc ++ [(parse_time_from_line rest).timestamp])
        (by rw [List.length_drop]; omega)
      exact ⟨h1, h2.trans (List.drop_suffix _ _)⟩
    · rw [if_neg hs]
      have hf := parse_time_from_line_failure rest (by simpa using hs)
      rw [hf]
      simp only [List.drop_zero]
      exact ⟨by simpa using hs, List.suffix_refl _⟩

theorem parse_line_times_remainder (line : Str) :
    ¬ starts_with_tag (parse_line_times line).line ∧ (parse_line_times line).line <:+ line := by
  obtain ⟨h1, h2⟩ := parse_line_times_loop_remainder (line.length + 1) line [] (Nat.lt_succ_self _)
  refine ⟨?_, h2⟩
  rw [starts_with_tag_iff]
  unfold parse_line_times
  rw [h1]
  simp

/-- The lines that `parse` emits for a view: their texts hold no line end, a timed one does
not start with a timestamp tag and its timestamp is below the sentinel, an untimed one is a
view without timestamp. -/
theorem entries_of_view_facts (v : Str) (hv : ∀ x ∈ v, is_line_end x = false) :
    ∀ e ∈ entries_of_view v, (∀ x ∈ e.text, is_line_end x = false) ∧
      (e.timestamp ≠ F64.DBL_MAX → ¬ starts_with_tag e.text ∧ e.timestamp < F64.DBL_MAX) ∧
      (e.timestamp = F64.DBL_MAX → carries_timestamp e.text = false) := by
  intro e he
  unfold entries_of_view at he
  cases hc : carries_timestamp v with
  | true =>
    rw [hc, if_pos rfl] at he
    have hb := (timed_entries_of_line_bounds v e he).2
    unfold timed_entries_of_line at he
    obtain ⟨t, _, rfl⟩ := List.mem_map.mp he
    obtain ⟨h1, h2⟩ := parse_line_times_remainder v
    refine ⟨fun x hx => hv x (h2.subset hx), fun _ => ⟨h1, hb⟩, ?_⟩
    intro hmax
    exact absurd hmax (ne_of_lt hb)
  | false =>
    rw [hc] at he
    simp only [Bool.false_eq_true, if_false, List.mem_singleton] at he
    subst he
    refine ⟨hv, fun h => absurd rfl h, fun _ => hc⟩


theorem intercalate_snoc (segs : List Str) (seg : Str) (h : segs ≠ []) :
    ['\n'].intercalate (segs ++ [seg]) = ['\n'].intercalate segs ++ '\n' :: seg := by
  induction segs with
  | nil => exact absurd rfl h
  | cons a rest ih =>
    cases rest with
    | nil => simp [List.intercalate, List.intersperse]
    | cons b rest2 =>
      have := ih (by simp)
      simp only [List.intercalate, List.cons_append, List.intersperse_cons_cons,
        List.flatten_cons, List.append_assoc] at this ⊢
      rw [this]

/-- Splitting the collapsed lines at their line feeds gives the lines before the collapse. -/
theorem split_collapse_from (rest : List LyricDataLine) :
    ∀ (segs : List Str) (t : Double), segs ≠ [] → (∀ s ∈ segs, '\n' ∉ s) →
      (∀ r ∈ rest, '\n' ∉ r.text) →
      (collapse_from concurrent_reducer ⟨['\n'].intercalate segs, t⟩ rest).flatMap split_rows =
        segs.map (fun s => ⟨s, t⟩) ++ rest := by
  induction rest with
  | nil =>
    intro segs t hne hsegs _
    rw [collapse_from_nil, List.flatMap_cons, List.flatMap_nil, List.append_nil,
      List.append_nil, split_rows_eq]
    simp only []
    rw [List.splitOn_intercalate segs '\n' hsegs hne]
  | cons x rest ih =>
    intro segs t hne hsegs hrest
    have hx : '\n' ∉ x.text := hrest x (List.mem_cons_self _ _)
    have hrest2 : ∀ r ∈ rest, '\n' ∉ r.text := fun r hr => hrest r (List.mem_cons_of_mem _ hr)
    by_cases h : t = F64.DBL_MAX ∨ t ≠ x.timestamp
    · rw [collapse_from_keep _ x rest h, List.flatMap_cons, split_rows_eq]
      simp only []
      rw [List.splitOn_intercalate segs '\n' hsegs hne]
      have hnext := ih [x.text] x.timestamp (by simp)
        (by intro s hs; rw [List.mem_singleton.mp hs]; exact hx) hrest2
      have e1 : ['\n'].intercalate [x.text] = x.text := by
        simp [List.intercalate, List.intersperse]
      rw [e1] at hnext
      rw [hnext]
      rfl
    · push_neg at h
      rw [collapse_from_merge _ x rest h.1 h.2]
      simp only []
      rw [← intercalate_snoc segs x.text hne,
        ih (segs ++ [x.text]) t (by simp)
          (by
            intro s hs
            rcases List.mem_append.mp hs with h1 | h1
            · exact hsegs s h1
            · rw [List.mem_singleton.mp h1]; exact hx)
          hrest2]
      rw [List.map_append, List.append_assoc]
      congr 1
      simp only [List.map_cons, List.map_nil, List.singleton_append]
      rw [h.2]

theorem split_collapse (lines : List LyricDataLine) (h : ∀ r ∈ lines, '\n' ∉ r.text) :
    (collapse_concurrent_lines lines).flatMap split_rows = lines := by
  unfold collapse_concurrent_lines collapse
  cases lines with
  | nil => rfl
  | cons a rest =>
    have h1 := split_collapse_from rest [a.text] a.timestamp (by simp)
      (by intro s hs; rw [List.mem_singleton.mp hs]; exact h a (List.mem_cons_self _ _))
      (fun r hr => h r (List.mem_cons_of_mem _ hr))
    have e1 : ['\n'].intercalate [a.text] = a.text := by
      simp [List.intercalate, List.intersperse]
    rw [e1] at h1
    exact h1


theorem row_text_content (line : LyricDataLine) :
    row_text line = row_content line ++ ['\r', '\n'] := rfl

theorem row_content_plain (line : LyricDataLine)
    (h : ∀ x ∈ line.text, is_line_end x = false) :
    ∀ x ∈ row_content line, is_line_end x = false := by
  intro x hx
  unfold row_content at hx
  rcases List.mem_append.mp hx with h1 | h1
  · split at h1
    · exact print_timestamp_body_plain _ x h1
    · simp at h1
  · exact h x h1

theorem row_content_strip (line : LyricDataLine)
    (h : line.timestamp = F64.DBL_MAX → strip_bom line.text = line.text) :
    strip_bom (row_content line) = row_content line := by
  unfold row_content
  by_cases ht : line.timestamp = F64.DBL_MAX
  · rw [if_neg (by simp [ht]), List.nil_append]
    exact h ht
  · rw [if_pos ht]
    obtain ⟨body, hb, _⟩ := print_timestamp_body_shape line.timestamp
    rw [hb, List.cons_append]
    exact strip_bom_bracket _

theorem row_content_entries (line : LyricDataLine)
    (htimed : line.timestamp ≠ F64.DBL_MAX → ¬ starts_with_tag line.text ∧
      try_parse_timestamp (print_timestamp_body line.timestamp) = some line.timestamp)
    (huntimed : line.timestamp = F64.DBL_MAX → carries_timestamp line.text = false) :
    entries_of_view (row_content line) = [line] ∧
      (line.timestamp ≠ F64.DBL_MAX → carries_timestamp (row_content line) = true) := by
  unfold row_content
  by_cases ht : line.timestamp = F64.DBL_MAX
  · rw [if_neg (by simp [ht]), List.nil_append]
    refine ⟨?_, fun h => absurd ht h⟩
    unfold entries_of_view
    rw [huntimed ht]
    simp only [Bool.false_eq_true, if_false, untimed_line]
    rw [← ht]
  · rw [if_pos ht]
    have hp := parse_line_times_stamps [line.timestamp] line.text
      (by intro t h; rw [List.mem_singleton.mp h]; exact (htimed ht).2) (htimed ht).1
    simp only [List.map_cons, List.map_nil, List.flatten_cons, List.flatten_nil,
      List.append_nil] at hp
    have hc : carries_timestamp (print_timestamp_body line.timestamp ++ line.text) = true := by
      unfold carries_timestamp
      rw [hp]
      simp
    refine ⟨?_, fun _ => hc⟩
    unfold entries_of_view
    rw [hc, if_pos rfl]
    unfold timed_entries_of_line
    rw [hp]
    rfl

/-- The state of `parse` after the printed rows of a document whose first row is timed: the
rows are its lines, and there is no tag. -/
theorem parse_state_rows (first : LyricDataLine) (rest : List LyricDataLine)
    (hfirst : first.timestamp ≠ F64.DBL_MAX)
    (hplain : ∀ r ∈ first :: rest, ∀ x ∈ r.text, is_line_end x = false)
    (htimed : ∀ r ∈ first :: rest, r.timestamp ≠ F64.DBL_MAX → ¬ starts_with_tag r.text ∧
      try_parse_timestamp (print_timestamp_body r.timestamp) = some r.timestamp)
    (huntimed : ∀ r ∈ first :: rest, r.timestamp = F64.DBL_MAX →
      carries_timestamp r.text = false ∧ strip_bom r.text = r.text) :
    parse_state (((first :: rest).map row_text).flatten) =
      ⟨first :: rest, [], true, 0⟩ := by
  have hviews : line_views (((first :: rest).map row_text).flatten) =
      (first :: rest).map row_content := by
    unfold line_views
    have e : (first :: rest).map row_text =
        ((first :: rest).map row_content).map (fun l => l ++ ['\r', '\n']) := by
      rw [List.map_map]
      rfl
    rw [e, physical_lines_crlf]
    · rw [List.map_map]
      apply List.map_congr_left
      intro r hr
      exact row_content_strip r (fun h => (huntimed r hr h).2)
    · intro l hl
      obtain ⟨r, hr, rfl⟩ := List.mem_map.mp hl
      exact row_content_plain r (hplain r hr)
  have hentries : ∀ r ∈ first :: rest, entries_of_view (row_content r) = [r] :=
    fun r hr => (row_content_entries r (htimed r hr) (fun h => (huntimed r hr h).1)).1
  have hc0 := (row_content_entries first (htimed first (List.mem_cons_self _ _))
    (fun h => (huntimed first (List.mem_cons_self _ _) h).1)).2 hfirst
  have he0 := hentries first (List.mem_cons_self _ _)
  unfold entries_of_view at he0
  rw [hc0, if_pos rfl] at he0
  unfold parse_state
  unfold line_views at hviews
  rw [hviews, List.map_cons, List.foldl_cons,
    parse_line_timed _ _ (carries_timestamp_true _ hc0), he0,
    foldl_parse_line_content _ _ rfl]
  simp only [ParseState.init, List.nil_append, List.flatMap_map]
  congr 1
  rw [List.singleton_append]
  congr 1
  have : rest.flatMap (fun r => entries_of_view (row_content r)) = rest.flatMap (fun r => [r]) := by
    apply List.flatMap_congr
    intro r hr
    exact hentries r (List.mem_cons_of_mem _ hr)
  rw [this]
  exact List.flatMap_singleton' rest


theorem tag_section_mem (views : List Str) : ∀ v ∈ tag_section views, v ∈ views :=
  fun _ hv => (List.takeWhile_sublist _).subset hv

theorem content_section_mem (views : List Str) : ∀ v ∈ content_section views, v ∈ views :=
  fun _ hv => (List.dropWhile_sublist _).subset hv

theorem parse_state_entry_facts (text : Str) :
    ∀ e ∈ (parse_state text).lines, (∀ x ∈ e.text, is_line_end x = false) ∧
      (e.timestamp ≠ F64.DBL_MAX → ¬ starts_with_tag e.text ∧ e.timestamp < F64.DBL_MAX) ∧
      (e.timestamp = F64.DBL_MAX → carries_timestamp e.text = false) := by
  intro e he
  rw [(parse_state_sections text).2] at he
  rcases List.mem_append.mp he with h | h
  · obtain ⟨v, hv, rfl⟩ := List.mem_map.mp h
    have hv2 := (List.mem_filter.mp hv).1
    have hplain := line_views_plain text v (tag_section_mem _ v hv2)
    refine ⟨hplain, fun hne => absurd rfl hne, fun _ => tag_section_no_timestamp _ v hv2⟩
  · obtain ⟨v, hv, hev⟩ := List.mem_flatMap.mp h
    exact entries_of_view_facts v (line_views_plain text v (content_section_mem _ v hv)) e hev

/-- The first line that `parse` collects, when it is untimed, is not a tag line. -/
theorem parse_state_head (text : Str) (e0 : LyricDataLine) (rest : List LyricDataLine)
    (h : (parse_state text).lines = e0 :: rest) (hu : e0.timestamp = F64.DBL_MAX) :
    is_tag_line e0.text = false := by
  rw [(parse_state_sections text).2] at h
  cases hA : (tag_section (line_views text)).filter (fun v => !is_tag_line v) with
  | cons v vs =>
    rw [hA] at h
    simp only [List.map_cons, List.cons_append, List.cons.injEq] at h
    have hv : v ∈ (tag_section (line_views text)).filter (fun v => !is_tag_line v) := by
      rw [hA]; exact List.mem_cons_self _ _
    have := (List.mem_filter.mp hv).2
    rw [← h.1]
    simpa [untimed_line] using this
  | nil =>
    rw [hA] at h
    simp only [List.map_nil, List.nil_append] at h
    unfold content_section at h
    cases hC : (line_views text).dropWhile (fun line_view => !ends_tag_section line_view) with
    | nil => rw [hC] at h; simp at h
    | cons v vs =>
      rw [hC, List.flatMap_cons] at h
      have hends : ends_tag_section v = true := by
        have := List.head_dropWhile_not (fun line_view => !ends_tag_section line_view)
          (line_views text) (by rw [hC]; simp)
        simp only [hC, List.head_cons] at this
        simpa using this
      unfold ends_tag_section at hends
      unfold entries_of_view at h
      cases hc : carries_timestamp v with
      | true =>
        rw [hc, if_pos rfl] at h
        have hmem : e0 ∈ timed_entries_of_line v := by
          have : e0 ∈ timed_entries_of_line v ++ vs.flatMap
              (fun line_view => if carries_timestamp line_view = true
                then timed_entries_of_line line_view else [untimed_line line_view]) := by
            rw [h]; exact List.mem_cons_self _ _
          rcases List.mem_append.mp this with h1 | h1
          · exact h1
          · have hlen := carries_timestamp_true v hc
            unfold timed_entries_of_line at h
            cases hts : (parse_line_times v).timestamps with
            | nil => rw [hts] at hlen; simp at hlen
            | cons t ts =>
              rw [hts] at h
              simp only [List.map_cons, List.cons_append, List.cons.injEq] at h
              unfold timed_entries_of_line
              rw [hts, ← h.1]
              exact List.mem_cons_self _ _
        have := (timed_entries_of_line_bounds v e0 hmem).2
        exact absurd hu (ne_of_lt this)
      | false =>
        rw [hc] at h hends
        simp only [Bool.false_eq_true, if_false, List.singleton_append, List.cons.injEq] at h
        simp only [Bool.false_or, Bool.and_eq_true, decide_eq_true_eq,
          Bool.not_eq_true'] at hends
        rw [← h.1]
        exact hends.2

theorem foldl_parse_line_offset (views : List Str) :
    ∀ st : ParseState, (views.foldl parse_line st).tags = [] →
      st.tags = [] ∧ (views.foldl parse_line st).timestamp_offset = st.timestamp_offset := by
  induction views with
  | nil => intro st h; exact ⟨h, rfl⟩
  | cons v views ih =>
    intro st h
    rw [List.foldl_cons] at h ⊢
    obtain ⟨h1, h2⟩ := ih (parse_line st v) h
    rcases parse_line_cases st v with ⟨_, hstep⟩ | ⟨_, _, _, hstep⟩ | ⟨_, _, hstep⟩
    · rw [h2]
      rw [hstep] at h1 ⊢
      exact ⟨h1, rfl⟩
    · rw [hstep] at h1
      simp at h1
    · rw [h2]
      rw [hstep] at h1 ⊢
      exact ⟨h1, rfl⟩

theorem parse_state_offset (text : Str) (h : (parse_state text).tags = []) :
    (parse_state text).timestamp_offset = 0 := by
  unfold parse_state at h ⊢
  exact (foldl_parse_line_offset _ ParseState.init h).2


theorem sorted_head_timed (lines : List LyricDataLine) (hs : lines.Pairwise timestamp_le)
    (e : LyricDataLine) (he : e ∈ lines) (ht : e.timestamp < F64.DBL_MAX) :
    ∃ first rest, lines = first :: rest ∧ first.timestamp ≠ F64.DBL_MAX := by
  cases lines with
  | nil => simp at he
  | cons first rest =>
    refine ⟨first, rest, rfl, ?_⟩
    rcases List.mem_cons.mp he with h | h
    · rw [← h]
      exact ne_of_lt ht
    · have hle : first.timestamp ≤ e.timestamp := (List.pairwise_cons.mp hs).1 e h
      exact ne_of_lt (lt_of_le_of_lt hle ht)

theorem collapse_from_untimed (rest : List LyricDataLine) :
    ∀ cur : LyricDataLine, (∀ x ∈ cur :: rest, x.timestamp = F64.DBL_MAX) →
      collapse_from concurrent_reducer cur rest = cur :: rest := by
  induction rest with
  | nil => intro cur _; rfl
  | cons x rest ih =>
    intro cur h
    rw [collapse_from_keep cur x rest (Or.inl (h cur (List.mem_cons_self _ _))),
      ih x (fun y hy => h y (List.mem_cons_of_mem _ hy))]

theorem sort_collapse_untimed (lines : List LyricDataLine)
    (h : ∀ x ∈ lines, x.timestamp = F64.DBL_MAX) :
    lines.insertionSort timestamp_le = lines ∧ collapse_concurrent_lines lines = lines := by
  constructor
  · apply List.Sorted.insertionSort_eq
    unfold List.Sorted
    rw [List.pairwise_iff_forall_sublist]
    intro a b hab
    unfold timestamp_le
    rw [h a (hab.subset (by simp)), h b (hab.subset (by simp))]
  · unfold collapse_concurrent_lines collapse
    cases lines with
    | nil => rfl
    | cons a rest => exact collapse_from_untimed rest a h

theorem expand_text_congr (d other : LyricData) (htags : d.tags = other.tags)
    (hlines : d.lines = other.lines) (flag : Bool) :
    expand_text d flag = expand_text other flag := by
  unfold expand_text expand_rows LyricData.IsTimestamped
  rw [htags, hlines]

/-- The state of `parse` after the printed lines of a document without timestamps whose first
printed line is not a tag line. -/
theorem parse_state_untimed_rows (first : LyricDataLine) (rest : List LyricDataLine)
    (hall : ∀ r ∈ first :: rest, r.timestamp = F64.DBL_MAX)
    (hplain : ∀ r ∈ first :: rest, ∀ x ∈ r.text, is_line_end x = false)
    (hfacts : ∀ r ∈ first :: rest,
      carries_timestamp r.text = false ∧ strip_bom r.text = r.text)
    (hhead : first.text ≠ [] → is_tag_line first.text = false) :
    parse_state (((first :: rest).map
        (fun line => (if line.text = [] then [' '] else line.text) ++ ['\r', '\n'])).flatten) =
      ⟨(first :: rest).map padded_line, [], true, 0⟩ := by
  have hpad : ∀ r ∈ first :: rest,
      (∀ x ∈ (padded_line r).text, is_line_end x = false) ∧
      carries_timestamp (padded_line r).text = false ∧
      strip_bom (padded_line r).text = (padded_line r).text ∧
      untimed_line (padded_line r).text = padded_line r := by
    intro r hr
    unfold padded_line
    simp only []
    by_cases he : r.text = []
    · rw [if_pos he]
      refine ⟨by decide, by decide, by decide, ?_⟩
      unfold untimed_line
      rw [hall r hr]
    · rw [if_neg he]
      refine ⟨hplain r hr, (hfacts r hr).1, (hfacts r hr).2, ?_⟩
      unfold untimed_line
      rw [hall r hr]
  have hviews : line_views (((first :: rest).map
      (fun line => (if line.text = [] then [' '] else line.text) ++ ['\r', '\n'])).flatten) =
      (first :: rest).map (fun r => (padded_line r).text) := by
    unfold line_views
    have e : (first :: rest).map
        (fun line => (if line.text = [] then [' '] else line.text) ++ ['\r', '\n']) =
        ((first :: rest).map (fun r => (padded_line r).text)).map
          (fun l => l ++ ['\r', '\n']) := by
      rw [List.map_map]
      rfl
    rw [e, physical_lines_crlf]
    · rw [List.map_map]
      apply List.map_congr_left
      intro r hr
      exact (hpad r hr).2.2.1
    · intro l hl
      obtain ⟨r, hr, rfl⟩ := List.mem_map.mp hl
      exact (hpad r hr).1
  have hhead2 : is_tag_line (padded_line first).text = false ∧
      0 < (padded_line first).text.length := by
    unfold padded_line
    simp only []
    by_cases he : first.text = []
    · rw [if_pos he]
      exact ⟨by decide, by decide⟩
    · rw [if_neg he]
      exact ⟨hhead he, List.length_pos.mpr he⟩
  unfold parse_state
  unfold line_views at hviews
  rw [hviews, List.map_cons, List.foldl_cons,
    parse_line_untimed _ _
      (carries_timestamp_false _ (hpad first (List.mem_cons_self _ _)).2.1)
      (Or.inr hhead2.1),
    foldl_parse_line_content _ _ (by simp [ParseState.init, hhead2.2])]
  simp only [ParseState.init, List.nil_append, Bool.false_or, List.flatMap_map, List.map_cons]
  have e1 : (⟨(padded_line first).text, F64.DBL_MAX⟩ : LyricDataLine) = padded_line first :=
    (hpad first (List.mem_cons_self _ _)).2.2.2
  have e2 : rest.flatMap (fun r => entries_of_view (padded_line r).text) =
      rest.map padded_line := by
    rw [← List.flatMap_singleton' (rest.map padded_line), List.flatMap_map]
    apply List.flatMap_congr
    intro r hr
    have hp := hpad r (List.mem_cons_of_mem _ hr)
    unfold entries_of_view
    rw [hp.2.1]
    simp only [Bool.false_eq_true, if_false]
    rw [hp.2.2.2]
  rw [e1, e2]
  simp [hhead2.2]


theorem padded_line_untimed (lines : List LyricDataLine)
    (h : ∀ l ∈ lines, l.timestamp = F64.DBL_MAX) :
    ∀ l ∈ lines.map padded_line, l.timestamp = F64.DBL_MAX := by
  intro l hl
  obtain ⟨r, hr, rfl⟩ := List.mem_map.mp hl
  exact h r hr

theorem render_untimed_padded (lines : List LyricDataLine)
    (h : ∀ l ∈ lines, l.timestamp = F64.DBL_MAX) :
    render_untimed (lines.map padded_line) = render_untimed lines := by
  rw [render_untimed_eq _ (padded_line_untimed lines h), render_untimed_eq _ h, List.map_map]
  congr 2
  apply List.map_congr_left
  intro l _
  unfold padded_line
  simp only [Function.comp]
  by_cases he : l.text = []
  · simp [he]
  · simp [he]

/-- Parsing the text that `expand_text` prints (merge flag off) for a parsed document without
tags, all of whose timestamps are read back unchanged and whose untimed lines do not start
with a byte-order mark. -/
theorem parse_expand_parse (metadata : LyricDataCommon) (text : Str)
    (htags : (parse metadata text).tags = [])
    (hrt : ∀ l ∈ (parse metadata text).lines, l.timestamp ≠ F64.DBL_MAX →
      try_parse_timestamp (print_timestamp_body l.timestamp) = some l.timestamp)
    (hbom : ∀ l ∈ (parse metadata text).lines, l.timestamp = F64.DBL_MAX →
      strip_bom l.text = l.text) :
    ∃ s, expand_text (parse metadata text) false = some s ∧
      (parse metadata s).tags = [] ∧ (parse metadata s).timestamp_offset = 0 ∧
      (parse metadata s).lines =
        (if (parse metadata text).IsTimestamped then (parse metadata text).lines
          else (parse metadata text).lines.map padded_line) ∧
      expand_text (parse metadata s) false = some s := by
  have hL : (parse metadata text).lines = collapse_concurrent_lines
      ((parse_state text).lines.insertionSort timestamp_le) := rfl
  have hperm := List.perm_insertionSort timestamp_le (parse_state text).lines
  have hsorted : ((parse_state text).lines.insertionSort timestamp_le).Pairwise timestamp_le :=
    List.sorted_insertionSort timestamp_le _
  have hfacts : ∀ e ∈ (parse_state text).lines.insertionSort timestamp_le,
      (∀ x ∈ e.text, is_line_end x = false) ∧
      (e.timestamp ≠ F64.DBL_MAX → ¬ starts_with_tag e.text ∧ e.timestamp < F64.DBL_MAX) ∧
      (e.timestamp = F64.DBL_MAX → carries_timestamp e.text = false) :=
    fun e he => parse_state_entry_facts text e (hperm.subset he)
  have hsplit : (parse metadata text).lines.flatMap split_rows =
      (parse_state text).lines.insertionSort timestamp_le := by
    rw [hL]
    apply split_collapse
    intro r hr hmem
    exact absurd ((hfacts r hr).1 '\n' hmem) (by decide)
  generalize hS : (parse_state text).lines.insertionSort timestamp_le = S at *
  generalize hd : parse metadata text = d at *
  have hdtags : expand_tags d.tags = [] := by rw [htags]; rfl
  by_cases htimed : d.IsTimestamped = true
  · -- a timed row stands first
    rw [if_pos htimed]
    have hany : S.any (fun row => row.timestamp != F64.DBL_MAX) = true := by
      rw [← hsplit, rows_timestamped]
      exact htimed
    obtain ⟨e, he, hne⟩ := List.any_eq_true.mp hany
    have hne2 : e.timestamp ≠ F64.DBL_MAX := by simpa using hne
    obtain ⟨first, rest, hSeq, hfirst⟩ :=
      sorted_head_timed S hsorted e he ((hfacts e he).2.1 hne2).2
    have hexp : expand_text d false = some ((S.map row_text).flatten) := by
      unfold expand_text
      rw [if_pos htimed]
      unfold expand_rows
      simp only [Bool.false_eq_true, if_false]
      rw [render_rows_eq, hsplit, hdtags]
      rfl
    have hstate : parse_state ((S.map row_text).flatten) = ⟨S, [], true, 0⟩ := by
      rw [hSeq]
      apply parse_state_rows first rest hfirst
      · intro r hr
        exact (hfacts r (hSeq ▸ hr)).1
      · intro r hr hrne
        refine ⟨((hfacts r (hSeq ▸ hr)).2.1 hrne).1, ?_⟩
        have hmem : r ∈ d.lines.flatMap split_rows := by rw [hsplit, hSeq]; exact hr
        obtain ⟨l, hl, hrl⟩ := List.mem_flatMap.mp hmem
        have hts := split_rows_timestamp l r hrl
        rw [hts] at hrne ⊢
        exact hrt l hl hrne
      · intro r hr hru
        refine ⟨(hfacts r (hSeq ▸ hr)).2.2 hru, ?_⟩
        apply hbom r _ hru
        rw [hL]
        exact collapse_untimed_mem S r (hSeq ▸ hr) hru
    have hlines : (parse metadata ((S.map row_text).flatten)).lines = d.lines := by
      show collapse_concurrent_lines
        ((parse_state ((S.map row_text).flatten)).lines.insertionSort timestamp_le) = _
      rw [hstate]
      simp only []
      rw [List.Sorted.insertionSort_eq hsorted, hL]
    have htags2 : (parse metadata ((S.map row_text).flatten)).tags = [] := by
      show (parse_state ((S.map row_text).flatten)).tags = _
      rw [hstate]
    refine ⟨_, hexp, htags2, ?_, hlines, ?_⟩
    · show (parse_state ((S.map row_text).flatten)).timestamp_offset = _
      rw [hstate]
    · rw [expand_text_congr _ d (by rw [htags2, htags]) hlines false]
      exact hexp
  · -- no timed line at all
    rw [if_neg htimed]
    have htimed2 : d.IsTimestamped = false := by simpa using htimed
    have hall : ∀ l ∈ d.lines, l.timestamp = F64.DBL_MAX := (not_timestamped_iff d).mp htimed2
    have hallS : ∀ e ∈ S, e.timestamp = F64.DBL_MAX := by
      intro e he
      have hmem : e ∈ d.lines.flatMap split_rows := by rw [hsplit]; exact he
      obtain ⟨l, hl, hrl⟩ := List.mem_flatMap.mp hmem
      rw [split_rows_timestamp l e hrl]
      exact hall l hl
    have hLS : d.lines = S := by
      rw [hL]
      exact (sort_collapse_untimed S hallS).2
    have hE : (parse_state text).lines = S := by
      have hallE : ∀ e ∈ (parse_state text).lines, e.timestamp = F64.DBL_MAX :=
        fun e he => hallS e (hS ▸ hperm.symm.subset he)
      rw [← hS]
      exact (sort_collapse_untimed _ hallE).1.symm
    have hexp : expand_text d false = some ((d.lines.map (fun line =>
        (if line.text = [] then [' '] else line.text) ++ ['\r', '\n'])).flatten) := by
      unfold expand_text
      rw [if_neg htimed, render_untimed_eq _ hall, hdtags]
      rfl
    cases hlines : d.lines with
    | nil =>
      refine ⟨[], ?_, rfl, rfl, rfl, ?_⟩
      · rw [hexp, hlines]
        rfl
      · exact expand_text_empty _ rfl false
    | cons first rest =>
      have hstate := parse_state_untimed_rows first rest
        (fun r hr => hall r (hlines ▸ hr))
        (fun r hr => (hfacts r (hLS ▸ hlines ▸ hr)).1)
        (fun r hr => ⟨(hfacts r (hLS ▸ hlines ▸ hr)).2.2 (hall r (hlines ▸ hr)),
          hbom r (hlines ▸ hr) (hall r (hlines ▸ hr))⟩)
        (fun _ => parse_state_head text first rest (by rw [hE, ← hLS, hlines])
          (hall first (hlines ▸ List.mem_cons_self _ _)))
      have hpadded := padded_line_untimed (first :: rest) (fun r hr => hall r (hlines ▸ hr))
      have hlines2 : (parse metadata (((first :: rest).map (fun line =>
          (if line.text = [] then [' '] else line.text) ++ ['\r', '\n'])).flatten)).lines =
          (first :: rest).map padded_line := by
        show collapse_concurrent_lines ((parse_state _).lines.insertionSort timestamp_le) = _
        rw [hstate]
        simp only []
        rw [(sort_collapse_untimed _ hpadded).1, (sort_collapse_untimed _ hpadded).2]
      have htags2 : (parse metadata (((first :: rest).map (fun line =>
          (if line.text = [] then [' '] else line.text) ++ ['\r', '\n'])).flatten)).tags = [] := by
        show (parse_state _).tags = _
        rw [hstate]
      refine ⟨_, by rw [hexp, hlines], htags2, ?_, hlines2, ?_⟩
      · show (parse_state _).timestamp_offset = _
        rw [hstate]
      · have hnot : (parse metadata (((first :: rest).map (fun line =>
            (if line.text = [] then [' '] else line.text) ++ ['\r', '\n'])).flatten)).IsTimestamped
            = false := by
          rw [not_timestamped_iff, hlines2]
          exact hpadded
        unfold expand_text
        rw [hnot]
        simp only [Bool.false_eq_true, if_false]
        rw [hlines2, htags2, render_untimed_padded _ (fun r hr => hall r (hlines ▸ hr)),
          render_untimed_eq _ (fun r hr => hall r (hlines ▸ hr))]
        rfl



/-! ## The offset tag of a document -/

theorem remove_offset_tag_loop_eq (tags : List Str) :
    remove_offset_tag_loop tags = tags.filter (fun tag => !(try_parse_offset_tag tag).isSome) := by
  induction tags with
  | nil => rfl
  | cons tag rest ih =>
    unfold remove_offset_tag_loop
    by_cases h : (try_parse_offset_tag tag).isSome = true
    · rw [if_pos h, List.filter_cons_of_neg (by simp [h]), ih]
    · rw [if_neg h, List.filter_cons_of_pos (by simpa using h), ih]

/-- The tags after `set_offset_tag`, split at the first recognised offset tag. -/
theorem set_offset_tag_loop_spec (new_tag : Str) (tags : List Str) :
    (∃ pre old post, tags = pre ++ old :: post ∧
        (∀ tag ∈ pre, try_parse_offset_tag tag = none) ∧
        (try_parse_offset_tag old).isSome = true ∧
        set_offset_tag_loop new_tag tags = pre ++ new_tag :: post) ∨
      ((∀ tag ∈ tags, try_parse_offset_tag tag = none) ∧
        set_offset_tag_loop new_tag tags = tags ++ [new_tag]) := by
  induction tags with
  | nil => exact Or.inr ⟨by simp, rfl⟩
  | cons tag rest ih =>
    unfold set_offset_tag_loop
    by_cases h : (try_parse_offset_tag tag).isSome = true
    · rw [if_pos h]
      exact Or.inl ⟨[], tag, rest, rfl, by simp, h, rfl⟩
    · rw [if_neg h]
      have hnone : try_parse_offset_tag tag = none := by
        cases ht : try_parse_offset_tag tag with
        | none => rfl
        | some v => rw [ht] at h; simp at h
      rcases ih with ⟨pre, old, post, h1, h2, h3, h4⟩ | ⟨h1, h2⟩
      · refine Or.inl ⟨tag :: pre, old, post, by rw [h1]; rfl, ?_, h3, by rw [h4]; rfl⟩
        intro t ht
        rcases List.mem_cons.mp ht with h5 | h5
        · rw [h5]; exact hnone
        · exact h2 t h5
      · refine Or.inr ⟨?_, by rw [h2]; rfl⟩
        intro t ht
        rcases List.mem_cons.mp ht with h5 | h5
        · rw [h5]; exact hnone
        · exact h1 t h5


theorem offset_of_tags_append (tags : List Str) (tag : Str) :
    offset_of_tags (tags ++ [tag]) =
      match try_parse_offset_tag tag with
      | some offset => offset
      | none => offset_of_tags tags := by
  unfold offset_of_tags
  rw [List.filterMap_append]
  cases h : try_parse_offset_tag tag with
  | none => simp [List.filterMap_cons, h]
  | some v => simp [List.filterMap_cons, h]

theorem foldl_parse_line_offset_of_tags (views : List Str) :
    ∀ st : ParseState, st.timestamp_offset = offset_of_tags st.tags →
      (views.foldl parse_line st).timestamp_offset =
        offset_of_tags (views.foldl parse_line st).tags := by
  induction views with
  | nil => intro st h; exact h
  | cons v views ih =>
    intro st h
    rw [List.foldl_cons]
    apply ih
    rcases parse_line_cases st v with ⟨_, hstep⟩ | ⟨_, _, _, hstep⟩ | ⟨_, _, hstep⟩
    · rw [hstep]
      exact h
    · rw [hstep]
      simp only []
      rw [offset_of_tags_append, h]
    · rw [hstep]
      exact h

theorem parse_state_offset_of_tags (text : Str) :
    (parse_state text).timestamp_offset = offset_of_tags (parse_state text).tags := by
  unfold parse_state
  exact foldl_parse_line_offset_of_tags _ ParseState.init rfl

/-- Every timed line of the parsed document has a timestamp read from a line view. -/
theorem parse_lines_timestamp_source (metadata : LyricDataCommon) (text : Str) :
    ∀ l ∈ (parse metadata text).lines, l.timestamp ≠ F64.DBL_MAX →
      ∃ v ∈ line_views text, l.timestamp ∈ (parse_line_times v).timestamps := by
  intro l hl hne
  have hL : (parse metadata text).lines = collapse_concurrent_lines
      ((parse_state text).lines.insertionSort timestamp_le) := rfl
  rw [hL] at hl
  have hx : ∃ x ∈ (parse_state text).lines.insertionSort timestamp_le,
      l.timestamp = x.timestamp := by
    unfold collapse_concurrent_lines collapse at hl
    cases hS : (parse_state text).lines.insertionSort timestamp_le with
    | nil => rw [hS] at hl; simp at hl
    | cons a rest =>
      rw [hS] at hl
      exact collapse_from_timestamp_mem rest a l hl
  obtain ⟨x, hx1, hx2⟩ := hx
  have hxE : x ∈ (parse_state text).lines :=
    (List.perm_insertionSort timestamp_le _).subset hx1
  rw [(parse_state_sections text).2] at hxE
  rcases List.mem_append.mp hxE with h | h
  · obtain ⟨v, _, rfl⟩ := List.mem_map.mp h
    exact absurd (hx2.trans rfl) hne
  · obtain ⟨v, hv, hxv⟩ := List.mem_flatMap.mp h
    refine ⟨v, content_section_mem _ v hv, ?_⟩
    unfold entries_of_view at hxv
    cases hc : carries_timestamp v with
    | true =>
      rw [hc, if_pos rfl] at hxv
      unfold timed_entries_of_line at hxv
      obtain ⟨t, ht, rfl⟩ := List.mem_map.mp hxv
      rw [hx2]
      exact ht
    | false =>
      rw [hc] at hxv
      simp only [Bool.false_eq_true, if_false, List.mem_singleton] at hxv
      rw [hxv] at hx2
      exact absurd hx2 hne


theorem trim_eq_self (s : Str)
    (h1 : ∀ c, s.head? = some c → c.isWhitespace = false)
    (h2 : ∀ c, s.getLast? = some c → c.isWhitespace = false) :
    trim_surrounding_whitespace s = s := by
  unfold trim_surrounding_whitespace
  have e1 : s.dropWhile Char.isWhitespace = s := by
    cases s with
    | nil => rfl
    | cons c r =>
      have := h1 c rfl
      rw [List.dropWhile_cons_of_neg (by simp [this])]
  rw [e1]
  have e2 : s.reverse.dropWhile Char.isWhitespace = s.reverse := by
    cases hr : s.reverse with
    | nil => rfl
    | cons c r =>
      have hlast : s.getLast? = some c := by
        rw [← List.head?_reverse, hr]
        rfl
      have := h2 c hlast
      rw [List.dropWhile_cons_of_neg (by simp [this])]
  rw [e2, List.reverse_reverse]

theorem isDigit_not_whitespace (c : Char) (h : c.isDigit = true) : c.isWhitespace = false := by
  cases hw : c.isWhitespace with
  | false => rfl
  | true =>
    unfold Char.isWhitespace at hw
    simp only [Bool.or_eq_true, decide_eq_true_eq] at hw
    rcases hw with ((hw | hw) | hw) | hw <;> rw [hw] at h <;> exact absurd h (by decide)

theorem trim_digits (ds : Str) (h : ∀ c ∈ ds, c.isDigit = true) :
    trim_surrounding_whitespace ds = ds := by
  apply trim_eq_self
  · intro c hc
    exact isDigit_not_whitespace c (h c (List.mem_of_mem_head? hc))
  · intro c hc
    exact isDigit_not_whitespace c (h c (List.mem_of_mem_getLast? hc))

theorem trim_minus_digits (ds : Str) (hne : ds ≠ []) (h : ∀ c ∈ ds, c.isDigit = true) :
    trim_surrounding_whitespace ('-' :: ds) = '-' :: ds := by
  apply trim_eq_self
  · intro c hc
    simp only [List.head?_cons, Option.some.injEq] at hc
    rw [← hc]
    decide
  · intro c hc
    cases ds with
    | nil => exact absurd rfl hne
    | cons d r =>
      rw [List.getLast?_cons_cons] at hc
      exact isDigit_not_whitespace c (h c (List.mem_of_mem_getLast? hc))


theorem try_parse_offset_tag_value (V : Str) :
    try_parse_offset_tag ("[offset:".toList ++ V ++ "]".toList) =
      (strtoint_i64 (trim_surrounding_whitespace V)).map
        (fun offset_ms => F64.div (F64.ofInt offset_ms) (F64.ofInt 1000)) := by
  have hline : "[offset:".toList ++ V ++ "]".toList =
      "[offset".toList ++ ':' :: (V ++ [']']) := by
    simp
  have hfind : find ("[offset:".toList ++ V ++ "]".toList) ':' 0 = some 7 := by
    rw [find_zero_some]
    exact ⟨"[offset".toList, V ++ [']'], hline, by decide, rfl⟩
  have hlen : ("[offset:".toList ++ V ++ "]".toList).length = V.length + 9 := by
    simp
  have hlast : ("[offset:".toList ++ V ++ "]".toList).getD (V.length + 9 - 1) ' ' = ']' := by
    have e : "[offset:".toList ++ V ++ "]".toList = ("[offset:".toList ++ V) ++ [']'] := rfl
    rw [e, List.getD_eq_getElem?_getD, List.getElem?_append_right (by simp)]
    have : V.length + 9 - 1 - ("[offset:".toList ++ V).length = 0 := by simp
    rw [this]
    rfl
  have hkey : substr ("[offset:".toList ++ V ++ "]".toList) 1 (7 - 1) = "offset".toList := by
    rw [hline]
    rfl
  have hval : substr ("[offset:".toList ++ V ++ "]".toList) (7 + 1)
      (V.length + 9 - 1 - (7 + 1)) = V := by
    have e : "[offset:".toList ++ V ++ "]".toList =
        "[offset:".toList ++ (V ++ [']']) := by simp
    unfold substr
    rw [e, List.drop_append_of_le_length (by decide)]
    have e2 : List.drop (7 + 1) "[offset:".toList = [] := rfl
    rw [e2, List.nil_append]
    have e3 : V.length + 9 - 1 - (7 + 1) = V.length := by omega
    rw [e3]
    exact List.take_left' rfl
  unfold try_parse_offset_tag
  rw [hlen, if_neg (by omega), hlast, hfind]
  have h0 : ("[offset:".toList ++ V ++ "]".toList).getD 0 ' ' = '[' := rfl
  rw [h0]
  simp only [ne_eq, not_true_eq_false, if_false]
  rw [hkey, hval]
  simp only [not_true_eq_false, if_false]
  cases strtoint_i64 (trim_surrounding_whitespace V) <;> rfl

theorem takeWhile_digits (ds : Str) (h : ∀ c ∈ ds, c.isDigit = true) :
    ds.takeWhile Char.isDigit = ds :=
  List.takeWhile_eq_self_iff.mpr h

theorem strtoint_i64_digits (ds : Str) (h : is_digit_string ds) (hv : digits_value ds < 2 ^ 63) :
    strtoint_i64 ds = some (Int.ofNat (digits_value ds)) := by
  unfold strtoint_i64
  split
  · rename_i rest
    have := h.2 '-' (List.mem_cons_self _ _)
    exact absurd this (by decide)
  · rw [takeWhile_digits ds h.2, if_neg h.1, if_pos hv]

theorem strtoint_i64_minus (ds : Str) (h : is_digit_string ds) (hv : digits_value ds ≤ 2 ^ 63) :
    strtoint_i64 ('-' :: ds) = some (-(Int.ofNat (digits_value ds))) := by
  unfold strtoint_i64
  simp only []
  rw [takeWhile_digits ds h.2, if_neg h.1, if_pos hv]

theorem strtoint_i64_int_to_string (n : Int) (h1 : -(2 ^ 63) ≤ n) (h2 : n < 2 ^ 63) :
    strtoint_i64 (trim_surrounding_whitespace (int_to_string n)) = some n := by
  obtain ⟨hdig, hval, _⟩ := decimal_spec n.natAbs
  unfold int_to_string
  by_cases hneg : n < 0
  · rw [if_pos hneg, trim_minus_digits _ hdig.1 hdig.2,
      strtoint_i64_minus _ hdig (by rw [hval]; omega), hval]
    congr 1
    simp only [Int.ofNat_eq_coe]
    omega
  · rw [if_neg hneg, trim_digits _ hdig.2,
      strtoint_i64_digits _ hdig (by rw [hval]; omega), hval]
    congr 1
    simp only [Int.ofNat_eq_coe]
    omega

theorem try_parse_offset_tag_int (n : Int) (h1 : -(2 ^ 63) ≤ n) (h2 : n < 2 ^ 63) :
    try_parse_offset_tag ("[offset:".toList ++ int_to_string n ++ "]".toList) =
      some (F64.div (F64.ofInt n) (F64.ofInt 1000)) := by
  rw [try_parse_offset_tag_value, strtoint_i64_int_to_string n h1 h2]
  rfl


theorem F64.roundNat_mul_right (x d c : Nat) (hc : 0 < c) :
    F64.roundNat (x * c) (d * c) = F64.roundNat x d := by
  unfold F64.roundNat
  rw [Nat.mul_div_mul_right x d hc]
  have e : d * c * 2 ^ (F64.bitlen (x / d) - 53) = c * (d * 2 ^ (F64.bitlen (x / d) - 53)) := by
    ring
  rw [e, F64.roundHalfEven_mul_left _ _ _ hc]

theorem F64.round_mul_right (x : Int) (d c : Nat) (hc : 0 < c) :
    F64.round (x * (c : Int)) (d * c) = F64.round x d := by
  have hcz : (0 : Int) < (c : Int) := Int.ofNat_lt.mpr hc
  have habs : (x * (c : Int)).natAbs = x.natAbs * c := by
    rw [Int.natAbs_mul, Int.natAbs_ofNat]
  have hneg : (x * (c : Int) < 0) ↔ (x < 0) := by
    constructor
    · intro h
      by_contra hx
      exact absurd h (not_lt.mpr (Int.mul_nonneg (not_lt.mp hx) (le_of_lt hcz)))
    · intro h
      exact Int.mul_neg_of_neg_of_pos h hcz
  unfold F64.round
  rw [habs, F64.roundNat_mul_right _ _ _ hc]
  simp only [hneg]

theorem F64.roundNat_zero (d : Nat) : F64.roundNat 0 d = 0 := by
  unfold F64.roundNat F64.roundHalfEven
  simp

theorem F64.DBL_MAX_pos : (0 : Int) < F64.DBL_MAX := by
  unfold F64.DBL_MAX
  exact Int.ofNat_lt.mpr (by positivity)

theorem F64.round_neg (x : Int) (d : Nat) : F64.round (-x) d = -F64.round x d := by
  rcases lt_trichotomy x 0 with h | h | h
  · have h1 : ¬ (-x < 0) := by omega
    unfold F64.round
    rw [if_neg h1, if_pos h, Int.natAbs_neg]
    split <;> simp
  · subst h
    have hm : ¬ F64.DBL_MAX < Int.ofNat 0 := not_lt.mpr (le_of_lt F64.DBL_MAX_pos)
    unfold F64.round
    simp only [neg_zero, lt_self_iff_false, if_false, Int.natAbs_zero, F64.roundNat_zero]
    rw [if_neg hm]
    rfl
  · have h1 : -x < 0 := by omega
    have h2 : ¬ x < 0 := by omega
    unfold F64.round
    rw [if_pos h1, if_neg h2, Int.natAbs_neg]
    split <;> simp

theorem F64.ofInt_exact (n : Int) (h : n.natAbs < 2 ^ 53) :
    F64.ofInt n = n * Int.ofNat F64.scale := by
  by_cases hn : 0 ≤ n
  · obtain ⟨m, rfl⟩ := Int.eq_ofNat_of_zero_le hn
    have := F64.ofInt_natCast m (by simpa using h)
    simp only [Int.ofNat_eq_coe] at this ⊢
    rw [this]
    push_cast
    rfl
  · obtain ⟨m, hm⟩ : ∃ m : Nat, n = -(m : Int) := ⟨n.natAbs, by omega⟩
    subst hm
    have := F64.ofInt_natCast m (by simpa using h)
    simp only [Int.ofNat_eq_coe] at this
    unfold F64.ofInt at this ⊢
    rw [Int.neg_mul, F64.round_neg, this]
    push_cast
    simp only [Int.ofNat_eq_coe]

theorem F64.ofInt_thousand : F64.ofInt 1000 = 1000 * Int.ofNat F64.scale :=
  F64.ofInt_exact 1000 (by decide)

theorem F64.div_thousand (a : Int) :
    F64.div (a * Int.ofNat F64.scale) (F64.ofInt 1000) = F64.round (a * Int.ofNat F64.scale) 1000 := by
  have hs : 0 < F64.scale := scale_pos
  have hsz : (0 : Int) < Int.ofNat F64.scale := Int.ofNat_lt.mpr hs
  unfold F64.div
  rw [F64.ofInt_thousand, if_neg (by
    have : (0 : Int) < 1000 * Int.ofNat F64.scale := by positivity
    exact not_lt.mpr (le_of_lt this))]
  have habs : (1000 * Int.ofNat F64.scale).natAbs = 1000 * F64.scale := by
    rw [Int.natAbs_mul]
    rfl
  rw [habs]
  exact F64.round_mul_right (a * Int.ofNat F64.scale) 1000 F64.scale hs

theorem F64.div_ofInt_thousand (n : Int) (h : n.natAbs < 2 ^ 53) :
    F64.div (F64.ofInt n) (F64.ofInt 1000) = F64.lit n 1000 := by
  rw [F64.ofInt_exact n h, F64.div_thousand]
  rfl


theorem F64.toInt32_trunc (a : Double) (h : a.natAbs < 2 ^ 31 * F64.scale) :
    F64.toInt32 a = Int.tdiv a (Int.ofNat F64.scale) ∧
      (Int.tdiv a (Int.ofNat F64.scale)).natAbs < 2 ^ 31 := by
  have hk : (Int.tdiv a (Int.ofNat F64.scale)).natAbs < 2 ^ 31 := by
    rw [Int.natAbs_tdiv]
    have : a.natAbs / F64.scale < 2 ^ 31 :=
      Nat.div_lt_of_lt_mul (by rw [Nat.mul_comm]; exact h)
    exact this
  refine ⟨?_, hk⟩
  unfold F64.toInt32
  rw [if_neg]
  intro hor
  rcases hor with h1 | h1
  · omega
  · omega

theorem set_offset_tag_loop_mem (new_tag : Str) (tags : List Str) :
    new_tag ∈ set_offset_tag_loop new_tag tags := by
  induction tags with
  | nil => exact List.mem_singleton.mpr rfl
  | cons tag rest ih =>
    unfold set_offset_tag_loop
    split
    · exact List.mem_cons_self _ _
    · exact List.mem_cons_of_mem _ ih

theorem F64.mul_thousand_whole (s m : Int) (hm : s * 1000 = m * Int.ofNat F64.scale)
    (habs : m.natAbs < 2 ^ 53) :
    F64.mul s (F64.ofInt 1000) = m * Int.ofNat F64.scale := by
  have e : s * (1000 * Int.ofNat F64.scale) = (m * Int.ofNat F64.scale) * ((F64.scale : Nat) : Int) := by
    rw [← Int.mul_assoc, hm]
    rfl
  have e2 : F64.round ((m * Int.ofNat F64.scale) * ((F64.scale : Nat) : Int)) (1 * F64.scale) =
      F64.round (m * Int.ofNat F64.scale) 1 :=
    F64.round_mul_right _ 1 F64.scale scale_pos
  unfold F64.mul
  rw [F64.ofInt_thousand, e]
  rw [Nat.one_mul] at e2
  rw [e2]
  exact F64.ofInt_exact m habs

theorem F64.lit_thousand_whole (s m : Int) (hm : s * 1000 = m * Int.ofNat F64.scale)
    (hs : F64.round s 1 = s) : F64.lit m 1000 = s := by
  have e2 : F64.round (s * ((1000 : Nat) : Int)) (1 * 1000) = F64.round s 1 :=
    F64.round_mul_right s 1 1000 (by norm_num)
  unfold F64.lit
  rw [← hm]
  rw [Nat.one_mul] at e2
  exact e2.trans hs

theorem parse_written_offset_tag (s : Double)
    (hrange : (F64.mul s (F64.ofInt 1000)).natAbs < 2 ^ 31 * F64.scale) :
    offset_tag s = "[offset:".toList ++
        int_to_string (Int.tdiv (F64.mul s (F64.ofInt 1000)) (Int.ofNat F64.scale)) ++
        "]".toList ∧
      try_parse_offset_tag (offset_tag s) =
        some (F64.lit (Int.tdiv (F64.mul s (F64.ofInt 1000)) (Int.ofNat F64.scale)) 1000) := by
  obtain ⟨h1, h2⟩ := F64.toInt32_trunc _ hrange
  have htag : offset_tag s = "[offset:".toList ++
      int_to_string (Int.tdiv (F64.mul s (F64.ofInt 1000)) (Int.ofNat F64.scale)) ++
      "]".toList := by
    unfold offset_tag
    rw [h1]
  refine ⟨htag, ?_⟩
  rw [htag, try_parse_offset_tag_int _ (by omega) (by omega),
    F64.div_ofInt_thousand _ (by omega)]


theorem F64.toInt32_range (a : Double) :
    -(2 ^ 31) ≤ F64.toInt32 a ∧ F64.toInt32 a < 2 ^ 31 := by
  unfold F64.toInt32
  split
  · constructor <;> norm_num
  · rename_i h
    push_neg at h
    exact ⟨h.1, h.2⟩

theorem offset_tag_recognised (s : Double) : (try_parse_offset_tag (offset_tag s)).isSome = true := by
  obtain ⟨h1, h2⟩ := F64.toInt32_range (F64.mul s (F64.ofInt 1000))
  unfold offset_tag
  rw [try_parse_offset_tag_int _ (by omega) (by omega)]
  rfl

theorem remove_offset_tag_loop_cons (tag : Str) (rest : List Str) :
    remove_offset_tag_loop (tag :: rest) =
      if (try_parse_offset_tag tag).isSome then remove_offset_tag_loop rest
      else tag :: remove_offset_tag_loop rest := rfl

theorem remove_set_offset_tag_loop (new_tag : Str)
    (hnew : (try_parse_offset_tag new_tag).isSome = true) (tags : List Str) :
    remove_offset_tag_loop (set_offset_tag_loop new_tag tags) = remove_offset_tag_loop tags := by
  induction tags with
  | nil =>
    have e : set_offset_tag_loop new_tag [] = [new_tag] := rfl
    rw [e, remove_offset_tag_loop_cons, if_pos hnew]
  | cons tag rest ih =>
    have e : set_offset_tag_loop new_tag (tag :: rest) =
        if (try_parse_offset_tag tag).isSome then new_tag :: rest
        else tag :: set_offset_tag_loop new_tag rest := rfl
    rw [e]
    by_cases h : (try_parse_offset_tag tag).isSome = true
    · rw [if_pos h, remove_offset_tag_loop_cons, if_pos hnew, remove_offset_tag_loop_cons,
        if_pos h]
    · rw [if_neg h, remove_offset_tag_loop_cons, if_neg h, remove_offset_tag_loop_cons,
        if_neg h, ih]

theorem remove_offset_tag_loop_none (tags : List Str)
    (h : ∀ tag ∈ tags, try_parse_offset_tag tag = none) :
    remove_offset_tag_loop tags = tags := by
  rw [remove_offset_tag_loop_eq]
  apply List.filter_eq_self.mpr
  intro tag htag
  rw [h tag htag]
  rfl



theorem kept_rows_untimed (rows : List LyricDataLine) :
    ∀ seen : List Str,
      (kept_rows seen rows).filter (fun r => decide (r.timestamp = F64.DBL_MAX)) =
        rows.filter (fun r => decide (r.timestamp = F64.DBL_MAX)) := by
  induction rows with
  | nil => intro seen; rfl
  | cons row rest ih =>
    intro seen
    unfold kept_rows
    by_cases hu : row.timestamp = F64.DBL_MAX
    · rw [if_pos hu, List.filter_cons_of_pos (by simpa using hu),
        List.filter_cons_of_pos (by simpa using hu), ih seen]
    · rw [if_neg hu, List.filter_cons_of_neg (l := rest) (by simpa using hu)]
      by_cases hs : row.text ∈ seen
      · rw [if_pos hs, ih seen]
      · rw [if_neg hs, List.filter_cons_of_neg (by simpa using hu), ih]

theorem merged_rows_untimed (rows : List LyricDataLine) :
    ∀ seen : List Str,
      (merged_rows seen rows).filter (fun r => decide (r.timestamp = F64.DBL_MAX)) =
        rows.filter (fun r => decide (r.timestamp = F64.DBL_MAX)) := by
  induction rows with
  | nil => intro seen; rfl
  | cons row rest ih =>
    intro seen
    unfold merged_rows
    by_cases hu : row.timestamp = F64.DBL_MAX
    · rw [if_pos hu, List.filter_cons_of_pos (by simpa using hu),
        List.filter_cons_of_pos (by simpa using hu), ih seen]
    · rw [if_neg hu, List.filter_cons_of_neg (l := rest) (by simpa using hu)]
      by_cases hs : row.text ∈ seen
      · rw [if_pos hs, ih seen]
      · rw [if_neg hs, List.filter_cons_of_neg (by simpa using hu), ih]

theorem merged_rows_kept_untimed (rows : List LyricDataLine) :
    ∀ seen : List Str,
      List.Forall₂ (fun printed kept => printed.timestamp = kept.timestamp ∧
          (kept.timestamp = F64.DBL_MAX → printed = kept))
        (merged_rows seen rows) (kept_rows seen rows) := by
  induction rows with
  | nil => intro seen; exact List.Forall₂.nil
  | cons row rest ih =>
    intro seen
    unfold merged_rows kept_rows
    by_cases hu : row.timestamp = F64.DBL_MAX
    · rw [if_pos hu, if_pos hu]
      exact List.Forall₂.cons ⟨rfl, fun _ => rfl⟩ (ih seen)
    · rw [if_neg hu, if_neg hu]
      by_cases hs : row.text ∈ seen
      · rw [if_pos hs, if_pos hs]
        exact ih seen
      · rw [if_neg hs, if_neg hs]
        exact List.Forall₂.cons ⟨rfl, fun h => absurd h hu⟩ (ih _)

theorem forall₂_self_untimed (rows : List LyricDataLine) :
    List.Forall₂ (fun printed kept => printed.timestamp = kept.timestamp ∧
        (kept.timestamp = F64.DBL_MAX → printed = kept)) rows rows := by
  induction rows with
  | nil => exact List.Forall₂.nil
  | cons row rest ih => exact List.Forall₂.cons ⟨rfl, fun _ => rfl⟩ ih

theorem expand_text_rows (d : LyricData) (flag : Bool) (htimed : d.IsTimestamped = true)
    (out : List LyricDataLine) (hout : expand_rows d flag = some out) :
    expand_text d flag = some (expand_tags d.tags ++ (out.map row_text).flatten) := by
  unfold expand_text
  rw [if_pos htimed, hout]
  simp only []
  rw [render_rows_eq]
  rfl



theorem physical_lines_step_char (l X : Str) (c : Char)
    (hl : ∀ x ∈ l, is_line_end x = false) (hc : is_line_end c = true)
    (hcr : c = '\r' → X.head? ≠ some '\n') :
    physical_lines (l ++ c :: X) = l :: physical_lines X := by
  rw [physical_lines_append l X c hl hc]
  congr 2
  unfold skip_line_end
  split
  · rename_i rest heq
    have h1 := (List.cons.inj heq).1
    have h2 := (List.cons.inj heq).2
    rw [h2] at hcr
    exact absurd rfl (hcr h1)
  · rfl

theorem physical_lines_step_crlf (l X : Str) (hl : ∀ x ∈ l, is_line_end x = false) :
    physical_lines (l ++ '\r' :: '\n' :: X) = l :: physical_lines X := by
  rw [physical_lines_append l _ '\r' hl (by decide)]
  rfl

theorem parse_congr (metadata : LyricDataCommon) (a b : Str)
    (h : physical_lines a = physical_lines b) : parse metadata a = parse metadata b := by
  have hs : parse_state a = parse_state b := by
    unfold parse_state
    rw [h]
  unfold parse
  rw [hs]

theorem parse_congr_views (metadata : LyricDataCommon) (a b : Str)
    (h : (physical_lines a).map strip_bom = (physical_lines b).map strip_bom) :
    parse metadata a = parse metadata b := by
  have hs : parse_state a = parse_state b := by
    unfold parse_state
    rw [h]
  unfold parse
  rw [hs]

theorem mixed_join_head (pre : List (Str × Str)) (last : Str)
    (hplain : ∀ p ∈ pre, ∀ x ∈ p.1, is_line_end x = false)
    (hlast : ∀ x ∈ last, is_line_end x = false)
    (hmix : valid_mixture pre) (hhead : pre.head? ≠ some ([], ['\n'])) :
    (mixed_join pre last).head? ≠ some '\n' := by
  cases pre with
  | nil =>
    unfold mixed_join
    cases last with
    | nil => simp
    | cons x r =>
      intro h
      have hx := hlast x (List.mem_cons_self _ _)
      simp only [List.head?_cons, Option.some.injEq] at h
      rw [h] at hx
      exact absurd hx (by decide)
  | cons p rest =>
    obtain ⟨l, t⟩ := p
    unfold mixed_join
    cases l with
    | cons x r =>
      intro h
      have hx := hplain (x :: r, t) (List.mem_cons_self _ _) x (List.mem_cons_self _ _)
      simp only [List.cons_append, List.head?_cons, Option.some.injEq] at h
      rw [h] at hx
      exact absurd hx (by decide)
    | nil =>
      unfold valid_mixture at hmix
      rcases hmix.1 with h | h | ⟨h, _⟩
      · rw [h] at hhead
        exact absurd rfl hhead
      · rw [h]
        simp
      · rw [h]
        simp

theorem physical_lines_mixed_join (pre : List (Str × Str)) (last : Str)
    (hplain : ∀ p ∈ pre, ∀ x ∈ p.1, is_line_end x = false)
    (hlast : ∀ x ∈ last, is_line_end x = false)
    (hmix : valid_mixture pre) :
    physical_lines (mixed_join pre last) =
      pre.map (fun p => p.1) ++ (if last = [] then [] else [last]) := by
  induction pre with
  | nil =>
    unfold mixed_join
    by_cases h : last = []
    · rw [if_pos h, h]
      exact physical_lines_nil
    · rw [if_neg h]
      exact physical_lines_single last h hlast
  | cons p rest ih =>
    obtain ⟨l, t⟩ := p
    have hl := hplain (l, t) (List.mem_cons_self _ _)
    have hrest : ∀ p ∈ rest, ∀ x ∈ p.1, is_line_end x = false :=
      fun p hp => hplain p (List.mem_cons_of_mem _ hp)
    unfold valid_mixture at hmix
    have ih2 := ih hrest hmix.2
    unfold mixed_join
    rw [List.map_cons, List.cons_append, ← ih2]
    rcases hmix.1 with h | h | ⟨h, hh⟩
    · rw [h, List.append_assoc]
      exact physical_lines_step_char l _ '\n' hl (by decide)
        (fun hc => absurd hc (by decide))
    · rw [h, List.append_assoc]
      exact physical_lines_step_crlf l _ hl
    · rw [h, List.append_assoc]
      exact physical_lines_step_char l _ '\r' hl (by decide)
        (fun _ => mixed_join_head rest last hrest hlast hmix.2 hh)

theorem valid_mixture_uniform (t : Str) (ht : t = ['\n'] ∨ t = ['\r', '\n'] ∨ t = ['\r'])
    (lines : List Str) : valid_mixture (lines.map (fun l => (l, t))) := by
  induction lines with
  | nil => exact True.intro
  | cons l rest ih =>
    rw [List.map_cons]
    unfold valid_mixture
    refine ⟨?_, ih⟩
    rcases ht with h | h | h
    · exact Or.inl h
    · exact Or.inr (Or.inl h)
    · refine Or.inr (Or.inr ⟨h, ?_⟩)
      cases rest with
      | nil => simp
      | cons l2 rest2 =>
        rw [h]
        simp

theorem intercalate_mixed_join (t : Str) (lines : List Str) (last : Str) :
    t.intercalate (lines ++ [last]) = mixed_join (lines.map (fun l => (l, t))) last := by
  induction lines with
  | nil => simp [List.intercalate, mixed_join]
  | cons l rest ih =>
    rw [List.map_cons]
    unfold mixed_join
    rw [← ih]
    cases rest with
    | nil => simp [List.intercalate, List.intersperse]
    | cons b rest2 =>
      simp only [List.intercalate, List.cons_append, List.intersperse_cons_cons,
        List.flatten_cons, List.append_assoc]


theorem physical_lines_intercalate (t : Str) (ht : t = ['\n'] ∨ t = ['\r', '\n'] ∨ t = ['\r'])
    (lines : List Str) (last : Str) (hplain : ∀ l ∈ lines, ∀ x ∈ l, is_line_end x = false)
    (hlast : ∀ x ∈ last, is_line_end x = false) :
    physical_lines (t.intercalate (lines ++ [last])) =
      lines ++ (if last = [] then [] else [last]) := by
  rw [intercalate_mixed_join, physical_lines_mixed_join _ last _ hlast
    (valid_mixture_uniform t ht lines)]
  · rw [List.map_map]
    congr 1
    exact List.map_id _
  · intro p hp x hx
    obtain ⟨l, hl, rfl⟩ := List.mem_map.mp hp
    exact hplain l hl x hx

theorem scan_split (text : Str) :
    ∃ l rest, text = l ++ rest ∧ (∀ x ∈ l, is_line_end x = false) ∧
      (∀ c r, rest = c :: r → is_line_end c = true) ∧
      text.takeWhile (fun c => !is_line_end c) = l ∧
      text.dropWhile (fun c => !is_line_end c) = rest := by
  refine ⟨text.takeWhile (fun c => !is_line_end c), text.dropWhile (fun c => !is_line_end c),
    (List.takeWhile_append_dropWhile _ _).symm, ?_, ?_, rfl, rfl⟩
  · intro x hx
    have := List.mem_takeWhile_imp hx
    simpa using this
  · intro c r h
    have hne : text.dropWhile (fun c => !is_line_end c) ≠ [] := by rw [h]; simp
    have := List.head_dropWhile_not (fun c => !is_line_end c) text hne
    simp only [h, List.head_cons] at this
    simpa using this

theorem take_length_sub (a b : Str) : (a ++ b).take ((a ++ b).length - b.length) = a := by
  rw [List.length_append, Nat.add_sub_cancel]
  exact List.take_left' rfl

theorem insert_at_line_head (ins : Str) (k : Nat) (r : Str) (h : r ≠ []) :
    (insert_at_line ins (k + 1) r).head? = r.head? := by
  unfold insert_at_line
  have h1 := skip_line_end_length (r.dropWhile (fun c => !is_line_end c))
  have h2 : (r.dropWhile (fun c => !is_line_end c)).length ≤ r.length :=
    (List.dropWhile_sublist _).length_le
  have hpos : 0 < r.length := List.length_pos.mpr h
  obtain ⟨n, hn⟩ : ∃ n, r.length -
      (skip_line_end (r.dropWhile (fun c => !is_line_end c))).length = n + 1 :=
    ⟨r.length - (skip_line_end (r.dropWhile (fun c => !is_line_end c))).length - 1, by omega⟩
  rw [hn]
  cases r with
  | nil => exact absurd rfl h
  | cons x r2 => rfl

theorem strip_bom_mark (line : Str) : strip_bom (byte_order_mark ++ line) = line := by
  unfold strip_bom byte_order_mark
  simp

theorem strip_bom_plain (line : Str) (h : ¬ byte_order_mark <+: line) : strip_bom line = line := by
  unfold strip_bom
  split
  · rename_i c0 c1 c2 rest
    by_cases hc : c0 = Char.ofNat 0xEF ∧ c1 = Char.ofNat 0xBB ∧ c2 = Char.ofNat 0xBF
    · exfalso
      apply h
      obtain ⟨h0, h1, h2⟩ := hc
      rw [h0, h1, h2]
      exact ⟨rest, rfl⟩
    · rw [if_neg hc]
  · rfl


theorem insert_mark_lines (k : Nat) :
    ∀ (text line : Str), (physical_lines text)[k]? = some line →
      physical_lines (insert_at_line byte_order_mark k text) =
        (physical_lines text).set k (byte_order_mark ++ line) := by
  induction k with
  | zero =>
    intro text line hline
    have hne : text ≠ [] := by
      intro h
      rw [h, physical_lines_nil] at hline
      simp at hline
    have hmark : ∀ x ∈ byte_order_mark, (fun c => !is_line_end c) x = true := by decide
    unfold insert_at_line
    rw [physical_lines_unfold _ hne] at hline ⊢
    rw [physical_lines_unfold (byte_order_mark ++ text) (by simp [byte_order_mark]),
      List.takeWhile_append_of_pos hmark, List.dropWhile_append_of_pos hmark,
      List.set_cons_zero]
    simp only [List.getElem?_cons_zero, Option.some.injEq] at hline
    rw [hline]
  | succ k ih =>
    intro text line hline
    have hne : text ≠ [] := by
      intro h
      rw [h, physical_lines_nil] at hline
      simp at hline
    obtain ⟨l, rest, htext, hl, hrest, htake, hdrop⟩ := scan_split text
    unfold insert_at_line
    rw [physical_lines_unfold _ hne, htake, hdrop] at hline ⊢
    simp only [List.getElem?_cons_succ] at hline
    have hS : skip_line_end rest ≠ [] := by
      intro h
      rw [h, physical_lines_nil] at hline
      simp at hline
    have ih2 := ih (skip_line_end rest) line hline
    cases rest with
    | nil => exact absurd rfl hS
    | cons c r =>
      have hc := hrest c r rfl
      by_cases hcrlf : c = '\r' ∧ r.head? = some '\n'
      · obtain ⟨hc1, hr⟩ := hcrlf
        cases r with
        | nil => simp at hr
        | cons c2 r2 =>
          simp only [List.head?_cons, Option.some.injEq] at hr
          subst hc1
          subst hr
          have hskip : skip_line_end ('\r' :: '\n' :: r2) = r2 := rfl
          rw [hskip] at ih2 ⊢
          have e : text = (l ++ ['\r', '\n']) ++ r2 := by rw [htext]; simp
          rw [e, take_length_sub]
          have e2 : l ++ ['\r', '\n'] ++ insert_at_line byte_order_mark k r2 =
              l ++ '\r' :: '\n' :: insert_at_line byte_order_mark k r2 := by simp
          rw [e2, physical_lines_step_crlf l _ hl, List.set_cons_succ, ih2]
      · have hskip : skip_line_end (c :: r) = r := by
          unfold skip_line_end
          split
          · rename_i rest2 heq
            exfalso
            apply hcrlf
            have h1 := (List.cons.inj heq).1
            have h2 := (List.cons.inj heq).2
            rw [h1, h2]
            exact ⟨rfl, rfl⟩
          · rfl
        rw [hskip] at ih2 hS ⊢
        have e : text = (l ++ [c]) ++ r := by rw [htext]; simp
        rw [e, take_length_sub]
        have e2 : l ++ [c] ++ insert_at_line byte_order_mark k r =
            l ++ c :: insert_at_line byte_order_mark k r := by simp
        rw [e2, physical_lines_step_char l _ c hl hc, List.set_cons_succ, ih2]
        intro hcr
        cases k with
        | zero =>
          unfold insert_at_line byte_order_mark
          simp
        | succ k2 =>
          rw [insert_at_line_head _ k2 r hS]
          intro hr
          exact hcrlf ⟨hcr, hr⟩

theorem set_self (L : List Str) :
    ∀ (k : Nat) (v : Str), L[k]? = some v → L.set k v = L := by
  induction L with
  | nil => intro k v h; rfl
  | cons a rest ih =>
    intro k v h
    cases k with
    | zero =>
      simp only [List.getElem?_cons_zero, Option.some.injEq] at h
      rw [List.set_cons_zero, h]
    | succ k =>
      simp only [List.getElem?_cons_succ] at h
      rw [List.set_cons_succ, ih k v h]

theorem insert_mark_views (k : Nat) (text line : Str)
    (hline : (physical_lines text)[k]? = some line) (hbom : ¬ byte_order_mark <+: line) :
    (physical_lines (insert_at_line byte_order_mark k text)).map strip_bom =
      (physical_lines text).map strip_bom := by
  rw [insert_mark_lines k text line hline, List.map_set, strip_bom_mark]
  apply set_self
  rw [List.getElem?_map, hline, Option.map_some', strip_bom_plain line hbom]



theorem expand_tags_eq (tags : List Str) :
    expand_tags tags = (tags.map (fun tag => tag ++ ['\r', '\n'])).flatten ++
      (if tags = [] then [] else ['\r', '\n']) := by
  unfold expand_tags
  cases tags with
  | nil => rfl
  | cons tag rest =>
    have hne : ((tag :: rest).map (fun tag => tag ++ ['\r', '\n'])).flatten.isEmpty = false := by
      simp [List.isEmpty_iff]
    rw [hne]
    simp

theorem expand_text_body (d : LyricData) (flag : Bool) :
    ∃ body, ∀ tags : List Str,
      expand_text { d with tags := tags } flag = some (expand_tags tags ++ body) := by
  by_cases h : d.IsTimestamped = true
  · obtain ⟨rows, hrows⟩ := expand_rows_isSome d flag
    obtain ⟨body, hbody⟩ : ∃ body, render_rows rows = some body := ⟨_, render_rows_eq rows⟩
    refine ⟨body, fun tags => ?_⟩
    have h1 : ({ d with tags := tags } : LyricData).IsTimestamped = true := h
    have h2 : expand_rows { d with tags := tags } flag = some rows := hrows
    unfold expand_text
    rw [if_pos h1, h2]
    simp only []
    rw [hbody]
  · have h2 : d.IsTimestamped = false := by simpa using h
    obtain ⟨body, hbody⟩ : ∃ body, render_untimed d.lines = some body :=
      ⟨_, render_untimed_eq _ ((not_timestamped_iff d).mp h2)⟩
    refine ⟨body, fun tags => ?_⟩
    have h1 : ¬ ({ d with tags := tags } : LyricData).IsTimestamped = true := h
    unfold expand_text
    rw [if_neg h1]
    simp only []
    rw [hbody]

theorem offset_tag_is_tag_line (v : Str) (h : (try_parse_offset_tag v).isSome = true) :
    is_tag_line v = true := by
  unfold try_parse_offset_tag at h
  unfold is_tag_line
  split at h
  · simp at h
  · rename_i h1
    rw [if_neg h1]
    split at h
    · simp at h
    · rename_i h2
      rw [if_neg h2]
      split at h
      · simp at h
      · rename_i h3
        rw [if_neg h3]
        split at h
        · simp at h
        · rename_i colon_index hfind
          split at h
          · simp at h
          · rename_i hkey
            have hkey2 : substr v 1 (colon_index - 1) = "offset".toList := by
              by_contra hc
              exact hkey hc
            rw [if_neg (by
              intro h0
              rw [h0] at hkey2
              unfold substr at hkey2
              simp at hkey2)]
            rw [hkey2]
            decide


theorem parse_line_empty (st : ParseState) :
    parse_line st [] = { st with lines := st.lines ++ [⟨[], F64.DBL_MAX⟩] } := by
  have h := parse_line_untimed st [] (by decide) (Or.inr (by decide))
  rw [h]
  simp

theorem foldl_parse_line_header (views : List Str) :
    ∀ st : ParseState, st.tag_section_passed = false →
      (∀ v ∈ views, v = [] ∨ (is_tag_line v = true ∧ carries_timestamp v = false)) →
      (views.foldl parse_line st).tags = st.tags ++ views.filter (fun v => !v.isEmpty) ∧
        (views.foldl parse_line st).lines =
          st.lines ++ (views.filter (fun v => v.isEmpty)).map untimed_line ∧
        (views.foldl parse_line st).tag_section_passed = false := by
  induction views with
  | nil => intro st hp _; simp [hp]
  | cons v rest ih =>
    intro st hp hv
    have hrest : ∀ w ∈ rest, w = [] ∨ (is_tag_line w = true ∧ carries_timestamp w = false) :=
      fun w hw => hv w (List.mem_cons_of_mem _ hw)
    rw [List.foldl_cons]
    rcases hv v (List.mem_cons_self _ _) with h | ⟨h1, h2⟩
    · subst h
      obtain ⟨i1, i2, i3⟩ := ih (parse_line st []) (by rw [parse_line_empty]; exact hp) hrest
      rw [i1, i2, i3, parse_line_empty]
      simp [untimed_line]
    · have hne : v ≠ [] := by
        intro h0
        rw [h0] at h1
        exact absurd h1 (by decide)
      have hstep := parse_line_tag st v (carries_timestamp_false v h2) hp h1
      obtain ⟨i1, i2, i3⟩ := ih (parse_line st v) (by rw [hstep]; exact hp) hrest
      rw [i1, i2, i3, hstep]
      have he : v.isEmpty = false := by
        cases v with
        | nil => exact absurd rfl hne
        | cons c r => rfl
      simp [he]

theorem remove_repeated_blank_loop_spec (lines : List LyricDataLine) :
    ∀ previous_blank : Bool,
      (remove_repeated_blank_loop previous_blank lines).1 =
        ((lines.zip (previous_blank :: lines.map (fun line => is_blank_text line.text))).filter
          (fun p => !(is_blank_text p.1.text && p.2))).map Prod.fst ∧
      (remove_repeated_blank_loop previous_blank lines).1.length +
        (remove_repeated_blank_loop previous_blank lines).2 = lines.length := by
  induction lines with
  | nil => intro pb; exact ⟨rfl, rfl⟩
  | cons line rest ih =>
    intro pb
    obtain ⟨i1, i2⟩ := ih (is_blank_text line.text)
    have e : remove_repeated_blank_loop pb (line :: rest) =
        if is_blank_text line.text && pb then
          ((remove_repeated_blank_loop (is_blank_text line.text) rest).1,
            (remove_repeated_blank_loop (is_blank_text line.text) rest).2 + 1)
        else
          (line :: (remove_repeated_blank_loop (is_blank_text line.text) rest).1,
            (remove_repeated_blank_loop (is_blank_text line.text) rest).2) := rfl
    rw [e, List.map_cons, List.zip_cons_cons]
    by_cases hc : (is_blank_text line.text && pb) = true
    · rw [if_pos hc, List.filter_cons_of_neg (by simp [hc])]
      refine ⟨i1, ?_⟩
      simp only [List.length_cons]
      omega
    · have hc2 : (is_blank_text line.text && pb) = false := Bool.eq_false_iff.mpr hc
      rw [if_neg hc, List.filter_cons_of_pos (by rw [hc2]; rfl), List.map_cons]
      refine ⟨by rw [i1], ?_⟩
      simp only [List.length_cons]
      omega

theorem remove_repeated_blank_loop_chain (lines : List LyricDataLine) :
    ∀ previous_blank : Bool,
      (∀ first, (remove_repeated_blank_loop previous_blank lines).1.head? = some first →
        ¬ (previous_blank = true ∧ is_blank_text first.text = true)) ∧
      (remove_repeated_blank_loop previous_blank lines).1.Chain'
        (fun a b => ¬ (is_blank_text a.text = true ∧ is_blank_text b.text = true)) := by
  induction lines with
  | nil =>
    intro pb
    exact ⟨fun first h => by simp [remove_repeated_blank_loop] at h, List.chain'_nil⟩
  | cons line rest ih =>
    intro pb
    obtain ⟨i1, i2⟩ := ih (is_blank_text line.text)
    have e : remove_repeated_blank_loop pb (line :: rest) =
        if is_blank_text line.text && pb then
          ((remove_repeated_blank_loop (is_blank_text line.text) rest).1,
            (remove_repeated_blank_loop (is_blank_text line.text) rest).2 + 1)
        else
          (line :: (remove_repeated_blank_loop (is_blank_text line.text) rest).1,
            (remove_repeated_blank_loop (is_blank_text line.text) rest).2) := rfl
    rw [e]
    by_cases hc : (is_blank_text line.text && pb) = true
    · rw [if_pos hc]
      have hb : is_blank_text line.text = true := by
        simp only [Bool.and_eq_true] at hc
        exact hc.1
      refine ⟨?_, i2⟩
      intro first hfirst hboth
      exact i1 first hfirst ⟨hb, hboth.2⟩
    · rw [if_neg hc]
      refine ⟨?_, ?_⟩
      · intro first hfirst hboth
        simp only [List.head?_cons, Option.some.injEq] at hfirst
        apply hc
        rw [← hfirst] at hboth
        simp [hboth.1, hboth.2]
      · rw [List.chain'_cons']
        refine ⟨?_, i2⟩
        intro y hy hboth
        exact i1 y hy hboth

theorem remove_repeated_blank_loop_keeps (lines : List LyricDataLine) :
    ∀ previous_blank : Bool,
      (remove_repeated_blank_loop previous_blank lines).1.filter
          (fun line => !is_blank_text line.text) =
        lines.filter (fun line => !is_blank_text line.text) ∧
      List.Sublist (remove_repeated_blank_loop previous_blank lines).1 lines := by
  induction lines with
  | nil => intro pb; exact ⟨rfl, List.Sublist.slnil⟩
  | cons line rest ih =>
    intro pb
    obtain ⟨i1, i2⟩ := ih (is_blank_text line.text)
    have e : remove_repeated_blank_loop pb (line :: rest) =
        if is_blank_text line.text && pb then
          ((remove_repeated_blank_loop (is_blank_text line.text) rest).1,
            (remove_repeated_blank_loop (is_blank_text line.text) rest).2 + 1)
        else
          (line :: (remove_repeated_blank_loop (is_blank_text line.text) rest).1,
            (remove_repeated_blank_loop (is_blank_text line.text) rest).2) := rfl
    rw [e]
    by_cases hc : (is_blank_text line.text && pb) = true
    · rw [if_pos hc]
      have hb : is_blank_text line.text = true := by
        simp only [Bool.and_eq_true] at hc
        exact hc.1
      refine ⟨?_, i2.cons _⟩
      rw [List.filter_cons_of_neg (by simp [hb])]
      exact i1
    · rw [if_neg hc]
      refine ⟨?_, i2.cons₂ _⟩
      simp only [List.filter_cons]
      rw [i1]


theorem key_char_of_lower (K : Str) (key : Str) (h : K.map Char.toLower = key) (b : Char)
    (hb : b.toLower ∉ key) : b ∉ K := by
  intro hmem
  apply hb
  rw [← h]
  exact List.mem_map.mpr ⟨b, hmem, rfl⟩

theorem int_to_string_chars (n : Int) :
    ∀ c ∈ int_to_string n, c = '-' ∨ c.isDigit = true := by
  obtain ⟨hdig, _, _⟩ := decimal_spec n.natAbs
  intro c hc
  unfold int_to_string at hc
  split at hc
  · rcases List.mem_cons.mp hc with h | h
    · exact Or.inl h
    · exact Or.inr (hdig.2 c h)
  · exact Or.inr (hdig.2 c hc)

theorem int_to_string_not_mem (n : Int) (b : Char) (h1 : b ≠ '-') (h2 : b.isDigit = false) :
    b ∉ int_to_string n := by
  intro hmem
  rcases int_to_string_chars n b hmem with h | h
  · exact h1 h
  · rw [h2] at h
    exact absurd h (by simp)

theorem try_parse_timestamp_no_dot (tag : Str) (h : '.' ∉ tag) : try_parse_timestamp tag = none := by
  unfold try_parse_timestamp
  split
  · rfl
  · rw [rfind_none tag '.' h]

/-- A line `[K:n]` whose key differs from `offset` only in letter case. -/
theorem offset_key_case_line (K : Str) (n : Int)
    (hcase : K.map Char.toLower = "offset".toList) (hne : K ≠ "offset".toList) :
    physical_lines ('[' :: (K ++ ':' :: (int_to_string n ++ [']']))) =
        ['[' :: (K ++ ':' :: (int_to_string n ++ [']']))] ∧
      carries_timestamp ('[' :: (K ++ ':' :: (int_to_string n ++ [']']))) = false ∧
      is_tag_line ('[' :: (K ++ ':' :: (int_to_string n ++ [']']))) = true ∧
      try_parse_offset_tag ('[' :: (K ++ ':' :: (int_to_string n ++ [']']))) = none := by
  have hK : ∀ b : Char, b.toLower ∉ "offset".toList → b ∉ K :=
    fun b hb => key_char_of_lower K _ hcase b hb
  have hV : ∀ b : Char, b ≠ '-' → b.isDigit = false → b ∉ int_to_string n :=
    fun b => int_to_string_not_mem n b
  have hnot : ∀ b : Char, b.toLower ∉ "offset".toList → b ≠ '-' → b.isDigit = false →
      b ≠ '[' → b ≠ ':' → b ≠ ']' →
      b ∉ '[' :: (K ++ ':' :: (int_to_string n ++ [']'])) := by
    intro b h1 h2 h3 h4 h5 h6 hmem
    simp only [List.mem_cons, List.mem_append, List.mem_singleton] at hmem
    rcases hmem with h | h | h | h | h
    · exact h4 h
    · exact hK b h1 h
    · exact h5 h
    · exact hV b h2 h3 h
    · rcases h with h | h
      · exact h6 h
      · simp at h
  refine ⟨?_, ?_, ?_, ?_⟩
  · apply physical_lines_single _ (by simp)
    intro x hx
    cases hx2 : is_line_end x with
    | false => rfl
    | true =>
      exfalso
      unfold is_line_end at hx2
      simp only [Bool.or_eq_true, beq_iff_eq] at hx2
      rcases hx2 with (h | h) | h <;> subst h <;>
        exact hnot _ (by decide) (by decide) (by decide) (by decide) (by decide) (by decide) hx
  · cases hc : carries_timestamp ('[' :: (K ++ ':' :: (int_to_string n ++ [']']))) with
    | false => rfl
    | true =>
      exfalso
      rw [carries_timestamp_iff, starts_with_tag_iff] at hc
      have hbody : ']' ∉ K ++ ':' :: int_to_string n := by
        simp only [List.mem_append, List.mem_cons, not_or]
        exact ⟨hK ']' (by decide), by decide, hV ']' (by decide) (by decide)⟩
      have hchunk := parse_time_from_line_chunk (K ++ ':' :: int_to_string n) [] hbody
      have hshape : '[' :: (K ++ ':' :: int_to_string n ++ ']' :: []) =
          '[' :: (K ++ ':' :: (int_to_string n ++ [']'])) := by simp
      rw [hshape, try_parse_timestamp_no_dot _
        (hnot '.' (by decide) (by decide) (by decide) (by decide) (by decide) (by decide))]
        at hchunk
      rw [hchunk] at hc
      simp at hc
  · rw [is_tag_line_key K _ (hK ':' (by decide))]
    have hlast : ((':' :: (int_to_string n ++ [']'])).getLast?).getD ' ' = ']' := by
      have e : ':' :: (int_to_string n ++ [']']) = (':' :: int_to_string n) ++ [']'] := by simp
      rw [e, List.getLast?_append_of_ne_nil _ (by simp)]
      rfl
    have hKne : K ≠ [] := by
      intro h0
      rw [h0] at hcase
      exact absurd hcase (by decide)
    have hany : tag_keys.any (fun k => equals_ignore_case K k) = true := by
      rw [List.any_eq_true]
      refine ⟨"offset".toList, by decide, ?_⟩
      unfold equals_ignore_case
      rw [hcase]
      decide
    rw [hlast, hany]
    simp [hKne]
  · have hfind : find ('[' :: (K ++ ':' :: (int_to_string n ++ [']']))) ':' 0 =
        some (K.length + 1) := by
      rw [find_zero_some]
      refine ⟨'[' :: K, int_to_string n ++ [']'], by simp, ?_, by simp⟩
      simp only [List.mem_cons, not_or]
      exact ⟨by decide, hK ':' (by decide)⟩
    have hkey : substr ('[' :: (K ++ ':' :: (int_to_string n ++ [']']))) 1 (K.length + 1 - 1) = K := by
      unfold substr
      simp
    unfold try_parse_offset_tag
    split
    · rfl
    · split
      · rfl
      · split
        · rfl
        · rw [hfind]
          simp only []
          rw [hkey, if_pos hne]



theorem kept_rows_cons (seen : List Str) (row : LyricDataLine) (rest : List LyricDataLine) :
    kept_rows seen (row :: rest) =
      if row.timestamp = F64.DBL_MAX then row :: kept_rows seen rest
      else if row.text ∈ seen then kept_rows seen rest
      else row :: kept_rows (row.text :: seen) rest := rfl

theorem kept_rows_filter_timed (rows : List LyricDataLine) :
    ∀ seen : List Str,
      (kept_rows seen rows).filter (fun r => decide (r.timestamp ≠ F64.DBL_MAX)) =
        kept_rows seen (rows.filter (fun r => decide (r.timestamp ≠ F64.DBL_MAX))) := by
  induction rows with
  | nil => intro seen; rfl
  | cons row rest ih =>
    intro seen
    by_cases hu : row.timestamp = F64.DBL_MAX
    · have e : kept_rows seen (row :: rest) = row :: kept_rows seen rest := by
        rw [kept_rows_cons, if_pos hu]
      rw [e, List.filter_cons_of_neg (by simp [hu]), List.filter_cons_of_neg (by simp [hu]),
        ih seen]
    · rw [List.filter_cons_of_pos (l := rest) (by simp [hu])]
      by_cases hs : row.text ∈ seen
      · have e : ∀ l, kept_rows seen (row :: l) = kept_rows seen l := by
          intro l
          rw [kept_rows_cons, if_neg hu, if_pos hs]
        rw [e, e, ih seen]
      · have e : ∀ l, kept_rows seen (row :: l) = row :: kept_rows (row.text :: seen) l := by
          intro l
          rw [kept_rows_cons, if_neg hu, if_neg hs]
        rw [e, e, List.filter_cons_of_pos (by simp [hu]), ih]

theorem text_block_filter_timed (rows : List LyricDataLine) (X : Str) :
    text_block (rows.filter (fun r => decide (r.timestamp ≠ F64.DBL_MAX))) X =
      text_block rows X := by
  unfold text_block
  rw [List.filter_filter]
  apply List.filter_congr
  intro e _
  by_cases h : e.timestamp = F64.DBL_MAX <;> simp [h]

theorem flatMap_timed (f : LyricDataLine → List LyricDataLine) (l : List LyricDataLine) :
    l.flatMap (fun k => if k.timestamp = F64.DBL_MAX then [] else f k) =
      (l.filter (fun r => decide (r.timestamp ≠ F64.DBL_MAX))).flatMap f := by
  induction l with
  | nil => rfl
  | cons k rest ih =>
    rw [List.flatMap_cons, ih]
    by_cases h : k.timestamp = F64.DBL_MAX
    · rw [if_pos h, List.filter_cons_of_neg (by simp [h])]
      rfl
    · rw [if_neg h, List.filter_cons_of_pos (by simp [h]), List.flatMap_cons]

theorem merged_stamps_perm (rows : List LyricDataLine) :
    ((kept_rows [] rows).flatMap
        (fun k => if k.timestamp = F64.DBL_MAX then [] else text_block rows k.text)).Perm
      (rows.filter (fun r => decide (r.timestamp ≠ F64.DBL_MAX))) := by
  rw [flatMap_timed, kept_rows_filter_timed]
  have h := kept_blocks_perm (rows.filter (fun r => decide (r.timestamp ≠ F64.DBL_MAX))) []
    (by
      intro r hr
      have := (List.mem_filter.mp hr).2
      simpa using this)
  have e1 : (kept_rows [] (rows.filter (fun r => decide (r.timestamp ≠ F64.DBL_MAX)))).flatMap
      (fun k => text_block rows k.text) =
      (kept_rows [] (rows.filter (fun r => decide (r.timestamp ≠ F64.DBL_MAX)))).flatMap
      (fun k => text_block (rows.filter (fun r => decide (r.timestamp ≠ F64.DBL_MAX))) k.text) := by
    congr 1
    funext k
    rw [text_block_filter_timed]
  rw [e1]
  refine h.trans ?_
  rw [List.filter_eq_self.mpr (by intro x _; simp)]

theorem merged_row_text_eq (rows : List LyricDataLine) (k : LyricDataLine) :
    merged_row_text rows k =
      ((if k.timestamp = F64.DBL_MAX then [] else text_block rows k.text).map
        (fun e => print_timestamp_body e.timestamp)).flatten ++ k.text ++ ['\r', '\n'] := by
  unfold merged_row_text
  by_cases h : k.timestamp = F64.DBL_MAX
  · rw [if_pos h, if_pos h]
    rfl
  · rw [if_neg h, if_neg h, text_stamps_eq, List.map_map]
    rfl

theorem row_text_eq (r : LyricDataLine) :
    row_text r =
      ((if r.timestamp = F64.DBL_MAX then [] else [r]).map
        (fun e => print_timestamp_body e.timestamp)).flatten ++ r.text ++ ['\r', '\n'] := by
  unfold row_text
  by_cases h : r.timestamp = F64.DBL_MAX
  · rw [if_neg (by simpa using h), if_pos h]
    rfl
  · rw [if_pos h, if_neg h]
    simp



theorem collapse_from_run (t : Double) (ht : t ≠ F64.DBL_MAX) (tail : List LyricDataLine)
    (todo : List Str) :
    ∀ done : Str,
      collapse_from concurrent_reducer ⟨done, t⟩
          (todo.map (fun s => (⟨s, t⟩ : LyricDataLine)) ++ tail) =
        collapse_from concurrent_reducer ⟨['\n'].intercalate (done :: todo), t⟩ tail := by
  induction todo with
  | nil =>
    intro done
    simp [List.intercalate, List.intersperse]
  | cons s todo ih =>
    intro done
    rw [List.map_cons, List.cons_append, collapse_from_merge ⟨done, t⟩ ⟨s, t⟩ _ ht rfl, ih,
      intercalate_merge]

theorem collapse_from_head (cur : LyricDataLine) (tail : List LyricDataLine)
    (h : ∀ x, tail.head? = some x → cur.timestamp ≠ x.timestamp) :
    collapse_from concurrent_reducer cur tail = cur :: collapse_concurrent_lines tail := by
  cases tail with
  | nil => rfl
  | cons x rest =>
    rw [collapse_from_keep cur x rest (Or.inr (h x rfl))]
    rfl

theorem split_rows_cons (line : LyricDataLine) :
    ∃ s0 todo, line.text.splitOn '\n' = s0 :: todo ∧
      split_rows line = ⟨s0, line.timestamp⟩ ::
        todo.map (fun s => (⟨s, line.timestamp⟩ : LyricDataLine)) := by
  have hne : line.text.splitOn '\n' ≠ [] := by
    simp [List.splitOn, List.splitOnP_ne_nil]
  cases hs : line.text.splitOn '\n' with
  | nil => exact absurd hs hne
  | cons s0 todo =>
    refine ⟨s0, todo, rfl, ?_⟩
    rw [split_rows_eq, hs]
    rfl

theorem flatMap_split_rows_head (lines : List LyricDataLine) :
    ∀ x, (lines.flatMap split_rows).head? = some x →
      ∃ l, lines.head? = some l ∧ x.timestamp = l.timestamp := by
  intro x hx
  cases lines with
  | nil => simp at hx
  | cons l rest =>
    obtain ⟨s0, todo, _, hsplit⟩ := split_rows_cons l
    rw [List.flatMap_cons, hsplit] at hx
    simp only [List.cons_append, List.head?_cons, Option.some.injEq] at hx
    exact ⟨l, rfl, by rw [← hx]⟩

/-- Collapsing the rows of lines with strictly increasing timestamps gives the lines back. -/
theorem collapse_split (lines : List LyricDataLine)
    (hall : ∀ l ∈ lines, l.timestamp ≠ F64.DBL_MAX) (hsorted : lines.Pairwise timestamp_lt) :
    collapse_concurrent_lines (lines.flatMap split_rows) = lines := by
  induction lines with
  | nil => rfl
  | cons l rest ih =>
    have ih2 := ih (fun x hx => hall x (List.mem_cons_of_mem _ hx)) (List.Pairwise.of_cons hsorted)
    obtain ⟨s0, todo, hsegs, hsplit⟩ := split_rows_cons l
    rw [List.flatMap_cons, hsplit]
    have e : collapse_concurrent_lines
        (⟨s0, l.timestamp⟩ :: todo.map (fun s => (⟨s, l.timestamp⟩ : LyricDataLine)) ++
          rest.flatMap split_rows) =
        collapse_from concurrent_reducer ⟨s0, l.timestamp⟩
          (todo.map (fun s => (⟨s, l.timestamp⟩ : LyricDataLine)) ++
            rest.flatMap split_rows) := rfl
    rw [e, collapse_from_run _ (hall l (List.mem_cons_self _ _)), ← hsegs,
      List.intercalate_splitOn l.text '\n', collapse_from_head, ih2]
    intro x hx
    obtain ⟨l2, hl2, hts⟩ := flatMap_split_rows_head rest x hx
    have hmem : l2 ∈ rest := List.mem_of_mem_head? hl2
    have hlt := List.rel_of_pairwise_cons hsorted hmem
    rw [hts]
    exact ne_of_lt hlt

theorem rows_sorted (lines : List LyricDataLine) (hsorted : lines.Pairwise timestamp_lt) :
    (lines.flatMap split_rows).insertionSort timestamp_le = lines.flatMap split_rows := by
  apply List.Sorted.insertionSort_eq
  unfold List.Sorted
  rw [List.pairwise_flatMap]
  constructor
  · intro line _
    rw [List.pairwise_iff_forall_sublist]
    intro a b hab
    have h1 := split_rows_timestamp line a (hab.subset (by simp))
    have h2 := split_rows_timestamp line b (hab.subset (by simp))
    unfold timestamp_le
    rw [h1, h2]
  · refine List.Pairwise.imp ?_ hsorted
    intro a b hab x hx y hy
    unfold timestamp_le
    rw [split_rows_timestamp a x hx, split_rows_timestamp b y hy]
    exact le_of_lt hab

/-- Reading back the text that `expand_text(d, false)` prints for timed lines. -/
theorem parse_expand_unmerged (metadata : LyricDataCommon) (d : LyricData) (htags : d.tags = [])
    (hall : ∀ l ∈ d.lines, l.timestamp ≠ F64.DBL_MAX)
    (hsorted : d.lines.Pairwise timestamp_lt)
    (hrt : ∀ l ∈ d.lines,
      try_parse_timestamp (print_timestamp_body l.timestamp) = some l.timestamp)
    (hplain : ∀ r ∈ d.lines.flatMap split_rows, ∀ x ∈ r.text, x ≠ '\r' ∧ x ≠ Char.ofNat 0)
    (htag : ∀ r ∈ d.lines.flatMap split_rows, carries_timestamp r.text = false) :
    ∃ s, expand_text d false = some s ∧ (parse metadata s).lines = d.lines ∧
      (parse metadata s).tags = [] ∧ (parse metadata s).timestamp_offset = 0 := by
  cases hlines : d.lines with
  | nil =>
    refine ⟨expand_tags d.tags, expand_text_empty d hlines false, ?_, ?_, ?_⟩ <;>
    · rw [htags]
      rfl
  | cons first rest =>
    have hrowfacts : ∀ r ∈ d.lines.flatMap split_rows,
        r.timestamp ≠ F64.DBL_MAX ∧
        try_parse_timestamp (print_timestamp_body r.timestamp) = some r.timestamp ∧
        ∀ x ∈ r.text, is_line_end x = false := by
      intro r hr
      obtain ⟨l, hl, hrl⟩ := List.mem_flatMap.mp hr
      have hts := split_rows_timestamp l r hrl
      refine ⟨by rw [hts]; exact hall l hl, by rw [hts]; exact hrt l hl, ?_⟩
      intro x hx
      have hnl : x ≠ '\n' := by
        rw [split_rows_eq] at hrl
        obtain ⟨seg, hseg, hrseg⟩ := List.mem_map.mp hrl
        rw [← hrseg] at hx
        intro hxe
        rw [hxe] at hx
        exact splitOn_not_mem '\n' l.text seg hseg hx
      obtain ⟨h1, h2⟩ := hplain r hr x hx
      unfold is_line_end
      simp [h1, h2, hnl]
    obtain ⟨s0, todo, _, hsplit⟩ := split_rows_cons first
    have hrows : d.lines.flatMap split_rows =
        ⟨s0, first.timestamp⟩ :: (todo.map (fun s => (⟨s, first.timestamp⟩ : LyricDataLine)) ++
          rest.flatMap split_rows) := by
      rw [hlines, List.flatMap_cons, hsplit]
      rfl
    have htimed : d.IsTimestamped = true := by
      unfold LyricData.IsTimestamped
      rw [hlines, List.any_cons]
      have := hall first (by rw [hlines]; exact List.mem_cons_self _ _)
      simp [this]
    have hexp : expand_text d false =
        some (expand_tags d.tags ++ ((d.lines.flatMap split_rows).map row_text).flatten) := by
      apply expand_text_rows d false htimed
      unfold expand_rows
      simp
    have hstate : parse_state (((d.lines.flatMap split_rows).map row_text).flatten) =
        ⟨d.lines.flatMap split_rows, [], true, 0⟩ := by
      rw [hrows]
      apply parse_state_rows
      · exact (hrowfacts _ (by rw [hrows]; exact List.mem_cons_self _ _)).1
      · intro r hr
        exact (hrowfacts r (by rw [hrows]; exact hr)).2.2
      · intro r hr _
        refine ⟨?_, (hrowfacts r (by rw [hrows]; exact hr)).2.1⟩
        intro hst
        have := (carries_timestamp_iff r.text).mpr hst
        rw [htag r (by rw [hrows]; exact hr)] at this
        exact absurd this (by simp)
      · intro r hr hmax
        exact absurd hmax (hrowfacts r (by rw [hrows]; exact hr)).1
    refine ⟨_, hexp, ?_, ?_, ?_⟩
    · rw [htags]
      show collapse_concurrent_lines ((parse_state _).lines.insertionSort timestamp_le) = _
      have e : expand_tags [] ++ ((d.lines.flatMap split_rows).map row_text).flatten =
          ((d.lines.flatMap split_rows).map row_text).flatten := rfl
      rw [e, hstate]
      simp only []
      rw [rows_sorted d.lines hsorted, collapse_split d.lines hall hsorted, hlines]
    · rw [htags]
      show (parse_state _).tags = _
      have e : expand_tags [] ++ ((d.lines.flatMap split_rows).map row_text).flatten =
          ((d.lines.flatMap split_rows).map row_text).flatten := rfl
      rw [e, hstate]
    · rw [htags]
      show (parse_state _).timestamp_offset = _
      have e : expand_tags [] ++ ((d.lines.flatMap split_rows).map row_text).flatten =
          ((d.lines.flatMap split_rows).map row_text).flatten := rfl
      rw [e, hstate]



set_option maxRecDepth 100000 in
theorem subsec_fraction_bounds (c : Nat) (h1 : 1 ≤ c) (h2 : c < 100) :
    0 ≤ F64.add 0 (F64.mul (F64.ofInt (Int.ofNat c)) (subsec_coefficient 2 (F64.ofInt 1))) ∧
      100 * F64.add 0 (F64.mul (F64.ofInt (Int.ofNat c)) (subsec_coefficient 2 (F64.ofInt 1))) ≤
        Int.ofNat (c * F64.scale + 512 * 2 ^ 1021) ∧
      Int.ofNat (c * F64.scale) ≤
        100 * F64.add 0 (F64.mul (F64.ofInt (Int.ofNat c)) (subsec_coefficient 2 (F64.ofInt 1))) +
          Int.ofNat (512 * 2 ^ 1021) := by
  interval_cases c <;> decide

theorem fmt_02d_two (n : Nat) (h : n < 100) : (fmt_02d (Int.ofNat n)).length = 2 := by
  interval_cases n <;> decide


theorem F64.roundHalfEven_near (n d : Nat) (hd : 0 < d) :
    2 * (F64.roundHalfEven n d * d) ≤ 2 * n + d ∧
      2 * n ≤ 2 * (F64.roundHalfEven n d * d) + d := by
  have hdiv : d * (n / d) + n % d = n := Nat.div_add_mod n d
  have hr : n % d < d := Nat.mod_lt n hd
  have e1 : n / d * d = d * (n / d) := Nat.mul_comm _ _
  have e2 : (n / d + 1) * d = d * (n / d) + d := by ring
  unfold F64.roundHalfEven
  split
  · rw [e1]
    generalize d * (n / d) = p at hdiv
    generalize n % d = r at *
    omega
  · split
    · rw [e2]
      generalize d * (n / d) = p at hdiv
      generalize n % d = r at *
      omega
    · split
      · rw [e1]
        generalize d * (n / d) = p at hdiv
        generalize n % d = r at *
        omega
      · rw [e2]
        generalize d * (n / d) = p at hdiv
        generalize n % d = r at *
        omega

/-- Rounding to binary64 moves a value below `2^k` units by at most `2^(k-54)` units. -/
theorem F64.roundNat_near (x k : Nat) (h : x < 2 ^ k) (hk : 53 ≤ k) :
    2 * F64.roundNat x 1 ≤ 2 * x + 2 ^ (k - 53) ∧
      2 * x ≤ 2 * F64.roundNat x 1 + 2 ^ (k - 53) := by
  have hb : F64.bitlen x ≤ k := F64.bitlen_le_of_lt x k h
  have hpow : 2 ^ (F64.bitlen x - 53) ≤ 2 ^ (k - 53) :=
    Nat.pow_le_pow_right (by norm_num) (by omega)
  have hnear := F64.roundHalfEven_near x (2 ^ (F64.bitlen x - 53)) (by positivity)
  unfold F64.roundNat
  rw [Nat.div_one, Nat.one_mul]
  generalize F64.roundHalfEven x (2 ^ (F64.bitlen x - 53)) * 2 ^ (F64.bitlen x - 53) = r at hnear ⊢
  generalize 2 ^ (F64.bitlen x - 53) = d at hnear hpow
  generalize 2 ^ (k - 53) = e at hpow ⊢
  omega

theorem F64.add_near (a b k : Nat) (h : a + b < 2 ^ k) (hk : 53 ≤ k) (hk2 : k ≤ 2097) :
    ∃ r : Nat, F64.add (a : Int) (b : Int) = (r : Int) ∧
      2 * r ≤ 2 * (a + b) + 2 ^ (k - 53) ∧ 2 * (a + b) ≤ 2 * r + 2 ^ (k - 53) := by
  have hle : F64.roundNat (a + b) 1 ≤ 2 ^ 2097 := by
    have h1 := F64.roundNat_le_pow (a + b) 1 k (by norm_num) hk (by omega)
      (by rw [Nat.mul_one]; exact le_of_lt h)
    exact le_trans h1 (Nat.pow_le_pow_right (by norm_num) hk2)
  refine ⟨F64.roundNat (a + b) 1, ?_, F64.roundNat_near (a + b) k h hk⟩
  unfold F64.add
  rw [← Nat.cast_add]
  exact F64.round_natCast _ _ hle

/-- The product `(timestamp - floor(timestamp)) * 100.0` in terms of the rounding of natural
numbers of units. -/
theorem centisecond_product_eq (T : Nat) :
    centisecond_product (T : Int) =
      ((F64.roundNat (F64.roundNat (T % F64.scale) 1 * 100) 1 : Nat) : Int) := by
  obtain ⟨hx, hxle⟩ := sub_floor T
  have e100 : 25 * 2 ^ 1076 = 100 * F64.scale := by
    unfold F64.scale
    rw [show (1076 : Nat) = 2 + 1074 by norm_num, pow_add]
    norm_num
  have hp : F64.roundNat (F64.roundNat (T % F64.scale) 1 * 100) 1 ≤ 100 * F64.scale := by
    rw [← e100]
    apply roundNat_le _ _ _ _ (by norm_num) (by norm_num)
    rw [Nat.mul_one, e100]
    calc F64.roundNat (T % F64.scale) 1 * 100 ≤ F64.scale * 100 := Nat.mul_le_mul_right _ hxle
      _ = 100 * F64.scale := Nat.mul_comm _ _
  unfold centisecond_product
  rw [hx]
  have h100 : F64.ofInt 100 = ((100 * F64.scale : Nat) : Int) := F64.ofInt_natCast 100 (by norm_num)
  rw [h100]
  unfold F64.mul
  rw [← Nat.cast_mul]
  have e : F64.roundNat (T % F64.scale) 1 * (100 * F64.scale) =
      (F64.roundNat (T % F64.scale) 1 * 100) * F64.scale := by ring
  rw [e]
  have hr := F64.roundNat_mul_self (F64.roundNat (T % F64.scale) 1 * 100) F64.scale scale_pos
  have hbig : 100 * F64.scale ≤ 2 ^ 2097 := by
    rw [← e100]
    calc 25 * 2 ^ 1076 ≤ 2 ^ 5 * 2 ^ 1076 := Nat.mul_le_mul_right _ (by norm_num)
      _ = 2 ^ 1081 := by rw [← pow_add]
      _ ≤ 2 ^ 2097 := Nat.pow_le_pow_right (by norm_num) (by norm_num)
  rw [F64.round_natCast _ _ (by rw [hr]; exact le_trans hp hbig), hr]


theorem scale_units : F64.scale = 9007199254740992 * 2 ^ 1021 := by
  unfold F64.scale
  rw [show (1074 : Nat) = 53 + 1021 from rfl, pow_add]
  norm_num

/-- The sum that `try_parse_timestamp` forms from two fraction digits `c ≥ 1` and whole
fields below 100 hours lies within `2^-28` seconds of `W + c / 100`. -/
theorem timestamp_value_near (c ss mm : Nat) (hour : Option Nat) (hc1 : 1 ≤ c) (hc2 : c < 100)
    (hss : ss < 60) (hmm : mm < 60) (hh : hour.getD 0 < 100) :
    ∃ T : Nat, timestamp_value 2 c ss mm hour = (T : Int) ∧
      100 * T ≤ (100 * (ss + mm * 60 + hour.getD 0 * 3600) + c) * F64.scale +
        33554432 * 2 ^ 1021 ∧
      (100 * (ss + mm * 60 + hour.getD 0 * 3600) + c) * F64.scale ≤
        100 * T + 33554432 * 2 ^ 1021 := by
  have hS := scale_units
  have hssv : F64.ofInt (Int.ofNat ss) = ((ss * F64.scale : Nat) : Int) :=
    F64.ofInt_natCast ss (lt_trans hss (by norm_num))
  have hmmv : F64.mul (F64.ofInt (Int.ofNat mm)) (F64.ofInt 60)
      = ((mm * 60 * F64.scale : Nat) : Int) := by
    have h60 : F64.ofInt 60 = ((60 * F64.scale : Nat) : Int) :=
      F64.ofInt_natCast 60 (by norm_num)
    rw [F64.ofInt_natCast mm (lt_trans hmm (by norm_num)), h60]
    exact F64.mul_whole mm 60 (lt_of_le_of_lt (Nat.mul_le_mul_right 60 (le_of_lt hmm)) (by norm_num))
  -- the fraction
  obtain ⟨hf0, hf1, hf2⟩ := subsec_fraction_bounds c hc1 hc2
  obtain ⟨f, hf⟩ := Int.eq_ofNat_of_zero_le hf0
  rw [hf] at hf1 hf2
  simp only [Int.ofNat_eq_coe] at hf1 hf2
  have hf1n : 100 * f ≤ c * F64.scale + 512 * 2 ^ 1021 := by exact_mod_cast hf1
  have hf2n : c * F64.scale ≤ 100 * f + 512 * 2 ^ 1021 := by exact_mod_cast hf2
  have hcS1 : 1 * F64.scale ≤ c * F64.scale := Nat.mul_le_mul_right _ hc1
  have hcS2 : c * F64.scale ≤ 99 * F64.scale := Nat.mul_le_mul_right _ (by omega)
  have ha1 : ss * F64.scale ≤ 59 * F64.scale := Nat.mul_le_mul_right _ (by omega)
  have ha2 : mm * 60 * F64.scale ≤ 3540 * F64.scale := Nat.mul_le_mul_right _ (by omega)
  have e1080 : (2 : Nat) ^ 1080 = 64 * F64.scale := by
    unfold F64.scale
    rw [show (1080 : Nat) = 6 + 1074 from rfl, pow_add]
    norm_num
  have e1086 : (2 : Nat) ^ 1086 = 4096 * F64.scale := by
    unfold F64.scale
    rw [show (1086 : Nat) = 12 + 1074 from rfl, pow_add]
    norm_num
  have e1093 : (2 : Nat) ^ 1093 = 524288 * F64.scale := by
    unfold F64.scale
    rw [show (1093 : Nat) = 19 + 1074 from rfl, pow_add]
    norm_num
  have p1 : (2 : Nat) ^ (1080 - 53) = 64 * 2 ^ 1021 := by
    rw [show (1080 - 53 : Nat) = 6 + 1021 from rfl, pow_add]
    norm_num
  have p2 : (2 : Nat) ^ (1086 - 53) = 4096 * 2 ^ 1021 := by
    rw [show (1086 - 53 : Nat) = 12 + 1021 from rfl, pow_add]
    norm_num
  have p3 : (2 : Nat) ^ (1093 - 53) = 524288 * 2 ^ 1021 := by
    rw [show (1093 - 53 : Nat) = 19 + 1021 from rfl, pow_add]
    norm_num
  -- first addition
  have hlt1 : f + ss * F64.scale < 2 ^ 1080 := by
    rw [e1080]
    generalize (2 : Nat) ^ 1021 = v at *
    generalize F64.scale = S at *
    generalize c * S = cS at *
    generalize ss * S = a1 at *
    omega
  obtain ⟨x1, hx1, h11, h12⟩ := F64.add_near f (ss * F64.scale) 1080 hlt1 (by norm_num)
    (by norm_num)
  rw [p1] at h11 h12
  -- second addition
  have hlt2 : x1 + mm * 60 * F64.scale < 2 ^ 1086 := by
    rw [e1086]
    generalize (2 : Nat) ^ 1021 = v at *
    generalize F64.scale = S at *
    generalize c * S = cS at *
    generalize ss * S = a1 at *
    generalize mm * 60 * S = a2 at *
    omega
  obtain ⟨x2, hx2, h21, h22⟩ := F64.add_near x1 (mm * 60 * F64.scale) 1086 hlt2 (by norm_num)
    (by norm_num)
  rw [p2] at h21 h22
  have hsum : ∀ h : Nat, (100 * (ss + mm * 60 + h * 3600) + c) * F64.scale =
      100 * (ss * F64.scale) + 100 * (mm * 60 * F64.scale) + 100 * (h * 3600 * F64.scale) +
        c * F64.scale := by
    intro h
    ring
  cases hour with
  | none =>
    refine ⟨x2, ?_, ?_, ?_⟩
    · unfold timestamp_value
      simp only []
      rw [hf, hssv, hmmv, hx1, hx2]
    · simp only [Option.getD_none]
      rw [hsum 0]
      generalize (2 : Nat) ^ 1021 = v at *
      generalize F64.scale = S at *
      generalize c * S = cS at *
      generalize ss * S = a1 at *
      generalize mm * 60 * S = a2 at *
      generalize 0 * 3600 * S = a3 at *
      omega
    · simp only [Option.getD_none]
      rw [hsum 0]
      have hz : 0 * 3600 * F64.scale = 0 := by simp
      rw [hz]
      generalize (2 : Nat) ^ 1021 = v at *
      generalize F64.scale = S at *
      generalize c * S = cS at *
      generalize ss * S = a1 at *
      generalize mm * 60 * S = a2 at *
      omega
  | some hv =>
    simp only [Option.getD_some] at hh ⊢
    have hhv : F64.mul (F64.ofInt (Int.ofNat hv)) (F64.ofInt 3600)
        = ((hv * 3600 * F64.scale : Nat) : Int) := by
      have h3600 : F64.ofInt 3600 = ((3600 * F64.scale : Nat) : Int) :=
        F64.ofInt_natCast 3600 (by norm_num)
      rw [F64.ofInt_natCast hv (lt_trans hh (by norm_num)), h3600]
      exact F64.mul_whole hv 3600
        (lt_of_le_of_lt (Nat.mul_le_mul_right 3600 (le_of_lt hh)) (by norm_num))
    have ha3 : hv * 3600 * F64.scale ≤ 356400 * F64.scale := Nat.mul_le_mul_right _ (by omega)
    have hlt3 : x2 + hv * 3600 * F64.scale < 2 ^ 1093 := by
      rw [e1093]
      generalize (2 : Nat) ^ 1021 = v at *
      generalize F64.scale = S at *
      generalize c * S = cS at *
      generalize ss * S = a1 at *
      generalize mm * 60 * S = a2 at *
      generalize hv * 3600 * S = a3 at *
      omega
    obtain ⟨x3, hx3, h31, h32⟩ := F64.add_near x2 (hv * 3600 * F64.scale) 1093 hlt3
      (by norm_num) (by norm_num)
    rw [p3] at h31 h32
    refine ⟨x3, ?_, ?_, ?_⟩
    · unfold timestamp_value
      simp only []
      rw [hf, hssv, hmmv, hhv, hx1, hx2, hx3]
    · rw [hsum hv]
      generalize (2 : Nat) ^ 1021 = v at *
      generalize F64.scale = S at *
      generalize c * S = cS at *
      generalize ss * S = a1 at *
      generalize mm * 60 * S = a2 at *
      generalize hv * 3600 * S = a3 at *
      omega
    · rw [hsum hv]
      generalize (2 : Nat) ^ 1021 = v at *
      generalize F64.scale = S at *
      generalize c * S = cS at *
      generalize ss * S = a1 at *
      generalize mm * 60 * S = a2 at *
      generalize hv * 3600 * S = a3 at *
      omega


/-- A value within `2^-28` seconds of `W + c / 100` (`1 ≤ c ≤ 99`) has `W` whole seconds and
`c` rounded centiseconds. -/
theorem print_near (T W c : Nat) (hc1 : 1 ≤ c) (hc2 : c < 100) (hW : W < 360000)
    (h1 : 100 * T ≤ (100 * W + c) * F64.scale + 33554432 * 2 ^ 1021)
    (h2 : (100 * W + c) * F64.scale ≤ 100 * T + 33554432 * 2 ^ 1021) :
    T / F64.scale = W ∧ rounded_centiseconds (T : Int) = (c : Int) ∧
      T < 2 ^ 31 * F64.scale := by
  have hS := scale_units
  have hSpos := scale_pos
  have hsum : (100 * W + c) * F64.scale = 100 * (W * F64.scale) + c * F64.scale := by ring
  rw [hsum] at h1 h2
  have hcS1 : 1 * F64.scale ≤ c * F64.scale := Nat.mul_le_mul_right _ hc1
  have hcS2 : c * F64.scale ≤ 99 * F64.scale := Nat.mul_le_mul_right _ (by omega)
  have hWS : W * F64.scale ≤ 359999 * F64.scale := Nat.mul_le_mul_right _ (by omega)
  have e31 : 2 ^ 31 * F64.scale = 2147483648 * F64.scale := by norm_num
  have hlo : W * F64.scale ≤ T := by
    generalize (2 : Nat) ^ 1021 = v at *
    generalize F64.scale = S at *
    generalize c * S = cS at *
    generalize W * S = WS at *
    omega
  have hhi : T < (W + 1) * F64.scale := by
    rw [Nat.add_mul, Nat.one_mul]
    generalize (2 : Nat) ^ 1021 = v at *
    generalize F64.scale = S at *
    generalize c * S = cS at *
    generalize W * S = WS at *
    omega
  have hdiv : T / F64.scale = W := Nat.div_eq_of_lt_le hlo hhi
  have hmod : T % F64.scale + W * F64.scale = T := by
    have := Nat.div_add_mod T F64.scale
    rw [hdiv, Nat.mul_comm] at this
    omega
  have hT : T < 2 ^ 31 * F64.scale := by
    rw [e31]
    rw [Nat.add_mul, Nat.one_mul] at hhi
    generalize F64.scale = S at *
    generalize W * S = WS at *
    omega
  refine ⟨hdiv, ?_, hT⟩
  -- the subtraction and the product
  have hDlt : T % F64.scale < 2 ^ 1074 := Nat.mod_lt _ hSpos
  obtain ⟨n11, n12⟩ := F64.roundNat_near (T % F64.scale) 1074 hDlt (by norm_num)
  have p1 : (2 : Nat) ^ (1074 - 53) = 2 ^ 1021 := rfl
  rw [p1] at n11 n12
  have e1081 : (2 : Nat) ^ 1081 = 128 * F64.scale := by
    unfold F64.scale
    rw [show (1081 : Nat) = 7 + 1074 from rfl, pow_add]
    norm_num
  have p2 : (2 : Nat) ^ (1081 - 53) = 128 * 2 ^ 1021 := by
    rw [show (1081 - 53 : Nat) = 7 + 1021 from rfl, pow_add]
    norm_num
  have hDlt2 : T % F64.scale < F64.scale := Nat.mod_lt _ hSpos
  have hlt2 : F64.roundNat (T % F64.scale) 1 * 100 < 2 ^ 1081 := by
    rw [e1081]
    generalize F64.roundNat (T % F64.scale) 1 = r1 at *
    generalize T % F64.scale = D at *
    generalize (2 : Nat) ^ 1021 = v at *
    generalize F64.scale = S at *
    omega
  obtain ⟨n21, n22⟩ := F64.roundNat_near (F64.roundNat (T % F64.scale) 1 * 100) 1081 hlt2
    (by norm_num)
  rw [p2] at n21 n22
  unfold rounded_centiseconds
  rw [centisecond_product_eq]
  have hcast : (2 * ((F64.roundNat (F64.roundNat (T % F64.scale) 1 * 100) 1 : Nat) : Int) +
      Int.ofNat F64.scale) / (2 * Int.ofNat F64.scale) =
      (((2 * F64.roundNat (F64.roundNat (T % F64.scale) 1 * 100) 1 + F64.scale) /
        (2 * F64.scale) : Nat) : Int) := by
    push_cast
    rfl
  rw [hcast]
  congr 1
  apply Nat.div_eq_of_lt_le
  · have e : c * (2 * F64.scale) = 2 * (c * F64.scale) := by ring
    rw [e]
    generalize F64.roundNat (F64.roundNat (T % F64.scale) 1 * 100) 1 = p at *
    generalize F64.roundNat (T % F64.scale) 1 = r1 at *
    generalize T % F64.scale = D at *
    generalize (2 : Nat) ^ 1021 = v at *
    generalize F64.scale = S at *
    generalize c * S = cS at *
    generalize W * S = WS at *
    omega
  · have e : (c + 1) * (2 * F64.scale) = 2 * (c * F64.scale) + 2 * F64.scale := by ring
    rw [e]
    generalize F64.roundNat (F64.roundNat (T % F64.scale) 1 * 100) 1 = p at *
    generalize F64.roundNat (T % F64.scale) 1 = r1 at *
    generalize T % F64.scale = D at *
    generalize (2 : Nat) ^ 1021 = v at *
    generalize F64.scale = S at *
    generalize c * S = cS at *
    generalize W * S = WS at *
    omega

/-- A whole number of seconds has no rounded centiseconds. -/
theorem print_whole (W : Nat) (hW : W < 360000) :
    W * F64.scale / F64.scale = W ∧
      rounded_centiseconds ((W * F64.scale : Nat) : Int) = 0 ∧
      W * F64.scale < 2 ^ 31 * F64.scale := by
  have hSpos := scale_pos
  refine ⟨Nat.mul_div_cancel _ hSpos, ?_,
    Nat.mul_lt_mul_of_pos_right (lt_trans hW (by norm_num)) hSpos⟩
  unfold rounded_centiseconds
  rw [centisecond_product_eq, Nat.mul_mod_left, F64.roundNat_zero, Nat.zero_mul,
    F64.roundNat_zero]
  simp only [Int.ofNat_eq_coe, Nat.cast_zero, mul_zero, zero_add]
  apply Int.ediv_eq_zero_of_lt
  · exact Int.ofNat_nonneg _
  · have : (0 : Int) < (F64.scale : Int) := Int.ofNat_lt.mpr hSpos
    omega

theorem centisecond_fields_canonical (hh mm ss c : Nat) (hmm : mm < 60) (hss : ss < 60)
    (hc : c < 100) :
    centisecond_fields (((ss + mm * 60 + hh * 3600 : Nat) : Int) * 100 + (c : Int)) =
      print_timestamp_fields (hh : Int) (mm : Int) (ss : Int) (c : Int) := by
  unfold centisecond_fields
  apply print_timestamp_fields_congr
  · push_cast
    omega
  · push_cast
    omega
  · push_cast
    omega
  · push_cast
    omega


theorem below_DBL_MAX (T : Nat) (h : T < 2 ^ 31 * F64.scale) : (T : Int) ≠ F64.DBL_MAX := by
  have h1 : ((2 ^ 1105 : Nat) : Int) ≤ F64.DBL_MAX := F64.pow_le_DBL_MAX 1105 (by norm_num)
  have e : 2 ^ 31 * F64.scale = 2 ^ 1105 := by
    unfold F64.scale
    rw [← pow_add]
  rw [e] at h
  have h2 : (T : Int) < ((2 ^ 1105 : Nat) : Int) := Int.ofNat_lt.mpr h
  exact ne_of_lt (lt_of_lt_of_le h2 h1)

/-- The text that `print_timestamp` gives for the value parsed from two-digit fields. -/
theorem print_parsed_value (c ss mm : Nat) (hour : Option Nat) (hc : c < 100) (hss : ss < 60)
    (hmm : mm < 60) (hh : hour.getD 0 < 100) :
    print_timestamp (timestamp_value 2 c ss mm hour) =
      some (print_timestamp_fields ((hour.getD 0 : Nat) : Int) (mm : Int) (ss : Int) (c : Int)) := by
  have hW : ss + mm * 60 + hour.getD 0 * 3600 < 360000 := by omega
  have key : ∃ T : Nat, timestamp_value 2 c ss mm hour = (T : Int) ∧
      T / F64.scale = ss + mm * 60 + hour.getD 0 * 3600 ∧
      rounded_centiseconds (T : Int) = (c : Int) ∧ T < 2 ^ 31 * F64.scale := by
    by_cases hc0 : c = 0
    · subst hc0
      have hq := timestamp_value_quarters 0 ss mm hour (by norm_num)
        (lt_trans hW (by norm_num))
      have hqs : quarter_sum 0 (ss + mm * 60 + hour.getD 0 * 3600) =
          (ss + mm * 60 + hour.getD 0 * 3600) * F64.scale := by
        unfold quarter_sum quarter_fraction
        split
        · rename_i h0
          rw [h0]
          simp
        · simp
      rw [hqs] at hq
      obtain ⟨p1, p2, p3⟩ := print_whole (ss + mm * 60 + hour.getD 0 * 3600) hW
      exact ⟨_, hq, p1, p2, p3⟩
    · obtain ⟨T, hT, b1, b2⟩ := timestamp_value_near c ss mm hour (by omega) hc hss hmm hh
      obtain ⟨p1, p2, p3⟩ := print_near T _ c (by omega) hc hW b1 b2
      exact ⟨T, hT, p1, p2, p3⟩
  obtain ⟨T, hT, p1, p2, p3⟩ := key
  rw [hT, print_timestamp_timed _ (below_DBL_MAX T p3), print_timestamp_body_fields T p3, p1, p2,
    centisecond_fields_canonical _ mm ss c hmm hss hc]

theorem fmt_02d_two_digits (n : Nat) (h : n < 100) :
    is_digit_string (fmt_02d (n : Int)) ∧ (fmt_02d (n : Int)).length = 2 ∧
      digits_value (fmt_02d (n : Int)) = n := by
  obtain ⟨h1, h2, _⟩ := fmt_02d_spec n
  exact ⟨h1, fmt_02d_two n h, h2⟩

/-- Parsing a canonical timestamp and printing the value gives the timestamp back. -/
theorem canonical_parse_print (hh mm ss cc : Nat) (hhh : hh < 100) (hmm : mm < 60)
    (hss : ss < 60) (hcc : cc < 100) :
    ∃ t, try_parse_timestamp
        (print_timestamp_fields (hh : Int) (mm : Int) (ss : Int) (cc : Int)) = some t ∧
      print_timestamp t =
        some (print_timestamp_fields (hh : Int) (mm : Int) (ss : Int) (cc : Int)) := by
  have hmm2 : mm < 100 := by omega
  have hss2 : ss < 100 := by omega
  obtain ⟨dh, lh, vh⟩ := fmt_02d_two_digits hh hhh
  obtain ⟨dm, lm, vm⟩ := fmt_02d_two_digits mm hmm2
  obtain ⟨ds, ls, vs⟩ := fmt_02d_two_digits ss hss2
  obtain ⟨dc, lc, vc⟩ := fmt_02d_two_digits cc hcc
  have h64 : ∀ n : Nat, n < 100 → n < 2 ^ 64 := fun n h => lt_trans h (by norm_num)
  by_cases h0 : hh = 0
  · subst h0
    have hp := try_parse_timestamp_three (fmt_02d (mm : Int)) (fmt_02d (ss : Int))
      (fmt_02d (cc : Int)) dm ds dc (by rw [vm]; exact h64 mm hmm2) (by rw [vs]; exact h64 ss hss2)
      (by rw [vc]; exact h64 cc hcc) (by rw [lm, ls, lc]; norm_num)
    rw [lc, vc, vs, vm] at hp
    have hshape : print_timestamp_fields ((0 : Nat) : Int) (mm : Int) (ss : Int) (cc : Int) =
        '[' :: (fmt_02d (mm : Int) ++ ':' :: (fmt_02d (ss : Int) ++ '.' ::
          (fmt_02d (cc : Int) ++ [']']))) := by
      unfold print_timestamp_fields
      rw [if_pos (by simp)]
    refine ⟨_, by rw [hshape]; exact hp, ?_⟩
    have := print_parsed_value cc ss mm none hcc hss hmm (by simp)
    simpa using this
  · have hp := try_parse_timestamp_four (fmt_02d (hh : Int)) (fmt_02d (mm : Int))
      (fmt_02d (ss : Int)) (fmt_02d (cc : Int)) dh dm ds dc (by rw [vh]; exact h64 hh hhh)
      (by rw [vm]; exact h64 mm hmm2) (by rw [vs]; exact h64 ss hss2)
      (by rw [vc]; exact h64 cc hcc) (by rw [lh, lm, ls, lc]; norm_num)
    rw [lc, vc, vs, vm, vh] at hp
    have hshape : print_timestamp_fields (hh : Int) (mm : Int) (ss : Int) (cc : Int) =
        '[' :: (fmt_02d (hh : Int) ++ ':' :: (fmt_02d (mm : Int) ++ ':' ::
          (fmt_02d (ss : Int) ++ '.' :: (fmt_02d (cc : Int) ++ [']'])))) := by
      unfold print_timestamp_fields
      rw [if_neg (by exact_mod_cast h0)]
    refine ⟨_, by rw [hshape]; exact hp, ?_⟩
    have := print_parsed_value cc ss mm (some hh) hcc hss hmm (by simpa using hhh)
    simpa using this


/-! # The order of the rows after the merge -/

theorem first_place_cons_self (row : LyricDataLine) (rest : List LyricDataLine) :
    first_place (row :: rest) row.text = 0 := by
  unfold first_place
  rw [if_pos rfl]

theorem first_place_cons_ne (row : LyricDataLine) (rest : List LyricDataLine) (T : Str)
    (h : row.text ≠ T) : first_place (row :: rest) T = first_place rest T + 1 := by
  rw [first_place, if_neg h]

theorem first_place_inj (rows : List LyricDataLine) (a b : LyricDataLine) (ha : a ∈ rows)
    (hb : b ∈ rows) (h : first_place rows a.text = first_place rows b.text) :
    a.text = b.text := by
  induction rows with
  | nil => simp at ha
  | cons row rest ih =>
    by_cases h1 : row.text = a.text
    · by_cases h2 : row.text = b.text
      · rw [← h1, ← h2]
      · rw [← h1, first_place_cons_self, first_place_cons_ne _ _ _ h2] at h
        omega
    · by_cases h2 : row.text = b.text
      · rw [← h2, first_place_cons_self, first_place_cons_ne _ _ _ (h2 ▸ h1)] at h
        omega
      · rw [first_place_cons_ne _ _ _ h1, first_place_cons_ne _ _ _ h2] at h
        have ha2 : a ∈ rest := by
          rcases List.mem_cons.mp ha with e | e
          · exact absurd (e ▸ rfl) h1
          · exact e
        have hb2 : b ∈ rest := by
          rcases List.mem_cons.mp hb with e | e
          · exact absurd (e ▸ rfl) h2
          · exact e
        exact ih ha2 hb2 (by omega)

/-- The kept rows of timed rows stand in the order in which their texts first occur. -/
theorem kept_rows_first_place (rows : List LyricDataLine) :
    ∀ seen : List Str, (∀ r ∈ rows, r.timestamp ≠ F64.DBL_MAX) →
      (kept_rows seen rows).Pairwise (fun k k2 =>
        first_place rows k.text ≤ first_place rows k2.text) := by
  induction rows with
  | nil => intro seen _; simp [kept_rows]
  | cons row rest ih =>
    intro seen hall
    have hu : row.timestamp ≠ F64.DBL_MAX := hall row (List.mem_cons_self _ _)
    have hrest : ∀ r ∈ rest, r.timestamp ≠ F64.DBL_MAX :=
      fun r hr => hall r (List.mem_cons_of_mem _ hr)
    have hsubt : ∀ seen2 : List Str, ∀ k ∈ kept_rows seen2 rest, k.timestamp ≠ F64.DBL_MAX :=
      fun seen2 k hk => hrest k ((kept_rows_sublist rest seen2).subset hk)
    unfold kept_rows
    rw [if_neg hu]
    by_cases hs : row.text ∈ seen
    · rw [if_pos hs]
      refine List.Pairwise.imp_of_mem ?_ (ih seen hrest)
      intro a b ha hb hab
      have hna : row.text ≠ a.text := by
        intro he
        exact kept_rows_unseen rest seen a ha (hsubt seen a ha) (he ▸ hs)
      have hnb : row.text ≠ b.text := by
        intro he
        exact kept_rows_unseen rest seen b hb (hsubt seen b hb) (he ▸ hs)
      rw [first_place_cons_ne _ _ _ hna, first_place_cons_ne _ _ _ hnb]
      omega
    · rw [if_neg hs, List.pairwise_cons]
      constructor
      · intro k _
        rw [first_place_cons_self]
        exact Nat.zero_le _
      · refine List.Pairwise.imp_of_mem ?_ (ih (row.text :: seen) hrest)
        intro a b ha hb hab
        have hna : row.text ≠ a.text := by
          intro he
          exact kept_rows_unseen rest _ a ha (hsubt _ a ha) (he ▸ List.mem_cons_self _ _)
        have hnb : row.text ≠ b.text := by
          intro he
          exact kept_rows_unseen rest _ b hb (hsubt _ b hb) (he ▸ List.mem_cons_self _ _)
        rw [first_place_cons_ne _ _ _ hna, first_place_cons_ne _ _ _ hnb]
        omega

/-- The blocks of the kept rows, one after the other, stand in the order in which their texts
first occur. -/
theorem kept_blocks_first_place (rows : List LyricDataLine)
    (hall : ∀ r ∈ rows, r.timestamp ≠ F64.DBL_MAX) :
    ((kept_rows [] rows).flatMap (fun k => text_block rows k.text)).Pairwise (fun a b =>
      first_place rows a.text ≤ first_place rows b.text) := by
  have htext : ∀ (X : Str), ∀ x ∈ text_block rows X, x.text = X := by
    intro X x hx
    unfold text_block at hx
    have := (List.mem_filter.mp hx).2
    simp only [decide_eq_true_eq] at this
    exact this.1
  rw [List.pairwise_flatMap]
  constructor
  · intro k _
    rw [List.pairwise_iff_forall_sublist]
    intro a b hab
    rw [htext k.text a (hab.subset (by simp)), htext k.text b (hab.subset (by simp))]
  · refine List.Pairwise.imp ?_ (kept_rows_first_place rows [] hall)
    intro k k2 hk x hx y hy
    rw [htext k.text x hx, htext k2.text y hy]
    exact hk

/-- The stable sort by timestamp keeps an order that the lines had before, among the lines of
one timestamp. -/
theorem insertionSort_keeps_order (K : LyricDataLine → LyricDataLine → Prop)
    (lines : List LyricDataLine) (h : lines.Pairwise K) :
    (lines.insertionSort timestamp_le).Pairwise (fun a b =>
      a.timestamp < b.timestamp ∨ (a.timestamp = b.timestamp ∧ K a b)) := by
  have hle : (lines.insertionSort timestamp_le).Pairwise timestamp_le :=
    List.sorted_insertionSort timestamp_le lines
  rw [List.pairwise_iff_forall_sublist] at hle ⊢
  intro a b hab
  have h1 : a.timestamp ≤ b.timestamp := hle hab
  rcases lt_or_eq_of_le h1 with hlt | heq
  · exact Or.inl hlt
  · refine Or.inr ⟨heq, ?_⟩
    have hf := hab.filter (fun l => decide (l.timestamp = a.timestamp))
    rw [insertionSort_filter_timestamp] at hf
    have e : [a, b].filter (fun l => decide (l.timestamp = a.timestamp)) = [a, b] := by
      rw [List.filter_eq_self]
      intro x hx
      rcases List.mem_cons.mp hx with hx | hx
      · rw [hx]
        simp
      · rw [List.mem_singleton.mp hx]
        simp [heq]
    rw [e] at hf
    exact (List.pairwise_iff_forall_sublist.mp h) (hf.trans (List.filter_sublist lines))

/-- Two lists with the same members that are sorted by a relation which is antisymmetric on
these members are equal. -/
theorem perm_sorted_eq {α : Type} (r : α → α → Prop) :
    ∀ (l1 l2 : List α), l1.Perm l2 → l1.Pairwise r → l2.Pairwise r →
      (∀ a ∈ l1, ∀ b ∈ l1, r a b → r b a → a = b) → l1 = l2 := by
  intro l1
  induction l1 with
  | nil =>
    intro l2 hp _ _ _
    exact hp.nil_eq
  | cons a t1 ih =>
    intro l2 hp h1 h2 hanti
    cases l2 with
    | nil => exact absurd hp.symm.nil_eq (by simp)
    | cons b t2 =>
      have hab : a = b := by
        by_contra hne
        have ha : a ∈ t2 := by
          have : a ∈ b :: t2 := hp.subset (List.mem_cons_self _ _)
          rcases List.mem_cons.mp this with h | h
          · exact absurd h hne
          · exact h
        have hb : b ∈ t1 := by
          have : b ∈ a :: t1 := hp.symm.subset (List.mem_cons_self _ _)
          rcases List.mem_cons.mp this with h | h
          · exact absurd h.symm hne
          · exact h
        have r1 : r a b := List.rel_of_pairwise_cons h1 hb
        have r2 : r b a := List.rel_of_pairwise_cons h2 ha
        exact hne (hanti a (List.mem_cons_self _ _) b (List.mem_cons_of_mem _ hb) r1 r2)
      subst hab
      rw [ih t2 (List.Perm.cons_inv hp) (List.Pairwise.of_cons h1) (List.Pairwise.of_cons h2)
        (fun x hx y hy => hanti x (List.mem_cons_of_mem _ hx) y (List.mem_cons_of_mem _ hy))]

/-- The rows of lines with strictly increasing timestamps, each line with its rows in the
order in which their texts first occur, are sorted by timestamp and then by first place. -/
theorem rows_in_order (lines : List LyricDataLine) (hsorted : lines.Pairwise timestamp_lt)
    (horder : ∀ l ∈ lines, (split_rows l).Pairwise (fun a b =>
      first_place (lines.flatMap split_rows) a.text ≤
        first_place (lines.flatMap split_rows) b.text)) :
    (lines.flatMap split_rows).Pairwise (fun a b =>
      a.timestamp < b.timestamp ∨ (a.timestamp = b.timestamp ∧
        first_place (lines.flatMap split_rows) a.text ≤
          first_place (lines.flatMap split_rows) b.text)) := by
  rw [List.pairwise_flatMap]
  constructor
  · intro l hl
    refine List.Pairwise.imp_of_mem ?_ (horder l hl)
    intro a b ha hb hab
    exact Or.inr ⟨by rw [split_rows_timestamp l a ha, split_rows_timestamp l b hb], hab⟩
  · refine List.Pairwise.imp ?_ hsorted
    intro a b hab x hx y hy
    left
    rw [split_rows_timestamp a x hx, split_rows_timestamp b y hy]
    exact hab

/-- Sorting the blocks of the kept rows gives the rows back, when the rows of every line stand
in the order in which their texts first occur. -/
theorem sort_kept_blocks (lines : List LyricDataLine)
    (hall : ∀ l ∈ lines, l.timestamp ≠ F64.DBL_MAX) (hsorted : lines.Pairwise timestamp_lt)
    (horder : ∀ l ∈ lines, (split_rows l).Pairwise (fun a b =>
      first_place (lines.flatMap split_rows) a.text ≤
        first_place (lines.flatMap split_rows) b.text)) :
    ((kept_rows [] (lines.flatMap split_rows)).flatMap
        (fun k => text_block (lines.flatMap split_rows) k.text)).insertionSort timestamp_le =
      lines.flatMap split_rows := by
  have hrall : ∀ r ∈ lines.flatMap split_rows, r.timestamp ≠ F64.DBL_MAX := by
    intro r hr
    obtain ⟨l, hl, hrl⟩ := List.mem_flatMap.mp hr
    rw [split_rows_timestamp l r hrl]
    exact hall l hl
  have hperm := kept_blocks_perm (lines.flatMap split_rows) [] hrall
  have hfilter : (lines.flatMap split_rows).filter
      (fun x => decide (x.text ∉ ([] : List Str))) = lines.flatMap split_rows := by
    rw [List.filter_eq_self]
    intro x _
    simp
  rw [hfilter] at hperm
  have hp := (List.perm_insertionSort timestamp_le _).trans hperm
  refine perm_sorted_eq _ _ _ hp
    (insertionSort_keeps_order _ _ (kept_blocks_first_place _ hrall))
    (rows_in_order lines hsorted horder) ?_
  intro a ha b hb hab hba
  have ha2 : a ∈ lines.flatMap split_rows := hp.subset ha
  have hb2 : b ∈ lines.flatMap split_rows := hp.subset hb
  have hts : a.timestamp = b.timestamp := by
    rcases hab with h | h
    · rcases hba with h2 | h2
      · exact absurd h (not_lt_of_gt h2)
      · exact h2.1.symm
    · exact h.1
  have hfp : first_place (lines.flatMap split_rows) a.text =
      first_place (lines.flatMap split_rows) b.text := by
    rcases hab with h | h
    · rw [hts] at h
      exact absurd h (lt_irrefl _)
    · rcases hba with h2 | h2
      · rw [hts] at h2
        exact absurd h2 (lt_irrefl _)
      · exact Nat.le_antisymm h.2 h2.2
  have htext : a.text = b.text := first_place_inj _ a b ha2 hb2 hfp
  cases a
  cases b
  simp only [LyricDataLine.mk.injEq]
  exact ⟨htext, hts⟩

/-- Reading back the merged text of timed lines: the lines come back exactly when the rows of
every line stand in the order in which their texts first occur among the rows. -/
theorem parse_expand_merged_rows (metadata : LyricDataCommon) (d : LyricData)
    (htags : d.tags = [])
    (hall : ∀ l ∈ d.lines, l.timestamp ≠ F64.DBL_MAX)
    (hsorted : d.lines.Pairwise timestamp_lt)
    (hrt : ∀ l ∈ d.lines,
      try_parse_timestamp (print_timestamp_body l.timestamp) = some l.timestamp)
    (hplain : ∀ r ∈ d.lines.flatMap split_rows, ∀ x ∈ r.text, x ≠ '\r' ∧ x ≠ Char.ofNat 0)
    (htag : ∀ r ∈ d.lines.flatMap split_rows, carries_timestamp r.text = false) :
    ∃ s, expand_text d true = some s ∧ (parse metadata s).tags = [] ∧
      ((parse metadata s).lines = d.lines ↔
        ∀ l ∈ d.lines, (split_rows l).Pairwise (fun a b =>
          first_place (d.lines.flatMap split_rows) a.text ≤
            first_place (d.lines.flatMap split_rows) b.text)) := by
  cases hlines : d.lines with
  | nil =>
    refine ⟨expand_tags d.tags, expand_text_empty d hlines true, ?_, ?_⟩
    · rw [htags]
      rfl
    · rw [htags]
      constructor
      · intro _ l hl
        simp at hl
      · intro _
        rfl
  | cons first rest =>
    have hnl : ∀ r ∈ d.lines.flatMap split_rows, '\n' ∉ r.text := by
      intro r hr
      obtain ⟨l, hl, hrl⟩ := List.mem_flatMap.mp hr
      rw [split_rows_eq] at hrl
      obtain ⟨seg, hseg, hrseg⟩ := List.mem_map.mp hrl
      rw [← hrseg]
      exact splitOn_not_mem '\n' l.text seg hseg
    have hrowfacts : ∀ r ∈ d.lines.flatMap split_rows,
        r.timestamp ≠ F64.DBL_MAX ∧
        try_parse_timestamp (print_timestamp_body r.timestamp) = some r.timestamp ∧
        ∀ x ∈ r.text, is_line_end x = false := by
      intro r hr
      obtain ⟨l, hl, hrl⟩ := List.mem_flatMap.mp hr
      have hts := split_rows_timestamp l r hrl
      refine ⟨by rw [hts]; exact hall l hl, by rw [hts]; exact hrt l hl, ?_⟩
      intro x hx
      have hxn : x ≠ '\n' := by
        intro hxe
        rw [hxe] at hx
        exact hnl r hr hx
      obtain ⟨h1, h2⟩ := hplain r hr x hx
      unfold is_line_end
      simp [h1, h2, hxn]
    have htimed : d.IsTimestamped = true := by
      unfold LyricData.IsTimestamped
      rw [hlines, List.any_cons]
      have := hall first (by rw [hlines]; exact List.mem_cons_self _ _)
      simp [this]
    have hm : mergeable (d.lines.flatMap split_rows) := by
      unfold mergeable
      rw [List.pairwise_iff_forall_sublist]
      intro a b hab _ hu
      exact absurd hu (hrowfacts a (hab.subset (by simp))).1
    have htextm := merged_rows_text (d.lines.flatMap split_rows) [] [] (by simp)
    rw [List.nil_append] at htextm
    have hexp : expand_text d true =
        some (((kept_rows [] (d.lines.flatMap split_rows)).map
          (merged_row_text (d.lines.flatMap split_rows))).flatten) := by
      rw [expand_text_merged d htimed hm, htags]
      have htag0 : expand_tags [] = [] := rfl
      rw [htag0, List.nil_append, ← htextm]
      rfl
    obtain ⟨hst1, hst2⟩ := parse_state_merged (d.lines.flatMap split_rows)
      (fun r hr => (hrowfacts r hr).1) (fun r hr => (hrowfacts r hr).2.2)
      (by
        intro r hr hstart
        have := (carries_timestamp_iff r.text).mpr hstart
        rw [htag r hr] at this
        exact absurd this (by simp))
      (fun r hr => (hrowfacts r hr).2.1)
    have hrall : ∀ r ∈ d.lines.flatMap split_rows, r.timestamp ≠ F64.DBL_MAX :=
      fun r hr => (hrowfacts r hr).1
    have hperm := kept_blocks_perm (d.lines.flatMap split_rows) [] hrall
    have hfilter : (d.lines.flatMap split_rows).filter
        (fun x => decide (x.text ∉ ([] : List Str))) = d.lines.flatMap split_rows := by
      rw [List.filter_eq_self]
      intro x _
      simp
    rw [hfilter] at hperm
    have hp := (List.perm_insertionSort timestamp_le _).trans hperm
    rw [← hlines]
    refine ⟨_, hexp, ?_, ?_⟩
    · show (parse_state _).tags = _
      exact hst2
    · show collapse_concurrent_lines ((parse_state _).lines.insertionSort timestamp_le) = _ ↔ _
      rw [hst1]
      constructor
      · intro hback
        have hsplit := split_collapse _ (fun r hr => hnl r (hp.subset hr))
        rw [hback] at hsplit
        have hord := insertionSort_keeps_order _ _
          (kept_blocks_first_place _ hrall)
        rw [← hsplit, List.pairwise_flatMap] at hord
        intro l hl
        refine List.Pairwise.imp_of_mem ?_ (hord.1 l hl)
        intro a b ha hb hab
        rcases hab with h | h
        · rw [split_rows_timestamp l a ha, split_rows_timestamp l b hb] at h
          exact absurd h (lt_irrefl _)
        · exact h.2
      · intro horder
        rw [sort_kept_blocks d.lines hall hsorted horder]
        exact collapse_split d.lines hall hsorted

/-! # Two-decimal timestamps over the whole range of `int` seconds -/

/-- Rounding the quotient `x / d` to binary64 moves it by at most `2^(k-54)` units when the
quotient is below `2^k` units. -/
theorem F64.roundNat_div_near (x d k : Nat) (hd : 0 < d) (h : x / d < 2 ^ k) (hk : 53 ≤ k) :
    2 * (F64.roundNat x d * d) ≤ 2 * x + d * 2 ^ (k - 53) ∧
      2 * x ≤ 2 * (F64.roundNat x d * d) + d * 2 ^ (k - 53) := by
  have hb : F64.bitlen (x / d) ≤ k := F64.bitlen_le_of_lt (x / d) k h
  have hpow : d * 2 ^ (F64.bitlen (x / d) - 53) ≤ d * 2 ^ (k - 53) :=
    Nat.mul_le_mul_left _ (Nat.pow_le_pow_right (by norm_num) (by omega))
  have hnear := F64.roundHalfEven_near x (d * 2 ^ (F64.bitlen (x / d) - 53)) (by positivity)
  unfold F64.roundNat
  have e : F64.roundHalfEven x (d * 2 ^ (F64.bitlen (x / d) - 53)) *
      2 ^ (F64.bitlen (x / d) - 53) * d =
      F64.roundHalfEven x (d * 2 ^ (F64.bitlen (x / d) - 53)) *
        (d * 2 ^ (F64.bitlen (x / d) - 53)) := by ring
  rw [e]
  generalize F64.roundHalfEven x (d * 2 ^ (F64.bitlen (x / d) - 53)) *
    (d * 2 ^ (F64.bitlen (x / d) - 53)) = r at hnear ⊢
  generalize d * 2 ^ (F64.bitlen (x / d) - 53) = q at hnear hpow
  generalize d * 2 ^ (k - 53) = w at hpow ⊢
  omega

/-- The two-decimal literal `k / 100` with whole seconds that fit an `int` lies within
`2^-16 / 100` seconds of `k / 100`. -/
theorem lit_hundredths_near (k : Nat) (hk : k < 100 * 2 ^ 31) :
    ∃ T : Nat, F64.lit (k : Int) 100 = (T : Int) ∧
      100 * T ≤ k * F64.scale + 137438953472 * 2 ^ 1021 ∧
      k * F64.scale ≤ 100 * T + 137438953472 * 2 ^ 1021 := by
  have e1105 : (2 : Nat) ^ 1105 = 2 ^ 31 * F64.scale := by
    unfold F64.scale
    rw [← pow_add]
  have hq : k * F64.scale / 100 < 2 ^ 1105 := by
    apply Nat.div_lt_of_lt_mul
    rw [e1105, ← Nat.mul_assoc]
    exact Nat.mul_lt_mul_of_pos_right hk scale_pos
  obtain ⟨n1, n2⟩ := F64.roundNat_div_near (k * F64.scale) 100 1105 (by norm_num) hq
    (by norm_num)
  have p : (2 : Nat) ^ (1105 - 53) = 2147483648 * 2 ^ 1021 := by
    rw [show (1105 - 53 : Nat) = 31 + 1021 from rfl, pow_add]
    norm_num
  rw [p] at n1 n2
  have hle : F64.roundNat (k * F64.scale) 100 ≤ 2 ^ 2097 := by
    have h1 := F64.roundNat_le_pow (k * F64.scale) 100 1105 (by norm_num) (by norm_num)
      (by norm_num) (by
        rw [e1105, Nat.mul_comm (2 ^ 31 * F64.scale) 100, ← Nat.mul_assoc]
        exact le_of_lt (Nat.mul_lt_mul_of_pos_right hk scale_pos))
    exact le_trans h1 (Nat.pow_le_pow_right (by norm_num) (by norm_num))
  refine ⟨F64.roundNat (k * F64.scale) 100, ?_, ?_, ?_⟩
  · unfold F64.lit
    simp only [Int.ofNat_eq_coe]
    rw [← Nat.cast_mul]
    exact F64.round_natCast _ _ hle
  · generalize F64.roundNat (k * F64.scale) 100 = T at *
    generalize (2 : Nat) ^ 1021 = v at *
    generalize k * F64.scale = kS at *
    omega
  · generalize F64.roundNat (k * F64.scale) 100 = T at *
    generalize (2 : Nat) ^ 1021 = v at *
    generalize k * F64.scale = kS at *
    omega

/-- A two-decimal literal of whole seconds is the whole number. -/
theorem lit_hundredths_whole (W : Nat) (hW : W < 2 ^ 31) :
    F64.lit ((100 * W : Nat) : Int) 100 = ((W * F64.scale : Nat) : Int) := by
  have h53 : W < 2 ^ 53 := lt_trans hW (Nat.pow_lt_pow_right (by norm_num) (by norm_num))
  have hr : F64.roundNat (W * F64.scale * 100) 100 = F64.roundNat (W * F64.scale) 1 :=
    F64.roundNat_mul_self (W * F64.scale) 100 (by norm_num)
  have hnat : F64.roundNat (W * F64.scale) 1 = W * F64.scale := by
    unfold F64.scale
    exact F64.roundNat_exact W 1074 h53
  unfold F64.lit
  simp only [Int.ofNat_eq_coe]
  rw [← Nat.cast_mul]
  have e : 100 * W * F64.scale = W * F64.scale * 100 := by ring
  rw [e, F64.round_natCast _ _ (by
    rw [hr, hnat]
    calc W * F64.scale ≤ 2 ^ 53 * F64.scale := Nat.mul_le_mul_right _ (le_of_lt h53)
      _ = 2 ^ 1127 := by unfold F64.scale; rw [← pow_add]
      _ ≤ 2 ^ 2097 := Nat.pow_le_pow_right (by norm_num) (by norm_num)), hr, hnat]

/-- The sum that `try_parse_timestamp` forms from two fraction digits `c ≥ 1` and whole
seconds `W` that fit an `int` lies within `2^-16 / 100` seconds of `W + c / 100`. -/
theorem timestamp_value_near_wide (c ss mm : Nat) (hour : Option Nat) (hc1 : 1 ≤ c) (hc2 : c < 100)
    (hss : ss < 60) (hmm : mm < 60) (hW : ss + mm * 60 + hour.getD 0 * 3600 < 2 ^ 31) :
    ∃ T : Nat, timestamp_value 2 c ss mm hour = (T : Int) ∧
      100 * T ≤ (100 * (ss + mm * 60 + hour.getD 0 * 3600) + c) * F64.scale +
        137438953472 * 2 ^ 1021 ∧
      (100 * (ss + mm * 60 + hour.getD 0 * 3600) + c) * F64.scale ≤
        100 * T + 137438953472 * 2 ^ 1021 := by
  have hS := scale_units
  have hssv : F64.ofInt (Int.ofNat ss) = ((ss * F64.scale : Nat) : Int) :=
    F64.ofInt_natCast ss (lt_trans hss (by norm_num))
  have hmmv : F64.mul (F64.ofInt (Int.ofNat mm)) (F64.ofInt 60)
      = ((mm * 60 * F64.scale : Nat) : Int) := by
    have h60 : F64.ofInt 60 = ((60 * F64.scale : Nat) : Int) :=
      F64.ofInt_natCast 60 (by norm_num)
    rw [F64.ofInt_natCast mm (lt_trans hmm (by norm_num)), h60]
    exact F64.mul_whole mm 60 (lt_of_le_of_lt (Nat.mul_le_mul_right 60 (le_of_lt hmm)) (by norm_num))
  -- the fraction
  obtain ⟨hf0, hf1, hf2⟩ := subsec_fraction_bounds c hc1 hc2
  obtain ⟨f, hf⟩ := Int.eq_ofNat_of_zero_le hf0
  rw [hf] at hf1 hf2
  simp only [Int.ofNat_eq_coe] at hf1 hf2
  have hf1n : 100 * f ≤ c * F64.scale + 512 * 2 ^ 1021 := by exact_mod_cast hf1
  have hf2n : c * F64.scale ≤ 100 * f + 512 * 2 ^ 1021 := by exact_mod_cast hf2
  have hcS1 : 1 * F64.scale ≤ c * F64.scale := Nat.mul_le_mul_right _ hc1
  have hcS2 : c * F64.scale ≤ 99 * F64.scale := Nat.mul_le_mul_right _ (by omega)
  have ha1 : ss * F64.scale ≤ 59 * F64.scale := Nat.mul_le_mul_right _ (by omega)
  have ha2 : mm * 60 * F64.scale ≤ 3540 * F64.scale := Nat.mul_le_mul_right _ (by omega)
  have e1080 : (2 : Nat) ^ 1080 = 64 * F64.scale := by
    unfold F64.scale
    rw [show (1080 : Nat) = 6 + 1074 from rfl, pow_add]
    norm_num
  have e1086 : (2 : Nat) ^ 1086 = 4096 * F64.scale := by
    unfold F64.scale
    rw [show (1086 : Nat) = 12 + 1074 from rfl, pow_add]
    norm_num
  have e1105 : (2 : Nat) ^ 1105 = 2147483648 * F64.scale := by
    unfold F64.scale
    rw [show (1105 : Nat) = 31 + 1074 from rfl, pow_add]
    norm_num
  have p1 : (2 : Nat) ^ (1080 - 53) = 64 * 2 ^ 1021 := by
    rw [show (1080 - 53 : Nat) = 6 + 1021 from rfl, pow_add]
    norm_num
  have p2 : (2 : Nat) ^ (1086 - 53) = 4096 * 2 ^ 1021 := by
    rw [show (1086 - 53 : Nat) = 12 + 1021 from rfl, pow_add]
    norm_num
  have p3 : (2 : Nat) ^ (1105 - 53) = 2147483648 * 2 ^ 1021 := by
    rw [show (1105 - 53 : Nat) = 31 + 1021 from rfl, pow_add]
    norm_num
  -- first addition
  have hlt1 : f + ss * F64.scale < 2 ^ 1080 := by
    rw [e1080]
    generalize (2 : Nat) ^ 1021 = v at *
    generalize F64.scale = S at *
    generalize c * S = cS at *
    generalize ss * S = a1 at *
    omega
  obtain ⟨x1, hx1, h11, h12⟩ := F64.add_near f (ss * F64.scale) 1080 hlt1 (by norm_num)
    (by norm_num)
  rw [p1] at h11 h12
  -- second addition
  have hlt2 : x1 + mm * 60 * F64.scale < 2 ^ 1086 := by
    rw [e1086]
    generalize (2 : Nat) ^ 1021 = v at *
    generalize F64.scale = S at *
    generalize c * S = cS at *
    generalize ss * S = a1 at *
    generalize mm * 60 * S = a2 at *
    omega
  obtain ⟨x2, hx2, h21, h22⟩ := F64.add_near x1 (mm * 60 * F64.scale) 1086 hlt2 (by norm_num)
    (by norm_num)
  rw [p2] at h21 h22
  have hsum : ∀ h : Nat, (100 * (ss + mm * 60 + h * 3600) + c) * F64.scale =
      100 * (ss * F64.scale) + 100 * (mm * 60 * F64.scale) + 100 * (h * 3600 * F64.scale) +
        c * F64.scale := by
    intro h
    ring
  cases hour with
  | none =>
    refine ⟨x2, ?_, ?_, ?_⟩
    · unfold timestamp_value
      simp only []
      rw [hf, hssv, hmmv, hx1, hx2]
    · simp only [Option.getD_none]
      rw [hsum 0]
      generalize (2 : Nat) ^ 1021 = v at *
      generalize F64.scale = S at *
      generalize c * S = cS at *
      generalize ss * S = a1 at *
      generalize mm * 60 * S = a2 at *
      generalize 0 * 3600 * S = a3 at *
      omega
    · simp only [Option.getD_none]
      rw [hsum 0]
      have hz : 0 * 3600 * F64.scale = 0 := by simp
      rw [hz]
      generalize (2 : Nat) ^ 1021 = v at *
      generalize F64.scale = S at *
      generalize c * S = cS at *
      generalize ss * S = a1 at *
      generalize mm * 60 * S = a2 at *
      omega
  | some hv =>
    simp only [Option.getD_some] at hW ⊢
    have hW2 : ss + mm * 60 + hv * 3600 < 2147483648 := by
      have e : (2 : Nat) ^ 31 = 2147483648 := by norm_num
      rw [e] at hW
      exact hW
    have h53 : (2 : Nat) ^ 53 = 9007199254740992 := by norm_num
    have hhv : F64.mul (F64.ofInt (Int.ofNat hv)) (F64.ofInt 3600)
        = ((hv * 3600 * F64.scale : Nat) : Int) := by
      have h3600 : F64.ofInt 3600 = ((3600 * F64.scale : Nat) : Int) :=
        F64.ofInt_natCast 3600 (by norm_num)
      rw [F64.ofInt_natCast hv (by omega), h3600]
      exact F64.mul_whole hv 3600 (by omega)
    have ha3 : ss * F64.scale + mm * 60 * F64.scale + hv * 3600 * F64.scale ≤
        2147483647 * F64.scale := by
      rw [← Nat.add_mul, ← Nat.add_mul]
      exact Nat.mul_le_mul_right _ (by omega)
    have hlt3 : x2 + hv * 3600 * F64.scale < 2 ^ 1105 := by
      rw [e1105]
      generalize (2 : Nat) ^ 1021 = v at *
      generalize F64.scale = S at *
      generalize c * S = cS at *
      generalize ss * S = a1 at *
      generalize mm * 60 * S = a2 at *
      generalize hv * 3600 * S = a3 at *
      omega
    obtain ⟨x3, hx3, h31, h32⟩ := F64.add_near x2 (hv * 3600 * F64.scale) 1105 hlt3
      (by norm_num) (by norm_num)
    rw [p3] at h31 h32
    refine ⟨x3, ?_, ?_, ?_⟩
    · unfold timestamp_value
      simp only []
      rw [hf, hssv, hmmv, hhv, hx1, hx2, hx3]
    · rw [hsum hv]
      generalize (2 : Nat) ^ 1021 = v at *
      generalize F64.scale = S at *
      generalize c * S = cS at *
      generalize ss * S = a1 at *
      generalize mm * 60 * S = a2 at *
      generalize hv * 3600 * S = a3 at *
      omega
    · rw [hsum hv]
      generalize (2 : Nat) ^ 1021 = v at *
      generalize F64.scale = S at *
      generalize c * S = cS at *
      generalize ss * S = a1 at *
      generalize mm * 60 * S = a2 at *
      generalize hv * 3600 * S = a3 at *
      omega



/-- A value within `2^-16 / 100` seconds of `W + c / 100` (`1 ≤ c ≤ 99`, `W` fitting an `int`)
has `W` whole seconds and
`c` rounded centiseconds. -/
theorem print_near_wide (T W c : Nat) (hc1 : 1 ≤ c) (hc2 : c < 100) (hW : W < 2 ^ 31)
    (h1 : 100 * T ≤ (100 * W + c) * F64.scale + 137438953472 * 2 ^ 1021)
    (h2 : (100 * W + c) * F64.scale ≤ 100 * T + 137438953472 * 2 ^ 1021) :
    T / F64.scale = W ∧ rounded_centiseconds (T : Int) = (c : Int) ∧
      T < 2 ^ 31 * F64.scale := by
  have hS := scale_units
  have hSpos := scale_pos
  have hsum : (100 * W + c) * F64.scale = 100 * (W * F64.scale) + c * F64.scale := by ring
  rw [hsum] at h1 h2
  have hcS1 : 1 * F64.scale ≤ c * F64.scale := Nat.mul_le_mul_right _ hc1
  have hcS2 : c * F64.scale ≤ 99 * F64.scale := Nat.mul_le_mul_right _ (by omega)
  have hWS : W * F64.scale ≤ 2147483647 * F64.scale := by
    have e : (2 : Nat) ^ 31 = 2147483648 := by norm_num
    rw [e] at hW
    exact Nat.mul_le_mul_right _ (by omega)
  have e31 : 2 ^ 31 * F64.scale = 2147483648 * F64.scale := by norm_num
  have hlo : W * F64.scale ≤ T := by
    generalize (2 : Nat) ^ 1021 = v at *
    generalize F64.scale = S at *
    generalize c * S = cS at *
    generalize W * S = WS at *
    omega
  have hhi : T < (W + 1) * F64.scale := by
    rw [Nat.add_mul, Nat.one_mul]
    generalize (2 : Nat) ^ 1021 = v at *
    generalize F64.scale = S at *
    generalize c * S = cS at *
    generalize W * S = WS at *
    omega
  have hdiv : T / F64.scale = W := Nat.div_eq_of_lt_le hlo hhi
  have hmod : T % F64.scale + W * F64.scale = T := by
    have := Nat.div_add_mod T F64.scale
    rw [hdiv, Nat.mul_comm] at this
    omega
  have hT : T < 2 ^ 31 * F64.scale := by
    rw [e31]
    rw [Nat.add_mul, Nat.one_mul] at hhi
    generalize F64.scale = S at *
    generalize W * S = WS at *
    omega
  refine ⟨hdiv, ?_, hT⟩
  -- the subtraction and the product
  have hDlt : T % F64.scale < 2 ^ 1074 := Nat.mod_lt _ hSpos
  obtain ⟨n11, n12⟩ := F64.roundNat_near (T % F64.scale) 1074 hDlt (by norm_num)
  have p1 : (2 : Nat) ^ (1074 - 53) = 2 ^ 1021 := rfl
  rw [p1] at n11 n12
  have e1081 : (2 : Nat) ^ 1081 = 128 * F64.scale := by
    unfold F64.scale
    rw [show (1081 : Nat) = 7 + 1074 from rfl, pow_add]
    norm_num
  have p2 : (2 : Nat) ^ (1081 - 53) = 128 * 2 ^ 1021 := by
    rw [show (1081 - 53 : Nat) = 7 + 1021 from rfl, pow_add]
    norm_num
  have hDlt2 : T % F64.scale < F64.scale := Nat.mod_lt _ hSpos
  have hlt2 : F64.roundNat (T % F64.scale) 1 * 100 < 2 ^ 1081 := by
    rw [e1081]
    generalize F64.roundNat (T % F64.scale) 1 = r1 at *
    generalize T % F64.scale = D at *
    generalize (2 : Nat) ^ 1021 = v at *
    generalize F64.scale = S at *
    omega
  obtain ⟨n21, n22⟩ := F64.roundNat_near (F64.roundNat (T % F64.scale) 1 * 100) 1081 hlt2
    (by norm_num)
  rw [p2] at n21 n22
  unfold rounded_centiseconds
  rw [centisecond_product_eq]
  have hcast : (2 * ((F64.roundNat (F64.roundNat (T % F64.scale) 1 * 100) 1 : Nat) : Int) +
      Int.ofNat F64.scale) / (2 * Int.ofNat F64.scale) =
      (((2 * F64.roundNat (F64.roundNat (T % F64.scale) 1 * 100) 1 + F64.scale) /
        (2 * F64.scale) : Nat) : Int) := by
    push_cast
    rfl
  rw [hcast]
  congr 1
  apply Nat.div_eq_of_lt_le
  · have e : c * (2 * F64.scale) = 2 * (c * F64.scale) := by ring
    rw [e]
    generalize F64.roundNat (F64.roundNat (T % F64.scale) 1 * 100) 1 = p at *
    generalize F64.roundNat (T % F64.scale) 1 = r1 at *
    generalize T % F64.scale = D at *
    generalize (2 : Nat) ^ 1021 = v at *
    generalize F64.scale = S at *
    generalize c * S = cS at *
    generalize W * S = WS at *
    omega
  · have e : (c + 1) * (2 * F64.scale) = 2 * (c * F64.scale) + 2 * F64.scale := by ring
    rw [e]
    generalize F64.roundNat (F64.roundNat (T % F64.scale) 1 * 100) 1 = p at *
    generalize F64.roundNat (T % F64.scale) 1 = r1 at *
    generalize T % F64.scale = D at *
    generalize (2 : Nat) ^ 1021 = v at *
    generalize F64.scale = S at *
    generalize c * S = cS at *
    generalize W * S = WS at *
    omega


/-- A whole number of seconds has no rounded centiseconds. -/
theorem print_whole_wide (W : Nat) (hW : W < 2 ^ 31) :
    W * F64.scale / F64.scale = W ∧
      rounded_centiseconds ((W * F64.scale : Nat) : Int) = 0 ∧
      W * F64.scale < 2 ^ 31 * F64.scale := by
  have hSpos := scale_pos
  refine ⟨Nat.mul_div_cancel _ hSpos, ?_,
    Nat.mul_lt_mul_of_pos_right hW hSpos⟩
  unfold rounded_centiseconds
  rw [centisecond_product_eq, Nat.mul_mod_left, F64.roundNat_zero, Nat.zero_mul,
    F64.roundNat_zero]
  simp only [Int.ofNat_eq_coe, Nat.cast_zero, mul_zero, zero_add]
  apply Int.ediv_eq_zero_of_lt
  · exact Int.ofNat_nonneg _
  · have : (0 : Int) < (F64.scale : Int) := Int.ofNat_lt.mpr hSpos
    omega


/-- The text that `print_timestamp` gives for the value parsed from fields whose whole
seconds fit an `int`. -/
theorem print_parsed_value_wide (c ss mm : Nat) (hour : Option Nat) (hc : c < 100) (hss : ss < 60)
    (hmm : mm < 60) (hW : ss + mm * 60 + hour.getD 0 * 3600 < 2 ^ 31) :
    print_timestamp (timestamp_value 2 c ss mm hour) =
      some (print_timestamp_fields ((hour.getD 0 : Nat) : Int) (mm : Int) (ss : Int) (c : Int)) := by
  have key : ∃ T : Nat, timestamp_value 2 c ss mm hour = (T : Int) ∧
      T / F64.scale = ss + mm * 60 + hour.getD 0 * 3600 ∧
      rounded_centiseconds (T : Int) = (c : Int) ∧ T < 2 ^ 31 * F64.scale := by
    by_cases hc0 : c = 0
    · subst hc0
      have hq := timestamp_value_quarters 0 ss mm hour (by norm_num)
        hW
      have hqs : quarter_sum 0 (ss + mm * 60 + hour.getD 0 * 3600) =
          (ss + mm * 60 + hour.getD 0 * 3600) * F64.scale := by
        unfold quarter_sum quarter_fraction
        split
        · rename_i h0
          rw [h0]
          simp
        · simp
      rw [hqs] at hq
      obtain ⟨p1, p2, p3⟩ := print_whole_wide (ss + mm * 60 + hour.getD 0 * 3600) hW
      exact ⟨_, hq, p1, p2, p3⟩
    · obtain ⟨T, hT, b1, b2⟩ := timestamp_value_near_wide c ss mm hour (by omega) hc hss hmm hW
      obtain ⟨p1, p2, p3⟩ := print_near_wide T _ c (by omega) hc hW b1 b2
      exact ⟨T, hT, p1, p2, p3⟩
  obtain ⟨T, hT, p1, p2, p3⟩ := key
  rw [hT, print_timestamp_timed _ (below_DBL_MAX T p3), print_timestamp_body_fields T p3, p1, p2,
    centisecond_fields_canonical _ mm ss c hmm hss hc]

/-- The value that `try_parse_timestamp` forms from two fraction digits and fields whose whole
seconds `W` fit an `int` lies within `2^-16 / 100` seconds of `W + c / 100`. -/
theorem timestamp_value_hundredths (c ss mm : Nat) (hour : Option Nat) (hc : c < 100)
    (hss : ss < 60) (hmm : mm < 60) (hW : ss + mm * 60 + hour.getD 0 * 3600 < 2 ^ 31) :
    ∃ T : Nat, timestamp_value 2 c ss mm hour = (T : Int) ∧
      100 * T ≤ (100 * (ss + mm * 60 + hour.getD 0 * 3600) + c) * F64.scale +
        137438953472 * 2 ^ 1021 ∧
      (100 * (ss + mm * 60 + hour.getD 0 * 3600) + c) * F64.scale ≤
        100 * T + 137438953472 * 2 ^ 1021 := by
  by_cases hc0 : c = 0
  · subst hc0
    have hq := timestamp_value_quarters 0 ss mm hour (by norm_num) hW
    have hqs : quarter_sum 0 (ss + mm * 60 + hour.getD 0 * 3600) =
        (ss + mm * 60 + hour.getD 0 * 3600) * F64.scale := by
      unfold quarter_sum quarter_fraction
      split
      · rename_i h0
        rw [h0]
        simp
      · simp
    rw [hqs] at hq
    refine ⟨_, hq, ?_, ?_⟩
    · rw [Nat.add_zero, Nat.mul_assoc]
      exact Nat.le_add_right _ _
    · rw [Nat.add_zero, Nat.mul_assoc]
      exact Nat.le_add_right _ _
  · exact timestamp_value_near_wide c ss mm hour (by omega) hc hss hmm hW

/-- The two-decimal literal `k / 100`: its value, whole seconds and rounded centiseconds. -/
theorem lit_hundredths_fields (k : Nat) (hk : k < 100 * 2 ^ 31) :
    ∃ T : Nat, F64.lit (k : Int) 100 = (T : Int) ∧ T / F64.scale = k / 100 ∧
      rounded_centiseconds (T : Int) = ((k % 100 : Nat) : Int) ∧ T < 2 ^ 31 * F64.scale ∧
      100 * T ≤ k * F64.scale + 137438953472 * 2 ^ 1021 ∧
      k * F64.scale ≤ 100 * T + 137438953472 * 2 ^ 1021 := by
  have hW : k / 100 < 2 ^ 31 := Nat.div_lt_of_lt_mul hk
  have hk2 : 100 * (k / 100) + k % 100 = k := Nat.div_add_mod k 100
  by_cases hc0 : k % 100 = 0
  · rw [hc0, Nat.add_zero] at hk2
    obtain ⟨p1, p2, p3⟩ := print_whole_wide (k / 100) hW
    have hl := lit_hundredths_whole (k / 100) hW
    rw [hk2] at hl
    refine ⟨_, hl, p1, by rw [hc0]; exact p2, p3, ?_, ?_⟩
    · have e : 100 * (k / 100 * F64.scale) = k * F64.scale := by
        rw [← Nat.mul_assoc, hk2]
      rw [e]
      exact Nat.le_add_right _ _
    · have e : 100 * (k / 100 * F64.scale) = k * F64.scale := by
        rw [← Nat.mul_assoc, hk2]
      rw [e]
      exact Nat.le_add_right _ _
  · obtain ⟨T, hT, b1, b2⟩ := lit_hundredths_near k hk
    have hc2 : k % 100 < 100 := Nat.mod_lt _ (by norm_num)
    have b1k := b1
    have b2k := b2
    rw [← hk2] at b1 b2
    obtain ⟨p1, p2, p3⟩ := print_near_wide T (k / 100) (k % 100) (by omega) hc2 hW b1 b2
    exact ⟨T, hT, p1, p2, p3, b1k, b2k⟩

/-- Two values within a distance of the same number are within twice the distance of each
other. -/
theorem near_both (T T2 X C : Nat) (b1 : 100 * T ≤ X + C) (b2 : X ≤ 100 * T + C)
    (c1 : 100 * T2 ≤ X + C) (c2 : X ≤ 100 * T2 + C) :
    100 * |(T2 : Int) - (T : Int)| ≤ ((2 * C : Nat) : Int) := by
  rcases le_total (T : Int) (T2 : Int) with h | h
  · rw [abs_of_nonneg (by omega)]
    omega
  · rw [abs_of_nonpos (by omega)]
    omega

theorem two_pow_1059 : (2 : Nat) ^ 1059 = 2 * (137438953472 * 2 ^ 1021) := by
  rw [show (1059 : Nat) = 38 + 1021 from rfl, pow_add]
  norm_num

/-- The text that `print_timestamp` gives for a two-decimal literal, read by
`try_parse_timestamp` and printed again. -/
theorem two_decimal_print_parse (k : Nat) (hk : k < 100 * 2 ^ 31) :
    ∃ s t2, print_timestamp (F64.lit (k : Int) 100) = some s ∧
      try_parse_timestamp s = some t2 ∧ print_timestamp t2 = some s ∧
      100 * |t2 - F64.lit (k : Int) 100| ≤ Int.ofNat (2 ^ 1059) := by
  have hW : k / 100 < 2 ^ 31 := Nat.div_lt_of_lt_mul hk
  have e31 : (2 : Nat) ^ 31 = 2147483648 := by norm_num
  have hk2 : 100 * (k / 100) + k % 100 = k := Nat.div_add_mod k 100
  have hc : k % 100 < 100 := Nat.mod_lt _ (by norm_num)
  have hss : k / 100 % 60 < 60 := Nat.mod_lt _ (by norm_num)
  have hmm : k / 100 % 3600 / 60 < 60 := by omega
  have hsum : k / 100 % 60 + k / 100 % 3600 / 60 * 60 + k / 100 / 3600 * 3600 = k / 100 := by
    omega
  obtain ⟨T, hT, p1, p2, p3, b1, b2⟩ := lit_hundredths_fields k hk
  -- the printed text
  have hprint : print_timestamp (F64.lit (k : Int) 100) =
      some (print_timestamp_fields ((k / 100 / 3600 : Nat) : Int)
        ((k / 100 % 3600 / 60 : Nat) : Int) ((k / 100 % 60 : Nat) : Int)
        ((k % 100 : Nat) : Int)) := by
    rw [hT, print_timestamp_timed _ (below_DBL_MAX T p3), print_timestamp_body_fields T p3,
      p1, p2]
    have := centisecond_fields_canonical (k / 100 / 3600) (k / 100 % 3600 / 60) (k / 100 % 60)
      (k % 100) hmm hss hc
    rw [hsum] at this
    rw [this]
  -- the fields are digit strings
  have hM := fmt_02d_spec (k / 100 % 3600 / 60)
  have hS := fmt_02d_spec (k / 100 % 60)
  have hC := fmt_02d_spec (k % 100)
  have hH := fmt_02d_spec (k / 100 / 3600)
  simp only [Int.ofNat_eq_coe] at hM hS hC hH
  have hCl := fmt_02d_two (k % 100) hc
  simp only [Int.ofNat_eq_coe] at hCl
  have h64 : (2 : Nat) ^ 31 < 2 ^ 64 := Nat.pow_lt_pow_right (by norm_num) (by norm_num)
  have h63 : 4 * ((2 : Nat) ^ 31 + 2) < 2 ^ 63 := by norm_num
  by_cases hh0 : k / 100 / 3600 = 0
  · have hparse := try_parse_timestamp_three _ _ _ hM.1 hS.1 hC.1 (by rw [hM.2.1]; omega)
      (by rw [hS.2.1]; omega) (by rw [hC.2.1]; omega) (by omega)
    rw [hCl, hC.2.1, hS.2.1, hM.2.1] at hparse
    have hshape : print_timestamp_fields ((k / 100 / 3600 : Nat) : Int)
        ((k / 100 % 3600 / 60 : Nat) : Int) ((k / 100 % 60 : Nat) : Int)
        ((k % 100 : Nat) : Int) =
        '[' :: (fmt_02d ((k / 100 % 3600 / 60 : Nat) : Int) ++ ':' ::
          (fmt_02d ((k / 100 % 60 : Nat) : Int) ++ '.' ::
            (fmt_02d ((k % 100 : Nat) : Int) ++ [']']))) := by
      unfold print_timestamp_fields
      rw [if_pos (by exact_mod_cast hh0)]
    have hWn : k / 100 % 60 + k / 100 % 3600 / 60 * 60 +
        (none : Option Nat).getD 0 * 3600 < 2 ^ 31 := by
      simp only [Option.getD_none]
      omega
    have hagain := print_parsed_value_wide (k % 100) (k / 100 % 60) (k / 100 % 3600 / 60) none
      hc hss hmm hWn
    obtain ⟨T2, hT2, c1, c2⟩ := timestamp_value_hundredths (k % 100) (k / 100 % 60)
      (k / 100 % 3600 / 60) none hc hss hmm hWn
    simp only [Option.getD_none] at hagain c1 c2
    rw [← hh0] at hagain
    have hsum0 : k / 100 % 60 + k / 100 % 3600 / 60 * 60 + 0 * 3600 = k / 100 := by omega
    rw [hsum0, hk2] at c1 c2
    refine ⟨_, _, hprint, by rw [hshape]; exact hparse, hagain, ?_⟩
    rw [hT2, hT, two_pow_1059]
    exact near_both T T2 _ _ b1 b2 c1 c2
  · have hparse := try_parse_timestamp_four _ _ _ _ hH.1 hM.1 hS.1 hC.1 (by rw [hH.2.1]; omega)
      (by rw [hM.2.1]; omega) (by rw [hS.2.1]; omega) (by rw [hC.2.1]; omega) (by omega)
    rw [hCl, hC.2.1, hS.2.1, hM.2.1, hH.2.1] at hparse
    have hshape : print_timestamp_fields ((k / 100 / 3600 : Nat) : Int)
        ((k / 100 % 3600 / 60 : Nat) : Int) ((k / 100 % 60 : Nat) : Int)
        ((k % 100 : Nat) : Int) =
        '[' :: (fmt_02d ((k / 100 / 3600 : Nat) : Int) ++ ':' ::
          (fmt_02d ((k / 100 % 3600 / 60 : Nat) : Int) ++ ':' ::
            (fmt_02d ((k / 100 % 60 : Nat) : Int) ++ '.' ::
              (fmt_02d ((k % 100 : Nat) : Int) ++ [']'])))) := by
      unfold print_timestamp_fields
      rw [if_neg (by exact_mod_cast hh0)]
    have hWn : k / 100 % 60 + k / 100 % 3600 / 60 * 60 +
        (some (k / 100 / 3600)).getD 0 * 3600 < 2 ^ 31 := by
      simp only [Option.getD_some]
      omega
    have hagain := print_parsed_value_wide (k % 100) (k / 100 % 60) (k / 100 % 3600 / 60)
      (some (k / 100 / 3600)) hc hss hmm hWn
    obtain ⟨T2, hT2, c1, c2⟩ := timestamp_value_hundredths (k % 100) (k / 100 % 60)
      (k / 100 % 3600 / 60) (some (k / 100 / 3600)) hc hss hmm hWn
    simp only [Option.getD_some] at hagain c1 c2
    rw [hsum, hk2] at c1 c2
    refine ⟨_, _, hprint, by rw [hshape]; exact hparse, hagain, ?_⟩
    rw [hT2, hT, two_pow_1059]
    exact near_both T T2 _ _ b1 b2 c1 c2

/-- A non-negative value that is a whole number of centiseconds (so a whole number of quarter
seconds), with whole seconds fitting an `int`, and that is zero or at least one second is
printed and read back unchanged. -/
theorem quarter_second_print_parse (t : Double) (h0 : 0 ≤ t)
    (hmult : Int.ofNat F64.scale ∣ 100 * t) (hint : t < 2 ^ 31 * Int.ofNat F64.scale)
    (hone : t = 0 ∨ Int.ofNat F64.scale ≤ t) :
    ∃ s, print_timestamp t = some s ∧ try_parse_timestamp s = some t := by
  obtain ⟨n, j, hn, hj, ht⟩ := multiple_of_centisecond t h0 hmult hint
  have e1 : F64.scale = 4 * 2 ^ 1072 := by
    unfold F64.scale
    rw [show (1074 : Nat) = 2 + 1072 by norm_num, pow_add]
    norm_num
  have hp : 0 < (2 : Nat) ^ 1072 := by positivity
  -- below one second only zero is left
  have hnj : 1 ≤ n ∨ j = 0 := by
    rcases hone with h | h
    · right
      rw [ht] at h
      have h2 : (4 * n + j) * 2 ^ 1072 = 0 := by exact_mod_cast h
      rcases Nat.mul_eq_zero.mp h2 with h3 | h3 <;> omega
    · left
      rw [ht, e1] at h
      have h2 : 4 * 2 ^ 1072 ≤ (4 * n + j) * 2 ^ 1072 := by
        have : ((4 * 2 ^ 1072 : Nat) : Int) ≤ (((4 * n + j) * 2 ^ 1072 : Nat) : Int) := by
          simpa using h
        exact Int.ofNat_le.mp this
      have := Nat.le_of_mul_le_mul_right h2 hp
      omega
  have hsumq : ((quarter_sum j n : Nat) : Int) = t := by
    rw [ht]
    congr 1
    unfold quarter_sum
    rcases hnj with h | h
    · rw [if_neg (by omega), e1]
      ring
    · subst h
      by_cases hn0 : n = 0
      · subst hn0
        simp [quarter_fraction]
      · rw [if_neg hn0, e1]
        ring
  have hmax : t ≠ F64.DBL_MAX := by
    apply ne_of_lt
    have h1 := F64.pow_le_DBL_MAX 1105 (by norm_num)
    have h2 : (2 : Int) ^ 31 * Int.ofNat F64.scale = ((2 ^ 1105 : Nat) : Int) := by
      unfold F64.scale
      rw [show (1105 : Nat) = 31 + 1074 by norm_num, pow_add]
      push_cast
    rw [h2] at hint
    exact lt_of_lt_of_le hint h1
  refine ⟨print_timestamp_body t, by unfold print_timestamp; rw [if_neg hmax], ?_⟩
  rw [ht, print_timestamp_body_quarters n j hn hj]
  -- the printed fields are digit strings of the field values
  have hM := fmt_02d_spec (n % 3600 / 60)
  have hS := fmt_02d_spec (n % 60)
  have hC := fmt_02d_spec (25 * j)
  have hH := fmt_02d_spec (n / 3600)
  simp only [Int.ofNat_eq_coe] at hM hS hC hH
  have hCl := fmt_02d_quarter_length j hj
  have h64 : (2 : Nat) ^ 31 < 2 ^ 64 := Nat.pow_lt_pow_right (by norm_num) (by norm_num)
  have h63 : 4 * ((2 : Nat) ^ 31 + 2) < 2 ^ 63 := by norm_num
  unfold print_timestamp_fields
  by_cases hh0 : n / 3600 = 0
  · rw [if_pos (by exact_mod_cast hh0)]
    rw [try_parse_timestamp_three _ _ _ hM.1 hS.1 hC.1 (by rw [hM.2.1]; omega)
      (by rw [hS.2.1]; omega) (by rw [hC.2.1]; omega) (by omega)]
    rw [hCl, hC.2.1, hS.2.1, hM.2.1, timestamp_value_quarters j _ _ none hj (by
      simp only [Option.getD_none]
      omega)]
    simp only [Option.getD_none, Nat.zero_mul, Nat.add_zero]
    have hn2 : n % 60 + n % 3600 / 60 * 60 = n := by omega
    rw [hn2, hsumq, ht]
  · rw [if_neg (by exact_mod_cast hh0)]
    rw [try_parse_timestamp_four _ _ _ _ hH.1 hM.1 hS.1 hC.1 (by rw [hH.2.1]; omega)
      (by rw [hM.2.1]; omega) (by rw [hS.2.1]; omega) (by rw [hC.2.1]; omega) (by omega)]
    rw [hCl, hC.2.1, hS.2.1, hM.2.1, hH.2.1, timestamp_value_quarters j _ _ (some _) hj (by
      simp only [Option.getD_some]
      omega)]
    simp only [Option.getD_some]
    have hn2 : n % 60 + n % 3600 / 60 * 60 + n / 3600 * 3600 = n := by omega
    rw [hn2, hsumq, ht]


/-! # The claims -/

/-- C2 (as stated, refuted): `t = 0.25` is a non-negative exact multiple of 0.01;
`print_timestamp` gives `[00:00.25]`, and `try_parse_timestamp` reads that tag as
`0.25 + 2^-54`, because it multiplies 25 by the binary64 product `0.1 * 0.1`.  Above one
second the two-decimal value 1.13 is printed as `[00:01.13]` and not read back as 1.13
either. -/
theorem C2_counterexample_quarter_second :
    100 * F64.lit 1 4 = 25 * Int.ofNat F64.scale ∧
      print_timestamp (F64.lit 1 4) = some "[00:00.25]".toList ∧
      try_parse_timestamp "[00:00.25]".toList = some (F64.lit 1 4 + Int.ofNat (2 ^ 1020)) ∧
      try_parse_timestamp "[00:00.25]".toList ≠ some (F64.lit 1 4) ∧
      F64.lit 25 100 = F64.lit 1 4 ∧
      print_timestamp (F64.lit 113 100) = some "[00:01.13]".toList ∧
      try_parse_timestamp "[00:01.13]".toList = some (F64.lit 113 100 + Int.ofNat (2 ^ 1022)) ∧
      try_parse_timestamp "[00:01.13]".toList ≠ some (F64.lit 113 100) := by
  decide

/-- C2 (amended): for every two-decimal `t`, the binary64 value nearest to `k / 100` for a
natural number `k` of centiseconds with whole seconds fitting an `int`, `print_timestamp(t)`
is a text `s` that `try_parse_timestamp` accepts; the value `t2` it returns differs from `t`
by at most `2^-15 / 100` seconds, and `print_timestamp(t2)` is `s` again, so that
`try_parse_timestamp(print_timestamp(t2))` returns exactly `t2`. -/
theorem C2_print_parse_roundtrip (k : Nat) (hint : k < 100 * 2 ^ 31) :
    ∃ s t2, print_timestamp (F64.lit (k : Int) 100) = some s ∧
      try_parse_timestamp s = some t2 ∧ print_timestamp t2 = some s ∧
      100 * |t2 - F64.lit (k : Int) 100| ≤ Int.ofNat (2 ^ 1059) :=
  two_decimal_print_parse k hint

/-- C2 (witness): 1.13 seconds (`k = 113`). -/
theorem C2_print_parse_roundtrip_witness :
    ∃ s t2, print_timestamp (F64.lit ((113 : Nat) : Int) 100) = some s ∧
      try_parse_timestamp s = some t2 ∧ print_timestamp t2 = some s ∧
      100 * |t2 - F64.lit ((113 : Nat) : Int) 100| ≤ Int.ofNat (2 ^ 1059) :=
  C2_print_parse_roundtrip 113 (by norm_num)

/-- C3 (the code at the failing inputs): `try_parse_timestamp` accepts a seconds field with
a stray letter after its digits, an hour field that is no number at all, and a tag whose `.`
stands before its `:`. -/
theorem C3_stray_characters_accepted :
    try_parse_timestamp "[00:12x.34]".toList = try_parse_timestamp "[00:12.34]".toList ∧
    (try_parse_timestamp "[00:12x.34]".toList).isSome = true ∧
    try_parse_timestamp "[xx:00:12.34]".toList = try_parse_timestamp "[00:12.34]".toList ∧
    (try_parse_timestamp "[1.2:3]".toList).isSome = true := by
  decide

/-- C4 (as stated, refuted): two physical lines carry the timestamp `[00:01.00]`, with the
remainders `a` and `b`, and the first of them carries it twice; the merged line has the text
`a\na\nb`, not `a\nb`. -/
theorem C4_counterexample_repeated_timestamp :
    (physical_lines "[00:01.00][00:01.00]a\n[00:01.00]b".toList).map parse_line_times =
        [⟨[F64.ofInt 1, F64.ofInt 1], "a".toList⟩, ⟨[F64.ofInt 1], "b".toList⟩] ∧
      (parse ⟨0, [], [], [], [], none⟩ "[00:01.00][00:01.00]a\n[00:01.00]b".toList).lines =
        [⟨"a\na\nb".toList, F64.ofInt 1⟩] ∧
      (parse ⟨0, [], [], [], [], none⟩ "[00:01.00][00:01.00]a\n[00:01.00]b".toList).lines ≠
        [⟨"a\nb".toList, F64.ofInt 1⟩] := by
  decide

/-- C4 (amended): for every text and every timestamp `t` carried by some physical line,
`parse` yields exactly one line with timestamp `t`; its text is the remainder texts of the
occurrences of `t`, in input order, joined by line feeds (a line that carries `t` more than
once contributes its remainder once per occurrence). -/
theorem C4_equal_timestamps_merge (metadata : LyricDataCommon) (text : Str) (t : Double)
    (ht : ∃ e ∈ timed_entries text, e.timestamp = t) :
    (parse metadata text).lines.filter (fun l => decide (l.timestamp = t)) =
      [⟨['\n'].intercalate
        (((timed_entries text).filter (fun e => decide (e.timestamp = t))).map (·.text)), t⟩] := by
  obtain ⟨e, he, het⟩ := ht
  -- a carried timestamp is never the untimed marker
  have hmax : t ≠ F64.DBL_MAX := by
    unfold timed_entries at he
    obtain ⟨v, _, hv⟩ := List.mem_flatMap.mp he
    rw [← het]
    exact ne_of_lt (timed_entries_of_line_bounds v e hv).2
  -- the lines of timestamp `t` before and after the stable sort
  have hstate : (parse_state text).lines.filter (fun l => decide (l.timestamp = t)) =
      (timed_entries text).filter (fun l => decide (l.timestamp = t)) := by
    unfold parse_state timed_entries
    rw [foldl_parse_line_filter t hmax]
    simp [ParseState.init]
  have hsorted := insertionSort_filter_timestamp t (parse_state text).lines
  rw [hstate] at hsorted
  have hne : (timed_entries text).filter (fun l => decide (l.timestamp = t)) ≠ [] := by
    intro h0
    have : e ∈ (timed_entries text).filter (fun l => decide (l.timestamp = t)) :=
      List.mem_filter.mpr ⟨he, by simpa using het⟩
    rw [h0] at this
    simp at this
  have hsort := List.sorted_insertionSort timestamp_le (parse_state text).lines
  show (collapse_concurrent_lines ((parse_state text).lines.insertionSort timestamp_le)).filter
    (fun l => decide (l.timestamp = t)) = _
  rw [← hsorted] at hne ⊢
  generalize (parse_state text).lines.insertionSort timestamp_le = sorted at hne hsort ⊢
  cases sorted with
  | nil => simp at hne
  | cons a rest =>
    unfold collapse_concurrent_lines collapse
    rw [collapse_from_filter t hmax rest a hsort]
    by_cases ha : a.timestamp = t
    · simp [ha]
    · have hrest : rest.filter (fun l => decide (l.timestamp = t)) ≠ [] := by
        simpa [List.filter_cons, ha] using hne
      simp [ha, hrest]

/-- C4 (witness): the test `lrcparse_parsing_merges_lines_with_matching_timestamps`. -/
theorem C4_equal_timestamps_merge_witness :
    (parse ⟨0, [], [], [], [], none⟩
        "[02:29.75]linePart1\n[02:29.75]linePart2".toList).lines.filter
        (fun l => decide (l.timestamp = F64.lit 14975 100)) =
      [⟨"linePart1\nlinePart2".toList, F64.lit 14975 100⟩] :=
  (C4_equal_timestamps_merge ⟨0, [], [], [], [], none⟩
    "[02:29.75]linePart1\n[02:29.75]linePart2".toList (F64.lit 14975 100)
    ⟨⟨"linePart1".toList, F64.lit 14975 100⟩, by decide, by decide⟩).trans (by decide)

/-- C6: in `parse(m, text).lines` a timed line is preceded only by timed lines of strictly
smaller timestamps (so all timed lines come before all untimed ones and the timed timestamps
increase strictly), the list is sorted non-decreasing by timestamp, and two lines share a
timestamp only when both are untimed. -/
theorem C6_lines_sorted (metadata : LyricDataCommon) (text : Str) :
    (parse metadata text).lines.Pairwise
        (fun a b => b.timestamp ≠ F64.DBL_MAX →
          a.timestamp ≠ F64.DBL_MAX ∧ a.timestamp < b.timestamp) ∧
      (parse metadata text).lines.Pairwise (fun a b => a.timestamp ≤ b.timestamp) ∧
      (parse metadata text).lines.Pairwise
        (fun a b => a.timestamp = b.timestamp → a.timestamp = F64.DBL_MAX) := by
  have hmax : ∀ l ∈ (parse_state text).lines.insertionSort timestamp_le,
      l.timestamp ≤ F64.DBL_MAX := by
    intro l hl
    rw [List.mem_insertionSort] at hl
    exact foldl_parse_line_le_max _ ParseState.init (by simp [ParseState.init]) l hl
  have hsort := List.sorted_insertionSort timestamp_le (parse_state text).lines
  show (collapse_concurrent_lines ((parse_state text).lines.insertionSort timestamp_le)).Pairwise _
    ∧ (collapse_concurrent_lines ((parse_state text).lines.insertionSort timestamp_le)).Pairwise _
    ∧ (collapse_concurrent_lines ((parse_state text).lines.insertionSort timestamp_le)).Pairwise _
  generalize (parse_state text).lines.insertionSort timestamp_le = sorted at hmax hsort ⊢
  cases sorted with
  | nil => simp [collapse_concurrent_lines, collapse]
  | cons a rest =>
    unfold collapse_concurrent_lines collapse
    obtain ⟨h1, h2⟩ := collapse_from_sorted rest a hsort hmax
    refine ⟨h1, ?_, ?_⟩
    · refine (List.Pairwise.and_mem.mp h1).imp ?_
      rintro x y ⟨hx, _, hxy⟩
      by_cases hyt : y.timestamp = F64.DBL_MAX
      · rw [hyt]
        exact (h2 x hx).2
      · exact le_of_lt (hxy hyt).2
    · refine h1.imp ?_
      intro x y hxy heq
      by_contra hx
      have := (hxy (heq ▸ hx)).2
      rw [heq] at this
      exact lt_irrefl _ this

/-- C7: once `parse` has processed a line view `l` that carries a timestamp or is a non-empty
non-tag line, the tags of the document are those recorded from the lines before `l` (no later
line is recorded in tags), and every later line that `is_tag_line` accepts and that carries no
timestamp is in `lines` as an untimed line with its full text. -/
theorem C7_tag_section_one_way (metadata : LyricDataCommon) (text : Str) (pre post : List Str)
    (l : Str) (hlines : (physical_lines text).map strip_bom = pre ++ l :: post)
    (hl : 0 < (parse_line_times l).timestamps.length ∨ (l ≠ [] ∧ is_tag_line l = false)) :
    (parse metadata text).tags = (pre.foldl parse_line ParseState.init).tags ∧
      ∀ l2 ∈ post, is_tag_line l2 = true → (parse_line_times l2).timestamps = [] →
        (⟨l2, F64.DBL_MAX⟩ : LyricDataLine) ∈ (parse metadata text).lines := by
  -- the line `l` ends the tag section and records no tag
  have hstep : (parse_line (pre.foldl parse_line ParseState.init) l).tag_section_passed = true ∧
      (parse_line (pre.foldl parse_line ParseState.init) l).tags
        = (pre.foldl parse_line ParseState.init).tags := by
    rcases parse_line_cases (pre.foldl parse_line ParseState.init) l with
      ⟨_, h⟩ | ⟨h0, _, htag, _⟩ | ⟨_, _, h⟩
    · rw [h]
      exact ⟨rfl, rfl⟩
    · rcases hl with hl | hl
      · rw [h0] at hl
        simp at hl
      · rw [hl.2] at htag
        simp at htag
    · rcases hl with hl | hl
      · rw [h]
        rename_i h0 _
        rw [h0] at hl
        simp at hl
      · rw [h]
        have : 0 < l.length := List.length_pos.mpr hl.1
        simp [this]
  have hstate : parse_state text
      = post.foldl parse_line (parse_line (pre.foldl parse_line ParseState.init) l) := by
    unfold parse_state
    rw [hlines, List.foldl_append, List.foldl_cons]
  obtain ⟨h1, _, h3⟩ := foldl_parse_line_passed post _ hstep.1
  refine ⟨?_, ?_⟩
  · show (parse_state text).tags = _
    rw [hstate, h1, hstep.2]
  · intro l2 hl2 _ h0
    show _ ∈ collapse_concurrent_lines ((parse_state text).lines.insertionSort timestamp_le)
    apply collapse_untimed_mem _ _ _ rfl
    rw [List.mem_insertionSort, hstate]
    exact h3 l2 hl2 h0

/-- C7 (witness): after the content line `x`, the line `[ar:y]` is not a tag any more. -/
theorem C7_tag_section_one_way_witness :
    (parse ⟨0, [], [], [], [], none⟩ "[ti:t]\nx\n[ar:y]".toList).tags = ["[ti:t]".toList] ∧
      (⟨"[ar:y]".toList, F64.DBL_MAX⟩ : LyricDataLine) ∈
        (parse ⟨0, [], [], [], [], none⟩ "[ti:t]\nx\n[ar:y]".toList).lines := by
  have h := C7_tag_section_one_way ⟨0, [], [], [], [], none⟩ "[ti:t]\nx\n[ar:y]".toList
    ["[ti:t]".toList] ["[ar:y]".toList] "x".toList (by decide) (Or.inr (by decide))
  exact ⟨h.1.trans (by decide), h.2 "[ar:y]".toList (by simp) (by decide) (by decide)⟩

/-- C8 (as stated, refuted): `is_tag_line` accepts `[length:03:40]`, a line with two colons,
so "contains exactly one ':'" is not a condition of a tag line. -/
theorem C8_counterexample_two_colons :
    ¬ (is_tag_line "[length:03:40]".toList = true ↔
        ∃ key value, "[length:03:40]".toList = '[' :: (key ++ ':' :: (value ++ [']'])) ∧
          "[length:03:40]".toList.count ':' = 1 ∧ key ≠ [] ∧
          key.map Char.toLower ∈ tag_keys) := by
  intro h
  obtain ⟨_, _, _, hc, _⟩ := h.mp (by decide)
  revert hc
  decide

/-- C8 (amended): `is_tag_line line` holds exactly when the line is `[key:value]` with a
non-empty `key` that contains no colon (so the first colon of the line ends the key; the value
may contain further colons) and that equals, up to letter case, one of the recognised keys. -/
theorem C8_is_tag_line_first_colon (line : Str) :
    is_tag_line line = true ↔
      ∃ key value, line = '[' :: (key ++ ':' :: (value ++ [']'])) ∧ key ≠ [] ∧ ':' ∉ key ∧
        key.map Char.toLower ∈ tag_keys := by
  constructor
  · intro h
    unfold is_tag_line at h
    split at h
    · simp at h
    split at h
    · simp at h
    split at h
    · simp at h
    rename_i hlen hfirst hlast
    split at h
    · simp at h
    rename_i ci hfind
    split at h
    · simp at h
    rename_i hci
    obtain ⟨pre, post, hs, hn, hi⟩ := (find_zero_some line ':' ci).mp hfind
    -- the first character is the bracket
    cases pre with
    | nil =>
      subst hs
      simp at hfirst
    | cons a key =>
      have ha : a = '[' := by
        subst hs
        simpa using hfirst
      subst ha
      -- the last character is the closing bracket
      rcases List.eq_nil_or_concat post with hp | ⟨value, z, hp⟩
      · subst hp
        subst hs
        exfalso
        apply hlast
        have := getD_last_append ('[' :: key) ':' ' '
        simp only [List.cons_append] at this ⊢
        simp [List.getD_eq_getElem?_getD] at this ⊢
      · rw [List.concat_eq_append] at hp
        subst hp
        have hz : z = ']' := by
          subst hs
          have h1 := getD_last_append ('[' :: key ++ ':' :: value) z ' '
          have h2 : '[' :: key ++ ':' :: (value ++ [z]) = ('[' :: key ++ ':' :: value) ++ [z] := by
            simp
          rw [h2] at hlast
          rw [h1] at hlast
          simpa using hlast
        subst hz
        refine ⟨key, value, by simpa using hs, ?_, ?_, ?_⟩
        · intro hk
          subst hk
          simp at hi
          omega
        · intro hk
          exact hn (List.mem_cons_of_mem _ hk)
        · rw [← any_tag_key]
          have hsub : substr line 1 (ci - 1) = key := by
            subst hs
            subst hi
            simp [substr]
          rw [hsub] at h
          exact h
  · rintro ⟨key, value, hs, hk, hn, hmem⟩
    have hfind : find line ':' 0 = some (key.length + 1) := by
      rw [find_zero_some]
      refine ⟨'[' :: key, value ++ [']'], by simpa using hs, ?_, by simp⟩
      simp only [List.mem_cons, not_or]
      exact ⟨by decide, hn⟩
    have hlast : line.getD (line.length - 1) ' ' = ']' := by
      have h2 : line = ('[' :: key ++ ':' :: value) ++ [']'] := by simp [hs]
      rw [h2]
      exact getD_last_append _ _ _
    have hklen : key.length ≠ 0 := by
      intro h0
      exact hk (List.length_eq_zero.mp h0)
    unfold is_tag_line
    rw [if_neg (by subst hs; simp), if_neg (by subst hs; simp), if_neg (by rw [hlast]; simp)]
    simp only [hfind]
    rw [if_neg (by simpa using hklen)]
    have hsub : substr line 1 (key.length + 1 - 1) = key := by
      subst hs
      simp [substr]
    rw [hsub]
    exact (any_tag_key key).mpr hmem

/-- C12: for every document with no tags and at least one timed line, `expand_text(d, false)`
is the concatenation, over the lines in order and over the segments of each text between line
feeds in order, of the printed timestamp (nothing for an untimed line), the segment and CRLF.
The segments are those of `List.splitOn`: joined by line feeds they give the text back, none
contains a line feed, and an empty segment is a row like any other.  Every segment gives a row
of its own, so rows of equal text are not combined. -/
theorem C12_expand_without_merge (d : LyricData) (htags : d.tags = [])
    (htimed : d.IsTimestamped = true) :
    expand_text d false = some
      ((d.lines.map (fun line =>
        ((line.text.splitOn '\n').map (fun segment =>
          (if line.timestamp = F64.DBL_MAX then []
            else (print_timestamp line.timestamp).getD []) ++ segment ++ ['\r', '\n'])).flatten)).flatten) ∧
      ∀ line ∈ d.lines, ['\n'].intercalate (line.text.splitOn '\n') = line.text ∧
        ∀ segment ∈ line.text.splitOn '\n', '\n' ∉ segment := by
  refine ⟨?_, fun line _ => ⟨List.intercalate_splitOn line.text '\n', splitOn_not_mem '\n' line.text⟩⟩
  unfold expand_text
  rw [if_pos htimed]
  unfold expand_rows
  simp only [Bool.false_eq_true, if_false]
  rw [render_rows_eq]
  simp only []
  rw [htags]
  have htag : expand_tags [] = [] := rfl
  rw [htag, List.nil_append]
  congr 1
  generalize d.lines = lines
  induction lines with
  | nil => rfl
  | cons line rest ih =>
    rw [List.flatMap_cons, List.map_append, List.flatten_append, ih, List.map_cons,
      List.flatten_cons]
    congr 1
    rw [split_rows_eq, List.map_map]
    congr 1
    apply List.map_congr_left
    intro segment _
    simp only [Function.comp]
    by_cases h : line.timestamp = F64.DBL_MAX
    · simp [h]
    · rw [if_pos h, if_neg h, print_timestamp_timed _ h]
      rfl

/-- C12 (witness): the test `lrcparse_expanding_splits_lines_with_matching_timestamps`. -/
theorem C12_expand_without_merge_witness :
    expand_text ⟨⟨0, [], [], [], [], none⟩, none, [], [],
        [⟨"line1Part1\nline1Part2".toList, F64.lit 14975 100⟩,
          ⟨"line2Part1\nline2Part2\nline2Part3".toList, F64.lit 15309 100⟩], 0⟩ false =
      some ("[02:29.75]line1Part1\r\n[02:29.75]line1Part2\r\n" ++
        "[02:33.09]line2Part1\r\n[02:33.09]line2Part2\r\n[02:33.09]line2Part3\r\n").toList := by
  have h := (C12_expand_without_merge ⟨⟨0, [], [], [], [], none⟩, none, [], [],
        [⟨"line1Part1\nline1Part2".toList, F64.lit 14975 100⟩,
          ⟨"line2Part1\nline2Part2\nline2Part3".toList, F64.lit 15309 100⟩], 0⟩ rfl
        (by decide)).1
  rw [h]
  decide

/-- C14 (as stated, refuted): `-0.5` is negative and finite, and `print_timestamp` returns the
string `[00:-1.50]` for it: the assertion does not fire. -/
theorem C14_counterexample_negative_input :
    F64.lit (-1) 2 < 0 ∧ print_timestamp (F64.lit (-1) 2) = some "[00:-1.50]".toList := by
  decide

/-- C14 (amended): the only contract check of `print_timestamp` is
`assert(timestamp != DBL_MAX)`: it fails exactly for the sentinel `DBL_MAX`, and every other
input, a negative one included, is formatted. -/
theorem C14_print_timestamp_guard (t : Double) :
    print_timestamp t = none ↔ t = F64.DBL_MAX := by
  unfold print_timestamp
  by_cases h : t = F64.DBL_MAX
  · simp [h]
  · simp [h]

/-- C20: `expand_text` returns a string for every document and for both values of the merge
flag, whatever the timestamps, the order of the lines and the tags are: a row that joins a run
of the merge loop is timed, a row is printed with a timestamp only when it is timed, and the
untimed branch is taken only when every line is untimed. -/
theorem C20_expand_text_total (d : LyricData) (merge_equivalent_lrc_lines : Bool) :
    ∃ s, expand_text d merge_equivalent_lrc_lines = some s := by
  unfold expand_text
  by_cases h : d.IsTimestamped = true
  · rw [if_pos h]
    obtain ⟨rows, hrows⟩ := expand_rows_isSome d merge_equivalent_lrc_lines
    rw [hrows]
    simp only []
    rw [render_rows_eq]
    exact ⟨_, rfl⟩
  · rw [if_neg h]
    have h2 : d.IsTimestamped = false := by simpa using h
    rw [render_untimed_eq _ ((not_timestamped_iff d).mp h2)]
    exact ⟨_, rfl⟩

/-- C17: for every text, `parse(m, text).tags` lists, in input order and unchanged, the line
views of the tag section that carry no timestamp and satisfy `is_tag_line`; the lines of the
document are made of the other views only (the views of the tag section that are not tag lines
and all the views behind the tag section), so no recorded tag is also a line. -/
theorem C17_tags_recorded (metadata : LyricDataCommon) (text : Str) :
    (parse metadata text).tags =
        (tag_section (line_views text)).filter
          (fun v => !carries_timestamp v && is_tag_line v) ∧
      (parse metadata text).lines =
        collapse_concurrent_lines
          ((((tag_section (line_views text)).filter (fun v => !is_tag_line v)).map untimed_line ++
            (content_section (line_views text)).flatMap entries_of_view).insertionSort
              timestamp_le) ∧
      (parse metadata "[Ti:thetitle]\n[00:00.00]line1".toList).tags = ["[Ti:thetitle]".toList] ∧
      (parse metadata "[Ti:thetitle]\n[00:00.00]line1".toList).lines = [⟨"line1".toList, 0⟩] ∧
      (parse metadata "[ti:]\n[00:00.00]line1".toList).tags = ["[ti:]".toList] := by
  refine ⟨?_, ?_, ?_, ?_, ?_⟩
  · have htags : (parse metadata text).tags = (parse_state text).tags := rfl
    rw [htags, (parse_state_sections text).1]
    apply List.filter_congr
    intro v hv
    rw [tag_section_no_timestamp _ v hv]
    rfl
  · have hlines : (parse metadata text).lines =
        collapse_concurrent_lines ((parse_state text).lines.insertionSort timestamp_le) := rfl
    rw [hlines, (parse_state_sections text).2]
  · show (parse_state "[Ti:thetitle]\n[00:00.00]line1".toList).tags = _
    decide
  · show collapse_concurrent_lines
      ((parse_state "[Ti:thetitle]\n[00:00.00]line1".toList).lines.insertionSort timestamp_le) = _
    decide
  · show (parse_state "[ti:]\n[00:00.00]line1".toList).tags = _
    decide

/-- C19: `parse` is total.  Its loops end by their own conditions: more fuel than the length
of the text (of the line, plus one) does not change the physical lines nor the timestamps and
remainder of a line.  The indexed accesses are in range: the tag handed to
`try_parse_timestamp` for a non-empty line is not empty (so `tag[0]` and
`tag[tag.length()-1]` exist), and a separator found by `rfind` lies inside the tag (so every
`substr` starts inside it).  For the empty text the document has no tags, no lines and the
offset 0. -/
theorem C19_parse_total (metadata : LyricDataCommon) (text line tag : Str) (c first : Char)
    (pos extra : Nat) :
    physical_lines_loop (text.length + extra) text = physical_lines text ∧
      parse_line_times_loop (line.length + 1 + extra) line [] = parse_line_times line ∧
      0 < (substr (first :: line) 0 (close_index (first :: line) + 1)).length ∧
      (∀ i, rfind tag c = some i → i < tag.length) ∧
      (∀ i, rfind_from tag c pos = some i → i < tag.length) ∧
      parse metadata [] = ⟨metadata, none, [], [], [], 0⟩ := by
  refine ⟨?_, ?_, ?_, ?_, ?_, ?_⟩
  · exact physical_lines_loop_fuel _ _ text (Nat.le_add_right _ _) (Nat.le_refl _)
  · exact parse_line_times_loop_fuel _ extra line [] (Nat.le_refl _)
  · exact tag_nonempty (first :: line) (by simp)
  · exact fun i h => rfind_lt tag c i h
  · exact fun i h => rfind_from_lt tag c pos i h
  · exact parse_empty metadata

/-- C19 (witness): a line of garbage with an unterminated bracket. -/
theorem C19_parse_total_witness :
    (parse ⟨0, [], [], [], [], none⟩ "[00:0x[[\r\n]".toList).lines =
        [⟨"[00:0x[[".toList, F64.DBL_MAX⟩, ⟨"]".toList, F64.DBL_MAX⟩] ∧
      rfind "[00:0x[[".toList ':' = some 3 ∧ 3 < "[00:0x[[".toList.length := by
  refine ⟨by decide, by decide, ?_⟩
  exact (C19_parse_total ⟨0, [], [], [], [], none⟩ [] [] "[00:0x[[".toList ':' 'a' 0 0).2.2.2.1
    3 (by decide)

/-- C13 (as stated, refuted): `t` is the binary64 value of `0.015`, slightly below `15/1000`.
The product `(t - floor(t)) * 100` is below `1.5`, so rounded half up it is 1 and the claim
asks for `[00:00.01]`; the binary64 product of `print_timestamp` is exactly `1.5`, and the
text is `[00:00.02]`. -/
theorem C13_counterexample_binary_product :
    0 ≤ F64.lit 15 1000 ∧ F64.lit 15 1000 / Int.ofNat F64.scale = 0 ∧
      (2 * (100 * F64.lit 15 1000) + Int.ofNat F64.scale) / (2 * Int.ofNat F64.scale) = 1 ∧
      centisecond_fields (0 * 100 + 1) = "[00:00.01]".toList ∧
      print_timestamp (F64.lit 15 1000) = some "[00:00.02]".toList := by
  decide

/-- C13 (amended): for every non-negative `t` with whole seconds fitting an `int`, let `c` be
the binary64 product `(t - floor(t)) * 100.0` rounded half up (`rounded_centiseconds`), which
is between 0 and 100, and `N = floor(t) * 100 + c`.  Then `print_timestamp(t)` prints the
fields `cc = N mod 100`, `ss = (N div 100) mod 60`, `mm = (N div 6000) mod 60`,
`hh = N div 360000`, each padded to two digits, without the hours when `hh = 0`. -/
theorem C13_print_timestamp_fields (t : Double) (h0 : 0 ≤ t)
    (hint : t < 2 ^ 31 * Int.ofNat F64.scale) :
    0 ≤ rounded_centiseconds t ∧ rounded_centiseconds t ≤ 100 ∧
      print_timestamp t =
        some (centisecond_fields (t / Int.ofNat F64.scale * 100 + rounded_centiseconds t)) := by
  obtain ⟨T, hT⟩ := Int.eq_ofNat_of_zero_le h0
  subst hT
  have hlt : T < 2 ^ 31 * F64.scale := by
    have h : ((T : Nat) : Int) < ((2 ^ 31 * F64.scale : Nat) : Int) := by
      push_cast
      exact hint
    exact Int.ofNat_lt.mp h
  obtain ⟨k, hk, hk2, -⟩ := rounded_centiseconds_natCast T
  have hmax : (T : Int) ≠ F64.DBL_MAX := by
    apply ne_of_lt
    have h1 := F64.pow_le_DBL_MAX 1105 (by norm_num)
    have h2 : (2 : Int) ^ 31 * Int.ofNat F64.scale = ((2 ^ 1105 : Nat) : Int) := by
      unfold F64.scale
      rw [show (1105 : Nat) = 31 + 1074 by norm_num, pow_add]
      push_cast
    rw [h2] at hint
    exact lt_of_lt_of_le hint h1
  refine ⟨?_, ?_, ?_⟩
  · rw [hk2]
    exact Int.ofNat_nonneg k
  · rw [hk2]
    exact_mod_cast hk
  · rw [print_timestamp_timed _ hmax, print_timestamp_body_fields T hlt]
    simp only [Int.ofNat_eq_coe]
    rw [Int.natCast_div]

/-- C13 (witness): `5.999` rounds to 100 centiseconds, which carry into the seconds. -/
theorem C13_print_timestamp_fields_witness :
    rounded_centiseconds (F64.lit 5999 1000) = 100 ∧
      print_timestamp (F64.lit 5999 1000) = some "[00:06.00]".toList := by
  have h := C13_print_timestamp_fields (F64.lit 5999 1000) (by decide) (by decide)
  refine ⟨by decide, ?_⟩
  rw [h.2.2]
  decide

/-- C15 (as stated, refuted): for `[00:00.25]` the claimed value `25 / 10^2` is `0.25`, a
binary64 number; `try_parse_timestamp` returns `0.25 + 2^-54`, the rounded product of 25 and
the binary64 product `0.1 * 0.1`. -/
theorem C15_counterexample_rounded_fraction :
    100 * F64.lit 1 4 = 25 * Int.ofNat F64.scale ∧
      try_parse_timestamp "[00:00.25]".toList = some (F64.lit 1 4 + Int.ofNat (2 ^ 1020)) ∧
      try_parse_timestamp "[00:00.25]".toList ≠ some (F64.lit 1 4) := by
  decide

/-- C15 (amended): for non-empty digit strings `H`, `M`, `S`, `F` with values within 64 bits
(and a tag shorter than `2^63` characters), `try_parse_timestamp` succeeds on `[M:S.F]` and on
`[H:M:S.F]`, and its value is the sum that the code accumulates in binary64,
`((0 + F * c) + S) + M * 60` (`+ H * 3600`), where `c` is `1.0` multiplied `len(F)` times by
`0.1`: the fraction is weighted by its own length, every operation rounding to nearest. -/
theorem C15_parse_digit_fields (H M S F : Str) (hH : is_digit_string H)
    (hM : is_digit_string M) (hS : is_digit_string S) (hF : is_digit_string F)
    (hh : digits_value H < 2 ^ 64) (hm : digits_value M < 2 ^ 64) (hs : digits_value S < 2 ^ 64)
    (hf : digits_value F < 2 ^ 64)
    (hlen : H.length + M.length + S.length + F.length < 2 ^ 63) :
    try_parse_timestamp ('[' :: (M ++ ':' :: (S ++ '.' :: (F ++ [']'])))) =
        some (timestamp_value F.length (digits_value F) (digits_value S) (digits_value M) none) ∧
      try_parse_timestamp ('[' :: (H ++ ':' :: (M ++ ':' :: (S ++ '.' :: (F ++ [']']))))) =
        some (timestamp_value F.length (digits_value F) (digits_value S) (digits_value M)
          (some (digits_value H))) :=
  ⟨try_parse_timestamp_three M S F hM hS hF hm hs hf (by omega),
    try_parse_timestamp_four H M S F hH hM hS hF hh hm hs hf hlen⟩

/-- C15 (witness): three fraction digits, with and without hours; `1.5` and `3601.5` are
exact. -/
theorem C15_parse_digit_fields_witness :
    try_parse_timestamp "[00:01.500]".toList = some (F64.lit 3 2) ∧
      try_parse_timestamp "[1:00:01.500]".toList = some (F64.lit 7203 2) := by
  have h := C15_parse_digit_fields "1".toList "00".toList "01".toList "500".toList
    ⟨by decide, by decide⟩ ⟨by decide, by decide⟩ ⟨by decide, by decide⟩
    ⟨by decide, by decide⟩ (by decide) (by decide) (by decide) (by decide) (by decide)
  refine ⟨?_, ?_⟩
  · rw [show "[00:01.500]".toList = '[' :: ("00".toList ++ ':' :: ("01".toList ++ '.' ::
      ("500".toList ++ [']']))) by decide, h.1]
    decide
  · rw [show "[1:00:01.500]".toList = '[' :: ("1".toList ++ ':' :: ("00".toList ++ ':' ::
      ("01".toList ++ '.' :: ("500".toList ++ [']'])))) by decide, h.2]
    decide

/-- C18: `is_tag_line` does not depend on the letter case of the key: two lines `[key:rest`
and `[other:rest` whose keys (no colon inside) are equal up to the case of their ASCII letters
get the same result.  So `[Encoding:iso-8859-15]` at the top of a text is recorded in `tags`
and is not a line. -/
theorem C18_tag_key_case (metadata : LyricDataCommon) (key other rest : Str)
    (hn : ':' ∉ key) (ho : ':' ∉ other)
    (hcase : key.map Char.toLower = other.map Char.toLower) :
    is_tag_line ('[' :: (key ++ ':' :: rest)) = is_tag_line ('[' :: (other ++ ':' :: rest)) ∧
      (parse metadata "[Encoding:iso-8859-15]\n[00:00.00]line1".toList).tags =
        ["[Encoding:iso-8859-15]".toList] ∧
      (parse metadata "[Encoding:iso-8859-15]\n[00:00.00]line1".toList).lines =
        [⟨"line1".toList, 0⟩] := by
  refine ⟨is_tag_line_case key other rest hn ho hcase, ?_, ?_⟩
  · show (parse_state "[Encoding:iso-8859-15]\n[00:00.00]line1".toList).tags = _
    decide
  · show collapse_concurrent_lines
      ((parse_state "[Encoding:iso-8859-15]\n[00:00.00]line1".toList).lines.insertionSort
        timestamp_le) = _
    decide

/-- C18 (witness): `[ENCODING:x]` and `[encoding:x]` are both tag lines. -/
theorem C18_tag_key_case_witness :
    is_tag_line "[ENCODING:x]".toList = is_tag_line "[encoding:x]".toList ∧
      is_tag_line "[encoding:x]".toList = true := by
  refine ⟨?_, by decide⟩
  exact (C18_tag_key_case ⟨0, [], [], [], [], none⟩ "ENCODING".toList "encoding".toList
    "x]".toList (by decide) (by decide) (by decide)).1

/-- C9: for a document whose timed lines precede its untimed lines and every text `T` of a
timed row (rows are the lines split at their line feeds), `expand_text(d, true)` is the tag
header followed by one text per kept row, in row order; the kept rows contain exactly one
timed row for `T`, and its text is the printed timestamps `t1 ... tk` of all timed rows of
text `T` in their row order, then `T` and CRLF (`merged_row_text`). -/
theorem C9_merged_row_per_text (d : LyricData) (T : Str) (hfirst : timed_first d.lines)
    (hT : ∃ row ∈ d.lines.flatMap split_rows, row.timestamp ≠ F64.DBL_MAX ∧ row.text = T) :
    expand_text d true = some (expand_tags d.tags ++
        ((kept_rows [] (d.lines.flatMap split_rows)).map
          (merged_row_text (d.lines.flatMap split_rows))).flatten) ∧
      ((kept_rows [] (d.lines.flatMap split_rows)).filter
        (fun row => decide (row.timestamp ≠ F64.DBL_MAX ∧ row.text = T))).length = 1 ∧
      ∀ row, row.timestamp ≠ F64.DBL_MAX → row.text = T →
        merged_row_text (d.lines.flatMap split_rows) row =
          (((d.lines.flatMap split_rows).filter
            (fun e => decide (e.text = T ∧ e.timestamp ≠ F64.DBL_MAX))).map
              (fun e => (print_timestamp e.timestamp).getD [])).flatten ++ T ++ ['\r', '\n'] := by
  have htimed : d.IsTimestamped = true := by
    unfold LyricData.IsTimestamped
    rw [← rows_timestamped, List.any_eq_true]
    obtain ⟨row, hrow, hne, _⟩ := hT
    exact ⟨row, hrow, by simpa using hne⟩
  have hm := timed_first_mergeable _ (timed_first_rows d.lines hfirst)
  refine ⟨?_, ?_, ?_⟩
  · rw [expand_text_merged d htimed hm]
    have h := merged_rows_text (d.lines.flatMap split_rows) [] [] (by simp)
    rw [List.nil_append] at h
    rw [← h]
    rfl
  · rw [kept_rows_count]
    rw [if_pos ⟨by simp, hT⟩]
  · intro row hne htext
    unfold merged_row_text text_stamps
    rw [if_neg hne, htext]
    congr 3
    apply List.map_congr_left
    intro e he
    have het : e.timestamp ≠ F64.DBL_MAX := by
      have := (List.mem_filter.mp he).2
      simp only [decide_eq_true_eq] at this
      exact this.2
    rw [print_timestamp_timed _ het]
    rfl

/-- C9 (witness): the test `lrcparse_expanding_merges_matching_lines`. -/
theorem C9_merged_row_per_text_witness :
    expand_text ⟨⟨0, [], [], [], [], none⟩, none, [], [],
        [⟨"thebestline".toList, F64.lit 5 1⟩, ⟨"thebestline".toList, F64.lit 10 1⟩,
          ⟨"anotherline".toList, F64.lit 12 1⟩, ⟨"anotherline".toList, F64.lit 14 1⟩], 0⟩ true =
      some "[00:05.00][00:10.00]thebestline\r\n[00:12.00][00:14.00]anotherline\r\n".toList := by
  have h := (C9_merged_row_per_text ⟨⟨0, [], [], [], [], none⟩, none, [], [],
        [⟨"thebestline".toList, F64.lit 5 1⟩, ⟨"thebestline".toList, F64.lit 10 1⟩,
          ⟨"anotherline".toList, F64.lit 12 1⟩, ⟨"anotherline".toList, F64.lit 14 1⟩], 0⟩
        "thebestline".toList (by unfold timed_first; decide)
        ⟨⟨"thebestline".toList, F64.lit 5 1⟩, by decide, by decide, rfl⟩).1
  rw [h]
  decide

/-- C10 (as stated, refuted): the rows are `b` (untimed), `a` at 1 s, `b` at 2 s.  The timed
rows in order of first occurrence are `a`, `b`; `expand_text` puts the row of `b` first (the
timed `b` joins the run of the untimed `b` and is printed in its place), and the untimed row
is gone. -/
theorem C10_counterexample_untimed_leader :
    kept_rows [] [⟨"b".toList, F64.DBL_MAX⟩, ⟨"a".toList, F64.lit 1 1⟩, ⟨"b".toList, F64.lit 2 1⟩] =
        [⟨"b".toList, F64.DBL_MAX⟩, ⟨"a".toList, F64.lit 1 1⟩, ⟨"b".toList, F64.lit 2 1⟩] ∧
      expand_text ⟨⟨0, [], [], [], [], none⟩, none, [], [],
        [⟨"b".toList, F64.DBL_MAX⟩, ⟨"a".toList, F64.lit 1 1⟩, ⟨"b".toList, F64.lit 2 1⟩], 0⟩ true =
        some "[00:02.00]b\r\n[00:01.00]a\r\n".toList := by
  decide

/-- C10 (amended): for a document with a timed line in which no untimed row is followed by a
timed row of the same text, the rows that `expand_text(d, true)` prints are, in this order,
the kept rows (a subsequence of the rows: the untimed rows and each timed row whose text did
not occur in an earlier timed row), each with its timestamp and with timestamps in front of
its text; and when no two rows share a text, the merge flag makes no difference. -/
theorem C10_merge_keeps_row_order (d : LyricData) :
    (d.IsTimestamped = true → mergeable (d.lines.flatMap split_rows) →
      ∃ out, expand_rows d true = some out ∧
        List.Forall₂ (fun printed kept => printed.timestamp = kept.timestamp ∧
            ∃ stamps, printed.text = stamps ++ kept.text)
          out (kept_rows [] (d.lines.flatMap split_rows)) ∧
        List.Sublist (kept_rows [] (d.lines.flatMap split_rows)) (d.lines.flatMap split_rows)) ∧
      (((d.lines.flatMap split_rows).map (·.text)).Nodup →
        expand_text d true = expand_text d false) := by
  constructor
  · intro _ hm
    refine ⟨merged_rows [] (d.lines.flatMap split_rows), ?_, merged_rows_kept _ [],
      kept_rows_sublist _ []⟩
    unfold expand_rows
    rw [if_pos rfl, merge_equivalent_lines_rows _ hm]
  · intro hnd
    unfold expand_text expand_rows
    rw [if_pos rfl, merge_equivalent_lines_rows _ (nodup_mergeable _ hnd),
      merged_rows_nodup _ [] hnd (by simp)]
    simp

/-- C10 (witness): the test
`lrcparse_expanding_splits_lines_with_matching_timestamps_in_their_original_order`. -/
theorem C10_merge_keeps_row_order_witness :
    expand_text ⟨⟨0, [], [], [], [], none⟩, none, [], [],
        [⟨"lineBBBB\nlineAAAA".toList, F64.lit 14975 100⟩], 0⟩ true =
      some "[02:29.75]lineBBBB\r\n[02:29.75]lineAAAA\r\n".toList := by
  have h := (C10_merge_keeps_row_order ⟨⟨0, [], [], [], [], none⟩, none, [], [],
        [⟨"lineBBBB\nlineAAAA".toList, F64.lit 14975 100⟩], 0⟩).2 (by decide)
  rw [h]
  decide

/-- C11 (as stated, refuted): the document has no tags and the lines `b` at 1 s and `a`, `b`
(two rows) at 2 s.  The merge prints `b` once, at its first occurrence, so the text is
`[00:01.00][00:02.00]b`, `[00:02.00]a`, and `parse` gives the rows at 2 s in the order `b`,
`a`.  Besides, the line `x` at 0.25 s comes back at `0.25 + 2^-54`. -/
theorem C11_counterexample_row_order :
    expand_text ⟨⟨0, [], [], [], [], none⟩, none, [], [],
        [⟨"b".toList, F64.lit 1 1⟩, ⟨"a\nb".toList, F64.lit 2 1⟩], 0⟩ true =
        some "[00:01.00][00:02.00]b\r\n[00:02.00]a\r\n".toList ∧
      (parse ⟨0, [], [], [], [], none⟩
        "[00:01.00][00:02.00]b\r\n[00:02.00]a\r\n".toList).lines =
        [⟨"b".toList, F64.lit 1 1⟩, ⟨"b\na".toList, F64.lit 2 1⟩] ∧
      (parse ⟨0, [], [], [], [], none⟩
        "[00:01.00][00:02.00]b\r\n[00:02.00]a\r\n".toList).lines ≠
        [⟨"b".toList, F64.lit 1 1⟩, ⟨"a\nb".toList, F64.lit 2 1⟩] ∧
      expand_text ⟨⟨0, [], [], [], [], none⟩, none, [], [], [⟨"x".toList, F64.lit 1 4⟩], 0⟩ true =
        some "[00:00.25]x\r\n".toList ∧
      (parse ⟨0, [], [], [], [], none⟩ "[00:00.25]x\r\n".toList).lines ≠
        [⟨"x".toList, F64.lit 1 4⟩] := by
  decide

/-- C11 (amended): for a document with no tags whose lines are all timed, with strictly
increasing timestamps that `try_parse_timestamp` reads back unchanged from the text
`print_timestamp` prints for them, and whose row texts contain no carriage return or NUL and
do not begin with a timestamp tag, `expand_text(d, true)` returns a text, `parse` of this text
has no tags, and its lines are the lines of `d` exactly when in every line of `d` the rows
stand in the order in which their texts first occur among the rows of `d`. -/
theorem C11_merge_roundtrip (metadata : LyricDataCommon) (d : LyricData) (htags : d.tags = [])
    (hall : ∀ l ∈ d.lines, l.timestamp ≠ F64.DBL_MAX)
    (hsorted : d.lines.Pairwise timestamp_lt)
    (hrt : ∀ l ∈ d.lines, ∃ stamp, print_timestamp l.timestamp = some stamp ∧
      try_parse_timestamp stamp = some l.timestamp)
    (hplain : ∀ r ∈ d.lines.flatMap split_rows, ∀ x ∈ r.text, x ≠ '\r' ∧ x ≠ Char.ofNat 0)
    (htag : ∀ r ∈ d.lines.flatMap split_rows, carries_timestamp r.text = false) :
    ∃ s, expand_text d true = some s ∧ (parse metadata s).tags = [] ∧
      ((parse metadata s).lines = d.lines ↔
        ∀ l ∈ d.lines, (split_rows l).Pairwise (fun a b =>
          first_place (d.lines.flatMap split_rows) a.text ≤
            first_place (d.lines.flatMap split_rows) b.text)) := by
  apply parse_expand_merged_rows metadata d htags hall hsorted _ hplain htag
  intro l hl
  obtain ⟨stamp, h1, h2⟩ := hrt l hl
  rw [print_timestamp_timed _ (hall l hl)] at h1
  rw [Option.some.inj h1]
  exact h2

/-- C11 (witness): the document of the test
`lrcparse_expanding_splits_lines_with_matching_timestamps_and_then_merges_matching_lines`, two
lines of two and three rows at 149.75 s and 153.09 s; the rows of both lines stand in the order
in which their texts first occur, and the lines come back. -/
theorem C11_merge_roundtrip_witness :
    ∃ s, expand_text ⟨⟨0, [], [], [], [], none⟩, none, [], [],
        [⟨"linePart1\nlinePart2".toList, F64.lit 14975 100⟩,
          ⟨"linePart1\nlinePart2\nlinePart3".toList, F64.lit 15309 100⟩], 0⟩ true = some s ∧
      (parse ⟨0, [], [], [], [], none⟩ s).tags = [] ∧
      (parse ⟨0, [], [], [], [], none⟩ s).lines =
        [⟨"linePart1\nlinePart2".toList, F64.lit 14975 100⟩,
          ⟨"linePart1\nlinePart2\nlinePart3".toList, F64.lit 15309 100⟩] := by
  obtain ⟨s, h1, h2, h3⟩ := C11_merge_roundtrip ⟨0, [], [], [], [], none⟩
    ⟨⟨0, [], [], [], [], none⟩, none, [], [],
      [⟨"linePart1\nlinePart2".toList, F64.lit 14975 100⟩,
        ⟨"linePart1\nlinePart2\nlinePart3".toList, F64.lit 15309 100⟩], 0⟩
    rfl (by decide) (by decide)
    (by
      intro l hl
      refine ⟨print_timestamp_body l.timestamp, ?_, ?_⟩
      · have h : ∀ l ∈ [(⟨"linePart1\nlinePart2".toList, F64.lit 14975 100⟩ : LyricDataLine),
            ⟨"linePart1\nlinePart2\nlinePart3".toList, F64.lit 15309 100⟩],
            print_timestamp l.timestamp = some (print_timestamp_body l.timestamp) := by decide
        exact h l hl
      · have h : ∀ l ∈ [(⟨"linePart1\nlinePart2".toList, F64.lit 14975 100⟩ : LyricDataLine),
            ⟨"linePart1\nlinePart2\nlinePart3".toList, F64.lit 15309 100⟩],
            try_parse_timestamp (print_timestamp_body l.timestamp) = some l.timestamp := by
          decide
        exact h l hl)
    (by decide) (by decide)
  exact ⟨s, h1, h2, h3.mpr (by decide)⟩

/-- C1 (as stated, refuted): for the text `[ar:x]` the document has one tag and no line;
`expand_text` prints the tag and an empty row, and `parse` reads the empty row as an untimed
line, which the next `expand_text` prints in turn.  Besides, the timestamp of `[00:00.001]x`
is printed as `[00:00.00]` and read back as 0, and an untimed line that starts with a
byte-order mark (the text had two marks) loses it. -/
theorem C1_counterexample_tag_header :
    (parse ⟨0, [], [], [], [], none⟩ "[ar:x]".toList).lines = [] ∧
      expand_text (parse ⟨0, [], [], [], [], none⟩ "[ar:x]".toList) false =
        some "[ar:x]\r\n\r\n".toList ∧
      (parse ⟨0, [], [], [], [], none⟩ "[ar:x]\r\n\r\n".toList).lines =
        [⟨[], F64.DBL_MAX⟩] ∧
      expand_text (parse ⟨0, [], [], [], [], none⟩ "[ar:x]\r\n\r\n".toList) false =
        some "[ar:x]\r\n\r\n \r\n".toList ∧
      (parse ⟨0, [], [], [], [], none⟩ "[00:00.001]x".toList).lines ≠ [⟨"x".toList, 0⟩] ∧
      expand_text (parse ⟨0, [], [], [], [], none⟩ "[00:00.001]x".toList) false =
        some "[00:00.00]x\r\n".toList ∧
      (parse ⟨0, [], [], [], [], none⟩ "[00:00.00]x\r\n".toList).lines = [⟨"x".toList, 0⟩] ∧
      expand_text (parse ⟨0, [], [], [], [], none⟩
          [Char.ofNat 0xEF, Char.ofNat 0xBB, Char.ofNat 0xBF, Char.ofNat 0xEF, Char.ofNat 0xBB,
            Char.ofNat 0xBF, 'x']) false =
        some [Char.ofNat 0xEF, Char.ofNat 0xBB, Char.ofNat 0xBF, 'x', '\r', '\n'] ∧
      (parse ⟨0, [], [], [], [], none⟩
          [Char.ofNat 0xEF, Char.ofNat 0xBB, Char.ofNat 0xBF, 'x', '\r', '\n']).lines =
        [⟨['x'], F64.DBL_MAX⟩] := by
  decide

/-- C1 (amended): let `d = parse(m, t)` have no tags, let `print_timestamp` followed by
`try_parse_timestamp` give back the timestamp of every timed line of `d`, and let no untimed
line of `d` start with a byte-order mark.  Then `expand_text(d, false)` returns a text `s`,
and `parse(m, s)` has the tags (none), the offset (0) and the lines of `d`, except that in a
document without timed line an empty text has become a single space; and
`expand_text(parse(m, s), false)` is `s` again. -/
theorem C1_parse_expand_roundtrip (metadata : LyricDataCommon) (text : Str)
    (htags : (parse metadata text).tags = [])
    (hrt : ∀ l ∈ (parse metadata text).lines, l.timestamp ≠ F64.DBL_MAX →
      ∃ stamp, print_timestamp l.timestamp = some stamp ∧
        try_parse_timestamp stamp = some l.timestamp)
    (hbom : ∀ l ∈ (parse metadata text).lines, l.timestamp = F64.DBL_MAX →
      strip_bom l.text = l.text) :
    ∃ s, expand_text (parse metadata text) false = some s ∧
      (parse metadata s).tags = (parse metadata text).tags ∧
      (parse metadata s).timestamp_offset = (parse metadata text).timestamp_offset ∧
      (parse metadata s).lines =
        (if (parse metadata text).IsTimestamped then (parse metadata text).lines
          else (parse metadata text).lines.map padded_line) ∧
      expand_text (parse metadata s) false = some s := by
  have hoff : (parse metadata text).timestamp_offset = 0 := parse_state_offset text htags
  obtain ⟨s, h1, h2, h3, h4, h5⟩ := parse_expand_parse metadata text htags
    (by
      intro l hl hne
      obtain ⟨stamp, hp, ht⟩ := hrt l hl hne
      rw [print_timestamp_timed _ hne] at hp
      rw [Option.some.inj hp]
      exact ht)
    hbom
  exact ⟨s, h1, by rw [h2, htags], by rw [h3, hoff], h4, h5⟩

/-- C1 (witness): two timed lines out of order and an untimed line. -/
theorem C1_parse_expand_roundtrip_witness :
    ∃ s, expand_text (parse ⟨0, [], [], [], [], none⟩
        "[00:02.00]b\n[00:01.00]a\nplain".toList) false = some s ∧
      (parse ⟨0, [], [], [], [], none⟩ s).tags =
        (parse ⟨0, [], [], [], [], none⟩ "[00:02.00]b\n[00:01.00]a\nplain".toList).tags ∧
      (parse ⟨0, [], [], [], [], none⟩ s).timestamp_offset =
        (parse ⟨0, [], [], [], [], none⟩
          "[00:02.00]b\n[00:01.00]a\nplain".toList).timestamp_offset ∧
      (parse ⟨0, [], [], [], [], none⟩ s).lines =
        (if (parse ⟨0, [], [], [], [], none⟩
            "[00:02.00]b\n[00:01.00]a\nplain".toList).IsTimestamped
          then (parse ⟨0, [], [], [], [], none⟩ "[00:02.00]b\n[00:01.00]a\nplain".toList).lines
          else (parse ⟨0, [], [], [], [], none⟩
            "[00:02.00]b\n[00:01.00]a\nplain".toList).lines.map padded_line) ∧
      expand_text (parse ⟨0, [], [], [], [], none⟩ s) false = some s :=
  C1_parse_expand_roundtrip ⟨0, [], [], [], [], none⟩ "[00:02.00]b\n[00:01.00]a\nplain".toList
    (by decide)
    (by
      have h : ∀ l ∈ (parse ⟨0, [], [], [], [], none⟩
          "[00:02.00]b\n[00:01.00]a\nplain".toList).lines, l.timestamp ≠ F64.DBL_MAX →
          print_timestamp l.timestamp = some (print_timestamp_body l.timestamp) ∧
            try_parse_timestamp (print_timestamp_body l.timestamp) = some l.timestamp := by
        decide
      exact fun l hl hne => ⟨_, h l hl hne⟩)
    (by decide)

/-- C24: `set_offset_tag(doc, s)` changes nothing but `tags`.  Either `tags` is
`pre ++ old :: post` where no entry of `pre` is recognised by `try_parse_offset_tag` and
`old` is, and the new list is `pre ++ new_tag :: post` (same length, same index, the other
entries as they were); or no entry is recognised and the new list is `tags ++ [new_tag]`. -/
theorem C24_set_offset_tag_frame (lyrics : LyricData) (offset_seconds : Double) :
    (set_offset_tag lyrics offset_seconds).lines = lyrics.lines ∧
      (set_offset_tag lyrics offset_seconds).common = lyrics.common ∧
      (set_offset_tag lyrics offset_seconds).save_source = lyrics.save_source ∧
      (set_offset_tag lyrics offset_seconds).save_path = lyrics.save_path ∧
      (set_offset_tag lyrics offset_seconds).timestamp_offset = lyrics.timestamp_offset ∧
      ((∃ pre old post, lyrics.tags = pre ++ old :: post ∧
          (∀ tag ∈ pre, try_parse_offset_tag tag = none) ∧
          (try_parse_offset_tag old).isSome = true ∧
          (set_offset_tag lyrics offset_seconds).tags =
            pre ++ offset_tag offset_seconds :: post) ∨
        ((∀ tag ∈ lyrics.tags, try_parse_offset_tag tag = none) ∧
          (set_offset_tag lyrics offset_seconds).tags =
            lyrics.tags ++ [offset_tag offset_seconds])) :=
  ⟨rfl, rfl, rfl, rfl, rfl, set_offset_tag_loop_spec (offset_tag offset_seconds) lyrics.tags⟩

/-- C29: for a document with no tags and no timed line, `expand_text(d, merge)` is, for both
values of `merge`, the concatenation over the lines of the text and CRLF, with a single space
in place of an empty text; no timestamp is printed. -/
theorem C29_expand_untimed (d : LyricData) (merge_equivalent_lrc_lines : Bool)
    (htags : d.tags = []) (huntimed : ∀ line ∈ d.lines, line.timestamp = F64.DBL_MAX) :
    expand_text d merge_equivalent_lrc_lines = some
      ((d.lines.map (fun line =>
        (if line.text = [] then [' '] else line.text) ++ ['\r', '\n'])).flatten) := by
  unfold expand_text
  rw [(not_timestamped_iff d).mpr huntimed]
  simp only [Bool.false_eq_true, if_false]
  rw [render_untimed_eq _ huntimed, htags]
  rfl

/-- C29 (witness): an empty line between two lines of text. -/
theorem C29_expand_untimed_witness :
    expand_text ⟨⟨0, [], [], [], [], none⟩, none, [], [],
        [⟨"one".toList, F64.DBL_MAX⟩, ⟨[], F64.DBL_MAX⟩, ⟨"two".toList, F64.DBL_MAX⟩], 0⟩ true =
      some "one\r\n \r\ntwo\r\n".toList := by
  rw [C29_expand_untimed _ true rfl (by decide)]
  decide

/-- C23: for every text, the `timestamp_offset` of `parse(m, text)` is the value that
`try_parse_offset_tag` gives for the last recognised entry of the recorded tags and 0 when no
entry is recognised. So when exactly one recorded tag is recognised, with value `value`
(`n / 1000` for `[offset:n]`), the offset is `value` and that tag is still an entry of `tags`,
which holds the raw line views of the tag section unchanged; when no recorded tag is recognised
the offset is 0. The offset is not added to the lines: every timed line has a timestamp that
`parse_line_times` read from a line view of the text. Example: `[offset:1234]` followed by
`[00:01.00]a` gives the offset 1.234, the tag unchanged, and the line `a` at 1 second. -/
theorem C23_parse_offset (metadata : LyricDataCommon) (text : Str) :
    (parse metadata text).timestamp_offset = offset_of_tags (parse metadata text).tags ∧
      (parse metadata text).tags =
        (tag_section (line_views text)).filter
          (fun v => !carries_timestamp v && is_tag_line v) ∧
      (∀ value : Double,
        (parse metadata text).tags.filterMap try_parse_offset_tag = [value] →
          (parse metadata text).timestamp_offset = value ∧
            ∃ tag ∈ (parse metadata text).tags, tag ∈ line_views text ∧
              try_parse_offset_tag tag = some value) ∧
      ((∀ tag ∈ (parse metadata text).tags, try_parse_offset_tag tag = none) →
        (parse metadata text).timestamp_offset = 0) ∧
      (∀ l ∈ (parse metadata text).lines, l.timestamp ≠ F64.DBL_MAX →
        ∃ v ∈ line_views text, l.timestamp ∈ (parse_line_times v).timestamps) ∧
      (parse metadata "[offset:1234]\n[00:01.00]a".toList).timestamp_offset =
        F64.lit 1234 1000 ∧
      (parse metadata "[offset:1234]\n[00:01.00]a".toList).tags = ["[offset:1234]".toList] ∧
      (parse metadata "[offset:1234]\n[00:01.00]a".toList).lines =
        [⟨"a".toList, F64.ofInt 1⟩] ∧
      (parse metadata "[ar:x]\n[00:01.00]a".toList).timestamp_offset = 0 := by
  have hoff : (parse metadata text).timestamp_offset = offset_of_tags (parse metadata text).tags :=
    parse_state_offset_of_tags text
  have htags : (parse metadata text).tags =
      (tag_section (line_views text)).filter
        (fun v => !carries_timestamp v && is_tag_line v) := by
    have h : (parse metadata text).tags = (parse_state text).tags := rfl
    rw [h, (parse_state_sections text).1]
    apply List.filter_congr
    intro v hv
    rw [tag_section_no_timestamp _ v hv]
    rfl
  refine ⟨hoff, htags, ?_, ?_, parse_lines_timestamp_source metadata text, ?_, ?_, ?_, ?_⟩
  · intro value hone
    constructor
    · rw [hoff]
      unfold offset_of_tags
      rw [hone]
      rfl
    · have hmem : value ∈ (parse metadata text).tags.filterMap try_parse_offset_tag := by
        rw [hone]
        exact List.mem_singleton.mpr rfl
      obtain ⟨tag, htag, hval⟩ := List.mem_filterMap.mp hmem
      refine ⟨tag, htag, ?_, hval⟩
      rw [htags] at htag
      exact tag_section_mem _ tag (List.mem_filter.mp htag).1
  · intro hnone
    rw [hoff]
    unfold offset_of_tags
    have hnil : (parse metadata text).tags.filterMap try_parse_offset_tag = [] := by
      rw [List.filterMap_eq_nil_iff]
      exact hnone
    rw [hnil]
    rfl
  · show (parse_state "[offset:1234]\n[00:01.00]a".toList).timestamp_offset = _
    decide
  · show (parse_state "[offset:1234]\n[00:01.00]a".toList).tags = _
    decide
  · show collapse_concurrent_lines
      ((parse_state "[offset:1234]\n[00:01.00]a".toList).lines.insertionSort timestamp_le) = _
    decide
  · show (parse_state "[ar:x]\n[00:01.00]a".toList).timestamp_offset = _
    decide



/-- C30 (as stated, refuted): the document has the rows `x` (untimed) and `x` at 3 s.  Without
merging both rows are printed.  With merging the timed row joins the run of the untimed row:
its timestamp is put in front of the text of the untimed row, the timed row is erased, and one
row `[00:03.00]x` is printed. -/
theorem C30_counterexample_untimed_row_folded :
    expand_text ⟨⟨0, [], [], [], [], none⟩, none, [], [],
        [⟨"x".toList, F64.DBL_MAX⟩, ⟨"x".toList, F64.lit 3 1⟩], 0⟩ false =
        some "x\r\n[00:03.00]x\r\n".toList ∧
      expand_rows ⟨⟨0, [], [], [], [], none⟩, none, [], [],
        [⟨"x".toList, F64.DBL_MAX⟩, ⟨"x".toList, F64.lit 3 1⟩], 0⟩ true =
        some [⟨"[00:03.00]x".toList, F64.DBL_MAX⟩] ∧
      expand_text ⟨⟨0, [], [], [], [], none⟩, none, [], [],
        [⟨"x".toList, F64.DBL_MAX⟩, ⟨"x".toList, F64.lit 3 1⟩], 0⟩ true =
        some "[00:03.00]x\r\n".toList := by
  decide

/-- C30 (amended): for a document with a timed line, without merging always and with merging
when no untimed row is followed by a timed row of the same text, the printed rows `out`
correspond one to one, in order, to a subsequence `kept` of the rows that holds every untimed
row; a printed row that stands for an untimed row is that row itself (text unchanged, no
timestamp in front), so the untimed printed rows are the untimed rows in their order, and
such a row is printed as its text and CRLF. -/
theorem C30_untimed_rows_bare (d : LyricData) (merge_equivalent_lrc_lines : Bool)
    (htimed : d.IsTimestamped = true)
    (hmerge : merge_equivalent_lrc_lines = true → mergeable (d.lines.flatMap split_rows)) :
    ∃ out kept : List LyricDataLine,
      expand_text d merge_equivalent_lrc_lines =
        some (expand_tags d.tags ++ (out.map row_text).flatten) ∧
      List.Sublist kept (d.lines.flatMap split_rows) ∧
      kept.filter (fun r => decide (r.timestamp = F64.DBL_MAX)) =
        (d.lines.flatMap split_rows).filter (fun r => decide (r.timestamp = F64.DBL_MAX)) ∧
      List.Forall₂ (fun printed row => printed.timestamp = row.timestamp ∧
        (row.timestamp = F64.DBL_MAX → printed = row)) out kept ∧
      out.filter (fun r => decide (r.timestamp = F64.DBL_MAX)) =
        (d.lines.flatMap split_rows).filter (fun r => decide (r.timestamp = F64.DBL_MAX)) ∧
      ∀ row ∈ out, row.timestamp = F64.DBL_MAX → row_text row = row.text ++ ['\r', '\n'] := by
  have hbare : ∀ row : LyricDataLine, row.timestamp = F64.DBL_MAX →
      row_text row = row.text ++ ['\r', '\n'] := by
    intro row h
    unfold row_text
    rw [if_neg (by simpa using h)]
    rfl
  cases merge_equivalent_lrc_lines with
  | false =>
    refine ⟨d.lines.flatMap split_rows, d.lines.flatMap split_rows, ?_, List.Sublist.refl _, rfl,
      forall₂_self_untimed _, rfl, fun row _ h => hbare row h⟩
    apply expand_text_rows d false htimed
    unfold expand_rows
    simp
  | true =>
    refine ⟨merged_rows [] (d.lines.flatMap split_rows), kept_rows [] (d.lines.flatMap split_rows),
      ?_, kept_rows_sublist _ [], kept_rows_untimed _ [], merged_rows_kept_untimed _ [],
      merged_rows_untimed _ [], fun row _ h => hbare row h⟩
    apply expand_text_rows d true htimed
    unfold expand_rows
    rw [if_pos rfl, merge_equivalent_lines_rows _ (hmerge rfl)]

/-- C30 (witness): two timed rows of one text around an untimed row, merged. -/
theorem C30_untimed_rows_bare_witness :
    ∃ out kept : List LyricDataLine,
      expand_text ⟨⟨0, [], [], [], [], none⟩, none, [], [],
        [⟨"a".toList, F64.lit 1 1⟩, ⟨"u".toList, F64.DBL_MAX⟩, ⟨"a".toList, F64.lit 2 1⟩], 0⟩ true =
        some (expand_tags [] ++ (out.map row_text).flatten) ∧
      List.Sublist kept
        [⟨"a".toList, F64.lit 1 1⟩, ⟨"u".toList, F64.DBL_MAX⟩, ⟨"a".toList, F64.lit 2 1⟩] ∧
      kept.filter (fun r => decide (r.timestamp = F64.DBL_MAX)) = [⟨"u".toList, F64.DBL_MAX⟩] ∧
      out.filter (fun r => decide (r.timestamp = F64.DBL_MAX)) = [⟨"u".toList, F64.DBL_MAX⟩] := by
  obtain ⟨out, kept, h1, h2, h3, _, h5, _⟩ := C30_untimed_rows_bare
    ⟨⟨0, [], [], [], [], none⟩, none, [], [],
      [⟨"a".toList, F64.lit 1 1⟩, ⟨"u".toList, F64.DBL_MAX⟩, ⟨"a".toList, F64.lit 2 1⟩], 0⟩ true
    (by decide) (by intro _; unfold mergeable; decide)
  exact ⟨out, kept, h1, h2, h3, h5⟩



/-- C27: line terminators are interchangeable.  A text is given by lines without CR, LF and
NUL, each but the last followed by a terminator.  When every terminator is LF, CRLF or a bare
CR, and no bare CR stands in front of an empty line terminated by LF, the line scan of `parse`
finds exactly these lines (the last one when it is not empty), so `parse` of the text equals
`parse` of the lines joined by LF; and the lines joined by CRLF and by a bare CR give the same
result as the lines joined by LF. -/
theorem C27_line_terminators (metadata : LyricDataCommon) (pre : List (Str × Str)) (last : Str)
    (hplain : ∀ p ∈ pre, ∀ x ∈ p.1, is_line_end x = false)
    (hlast : ∀ x ∈ last, is_line_end x = false)
    (hmix : valid_mixture pre) :
    physical_lines (mixed_join pre last) =
        pre.map (fun p => p.1) ++ (if last = [] then [] else [last]) ∧
      parse metadata (mixed_join pre last) =
        parse metadata (['\n'].intercalate (pre.map (fun p => p.1) ++ [last])) ∧
      parse metadata (['\r', '\n'].intercalate (pre.map (fun p => p.1) ++ [last])) =
        parse metadata (['\n'].intercalate (pre.map (fun p => p.1) ++ [last])) ∧
      parse metadata (['\r'].intercalate (pre.map (fun p => p.1) ++ [last])) =
        parse metadata (['\n'].intercalate (pre.map (fun p => p.1) ++ [last])) := by
  have hlines : ∀ l ∈ pre.map (fun p => p.1), ∀ x ∈ l, is_line_end x = false := by
    intro l hl x hx
    obtain ⟨p, hp, rfl⟩ := List.mem_map.mp hl
    exact hplain p hp x hx
  have hmixed := physical_lines_mixed_join pre last hplain hlast hmix
  have hlf := physical_lines_intercalate ['\n'] (Or.inl rfl) _ last hlines hlast
  have hcrlf := physical_lines_intercalate ['\r', '\n'] (Or.inr (Or.inl rfl)) _ last hlines hlast
  have hcr := physical_lines_intercalate ['\r'] (Or.inr (Or.inr rfl)) _ last hlines hlast
  refine ⟨hmixed, parse_congr metadata _ _ (hmixed.trans hlf.symm),
    parse_congr metadata _ _ (hcrlf.trans hlf.symm),
    parse_congr metadata _ _ (hcr.trans hlf.symm)⟩

/-- C27 (witness): the lines `[ar:x]`, the empty line, `[00:01.00]a` and `[00:02.00]b` with
the terminators CR, CRLF and LF. -/
theorem C27_line_terminators_witness :
    physical_lines "[ar:x]\r\r\n[00:01.00]a\n[00:02.00]b".toList =
        ["[ar:x]".toList, [], "[00:01.00]a".toList, "[00:02.00]b".toList] ∧
      parse ⟨0, [], [], [], [], none⟩ "[ar:x]\r\r\n[00:01.00]a\n[00:02.00]b".toList =
        parse ⟨0, [], [], [], [], none⟩ "[ar:x]\n\n[00:01.00]a\n[00:02.00]b".toList ∧
      parse ⟨0, [], [], [], [], none⟩ "[ar:x]\r\n\r\n[00:01.00]a\r\n[00:02.00]b".toList =
        parse ⟨0, [], [], [], [], none⟩ "[ar:x]\n\n[00:01.00]a\n[00:02.00]b".toList ∧
      parse ⟨0, [], [], [], [], none⟩ "[ar:x]\r\r[00:01.00]a\r[00:02.00]b".toList =
        parse ⟨0, [], [], [], [], none⟩ "[ar:x]\n\n[00:01.00]a\n[00:02.00]b".toList :=
  C27_line_terminators ⟨0, [], [], [], [], none⟩
    [("[ar:x]".toList, ['\r']), ([], ['\r', '\n']), ("[00:01.00]a".toList, ['\n'])]
    "[00:02.00]b".toList (by decide) (by decide)
    ⟨Or.inr (Or.inr ⟨rfl, by decide⟩), Or.inr (Or.inl rfl), Or.inl rfl, True.intro⟩

/-- C28: for every text and every physical line of it (line number `k` of the line scan, the
first or a later one) that does not begin with the bytes `EF BB BF`, putting these three bytes
in at the start of that line changes the physical lines only in that line, which gets the mark
in front, and does not change the result of `parse`: tags, lines and offset are the same. -/
theorem C28_byte_order_mark_any_line (metadata : LyricDataCommon) (text line : Str) (k : Nat)
    (hline : (physical_lines text)[k]? = some line) (hmark : ¬ byte_order_mark <+: line) :
    physical_lines (insert_at_line byte_order_mark k text) =
        (physical_lines text).set k (byte_order_mark ++ line) ∧
      strip_bom (byte_order_mark ++ line) = strip_bom line ∧
      parse metadata (insert_at_line byte_order_mark k text) = parse metadata text := by
  refine ⟨insert_mark_lines k text line hline, ?_,
    parse_congr_views metadata _ _ (insert_mark_views k text line hline hmark)⟩
  rw [strip_bom_mark, strip_bom_plain line hmark]

/-- C28 (witness): the mark in front of the second line of a text of two lines. -/
theorem C28_byte_order_mark_any_line_witness :
    insert_at_line byte_order_mark 1 "[ar:x]\r\n[00:01.00]a".toList =
        "[ar:x]\r\n".toList ++ byte_order_mark ++ "[00:01.00]a".toList ∧
      parse ⟨0, [], [], [], [], none⟩
          ("[ar:x]\r\n".toList ++ byte_order_mark ++ "[00:01.00]a".toList) =
        parse ⟨0, [], [], [], [], none⟩ "[ar:x]\r\n[00:01.00]a".toList :=
  ⟨by decide, (C28_byte_order_mark_any_line ⟨0, [], [], [], [], none⟩
    "[ar:x]\r\n[00:01.00]a".toList "[00:01.00]a".toList 1 (by decide) (by decide)).2.2⟩



/-- C21 (as stated, refuted): for `n = 9007199254740995` (`2^53 + 3`, inside the signed 64-bit
range) the conversion `double(n)` rounds to `2^53 + 4` before the division, and
`try_parse_offset_tag` returns a value that lies `2^-9` above the binary64 value nearest to
`n / 1000`. -/
theorem C21_counterexample_double_rounding :
    F64.ofInt 9007199254740995 = 9007199254740996 * Int.ofNat F64.scale ∧
      try_parse_offset_tag "[offset:9007199254740995]".toList =
        some (F64.lit 9007199254740995 1000 + Int.ofNat (2 ^ 1065)) ∧
      try_parse_offset_tag "[offset:9007199254740995]".toList ≠
        some (F64.lit 9007199254740995 1000) := by
  decide

/-- C21 (amended): for every integer `n` of the signed 64-bit range, written in decimal with a
leading `-` when negative, `try_parse_offset_tag` of `[offset:n]` returns the binary64
quotient `double(n) / 1000.0`; when `|n| < 2^53` this is the binary64 value nearest to
`n / 1000`.  So `[offset:1234]` gives `1.234` and `[offset:-567]` gives `-0.567`. -/
theorem C21_offset_tag_value (n : Int) (hlow : -(2 ^ 63) ≤ n) (hhigh : n < 2 ^ 63) :
    try_parse_offset_tag ("[offset:".toList ++ int_to_string n ++ "]".toList) =
        some (F64.div (F64.ofInt n) (F64.ofInt 1000)) ∧
      (n.natAbs < 2 ^ 53 → F64.div (F64.ofInt n) (F64.ofInt 1000) = F64.lit n 1000) ∧
      try_parse_offset_tag "[offset:1234]".toList = some (F64.lit 1234 1000) ∧
      try_parse_offset_tag "[offset:-567]".toList = some (F64.lit (-567) 1000) :=
  ⟨try_parse_offset_tag_int n hlow hhigh, F64.div_ofInt_thousand n, by decide, by decide⟩

/-- C21 (witness): the smallest 64-bit integer. -/
theorem C21_offset_tag_value_witness :
    try_parse_offset_tag
        ("[offset:".toList ++ int_to_string (-9223372036854775808) ++ "]".toList) =
      some (F64.div (F64.ofInt (-9223372036854775808)) (F64.ofInt 1000)) :=
  (C21_offset_tag_value (-9223372036854775808) (by decide) (by decide)).1

/-- C22 (the code at the failing input): `try_parse_offset_tag` accepts `[offset:12abc]`,
whose value has letters behind the digits, and returns the value of `[offset:12]`; the same
holds for `[offset:-5x]`.  The lines that are not bracketed, have no colon, have another key
(also `Offset`), an empty value or a value that does not begin with a digit or a minus sign and
a digit give no value. -/
theorem C22_trailing_characters_accepted :
    try_parse_offset_tag "[offset:12abc]".toList = some (F64.lit 12 1000) ∧
      try_parse_offset_tag "[offset:12abc]".toList = try_parse_offset_tag "[offset:12]".toList ∧
      try_parse_offset_tag "[offset:-5x]".toList = some (F64.lit (-5) 1000) ∧
      try_parse_offset_tag "offset:12".toList = none ∧
      try_parse_offset_tag "[offset:12".toList = none ∧
      try_parse_offset_tag "[offset 12]".toList = none ∧
      try_parse_offset_tag "[ar:12]".toList = none ∧
      try_parse_offset_tag "[Offset:12]".toList = none ∧
      try_parse_offset_tag "[offset:]".toList = none ∧
      try_parse_offset_tag "[offset:abc]".toList = none ∧
      try_parse_offset_tag "[offset:-]".toList = none ∧
      try_parse_offset_tag "[offset:+12]".toList = none := by
  decide


/-- C25 (as stated, refuted): `1.001` is the value that `try_parse_offset_tag` returns for
`[offset:1001]`, a whole number of milliseconds.  Its binary64 product with `1000.0` lies
below 1001 and is truncated to 1000, so the tag written for it is `[offset:1000]`, which
parses to `1.0`, not to `1.001`.  And for the `double` `0.015` the exact product with 1000
truncates to 14, while the binary64 product is `15.0` and the tag written is `[offset:15]`. -/
theorem C25_counterexample_whole_milliseconds :
    try_parse_offset_tag "[offset:1001]".toList = some (F64.lit 1001 1000) ∧
      offset_tag (F64.lit 1001 1000) = "[offset:1000]".toList ∧
      try_parse_offset_tag (offset_tag (F64.lit 1001 1000)) = some (F64.ofInt 1) ∧
      F64.ofInt 1 ≠ F64.lit 1001 1000 ∧
      Int.tdiv (F64.lit 15 1000 * 1000) (Int.ofNat F64.scale) = 14 ∧
      offset_tag (F64.lit 15 1000) = "[offset:15]".toList := by
  decide

/-- C25 (amended): for every `s` whose binary64 product `s * 1000.0` is below `2^31` in
magnitude, the tag written by `set_offset_tag(doc, s)` is `[offset:k]` with `k` the binary64
product truncated toward zero (also for a negative `s`), written in decimal; this tag is an
entry of the tags afterwards; `try_parse_offset_tag` of the written tag returns the binary64
value nearest to `k / 1000`; and it returns `s` itself when `s` is a binary64 value and
`s * 1000` is exactly an integer below `2^31` in magnitude. -/
theorem C25_written_offset_tag (lyrics : LyricData) (s : Double)
    (hrange : (F64.mul s (F64.ofInt 1000)).natAbs < 2 ^ 31 * F64.scale) :
    offset_tag s = "[offset:".toList ++
        int_to_string (Int.tdiv (F64.mul s (F64.ofInt 1000)) (Int.ofNat F64.scale)) ++
        "]".toList ∧
      offset_tag s ∈ (set_offset_tag lyrics s).tags ∧
      try_parse_offset_tag (offset_tag s) =
        some (F64.lit (Int.tdiv (F64.mul s (F64.ofInt 1000)) (Int.ofNat F64.scale)) 1000) ∧
      ∀ m : Int, F64.round s 1 = s → s * 1000 = m * Int.ofNat F64.scale → m.natAbs < 2 ^ 31 →
        Int.tdiv (F64.mul s (F64.ofInt 1000)) (Int.ofNat F64.scale) = m ∧
          try_parse_offset_tag (offset_tag s) = some s := by
  obtain ⟨htag, hparse⟩ := parse_written_offset_tag s hrange
  refine ⟨htag, set_offset_tag_loop_mem _ _, hparse, ?_⟩
  intro m hs hm habs
  have hk : Int.tdiv (F64.mul s (F64.ofInt 1000)) (Int.ofNat F64.scale) = m := by
    rw [F64.mul_thousand_whole s m hm (by omega)]
    exact Int.mul_tdiv_cancel m (by
      have := scale_pos
      simp only [Int.ofNat_eq_coe, ne_eq, Int.natCast_eq_zero]
      omega)
  refine ⟨hk, ?_⟩
  rw [hparse, hk, F64.lit_thousand_whole s m hm hs]

/-- C25 (witness): `-0.5` seconds is written as `[offset:-500]` and read back as `-0.5`. -/
theorem C25_written_offset_tag_witness :
    offset_tag (F64.lit (-1) 2) = "[offset:-500]".toList ∧
      try_parse_offset_tag (offset_tag (F64.lit (-1) 2)) = some (F64.lit (-1) 2) := by
  have h := C25_written_offset_tag ⟨⟨0, [], [], [], [], none⟩, none, [], [], [], 0⟩
    (F64.lit (-1) 2) (by decide)
  exact ⟨by decide, (h.2.2.2 (-500) (by decide) (by decide) (by decide)).2⟩



/-- C32 (the code at the failing input): `[length:03:40.00]` is accepted by `is_tag_line`, and
`parse_line_times` reads it as the timestamp `03:40.00` (the field in front of the second
colon from the right, `length`, is the hour field, which is not checked), so `parse` records
no tag and emits an empty line at 220 seconds.  The same holds for `[ar:1:02.5]`.  A length
tag without a fraction, `[length:03:40]`, is recorded as a tag. -/
theorem C32_tag_line_read_as_timestamp :
    is_tag_line "[length:03:40.00]".toList = true ∧
      parse_line_times "[length:03:40.00]".toList = ⟨[F64.ofInt 220], []⟩ ∧
      (parse ⟨0, [], [], [], [], none⟩ "[length:03:40.00]".toList).tags = [] ∧
      (parse ⟨0, [], [], [], [], none⟩ "[length:03:40.00]".toList).lines =
        [⟨[], F64.ofInt 220⟩] ∧
      is_tag_line "[ar:1:02.5]".toList = true ∧
      (parse_line_times "[ar:1:02.5]".toList).timestamps = [F64.lit 125 2] ∧
      (parse ⟨0, [], [], [], [], none⟩ "[length:03:40]".toList).tags =
        ["[length:03:40]".toList] ∧
      (parse ⟨0, [], [], [], [], none⟩ "[length:03:40]".toList).lines = [] := by
  decide

/-- C34: an empty line view leaves `tag_section_passed` as it is and adds one untimed line with
empty text.  So in a text whose line views are all empty or tag lines without timestamp, every
tag line is recorded in `tags`, also behind an empty line, and every empty line view is an
untimed empty line.  Example: `[ti:x]`, an empty line, `[ar:y]`. -/
theorem C34_empty_line_in_tag_section (metadata : LyricDataCommon) (text : Str) (st : ParseState) :
    parse_line st [] = { st with lines := st.lines ++ [⟨[], F64.DBL_MAX⟩] } ∧
      ((∀ v ∈ line_views text, v = [] ∨ (is_tag_line v = true ∧ carries_timestamp v = false)) →
        (parse metadata text).tags = (line_views text).filter (fun v => !v.isEmpty) ∧
          (parse metadata text).lines =
            ((line_views text).filter (fun v => v.isEmpty)).map untimed_line) ∧
      (parse metadata "[ti:x]\n\n[ar:y]".toList).tags = ["[ti:x]".toList, "[ar:y]".toList] ∧
      (parse metadata "[ti:x]\n\n[ar:y]".toList).lines = [⟨[], F64.DBL_MAX⟩] := by
  refine ⟨parse_line_empty st, ?_, ?_, ?_⟩
  · intro h
    obtain ⟨h1, h2, _⟩ := foldl_parse_line_header (line_views text) ParseState.init rfl h
    have htags : (parse metadata text).tags = (parse_state text).tags := rfl
    have hlines : (parse metadata text).lines =
        collapse_concurrent_lines ((parse_state text).lines.insertionSort timestamp_le) := rfl
    have hs : parse_state text = (line_views text).foldl parse_line ParseState.init := rfl
    rw [htags, hlines, hs, h1, h2]
    refine ⟨by simp [ParseState.init], ?_⟩
    have hun : ∀ x ∈ ParseState.init.lines ++
        ((line_views text).filter (fun v => v.isEmpty)).map untimed_line,
        x.timestamp = F64.DBL_MAX := by
      intro x hx
      simp only [ParseState.init, List.nil_append] at hx
      obtain ⟨v, _, rfl⟩ := List.mem_map.mp hx
      rfl
    obtain ⟨e1, e2⟩ := sort_collapse_untimed _ hun
    rw [e1, e2]
    simp [ParseState.init]
  · show (parse_state "[ti:x]\n\n[ar:y]".toList).tags = _
    decide
  · show collapse_concurrent_lines
      ((parse_state "[ti:x]\n\n[ar:y]".toList).lines.insertionSort timestamp_le) = _
    decide

/-- C35: for every document and both merge settings the text of `expand_text` is the entries
of `tags` in order, each followed by CRLF, then one more CRLF when there is at least one tag
(exactly when the tag prefix is not empty), then the rows of the lines, which are the whole
text of the document without its tags. -/
theorem C35_tags_prefix (d : LyricData) (merge_equivalent_lrc_lines : Bool) :
    ∃ body,
      expand_text { d with tags := [] } merge_equivalent_lrc_lines = some body ∧
      expand_text d merge_equivalent_lrc_lines =
        some ((d.tags.map (fun tag => tag ++ ['\r', '\n'])).flatten ++
          (if d.tags = [] then [] else ['\r', '\n']) ++ body) ∧
      ((d.tags.map (fun tag => tag ++ ['\r', '\n'])).flatten = [] ↔ d.tags = []) := by
  obtain ⟨body, hbody⟩ := expand_text_body d merge_equivalent_lrc_lines
  refine ⟨body, ?_, ?_, ?_⟩
  · have := hbody []
    rw [this]
    rfl
  · have := hbody d.tags
    rw [← expand_tags_eq]
    exact this
  · cases d.tags with
    | nil => simp
    | cons tag rest => simp

/-- C38: for every document and every offset, `remove_offset_tag` after `set_offset_tag`
gives the same document as `remove_offset_tag` alone (the tag that `set_offset_tag` writes is
recognised by `try_parse_offset_tag`); when no entry of `tags` is recognised, setting and
removing gives the tags back. -/
theorem C38_set_then_remove (lyrics : LyricData) (offset_seconds : Double) :
    (try_parse_offset_tag (offset_tag offset_seconds)).isSome = true ∧
      remove_offset_tag (set_offset_tag lyrics offset_seconds) = remove_offset_tag lyrics ∧
      ((∀ tag ∈ lyrics.tags, try_parse_offset_tag tag = none) →
        remove_offset_tag (set_offset_tag lyrics offset_seconds) = lyrics) := by
  have h : remove_offset_tag (set_offset_tag lyrics offset_seconds) = remove_offset_tag lyrics := by
    unfold remove_offset_tag set_offset_tag
    simp only []
    rw [remove_set_offset_tag_loop _ (offset_tag_recognised offset_seconds)]
  refine ⟨offset_tag_recognised offset_seconds, h, ?_⟩
  intro hnone
  rw [h]
  unfold remove_offset_tag
  rw [remove_offset_tag_loop_none _ hnone]

/-- C39: the offset of `parse(m, text)` is the value of the last recognised offset tag among
the recorded tags, in input order, and every line view of the tag section that
`try_parse_offset_tag` recognises is recorded in `tags`, in input order.  Example: of
`[offset:100]` and `[offset:-200]` the second one sets the offset and both are kept. -/
theorem C39_last_offset_wins (metadata : LyricDataCommon) (text : Str) :
    (∀ (values : List Double) (last : Double),
        (parse metadata text).tags.filterMap try_parse_offset_tag = values ++ [last] →
          (parse metadata text).timestamp_offset = last) ∧
      (parse metadata text).tags.filter (fun v => (try_parse_offset_tag v).isSome) =
        (tag_section (line_views text)).filter (fun v => (try_parse_offset_tag v).isSome) ∧
      (parse metadata "[offset:100]\n[offset:-200]\n[00:01.00]a".toList).timestamp_offset =
        F64.lit (-200) 1000 ∧
      (parse metadata "[offset:100]\n[offset:-200]\n[00:01.00]a".toList).tags =
        ["[offset:100]".toList, "[offset:-200]".toList] := by
  refine ⟨?_, ?_, ?_, ?_⟩
  · intro values last h
    have hoff : (parse metadata text).timestamp_offset =
        offset_of_tags (parse metadata text).tags := parse_state_offset_of_tags text
    rw [hoff]
    unfold offset_of_tags
    rw [h]
    simp
  · have htags : (parse metadata text).tags = (parse_state text).tags := rfl
    rw [htags, (parse_state_sections text).1, List.filter_filter]
    apply List.filter_congr
    intro v _
    cases h : (try_parse_offset_tag v).isSome with
    | false => rfl
    | true =>
      rw [offset_tag_is_tag_line v h]
      rfl
  · show (parse_state "[offset:100]\n[offset:-200]\n[00:01.00]a".toList).timestamp_offset = _
    decide
  · show (parse_state "[offset:100]\n[offset:-200]\n[00:01.00]a".toList).tags = _
    decide

/-- C40: the lines that `auto_edit::RemoveRepeatedBlankLines` keeps are the lines without the
blank lines (empty or spaces only) that are the first line or directly follow a blank line of
the input; `lines_removed` counts the dropped lines; the lines that are not blank stay as
they are, in their order (the kept lines are a subsequence); the kept lines do not begin with
a blank line and hold no two blank lines in a row; and an edit is reported exactly when a line
was removed, with the kept lines and nothing else changed. -/
theorem C40_remove_repeated_blank_lines (lyrics : LyricData) :
    (remove_repeated_blank_loop true lyrics.lines).1 = without_repeated_blank lyrics.lines ∧
      (remove_repeated_blank_loop true lyrics.lines).1.length +
        (remove_repeated_blank_loop true lyrics.lines).2 = lyrics.lines.length ∧
      (remove_repeated_blank_loop true lyrics.lines).1.filter
          (fun line => !is_blank_text line.text) =
        lyrics.lines.filter (fun line => !is_blank_text line.text) ∧
      List.Sublist (remove_repeated_blank_loop true lyrics.lines).1 lyrics.lines ∧
      (∀ first, (remove_repeated_blank_loop true lyrics.lines).1.head? = some first →
        is_blank_text first.text = false) ∧
      (remove_repeated_blank_loop true lyrics.lines).1.Chain'
        (fun a b => ¬ (is_blank_text a.text = true ∧ is_blank_text b.text = true)) ∧
      (RemoveRepeatedBlankLines lyrics = none ↔
        (remove_repeated_blank_loop true lyrics.lines).1 = lyrics.lines) ∧
      (∀ new_lyrics, RemoveRepeatedBlankLines lyrics = some new_lyrics →
        0 < (remove_repeated_blank_loop true lyrics.lines).2 ∧
          new_lyrics = { lyrics with lines := without_repeated_blank lyrics.lines }) ∧
      (RemoveRepeatedBlankLines ⟨⟨0, [], [], [], [], none⟩, none, [], [],
          [⟨[], 0⟩, ⟨"a".toList, 1⟩, ⟨[' '], 2⟩, ⟨[], 3⟩, ⟨"b".toList, 4⟩, ⟨[], 5⟩], 0⟩).map
          (fun new_lyrics => new_lyrics.lines) =
        some [⟨"a".toList, 1⟩, ⟨[' '], 2⟩, ⟨"b".toList, 4⟩, ⟨[], 5⟩] := by
  obtain ⟨h1, h2⟩ := remove_repeated_blank_loop_spec lyrics.lines true
  obtain ⟨h3, h4⟩ := remove_repeated_blank_loop_keeps lyrics.lines true
  obtain ⟨h5, h6⟩ := remove_repeated_blank_loop_chain lyrics.lines true
  have hspec : (remove_repeated_blank_loop true lyrics.lines).1 =
      without_repeated_blank lyrics.lines := h1
  refine ⟨hspec, h2, h3, h4, ?_, h6, ?_, ?_, by decide⟩
  · intro first hfirst
    cases hb : is_blank_text first.text with
    | false => rfl
    | true => exact absurd ⟨rfl, hb⟩ (h5 first hfirst)
  · unfold RemoveRepeatedBlankLines
    constructor
    · intro h
      split at h
      · simp at h
      · rename_i hz
        have hz2 : (remove_repeated_blank_loop true lyrics.lines).2 = 0 := by omega
        exact h4.eq_of_length (by omega)
    · intro h
      rw [h] at h2
      rw [if_neg (by omega)]
  · intro new_lyrics h
    unfold RemoveRepeatedBlankLines at h
    split at h
    · rename_i hz
      refine ⟨hz, ?_⟩
      rw [← hspec]
      exact (Option.some.inj h).symm
    · simp at h


/-- C37: for every integer `n` and every key `K` that differs from `offset` only in the case
of its letters, the line `[K:n]` is a tag line for `is_tag_line` and is not recognised by
`try_parse_offset_tag`, and `parse(m, "[K:n]")` records the line in `tags`, leaves
`timestamp_offset` at 0 and emits no line. -/
theorem C37_offset_key_case (metadata : LyricDataCommon) (K : Str) (n : Int)
    (hcase : K.map Char.toLower = "offset".toList) (hne : K ≠ "offset".toList) :
    is_tag_line ('[' :: (K ++ ':' :: (int_to_string n ++ [']']))) = true ∧
      try_parse_offset_tag ('[' :: (K ++ ':' :: (int_to_string n ++ [']']))) = none ∧
      (parse metadata ('[' :: (K ++ ':' :: (int_to_string n ++ [']'])))).tags =
        ['[' :: (K ++ ':' :: (int_to_string n ++ [']']))] ∧
      (parse metadata ('[' :: (K ++ ':' :: (int_to_string n ++ [']'])))).timestamp_offset = 0 ∧
      (parse metadata ('[' :: (K ++ ':' :: (int_to_string n ++ [']'])))).lines = [] := by
  obtain ⟨hphys, hcarry, htag, hoff⟩ := offset_key_case_line K n hcase hne
  have hstate : parse_state ('[' :: (K ++ ':' :: (int_to_string n ++ [']']))) =
      ⟨[], ['[' :: (K ++ ':' :: (int_to_string n ++ [']']))], false, 0⟩ := by
    unfold parse_state
    rw [hphys]
    simp only [List.map_cons, List.map_nil, List.foldl_cons, List.foldl_nil]
    rw [strip_bom_bracket, parse_line_tag _ _ (carries_timestamp_false _ hcarry) rfl htag, hoff]
    rfl
  refine ⟨htag, hoff, ?_, ?_, ?_⟩
  · show (parse_state _).tags = _
    rw [hstate]
  · show (parse_state _).timestamp_offset = _
    rw [hstate]
  · show collapse_concurrent_lines ((parse_state _).lines.insertionSort timestamp_le) = _
    rw [hstate]
    rfl

/-- C37 (witness): `[Offset:1234]` and `[OFFSET:-5]`. -/
theorem C37_offset_key_case_witness :
    (parse ⟨0, [], [], [], [], none⟩ "[Offset:1234]".toList).tags = ["[Offset:1234]".toList] ∧
      (parse ⟨0, [], [], [], [], none⟩ "[Offset:1234]".toList).timestamp_offset = 0 ∧
      (parse ⟨0, [], [], [], [], none⟩ "[offset:1234]".toList).timestamp_offset =
        F64.lit 1234 1000 := by
  have h := C37_offset_key_case ⟨0, [], [], [], [], none⟩ "Offset".toList 1234
    (by decide) (by decide)
  exact ⟨h.2.2.1, h.2.2.2.1, by decide⟩


/-- C36: for a document whose timed lines precede its untimed lines, with `rows` the lines
split at their line feeds: `expand_text(d, true)` prints, for each kept row `k`, the
timestamps of the timed rows of text `k.text` (none for an untimed row), then `k.text` and
CRLF; `expand_text(d, false)` prints each row with its own timestamp.  The timed rows whose
timestamp is printed with merging, taken over all printed rows, are the timed rows of the
document up to order, each exactly once, and each in the printed row of its own text; so as
many timestamps are printed as there are timed rows, with and without merging.  A document
without timed line prints the same text for both settings. -/
theorem C36_merge_keeps_timestamps (d : LyricData) (hfirst : timed_first d.lines) :
    (d.IsTimestamped = true →
      expand_text d true = some (expand_tags d.tags ++
        ((kept_rows [] (d.lines.flatMap split_rows)).map (fun k =>
          ((if k.timestamp = F64.DBL_MAX then []
            else text_block (d.lines.flatMap split_rows) k.text).map
              (fun e => print_timestamp_body e.timestamp)).flatten ++ k.text ++
            ['\r', '\n'])).flatten) ∧
      expand_text d false = some (expand_tags d.tags ++
        ((d.lines.flatMap split_rows).map (fun r =>
          ((if r.timestamp = F64.DBL_MAX then [] else [r]).map
              (fun e => print_timestamp_body e.timestamp)).flatten ++ r.text ++
            ['\r', '\n'])).flatten)) ∧
      (d.IsTimestamped = false → expand_text d true = expand_text d false ∧
        (d.lines.flatMap split_rows).filter (fun r => decide (r.timestamp ≠ F64.DBL_MAX)) = []) ∧
      ((kept_rows [] (d.lines.flatMap split_rows)).flatMap (fun k =>
          if k.timestamp = F64.DBL_MAX then []
          else text_block (d.lines.flatMap split_rows) k.text)).Perm
        ((d.lines.flatMap split_rows).filter (fun r => decide (r.timestamp ≠ F64.DBL_MAX))) ∧
      (∀ k ∈ kept_rows [] (d.lines.flatMap split_rows),
        ∀ e ∈ text_block (d.lines.flatMap split_rows) k.text,
          e ∈ d.lines.flatMap split_rows ∧ e.text = k.text ∧ e.timestamp ≠ F64.DBL_MAX) ∧
      ((kept_rows [] (d.lines.flatMap split_rows)).flatMap (fun k =>
          if k.timestamp = F64.DBL_MAX then []
          else text_block (d.lines.flatMap split_rows) k.text)).length =
        ((d.lines.flatMap split_rows).flatMap (fun r =>
          if r.timestamp = F64.DBL_MAX then [] else [r])).length := by
  have hm := timed_first_mergeable _ (timed_first_rows d.lines hfirst)
  have hperm := merged_stamps_perm (d.lines.flatMap split_rows)
  refine ⟨?_, ?_, hperm, ?_, ?_⟩
  · intro htimed
    constructor
    · rw [expand_text_merged d htimed hm]
      have h := merged_rows_text (d.lines.flatMap split_rows) [] [] (by simp)
      rw [List.nil_append] at h
      have h2 : (merged_rows [] (d.lines.flatMap split_rows)).map (fun line =>
          (if line.timestamp ≠ F64.DBL_MAX then print_timestamp_body line.timestamp else [])
            ++ line.text ++ ['\r', '\n']) =
          (merged_rows [] (d.lines.flatMap split_rows)).map row_text := rfl
      rw [h2, h]
      congr 3
      apply List.map_congr_left
      intro k _
      exact merged_row_text_eq _ k
    · have hrows : expand_rows d false = some (d.lines.flatMap split_rows) := by
        unfold expand_rows
        simp
      rw [expand_text_rows d false htimed _ hrows]
      congr 3
      apply List.map_congr_left
      intro r _
      exact row_text_eq r
  · intro hnot
    constructor
    · unfold expand_text
      rw [if_neg (by simp [hnot]), if_neg (by simp [hnot])]
    · rw [List.filter_eq_nil_iff]
      intro r hr
      have h1 := rows_timestamped d.lines
      have h2 : d.lines.any (fun line => line.timestamp != F64.DBL_MAX) = false := hnot
      rw [h2] at h1
      rw [List.any_eq_false] at h1
      have := h1 r hr
      simpa using this
  · intro k _ e he
    exact text_block_mem _ _ e he
  · rw [hperm.length_eq]
    congr 1
    generalize d.lines.flatMap split_rows = rows
    induction rows with
    | nil => rfl
    | cons r rest ih =>
      rw [List.flatMap_cons]
      by_cases h : r.timestamp = F64.DBL_MAX
      · rw [if_pos h, List.filter_cons_of_neg (by simp [h]), ih]
        rfl
      · rw [if_neg h, List.filter_cons_of_pos (by simp [h]), ih]
        rfl

/-- C36 (witness): the test `lrcparse_expanding_merges_matching_lines` with an untimed line at
the end: four timestamps are printed with and without merging. -/
theorem C36_merge_keeps_timestamps_witness :
    expand_text ⟨⟨0, [], [], [], [], none⟩, none, [], [],
        [⟨"thebestline".toList, F64.lit 5 1⟩, ⟨"thebestline".toList, F64.lit 10 1⟩,
          ⟨"anotherline".toList, F64.lit 12 1⟩, ⟨"anotherline".toList, F64.lit 14 1⟩,
          ⟨"untimed".toList, F64.DBL_MAX⟩], 0⟩ true =
      some ("[00:05.00][00:10.00]thebestline\r\n[00:12.00][00:14.00]anotherline\r\n" ++
        "untimed\r\n").toList := by
  have h := (C36_merge_keeps_timestamps ⟨⟨0, [], [], [], [], none⟩, none, [], [],
        [⟨"thebestline".toList, F64.lit 5 1⟩, ⟨"thebestline".toList, F64.lit 10 1⟩,
          ⟨"anotherline".toList, F64.lit 12 1⟩, ⟨"anotherline".toList, F64.lit 14 1⟩,
          ⟨"untimed".toList, F64.DBL_MAX⟩], 0⟩ (by unfold timed_first; decide)).1 (by decide)
  rw [h.1]
  decide


/-- C33 (as stated, refuted): the document has no tags and the one line `x` at 0.5 s, a
non-negative timestamp with two decimals.  `expand_text(d, false)` prints `[00:00.50]x`, and
`parse` reads the timestamp of that text as `0.5 + 2^-53` (the product of 50 and the binary64
product `0.1 * 0.1`), so the line does not come back with the same timestamp. -/
theorem C33_counterexample_half_second :
    100 * F64.lit 1 2 = 50 * Int.ofNat F64.scale ∧
      expand_text ⟨⟨0, [], [], [], [], none⟩, none, [], [], [⟨"x".toList, F64.lit 1 2⟩], 0⟩ false =
        some "[00:00.50]x\r\n".toList ∧
      (parse ⟨0, [], [], [], [], none⟩ "[00:00.50]x\r\n".toList).lines =
        [⟨"x".toList, F64.lit 1 2 + Int.ofNat (2 ^ 1021)⟩] ∧
      (parse ⟨0, [], [], [], [], none⟩ "[00:00.50]x\r\n".toList).lines ≠
        [⟨"x".toList, F64.lit 1 2⟩] := by
  decide

/-- C33 (amended): for a document with no tags whose lines are all timed, with strictly
increasing timestamps that `try_parse_timestamp` reads back unchanged from the text that
`print_timestamp` prints for them, and whose rows (the texts split at their line feeds) hold
no CR and no NUL and do not begin with a tag that `try_parse_timestamp` accepts,
`expand_text(d, false)` returns a text, and `parse` of this text has no tags, the offset 0 and
exactly the lines of `d`: same texts with their line feeds, same timestamps, same order. -/
theorem C33_unmerged_roundtrip (metadata : LyricDataCommon) (d : LyricData)
    (htags : d.tags = [])
    (hall : ∀ l ∈ d.lines, l.timestamp ≠ F64.DBL_MAX)
    (hsorted : d.lines.Pairwise timestamp_lt)
    (hrt : ∀ l ∈ d.lines, ∃ stamp, print_timestamp l.timestamp = some stamp ∧
      try_parse_timestamp stamp = some l.timestamp)
    (hplain : ∀ r ∈ d.lines.flatMap split_rows, ∀ x ∈ r.text, x ≠ '\r' ∧ x ≠ Char.ofNat 0)
    (htag : ∀ r ∈ d.lines.flatMap split_rows, carries_timestamp r.text = false) :
    ∃ s, expand_text d false = some s ∧ (parse metadata s).lines = d.lines ∧
      (parse metadata s).tags = [] ∧ (parse metadata s).timestamp_offset = 0 := by
  apply parse_expand_unmerged metadata d htags hall hsorted _ hplain htag
  intro l hl
  obtain ⟨stamp, h1, h2⟩ := hrt l hl
  rw [print_timestamp_timed _ (hall l hl)] at h1
  rw [Option.some.inj h1]
  exact h2

/-- C33 (witness): a line of two rows at 1 s and a line at 2 s. -/
theorem C33_unmerged_roundtrip_witness :
    ∃ s, expand_text ⟨⟨0, [], [], [], [], none⟩, none, [], [],
        [⟨"a\nb".toList, F64.ofInt 1⟩, ⟨"c".toList, F64.ofInt 2⟩], 0⟩ false = some s ∧
      (parse ⟨0, [], [], [], [], none⟩ s).lines =
        [⟨"a\nb".toList, F64.ofInt 1⟩, ⟨"c".toList, F64.ofInt 2⟩] ∧
      (parse ⟨0, [], [], [], [], none⟩ s).tags = [] ∧
      (parse ⟨0, [], [], [], [], none⟩ s).timestamp_offset = 0 :=
  C33_unmerged_roundtrip ⟨0, [], [], [], [], none⟩
    ⟨⟨0, [], [], [], [], none⟩, none, [], [],
      [⟨"a\nb".toList, F64.ofInt 1⟩, ⟨"c".toList, F64.ofInt 2⟩], 0⟩
    rfl (by decide) (by unfold timestamp_lt; decide)
    (by
      intro l hl
      simp only [List.mem_cons, List.mem_singleton, List.not_mem_nil, or_false] at hl
      rcases hl with h | h
      · rw [h]
        exact ⟨"[00:01.00]".toList, by decide, by decide⟩
      · rw [h]
        exact ⟨"[00:02.00]".toList, by decide, by decide⟩)
    (by decide) (by decide)


/-- C31: a canonical timestamp string has two-digit decimal fields (`fmt_02d` of a number
below 100 is a string of two digits with that value): `[MM:SS.CC]` for no hours and
`[HH:MM:SS.CC]` for `HH ≥ 01`, with `MM ≤ 59` and `SS ≤ 59`.  For every such string
`try_parse_timestamp` succeeds, and `print_timestamp` of the parsed value is the string again.
Example: `[00:18.31]` parses to the `double` `18.31` and is printed as `[00:18.31]`. -/
theorem C31_canonical_roundtrip (hh mm ss cc : Nat) (hhh : hh ≤ 99) (hmm : mm ≤ 59)
    (hss : ss ≤ 59) (hcc : cc ≤ 99) :
    (∀ n : Nat, n ≤ 99 → is_digit_string (fmt_02d (n : Int)) ∧
        (fmt_02d (n : Int)).length = 2 ∧ digits_value (fmt_02d (n : Int)) = n) ∧
      print_timestamp_fields 0 (mm : Int) (ss : Int) (cc : Int) =
        '[' :: (fmt_02d (mm : Int) ++ ':' :: (fmt_02d (ss : Int) ++ '.' ::
          (fmt_02d (cc : Int) ++ [']']))) ∧
      (1 ≤ hh → print_timestamp_fields (hh : Int) (mm : Int) (ss : Int) (cc : Int) =
        '[' :: (fmt_02d (hh : Int) ++ ':' :: (fmt_02d (mm : Int) ++ ':' ::
          (fmt_02d (ss : Int) ++ '.' :: (fmt_02d (cc : Int) ++ [']']))))) ∧
      (∃ t, try_parse_timestamp
          (print_timestamp_fields (hh : Int) (mm : Int) (ss : Int) (cc : Int)) = some t ∧
        print_timestamp t =
          some (print_timestamp_fields (hh : Int) (mm : Int) (ss : Int) (cc : Int))) ∧
      try_parse_timestamp "[00:18.31]".toList = some (F64.lit 1831 100) ∧
      print_timestamp (F64.lit 1831 100) = some "[00:18.31]".toList := by
  refine ⟨fun n hn => fmt_02d_two_digits n (by omega), ?_, ?_,
    canonical_parse_print hh mm ss cc (by omega) (by omega) (by omega) (by omega),
    by decide, by decide⟩
  · unfold print_timestamp_fields
    rw [if_pos rfl]
  · intro h1
    unfold print_timestamp_fields
    rw [if_neg (by exact_mod_cast (by omega : hh ≠ 0))]

/-- C31 (witness): `[59:59.99]` and `[01:02:03.45]`. -/
theorem C31_canonical_roundtrip_witness :
    (∃ t, try_parse_timestamp "[59:59.99]".toList = some t ∧
        print_timestamp t = some "[59:59.99]".toList) ∧
      ∃ t, try_parse_timestamp "[01:02:03.45]".toList = some t ∧
        print_timestamp t = some "[01:02:03.45]".toList :=
  ⟨(C31_canonical_roundtrip 0 59 59 99 (by decide) (by decide) (by decide) (by decide)).2.2.2.1,
    (C31_canonical_roundtrip 1 2 3 45 (by decide) (by decide) (by decide) (by decide)).2.2.2.1⟩


end OpenLyrics
